import Mathlib

/-!
# RJ: a shallow embedding of the scanner, the tree, the encoder and the decoder

Go byte slices and strings are lists of natural numbers (one per byte).
A run-time panic of the Go program (an index out of range, a nil map
write, a reflect kind error) is the outcome `Res.fault`; a loop that has
not finished within the supplied number of steps is `Res.timeout`.
-/

namespace RJ

/-- Go `[]byte` and `string`: one natural number per byte. -/
abbrev Bytes := List Nat

/-- Bytes of an ASCII string literal. -/
def str (s : String) : Bytes := s.toList.map Char.toNat

/-- Outcome of running a piece of the program: a value, a run-time panic,
or no answer within the step budget. -/
inductive Res (α : Type) where
  | ok (a : α)
  | fault
  | timeout

/-- Sequencing: a panic or a timeout of the first part is the outcome of the whole. -/
def Res.bind {α β : Type} (r : Res α) (f : α → Res β) : Res β :=
  match r with
  | .ok a => f a
  | .fault => .fault
  | .timeout => .timeout

instance : Monad Res where
  pure := Res.ok
  bind := Res.bind

/-! ## error.go and the constants of scanner.go -/

def invalidNodeName : Bytes := str "invalid node name"
def invalidName : Bytes := str "invalid name"
def invalidValue : Bytes := str "invalid value"
def invalidArray : Bytes := str "invalid array"
def invalidStringValue : Bytes := str "invalid string value"
def invalidUTF8StringValue : Bytes := str "invalid utf-8 string value"
def invalidBoolValue : Bytes := str "invalid bool value"
def invalidNullValue : Bytes := str "invalid null value"
def invalidEscape : Bytes := str "invalid escape"
def invalidObject : Bytes := str "invalid object"
def invalidTime : Bytes := str "invalid time value"

/-- The method `RJError.addMsg`: the receiver is its message. -/
def addMsg (e : Bytes) (msg : Bytes) : Bytes :=
  if msg = [] then e
  else (if e ≠ [] then e ++ [59] else e) ++ msg

/-! ## The tree -/

/-- Float64 values, kept as their IEEE-754 bit pattern. -/
abbrev Float64 := Nat

/-- A `time.Time`: seconds and nanoseconds since the epoch and the zone offset in seconds. -/
structure Time where
  sec : Int
  nsec : Nat
  zone : Int
deriving DecidableEq, Repr

/-- The dynamic values a `Node` holds (`interface{}` in the source): `null` is the
nil interface, `node` a `*Node` given by its `dict`, `nodeList` a `[]*Node`. -/
inductive Value where
  | str (v : Bytes)
  | int (v : Int)
  | bool (v : Bool)
  | float (v : Float64)
  | time (v : Time)
  | null
  | node (dict : List (Bytes × Value))
  | nodeList (l : List (List (Bytes × Value)))
  | strArr (l : List Bytes)
  | intArr (l : List Int)
  | boolArr (l : List Bool)
  | floatArr (l : List Float64)
  | timeArr (l : List Time)

/-- A `Node` is its `dict`, a map from names to values kept as an association list
with unique keys, in order of first insertion. -/
abbrev Node := List (Bytes × Value)

/-- The function `NewNode`. -/
def NewNode : Node := []

/-- Map assignment `n.dict[k] = v`. -/
def Node.set : Node → Bytes → Value → Node
  | [], k, v => [(k, v)]
  | (k0, v0) :: rest, k, v => if k0 = k then (k, v) :: rest else (k0, v0) :: Node.set rest k v

/-- Map lookup `n.dict[k]`. -/
def Node.lookup : Node → Bytes → Option Value
  | [], _ => none
  | (k0, v0) :: rest, k => if k0 = k then some v0 else Node.lookup rest k

/-! ## Typed records as reflection sees them -/

/-- Go types of the fields the encoder and the decoder handle. -/
inductive GoType where
  | string
  | int
  | bool
  | float64
  | time
  | struct (name : Bytes) (fields : List (Bytes × GoType))
  | slice (elem : GoType)
  | ptr (elem : GoType)

/-- Go values as `reflect.Value` presents them; a slice and a pointer carry their element
type, `nilSlice` and `ptr t none` are the nil slice and the nil pointer. -/
inductive GoVal where
  | string (v : Bytes)
  | int (v : Int)
  | bool (v : Bool)
  | float64 (v : Float64)
  | time (v : Time)
  | struct (name : Bytes) (fields : List (Bytes × GoVal))
  | nilSlice (elem : GoType)
  | slice (elem : GoType) (vs : List GoVal)
  | ptr (elem : GoType) (v : Option GoVal)

/-! ## Library functions -/

/-- Functions of the Go standard library that are taken as given:
`strconv.ParseFloat(raw, 64)` (none when it returns an error),
`time.Parse(layout, raw)` for the four layouts of `datetimeFormats`, chosen by index
(the error carries the message of the library error),
`strconv.AppendFloat(nil, f, 102, -1, 64)`, `Time.AppendFormat` with `time.RFC3339Nano`,
what `encodeFields` writes for the three unexported fields of a `time.Time`, and the
tables of the package `unicode` for the runes above 127: `unicode.ToTitle`,
`unicode.IsLetter`, `unicode.IsDigit`, `unicode.IsSpace` and `unicode.IsUpper`. -/
structure Lib where
  parseFloat : Bytes → Option Float64
  timeParse : Nat → Bytes → Except Bytes Time
  formatFloat : Float64 → Bytes
  formatTime : Time → Bytes
  timeFields : Time → Bytes
  toTitle : Nat → Nat
  isLetter : Nat → Bool
  isDigitRune : Nat → Bool
  isSpaceRune : Nat → Bool
  isUpper : Nat → Bool

def isDigit (c : Nat) : Bool := 48 ≤ c && c ≤ 57

/-- Value of a string of decimal digits, none when a byte is not a digit. -/
def digitsVal : Bytes → Nat → Option Nat
  | [], acc => some acc
  | c :: cs, acc => if isDigit c then digitsVal cs (acc * 10 + (c - 48)) else none

/-- Go `strconv.Atoi` with a 64-bit `int`: an optional sign, then one or more decimal
digits, and the value has to fit in 64 bits. -/
def atoi (raw : Bytes) : Option Int :=
  match raw with
  | [] => none
  | c :: cs =>
    if c = 45 then
      match cs with
      | [] => none
      | _ => match digitsVal cs 0 with
        | some v => if v ≤ 2 ^ 63 then some (- (v : Int)) else none
        | none => none
    else if c = 43 then
      match cs with
      | [] => none
      | _ => match digitsVal cs 0 with
        | some v => if v < 2 ^ 63 then some (v : Int) else none
        | none => none
    else
      match digitsVal (c :: cs) 0 with
      | some v => if v < 2 ^ 63 then some (v : Int) else none
      | none => none

/-- ASCII white space as `strings.TrimSpace` sees it. -/
def isTrimSpace (c : Nat) : Bool :=
  c == 9 || c == 10 || c == 11 || c == 12 || c == 13 || c == 32

/-- The width in bytes of the white-space rune whose UTF-8 encoding starts the bytes, and 0
when they start with none. The runes are those of `unicode.IsSpace`: the six ASCII bytes,
U+0085, U+00A0, U+1680, U+2000 to U+200A, U+2028, U+2029, U+202F, U+205F and U+3000. -/
def spaceWidth (v : Bytes) : Nat :=
  match v with
  | [] => 0
  | c :: t =>
    if isTrimSpace c then 1
    else if c == 194 && (t.head? == some 133 || t.head? == some 160) then 2
    else if c == 225 && t.take 2 == [154, 128] then 3
    else if c == 226 && t.head? == some 128 &&
        (match t.tail.head? with
         | some d => (128 ≤ d && d ≤ 138) || d == 168 || d == 169 || d == 175
         | none => false) then 3
    else if c == 226 && t.take 2 == [129, 159] then 3
    else if c == 227 && t.take 2 == [128, 128] then 3
    else 0

/-- The same for the rune whose encoding ends the bytes, which are given last byte first:
`utf8.DecodeLastRune` returns a white-space rune exactly when the bytes end with its
encoding. -/
def spaceWidthRev (r : Bytes) : Nat :=
  match r with
  | [] => 0
  | c :: t =>
    if isTrimSpace c then 1
    else if (c == 133 || c == 160) && t.head? == some 194 then 2
    else if c == 128 && t.take 2 == [154, 225] then 3
    else if ((128 ≤ c && c ≤ 138) || c == 168 || c == 169 || c == 175) &&
        t.take 2 == [128, 226] then 3
    else if c == 159 && t.take 2 == [129, 226] then 3
    else if c == 128 && t.take 2 == [128, 227] then 3
    else 0

/-- The loop of `strings.TrimLeftFunc(s, unicode.IsSpace)`, at most `n` runes. -/
def trimLeftN : Nat → Bytes → Bytes
  | 0, v => v
  | n + 1, v => if spaceWidth v = 0 then v else trimLeftN n (v.drop (spaceWidth v))

/-- The loop of `strings.TrimRightFunc(s, unicode.IsSpace)` on the bytes in reverse order,
at most `n` runes. -/
def trimRightN : Nat → Bytes → Bytes
  | 0, r => r
  | n + 1, r => if spaceWidthRev r = 0 then r else trimRightN n (r.drop (spaceWidthRev r))

/-- Go `strings.TrimSpace`: the leading and the trailing white-space runes are removed,
the non-ASCII ones included. -/
def trimSpace (v : Bytes) : Bytes :=
  (trimRightN v.length (trimLeftN v.length v).reverse).reverse

/-- Go `utf8.RuneError`. -/
def RuneError : Nat := 65533

/-- Go `utf8.RuneSelf`. -/
def RuneSelf : Nat := 128

/-- Is `c` a UTF-8 continuation byte in the range `lo..hi`. -/
def inRange (lo hi c : Nat) : Bool := lo ≤ c && c ≤ hi

/-- Go `utf8.DecodeRune`: the rune at the head of `p` and its width in bytes;
`(RuneError, 0)` on empty input and `(RuneError, 1)` on an invalid encoding. -/
def DecodeRune (p : Bytes) : Nat × Nat :=
  match p with
  | [] => (RuneError, 0)
  | p0 :: t =>
    if p0 < 128 then (p0, 1)
    else if p0 < 194 then (RuneError, 1)
    else if p0 < 224 then
      match t with
      | b1 :: _ => if inRange 128 191 b1 then ((p0 % 32) * 64 + b1 % 64, 2) else (RuneError, 1)
      | _ => (RuneError, 1)
    else if p0 < 240 then
      match t with
      | b1 :: b2 :: _ =>
        let lo := if p0 = 224 then 160 else 128
        let hi := if p0 = 237 then 159 else 191
        if !inRange lo hi b1 then (RuneError, 1)
        else if !inRange 128 191 b2 then (RuneError, 1)
        else ((p0 % 16) * 4096 + (b1 % 64) * 64 + b2 % 64, 3)
      | _ => (RuneError, 1)
    else if p0 < 245 then
      match t with
      | b1 :: b2 :: b3 :: _ =>
        let lo := if p0 = 240 then 144 else 128
        let hi := if p0 = 244 then 143 else 191
        if !inRange lo hi b1 then (RuneError, 1)
        else if !inRange 128 191 b2 then (RuneError, 1)
        else if !inRange 128 191 b3 then (RuneError, 1)
        else ((p0 % 8) * 262144 + (b1 % 64) * 4096 + (b2 % 64) * 64 + b3 % 64, 4)
      | _ => (RuneError, 1)
    else (RuneError, 1)

/-- Go `utf8.EncodeRune` for a rune below 65536 (all that four hexadecimal digits give):
a surrogate is encoded as `RuneError`. -/
def EncodeRune (r : Nat) : Bytes :=
  if r < 128 then [r]
  else if r < 2048 then [192 + r / 64, 128 + r % 64]
  else if 55296 ≤ r ∧ r ≤ 57343 then [239, 191, 189]
  else [224 + r / 4096, 128 + (r / 64) % 64, 128 + r % 64]

/-! ## decoder.go: escapeU4 and decodeDatetime -/

/-- The loop of `escapeU4` over the four bytes. -/
def escapeU4Loop : Bytes → Nat → Option Nat
  | [], r => some r
  | c :: cs, r =>
    if 48 ≤ c ∧ c ≤ 57 then escapeU4Loop cs (r * 16 + (c - 48))
    else if 97 ≤ c ∧ c ≤ 102 then escapeU4Loop cs (r * 16 + (c - 97 + 10))
    else if 65 ≤ c ∧ c ≤ 70 then escapeU4Loop cs (r * 16 + (c - 65 + 10))
    else none

/-- The function `escapeU4`: the bytes `out[0:size]`, or the error message. -/
def escapeU4 (inp : Bytes) : Except Bytes Bytes :=
  if inp.length ≠ 4 then .error invalidUTF8StringValue
  else match escapeU4Loop inp 0 with
    | some r => .ok (EncodeRune r)
    | none => .error invalidUTF8StringValue

/-- Exactly `n` decimal digits at the head: what follows them. -/
def matchDigits : Nat → Bytes → Option Bytes
  | 0, r => some r
  | n + 1, c :: cs => if isDigit c then matchDigits n cs else none
  | _ + 1, [] => none

/-- The byte `c` at the head: what follows it. -/
def matchByte (c : Nat) : Bytes → Option Bytes
  | d :: cs => if d = c then some cs else none
  | [] => none

/-- The optional group `(.\d+)?` of the patterns followed by what `tail` accepts: any one
character other than a line feed, then one or more digits. -/
def matchFrac (tail : Bytes → Bool) (r : Bytes) : Bool :=
  tail r ||
  (match r with
   | [] => false
   | c :: _ =>
     let w := (DecodeRune r).2
     let rest := r.drop w
     c != 10 && (rest.takeWhile isDigit).length ≥ 1 && tail (rest.dropWhile isDigit))

/-- The group `(Z|[+-]\d{2}:\d{2})?` followed by the end of the text. -/
def matchZone (r : Bytes) : Bool :=
  r == [] || r == [90] ||
  (match r with
   | c :: cs =>
     (c == 43 || c == 45) &&
     (match (matchDigits 2 cs).bind (matchByte 58) |>.bind (matchDigits 2) with
      | some [] => true
      | _ => false)
   | [] => false)

/-- Pattern `^\d{4}-\d{2}-\d{2}` : what follows the date. -/
def matchDate (raw : Bytes) : Option Bytes :=
  (matchDigits 4 raw).bind (matchByte 45) |>.bind (matchDigits 2) |>.bind (matchByte 45)
    |>.bind (matchDigits 2)

/-- Pattern `\d{2}:\d{2}:\d{2}` : what follows the clock time. -/
def matchClock (raw : Bytes) : Option Bytes :=
  (matchDigits 2 raw).bind (matchByte 58) |>.bind (matchDigits 2) |>.bind (matchByte 58)
    |>.bind (matchDigits 2)

/-- The four regular expressions of `dateTimeRegs`, by index. -/
def dateTimeRegs (i : Nat) (raw : Bytes) : Bool :=
  match i with
  | 0 => matchDate raw == some []
  | 1 => ((matchDate raw).bind (matchByte 32) |>.bind matchClock) == some []
  | 2 => match matchClock raw with
    | some r => matchFrac (fun t => t == []) r
    | none => false
  | 3 => match (matchDate raw).bind (matchByte 84) |>.bind matchClock with
    | some r => matchFrac matchZone r
    | none => false
  | _ => false

/-- The loop of `decodeDatetime` over the four patterns, from index `4 - k`. -/
def decodeDatetimeLoop (L : Lib) (raw : Bytes) : Nat → Except Bytes Time
  | 0 => .error invalidTime
  | k + 1 =>
    if dateTimeRegs (4 - (k + 1)) raw then L.timeParse (4 - (k + 1)) raw
    else decodeDatetimeLoop L raw k

/-- The function `decodeDatetime`. -/
def decodeDatetime (L : Lib) (raw : Bytes) : Except Bytes Time :=
  decodeDatetimeLoop L raw 4

/-! ## scanner.go -/

inductive scanState where
  | scanOk
  | scanError
  | eof
  | endOfArray
  | endOfItem
deriving DecidableEq, Repr

/-- The scanner: `error` is the message of the `*RJError`, none for nil. -/
structure scanner where
  data : Bytes
  len : Nat
  offset : Nat
  root : Node
  error : Option Bytes
  state : scanState
  line : Nat

def newScanner (inp : Bytes) : scanner :=
  { data := inp, len := inp.length, offset := 0, root := NewNode, error := none,
    state := .scanOk, line := 1 }

/-- Go slice expression `d[lo:hi]`. -/
def slice (d : Bytes) (lo hi : Nat) : Bytes := (d.drop lo).take (hi - lo)

def isSpace (c : Nat) : Bool := c == 32 || c == 9

def isLineEnd (c : Nat) : Bool := c == 13 || c == 10

/-- The method `addErrorMsg`: `newError(msg)` on a nil error, else `addMsg`. -/
def scanner.addErrorMsg (s : scanner) (msg : Bytes) : scanner :=
  { s with error := some (match s.error with
                          | none => msg
                          | some e => addMsg e msg) }

/-- Indexing `s.data[i]`, which panics out of range. -/
def scanner.byteAt (s : scanner) (i : Nat) : Res Nat :=
  match s.data[i]? with
  | some c => .ok c
  | none => .fault

/-- The method `isComment`. -/
def scanner.isComment (s : scanner) : Res Bool :=
  match s.data[s.offset]? with
  | none => .fault
  | some c =>
    if c = 35 then .ok true
    else if c = 47 then
      if s.offset + 1 < s.len then
        match s.data[s.offset + 1]? with
        | none => .fault
        | some d => .ok (d == 47)
      else .ok false
    else .ok false

/-- The loop of `skipUntil`; it runs at most `len` times. -/
def skipUntilLoop (fn : Nat → Bool) : Nat → scanner → Res scanner
  | 0, _ => .timeout
  | n + 1, s =>
    if s.offset + 1 < s.len then
      match s.data[s.offset]? with
      | none => .fault
      | some c => if fn c then .ok s else skipUntilLoop fn n { s with offset := s.offset + 1 }
    else .ok s

def scanner.skipUntil (s : scanner) (fn : Nat → Bool) : Res scanner :=
  skipUntilLoop fn (s.len + 1) s

def scanner.skipLineEnd (s : scanner) : Res scanner :=
  if s.len ≤ s.offset + 1 then .ok s
  else
    match s.data[s.offset]? with
    | none => .fault
    | some c =>
      if c = 13 then
        if s.offset + 1 < s.len then
          match s.data[s.offset + 1]? with
          | none => .fault
          | some d =>
            if d = 10 then .ok { s with line := s.line + 1, offset := s.offset + 2 }
            else .ok { s with line := s.line + 1, offset := s.offset + 1 }
        else .ok { s with line := s.line + 1, offset := s.offset + 1 }
      else .ok { s with line := s.line + 1, offset := s.offset + 1 }

def scanner.skipRestOfLine (s : scanner) : Res scanner :=
  (s.skipUntil isLineEnd).bind scanner.skipLineEnd

/-- The loop of `skipSpace`: `i` and the offset advance together. -/
def skipSpaceLoop : Nat → scanner → Nat → Res scanner
  | 0, _, _ => .timeout
  | n + 1, s, i =>
    if i < s.len then
      match s.data[i]? with
      | none => .fault
      | some c => if isSpace c then skipSpaceLoop n { s with offset := s.offset + 1 } (i + 1)
                  else .ok s
    else .ok s

def scanner.skipSpace (s : scanner) : Res scanner :=
  skipSpaceLoop (s.len + 1) s s.offset

/-- The loop of `skip`: every round moves the offset forward, so `len` rounds are enough. -/
def skipLoop : Nat → scanner → Res scanner
  | 0, _ => .timeout
  | n + 1, s =>
    if s.offset + 1 < s.len then
      match s.data[s.offset]? with
      | none => .fault
      | some c =>
        match s.isComment with
        | .fault => .fault
        | .timeout => .timeout
        | .ok cm =>
          if cm || isLineEnd c then s.skipRestOfLine.bind (skipLoop n)
          else if isSpace c then skipLoop n { s with offset := s.offset + 1 }
          else .ok s
    else .ok s

def scanner.skip (s : scanner) : Res scanner :=
  skipLoop (s.len + 1) s

/-- The loop of `scanName`. -/
def scanNameLoop (s : scanner) : Nat → Nat → Res (scanner × Bytes)
  | 0, _ => .timeout
  | n + 1, i =>
    if i < s.len then
      match s.data[i]? with
      | none => .fault
      | some c =>
        if isSpace c || c == 58 || c == 93 then
          .ok ({ s with offset := i + 1 }, slice s.data s.offset i)
        else if isLineEnd c then .ok (s, [])
        else scanNameLoop s n (i + 1)
    else .ok (s, [])

def scanner.scanName (s : scanner) : Res (scanner × Bytes) :=
  scanNameLoop s (s.len + 1) s.offset

/-- The loop of `scanRaw`: the offset at which it stops, and whether it stopped by `break`. -/
def scanRawLoop : Nat → scanner → Res (scanner × Bool)
  | 0, _ => .timeout
  | n + 1, s =>
    if s.offset < s.len then
      match s.data[s.offset]? with
      | none => .fault
      | some c =>
        if isLineEnd c || c == 44 || c == 93 || c == 125 then .ok (s, true)
        else
          match s.isComment with
          | .fault => .fault
          | .timeout => .timeout
          | .ok cm => if cm then .ok (s, true)
                      else scanRawLoop n { s with offset := s.offset + 1 }
    else .ok (s, false)

def scanner.scanRaw (s : scanner) : Res (scanner × Bytes) :=
  match scanRawLoop (s.len + 1) s with
  | .fault => .fault
  | .timeout => .timeout
  | .ok (s1, brk) =>
    let val := if brk then slice s1.data s.offset s1.offset else []
    let val := if s1.offset = s1.len then s1.data.drop s.offset else val
    .ok (s1, trimSpace val)

/-- Writing `xs` into `d` from index `pos` on. -/
def writeAt (d : Bytes) (pos : Nat) : Bytes → Bytes
  | [] => d
  | x :: xs => writeAt (d.set pos x) (pos + 1) xs

/-- The statement `ret = append(ret, xs...)` of `scanQuotedString`: `ret` is a slice of
`s.data` that starts at `s.offset` and has spare capacity up to the end of the buffer,
so the appended bytes are also written into `s.data` after the bytes `ret` holds. -/
def appendRet (s : scanner) (ret : Bytes) (xs : Bytes) : scanner × Bytes :=
  ({ s with data := writeAt s.data (s.offset + ret.length) xs }, ret ++ xs)

/-- The loop of `scanQuotedString`; `ret` is none while the Go slice is nil. -/
def scanQuotedLoop : Nat → scanner → Nat → Option Bytes → Res (scanner × Except Bytes Bytes)
  | 0, _, _, _ => .timeout
  | n + 1, s, i, ret =>
    if i < s.len then
      match s.data[i]? with
      | none => .fault
      | some c =>
        if c = 34 then
          .ok ({ s with offset := i + 1 },
               .ok (match ret with
                    | some r => r
                    | none => slice s.data s.offset i))
        else if c = 92 then
          if i + 1 = s.len then .ok (s, .error invalidEscape)
          else
            let r0 := match ret with
              | some r => r
              | none => slice s.data s.offset i
            match s.data[i + 1]? with
            | none => .fault
            | some e =>
              if e = 34 ∨ e = 92 ∨ e = 47 ∨ e = 39 then
                let p := appendRet s r0 [c]
                scanQuotedLoop n p.1 (i + 2) (some p.2)
              else if e = 98 then
                let p := appendRet s r0 [8]
                scanQuotedLoop n p.1 (i + 2) (some p.2)
              else if e = 102 then
                let p := appendRet s r0 [12]
                scanQuotedLoop n p.1 (i + 2) (some p.2)
              else if e = 110 then
                let p := appendRet s r0 [10]
                scanQuotedLoop n p.1 (i + 2) (some p.2)
              else if e = 114 then
                let p := appendRet s r0 [13]
                scanQuotedLoop n p.1 (i + 2) (some p.2)
              else if e = 116 then
                let p := appendRet s r0 [9]
                scanQuotedLoop n p.1 (i + 2) (some p.2)
              else if e = 117 then
                if s.len ≤ i + 2 + 4 then .ok (s, .error invalidUTF8StringValue)
                else
                  match escapeU4 (slice s.data (i + 2) (i + 2 + 4)) with
                  | .error m => .ok (s, .error m)
                  | .ok ub =>
                    let p := appendRet s r0 ub
                    scanQuotedLoop n p.1 (i + 2 + 4) (some p.2)
              else .ok (s, .error invalidEscape)
        else if c < RuneSelf then
          match ret with
          | some r =>
            let p := appendRet s r [c]
            scanQuotedLoop n p.1 (i + 1) (some p.2)
          | none => scanQuotedLoop n s (i + 1) none
        else
          let rs := DecodeRune (s.data.drop i)
          if rs.1 = RuneError ∨ rs.2 = 1 then .ok (s, .error invalidUTF8StringValue)
          else
            match ret with
            | some r =>
              let p := appendRet s r (slice s.data i (i + rs.2))
              scanQuotedLoop n p.1 (i + rs.2) (some p.2)
            | none => scanQuotedLoop n s (i + rs.2) none
    else .ok (s, .error invalidStringValue)

/-- The method `scanQuotedString`: the offset is on the opening quote. -/
def scanner.scanQuotedString (s : scanner) : Res (scanner × Except Bytes Bytes) :=
  scanQuotedLoop (s.len + 1) { s with offset := s.offset + 1 } (s.offset + 1) none

/-- The loop shared by `scanUntilChar`, `skipUntilChar` and `findPosOf`: the first index
from `i` on that holds `c`. -/
def findLoop (s : scanner) (c : Nat) : Nat → Nat → Res (Option Nat)
  | 0, _ => .timeout
  | n + 1, i =>
    if i < s.len then
      match s.data[i]? with
      | none => .fault
      | some d => if d = c then .ok (some i) else findLoop s c n (i + 1)
    else .ok none

def scanner.skipUntilChar (s : scanner) (c : Nat) : Res scanner :=
  match findLoop s c (s.len + 1) s.offset with
  | .fault => .fault
  | .timeout => .timeout
  | .ok (some i) => .ok { s with offset := i }
  | .ok none => .ok s

def scanner.scanUntilChar (s : scanner) (c : Nat) : Res (scanner × Except Bytes Bytes) :=
  match findLoop s c (s.len + 1) s.offset with
  | .fault => .fault
  | .timeout => .timeout
  | .ok (some i) => .ok ({ s with offset := i }, .ok (slice s.data s.offset i))
  | .ok none => .ok (s, .error invalidValue)

def scanner.scanRawString (s : scanner) : Res (scanner × Except Bytes Bytes) :=
  match scanner.scanUntilChar { s with offset := s.offset + 1 } 96 with
  | .fault => .fault
  | .timeout => .timeout
  | .ok (s1, .ok v) => .ok ({ s1 with offset := s1.offset + 1 }, .ok v)
  | .ok (s1, .error _) => .ok (s1, .error invalidStringValue)

def scanner.scanString (s : scanner) : Res (scanner × Except Bytes Bytes) :=
  match s.data[s.offset]? with
  | none => .fault
  | some c =>
    if c = 34 then s.scanQuotedString
    else if c = 96 then s.scanRawString
    else .ok (s, .error invalidStringValue)

def scanner.scanBool (s : scanner) : Res (scanner × Except Bytes Bool) :=
  match s.scanRaw with
  | .fault => .fault
  | .timeout => .timeout
  | .ok (s1, raw) =>
    if raw = str "true" then .ok (s1, .ok true)
    else if raw ≠ str "false" then .ok (s1, .error invalidBoolValue)
    else .ok (s1, .ok false)

/-- The loop of `scanExact` with `l - i` rounds left: it compares `s.data[i]`, not
`expect[i]`, with the byte at `offset + i + 1`. -/
def scanExactLoop (s : scanner) : Nat → Nat → Res Bool
  | 0, _ => .ok true
  | k + 1, i =>
    if s.offset + i > s.len then .ok false
    else
      match s.data[i]?, s.data[s.offset + i + 1]? with
      | some a, some b => if a ≠ b then .ok false else scanExactLoop s k (i + 1)
      | _, _ => .fault

def scanner.scanExact (s : scanner) (expect : Bytes) : Res (scanner × Bool) :=
  match scanExactLoop s expect.length 0 with
  | .fault => .fault
  | .timeout => .timeout
  | .ok true => .ok ({ s with offset := s.offset + (expect.length + 1) }, true)
  | .ok false => .ok (s, false)

/-- The loop of `skipRestOfArrayItem`; it can stall on the last byte of the buffer, so it
takes a step budget. -/
def skipRestOfArrayItemLoop : Nat → scanner → Nat → Res (scanner × scanState)
  | 0, _, _ => .timeout
  | n + 1, s, i =>
    if i < s.len then
      match s.data[i]? with
      | none => .fault
      | some c =>
        if c = 44 then .ok ({ s with offset := i + 1 }, .endOfItem)
        else if isSpace c then skipRestOfArrayItemLoop n s (i + 1)
        else if c = 93 then .ok ({ s with offset := i + 1 }, .endOfArray)
        else
          match s.isComment with
          | .fault => .fault
          | .timeout => .timeout
          | .ok cm =>
            if cm || isLineEnd c then
              match s.skipRestOfLine with
              | .fault => .fault
              | .timeout => .timeout
              | .ok s1 => skipRestOfArrayItemLoop n s1 s1.offset
            else .ok (s, .scanError)
    else .ok (s, .eof)

def scanner.skipRestOfArrayItem (fuel : Nat) (s : scanner) : Res (scanner × scanState) :=
  skipRestOfArrayItemLoop fuel s s.offset

/-- The loop of `isBlankLine`. -/
def isBlankLineLoop (s : scanner) : Nat → Nat → Res (scanner × Bool)
  | 0, _ => .timeout
  | n + 1, i =>
    if i < s.len then
      match s.data[i]? with
      | none => .fault
      | some c =>
        match s.isComment with
        | .fault => .fault
        | .timeout => .timeout
        | .ok cm =>
          if cm || isLineEnd c then
            match s.skipRestOfLine with
            | .fault => .fault
            | .timeout => .timeout
            | .ok s1 => .ok (s1, true)
          else if !isSpace c then .ok (s, false)
          else isBlankLineLoop s n (i + 1)
    else .ok (s, true)

def scanner.isBlankLine (s : scanner) : Res (scanner × Bool) :=
  isBlankLineLoop s (s.len + 1) s.offset

/-- The label `ERR` of `scanArray`: skip to the next `]`, step over one byte and return the
named results, which are both nil there. -/
def scanner.arrayERR (s : scanner) : Res (scanner × Except Bytes Value) :=
  match s.skipUntilChar 93 with
  | .fault => .fault
  | .timeout => .timeout
  | .ok s1 => .ok ({ s1 with offset := s1.offset + 1 }, .ok .null)

/-- The loop of `scanArray` in the `string` case. -/
def strArrLoop : Nat → scanner → scanState → List Bytes → Res (scanner × Except Bytes Value)
  | 0, _, _, _ => .timeout
  | n + 1, s, state, arr =>
    match state with
    | .endOfItem =>
      s.skip.bind fun s1 =>
      s1.scanString.bind fun p =>
      match p.2 with
      | .error _ => p.1.arrayERR
      | .ok v => (p.1.skipRestOfArrayItem n).bind fun q => strArrLoop n q.1 q.2 (arr ++ [v])
    | .endOfArray => .ok (s, .ok (.strArr arr))
    | _ => .ok (s, .error invalidArray)

/-- The loop of `scanArray` in the `int` case. -/
def intArrLoop : Nat → scanner → scanState → List Int → Res (scanner × Except Bytes Value)
  | 0, _, _, _ => .timeout
  | n + 1, s, state, arr =>
    match state with
    | .endOfItem =>
      s.scanRaw.bind fun p =>
      match atoi p.2 with
      | none => p.1.arrayERR
      | some v => (p.1.skipRestOfArrayItem n).bind fun q => intArrLoop n q.1 q.2 (arr ++ [v])
    | .endOfArray => .ok (s, .ok (.intArr arr))
    | _ => .ok (s, .error invalidArray)

/-- The loop of `scanArray` in the `bool` case. -/
def boolArrLoop : Nat → scanner → scanState → List Bool → Res (scanner × Except Bytes Value)
  | 0, _, _, _ => .timeout
  | n + 1, s, state, arr =>
    match state with
    | .endOfItem =>
      s.scanBool.bind fun p =>
      match p.2 with
      | .error _ => p.1.arrayERR
      | .ok v => (p.1.skipRestOfArrayItem n).bind fun q => boolArrLoop n q.1 q.2 (arr ++ [v])
    | .endOfArray => .ok (s, .ok (.boolArr arr))
    | _ => .ok (s, .error invalidArray)

/-- The loop of `scanArray` in the `float64` case: it runs while the state is `endOfItem`
and then falls through to the label `ERR`. -/
def floatArrLoop (L : Lib) :
    Nat → scanner → scanState → List Float64 → Res (scanner × Except Bytes Value)
  | 0, _, _, _ => .timeout
  | n + 1, s, state, arr =>
    if state = .endOfItem then
      s.scanRaw.bind fun p =>
      match L.parseFloat p.2 with
      | none => p.1.arrayERR
      | some v => (p.1.skipRestOfArrayItem n).bind fun q => floatArrLoop L n q.1 q.2 (arr ++ [v])
    else s.arrayERR

/-- The loop of `scanArray` in the `time.Time` case, of the same shape. -/
def timeArrLoop (L : Lib) :
    Nat → scanner → scanState → List Time → Res (scanner × Except Bytes Value)
  | 0, _, _, _ => .timeout
  | n + 1, s, state, arr =>
    if state = .endOfItem then
      s.scanRaw.bind fun p =>
      match decodeDatetime L p.2 with
      | .error _ => p.1.arrayERR
      | .ok v => (p.1.skipRestOfArrayItem n).bind fun q => timeArrLoop L n q.1 q.2 (arr ++ [v])
    else s.arrayERR

/-- The digit, `+` or `-` case of `scanValue`. -/
def scanner.scanNumber (L : Lib) (s : scanner) : Res (scanner × Except Bytes Value) :=
  s.scanRaw.bind fun p =>
  match atoi p.2 with
  | some v => .ok (p.1, .ok (.int v))
  | none =>
    match L.parseFloat p.2 with
    | some f => .ok (p.1, .ok (.float f))
    | none =>
      match decodeDatetime L p.2 with
      | .ok t => .ok (p.1, .ok (.time t))
      | .error m => .ok (p.1, .error m)

/-- A string result as a value result. -/
def strResult (p : scanner × Except Bytes Bytes) : scanner × Except Bytes Value :=
  (p.1, match p.2 with
        | .ok v => .ok (.str v)
        | .error m => .error m)

/-- The cases `t`, `f` and `n` of `scanValue`. -/
def scanner.scanLiteral (s : scanner) (expect : Bytes) (val : Value) (msg : Bytes) :
    Res (scanner × Except Bytes Value) :=
  (s.scanExact expect).bind fun p =>
  if p.2 then .ok (p.1, .ok val) else .ok (p.1, .error msg)

mutual

/-- The method `scanValue`. -/
def scanValue (L : Lib) : Nat → scanner → Res (scanner × Except Bytes Value)
  | 0, _ => .timeout
  | n + 1, s =>
    match s.data[s.offset]? with
    | none => .fault
    | some c =>
      if c = 34 then s.scanQuotedString.bind fun p => .ok (strResult p)
      else if c = 96 then s.scanRawString.bind fun p => .ok (strResult p)
      else if (48 ≤ c ∧ c ≤ 57) ∨ c = 43 ∨ c = 45 then s.scanNumber L
      else if c = 91 then scanArray L n s
      else if c = 116 then s.scanLiteral [114, 117, 101] (.bool true) invalidBoolValue
      else if c = 102 then s.scanLiteral [97, 108, 115, 101] (.bool false) invalidBoolValue
      else if c = 110 then s.scanLiteral [117, 108, 108] .null invalidNullValue
      else if c = 123 then
        (scanObject L n s).bind fun p =>
        .ok (p.1, match p.2 with
                  | .ok nd => .ok (.node nd)
                  | .error m => .error m)
      else .ok (s, .error invalidValue)

/-- The method `scanArray`: the offset is on the `[`. -/
def scanArray (L : Lib) : Nat → scanner → Res (scanner × Except Bytes Value)
  | 0, _ => .timeout
  | n + 1, s =>
    (scanValue L n { s with offset := s.offset + 1 }).bind fun p =>
    match p.2 with
    | .error m => .ok (p.1, .error m)
    | .ok (.str v0) => (p.1.skipRestOfArrayItem n).bind fun q => strArrLoop n q.1 q.2 [v0]
    | .ok (.int v0) => (p.1.skipRestOfArrayItem n).bind fun q => intArrLoop n q.1 q.2 [v0]
    | .ok (.bool v0) => (p.1.skipRestOfArrayItem n).bind fun q => boolArrLoop n q.1 q.2 [v0]
    | .ok (.float v0) => (p.1.skipRestOfArrayItem n).bind fun q => floatArrLoop L n q.1 q.2 [v0]
    | .ok (.time v0) => (p.1.skipRestOfArrayItem n).bind fun q => timeArrLoop L n q.1 q.2 [v0]
    | .ok (.node v0) => (p.1.skipRestOfArrayItem n).bind fun q => nodeArrLoop L n q.1 q.2 [v0]
    | .ok _ => p.1.arrayERR

/-- The loop of `scanArray` in the `*Node` case, of the same shape as the `float64` one. -/
def nodeArrLoop (L : Lib) :
    Nat → scanner → scanState → List Node → Res (scanner × Except Bytes Value)
  | 0, _, _, _ => .timeout
  | n + 1, s, state, arr =>
    if state = .endOfItem then
      (scanObject L n s).bind fun p =>
      match p.2 with
      | .error _ => p.1.arrayERR
      | .ok v => (p.1.skipRestOfArrayItem n).bind fun q => nodeArrLoop L n q.1 q.2 (arr ++ [v])
    else s.arrayERR

/-- The method `scanObject`: the offset is on the `\x7b`. -/
def scanObject (L : Lib) : Nat → scanner → Res (scanner × Except Bytes Node)
  | 0, _ => .timeout
  | n + 1, s => scanObjectLoop L n { s with offset := s.offset + 1 } NewNode

/-- The loop of `scanObject`. -/
def scanObjectLoop (L : Lib) : Nat → scanner → Node → Res (scanner × Except Bytes Node)
  | 0, _, _ => .timeout
  | n + 1, s, val =>
    if s.offset + 1 < s.len then
      s.skip.bind fun s1 =>
      (s1.byteAt s1.offset).bind fun c =>
      if c = 125 then .ok (s1, .ok val)
      else
        (scanPair L n s1 (some val)).bind fun p =>
        scanObjectLoop L n p.1 (p.2.getD val)
    else .ok (s, .error invalidObject)

/-- The method `scanPair`; `parent` is none for a nil pointer, and the result carries the
parent after the assignment `parent.dict[name] = val`, which panics on nil. -/
def scanPair (L : Lib) : Nat → scanner → Option Node → Res (scanner × Option Node)
  | 0, _, _ => .timeout
  | n + 1, s, parent =>
    s.scanName.bind fun p =>
    if p.2 = [] then
      (p.1.addErrorMsg invalidName).skipRestOfLine.bind fun s1 => .ok (s1, parent)
    else
      p.1.skipSpace.bind fun s1 =>
      (scanValue L n s1).bind fun q =>
      match q.2 with
      | .error m => .ok (q.1.addErrorMsg (m ++ str ", name: " ++ p.2), parent)
      | .ok v =>
        match parent with
        | none => .fault
        | some nd => .ok (q.1, some (nd.set p.2 v))

end

/-- The method `scanLine`. -/
def scanLine (L : Lib) (n : Nat) (s : scanner) (parent : Option Node) :
    Res (scanner × Option Node) :=
  s.skipSpace.bind fun s1 =>
  (scanPair L n s1 parent).bind fun p =>
  p.1.skipRestOfLine.bind fun s2 => .ok (s2, p.2)

/-- The method `scanSingleNode`, with the node built so far. -/
def scanSingleNode (L : Lib) : Nat → scanner → Node → Res (scanner × Node)
  | 0, _, _ => .timeout
  | n + 1, s, node =>
    s.isBlankLine.bind fun b =>
    if b.2 then .ok (b.1, node)
    else
      (scanLine L n b.1 (some node)).bind fun p =>
      scanSingleNode L n p.1 (p.2.getD node)

/-- The method `scanNodeList`, with the list built so far: the variable `node` points to
the last node of the list, and is nil while the list is empty. -/
def scanNodeList (L : Lib) : Nat → scanner → List Node → Res (scanner × List Node)
  | 0, _, _ => .timeout
  | n + 1, s, list =>
    s.isBlankLine.bind fun b =>
    if b.2 then .ok (b.1, list)
    else
      (b.1.byteAt b.1.offset).bind fun c =>
      let s1 := if c = 45 then { b.1 with offset := b.1.offset + 1 } else b.1
      let list1 := if c = 45 then list ++ [NewNode] else list
      (scanLine L n s1 list1.getLast?).bind fun p =>
      match p.2 with
      | some nd => scanNodeList L n p.1 (list1.dropLast ++ [nd])
      | none => scanNodeList L n p.1 list1

/-- The method `scanNode`: the offset is on the `[`. -/
def scanNode (L : Lib) (n : Nat) (s : scanner) (parent : Node) : Res (scanner × Node) :=
  (scanner.scanName { s with offset := s.offset + 1 }).bind fun p =>
  if p.2 = [] then
    (p.1.addErrorMsg invalidNodeName).skipRestOfLine.bind fun s1 => .ok (s1, parent)
  else
    p.1.skip.bind fun s1 =>
    (s1.byteAt s1.offset).bind fun c =>
    if c = 45 then
      (scanNodeList L n s1 []).bind fun q => .ok (q.1, parent.set p.2 (.nodeList q.2))
    else
      (scanSingleNode L n s1 NewNode).bind fun q => .ok (q.1, parent.set p.2 (.node q.2))

/-- The method `scan`. -/
def scan (L : Lib) : Nat → scanner → Res scanner
  | 0, _ => .timeout
  | n + 1, s =>
    if s.offset + 1 < s.len then
      s.skip.bind fun s1 =>
      (s1.byteAt s1.offset).bind fun c =>
      (if c = 91 then
        (scanNode L n s1 s1.root).bind fun p => .ok { p.1 with root := p.2 }
      else
        s1.isComment.bind fun cm =>
        if cm then s1.skipRestOfLine
        else (scanPair L n s1 (some s1.root)).bind fun p =>
          .ok { p.1 with root := p.2.getD p.1.root }).bind fun s2 =>
      s2.skipRestOfLine.bind fun s3 => scan L n s3
    else .ok s

/-! ## rj.go -/

def parseFailed : Bytes := str "parse RJ failed"

/-- The function `Parse`: the node (none for nil) and the error message (none for a nil
error); the outer none means that the scan did not finish within `fuel` steps. The
deferred `recover` turns a panic of the scan into the error `parse RJ failed`, and `node`
has not been assigned at that point. -/
def Parse (L : Lib) (fuel : Nat) (input : Bytes) : Option (Option Node × Option Bytes) :=
  match scan L fuel (newScanner input) with
  | .timeout => none
  | .fault => some (none, some parseFailed)
  | .ok s =>
    some (some s.root,
      match s.error with
      | some m => if m ≠ [] then some m else none
      | none => none)

/-! ## encoder.go -/

/-- Decimal digits of a natural number, most significant first. -/
def natDigits (n : Nat) : Bytes :=
  if n < 10 then [48 + n] else natDigits (n / 10) ++ [48 + n % 10]
decreasing_by omega

/-- Go `strconv.AppendInt(nil, v, 10)`. -/
def AppendInt (v : Int) : Bytes :=
  if v < 0 then 45 :: natDigits v.natAbs else natDigits v.natAbs

mutual

/-- The method `encodeVal` on a valid `reflect.Value`. -/
def encodeVal (L : Lib) : GoVal → Bytes
  | .string v => [34] ++ v ++ [34]
  | .bool v => if v then str "true" else str "false"
  | .int v => AppendInt v
  | .float64 v => L.formatFloat v
  | .time t => str "Time" ++ [58, 123] ++ L.timeFields t ++ [125]
  | .struct name fields => name ++ [58, 123] ++ encodeFields L fields ++ [125]
  | .nilSlice _ => [91, 93]
  | .slice _ vs => [91] ++ encodeArray L vs true ++ [93]
  | .ptr _ none => str "null"
  | .ptr _ (some v) => encodeVal L v

/-- The method `encodeFields`: a field of pointer type is replaced by what it points to,
and the invalid value that a nil pointer gives makes `encodeVal` write nothing. -/
def encodeFields (L : Lib) : List (Bytes × GoVal) → Bytes
  | [] => []
  | (name, .ptr _ none) :: rest => name ++ str ": " ++ [10] ++ encodeFields L rest
  | (name, .ptr _ (some v)) :: rest =>
    name ++ str ": " ++ encodeVal L v ++ [10] ++ encodeFields L rest
  | (name, f) :: rest => name ++ str ": " ++ encodeVal L f ++ [10] ++ encodeFields L rest

/-- The loop of `encodeArray`; `first` holds at index 0. -/
def encodeArray (L : Lib) : List GoVal → Bool → Bytes
  | [], _ => []
  | v :: rest, first =>
    (if first then [] else [44]) ++ encodeVal L v ++ encodeArray L rest false

end

/-- The method `encode` on the value of the encoder, none for a nil interface: a struct
type named `Time` that is not `time.Time` makes the type assertion of `encodeTime` panic. -/
def encode (L : Lib) (val : Option GoVal) : Res Bytes :=
  let rv : Option GoVal :=
    match val with
    | some (.ptr _ e) => e
    | v => v
  match rv with
  | some (.time t) => .ok (L.formatTime t)
  | some (.struct name fields) =>
    if name = str "Time" then .fault else .ok (encodeFields L fields)
  | some v => .ok (encodeVal L v)
  | none => .ok []

/-- The function `Marshal`. -/
def Marshal (L : Lib) (v : Option GoVal) : Res Bytes := encode L v

/-! ## decoder.go -/

def errValueNotFound : Bytes := str "value not found"
def errValueNotAssignable : Bytes := str "v is not assignable"
def errTypeMismatch : Bytes := str "type mismatch"
def errNoName : Bytes := str "no name provided"

mutual

/-- The zero value of a type (`reflect.New(t).Elem()`); the zero `time.Time` is
January 1 of year 1, 00:00 UTC. -/
def GoType.zero : GoType → GoVal
  | .string => .string []
  | .int => .int 0
  | .bool => .bool false
  | .float64 => .float64 0
  | .time => .time ⟨-62135596800, 0, 0⟩
  | .struct name fields => .struct name (GoType.zeroFields fields)
  | .slice e => .nilSlice e
  | .ptr e => .ptr e none

def GoType.zeroFields : List (Bytes × GoType) → List (Bytes × GoVal)
  | [] => []
  | (name, t) :: rest => (name, GoType.zero t) :: GoType.zeroFields rest

end

mutual

/-- The type of a value (`Value.Type()`); a non-nil pointer has the type it was given. -/
def GoVal.typeOf : GoVal → GoType
  | .string _ => .string
  | .int _ => .int
  | .bool _ => .bool
  | .float64 _ => .float64
  | .time _ => .time
  | .struct name fields => .struct name (GoVal.typeOfFields fields)
  | .nilSlice e => .slice e
  | .slice e _ => .slice e
  | .ptr e _ => .ptr e

def GoVal.typeOfFields : List (Bytes × GoVal) → List (Bytes × GoType)
  | [] => []
  | (name, v) :: rest => (name, GoVal.typeOf v) :: GoVal.typeOfFields rest

end

/-- Is the field name exported: its first rune is an upper-case letter, which on ASCII is
`A` to `Z` and above it what `unicode.IsUpper` says. -/
def exported (L : Lib) (name : Bytes) : Bool :=
  match name with
  | c :: _ => if c < 128 then 65 ≤ c && c ≤ 90 else L.isUpper (DecodeRune name).1
  | [] => false

/-- `Value.FieldByName` on the fields of a struct. -/
def fieldByName : List (Bytes × GoVal) → Bytes → Option GoVal
  | [], _ => none
  | (n0, v0) :: rest, k => if n0 = k then some v0 else fieldByName rest k

/-- Storing into the field `k` of a struct. -/
def setField : List (Bytes × GoVal) → Bytes → GoVal → List (Bytes × GoVal)
  | [], _, _ => []
  | (n0, v0) :: rest, k, v => if n0 = k then (n0, v) :: rest else (n0, v0) :: setField rest k v

/-- The function `isSeparator` of the package `strings`: ASCII letters, digits and the
underscore are no separators and every other ASCII rune is one; above 127 letters and
digits are no separators, and of the other runes the white space is. -/
def isSeparator (L : Lib) (r : Nat) : Bool :=
  if r ≤ 127 then
    !((48 ≤ r && r ≤ 57) || (97 ≤ r && r ≤ 122) || (65 ≤ r && r ≤ 90) || r == 95)
  else if L.isLetter r || L.isDigitRune r then false
  else L.isSpaceRune r

/-- Go `unicode.ToTitle`: on ASCII a lower-case letter is made upper-case. -/
def ToTitle (L : Lib) (r : Nat) : Nat :=
  if r ≤ 127 then (if 97 ≤ r && r ≤ 122 then r - 32 else r) else L.toTitle r

/-- Go `utf8.AppendRune`, as `strings.Builder.WriteRune` uses it: surrogates and runes
above U+10FFFF are written as `RuneError`. -/
def WriteRune (r : Nat) : Bytes :=
  if r < 65536 then EncodeRune r
  else if r ≤ 1114111 then
    [240 + r / 262144, 128 + (r / 4096) % 64, 128 + (r / 64) % 64, 128 + r % 64]
  else [239, 191, 189]

/-- The loop of `strings.Map` with the mapping of `strings.Title`, over at most `n` runes:
`p` is what is left of the string and `prev` the rune before it. The string is read rune by
rune as `range` does (an ill-formed byte is read as `RuneError`), a rune that comes after a
separator is mapped to its title case, and the mapped rune is written in UTF-8. -/
def titleLoop (L : Lib) : Nat → Bytes → Nat → Bytes
  | 0, _, _ => []
  | _ + 1, [], _ => []
  | n + 1, c :: t, prev =>
    let d := DecodeRune (c :: t)
    WriteRune (if isSeparator L prev then ToTitle L d.1 else d.1) ++
      titleLoop L n ((c :: t).drop d.2) d.1

/-- Go `strings.Title`: the first rune of every word is mapped to its title case; the rune
before the string counts as a space. -/
def Title (L : Lib) (k : Bytes) : Bytes := titleLoop L k.length k 32

/-- The field that `decodeNode` picks for the key `k`: the field named `k`, else the one
named `strings.Title(k)`. -/
def findField (L : Lib) (fs : List (Bytes × GoVal)) (k : Bytes) : Option (Bytes × GoVal) :=
  match fieldByName fs k with
  | some f => some (k, f)
  | none =>
    match fieldByName fs (Title L k) with
    | some f => some (Title L k, f)
    | none => none

/-- A `Set` method on the field `fk`, which panics on an unexported field. -/
def assign (L : Lib) (fs : List (Bytes × GoVal)) (fk : Bytes) (v : GoVal) :
    Res (List (Bytes × GoVal)) :=
  if exported L fk then .ok (setField fs fk v) else .fault

/-- The scalar array cases of `decodeNode` after the length test: `reflect.MakeSlice` of the
field type, which has to be a slice type, and `Set` of every element, which has to have the
element type of the slice. -/
def makeSlice (field : GoVal) (elemTy : GoType) (vs : List GoVal) : Res GoVal :=
  match field.typeOf with
  | .slice e =>
    match e, elemTy with
    | .string, .string => .ok (.slice e vs)
    | .int, .int => .ok (.slice e vs)
    | .bool, .bool => .ok (.slice e vs)
    | .float64, .float64 => .ok (.slice e vs)
    | .time, .time => .ok (.slice e vs)
    | _, _ => .fault
  | _ => .fault

/-- What `decodeNode` does on a `time.Time` target for one entry: the struct has the three
unexported fields `wall`, `ext` and `loc`, none of string or slice kind; `some r` ends the
loop with the result `r`. -/
def decodeTimeEntry (k : Bytes) (v : Value) : Res (Option (Option Bytes)) :=
  if k = str "wall" ∨ k = str "ext" ∨ k = str "loc" then
    match v with
    | .str _ => .ok (some (some errTypeMismatch))
    | .null => .ok none
    | .strArr [] => .ok (some none)
    | .intArr [] => .ok (some none)
    | .boolArr [] => .ok (some none)
    | .floatArr [] => .ok (some none)
    | .timeArr [] => .ok (some none)
    | .nodeList [] => .ok (some none)
    | _ => .fault
  else .ok none

/-- The loop of `decodeNode` on a `time.Time` target. -/
def decodeTime : List (Bytes × Value) → Res (Option Bytes)
  | [] => .ok none
  | (k, v) :: rest =>
    match decodeTimeEntry k v with
    | .fault => .fault
    | .timeout => .timeout
    | .ok (some r) => .ok r
    | .ok none => decodeTime rest

mutual

/-- The loop of `decodeNode` over the entries of the node, in the order of the list, on the
fields `fs` of the target struct: the fields afterwards and the error. -/
def decodeFields (L : Lib) : List (Bytes × Value) → List (Bytes × GoVal) →
    Res (List (Bytes × GoVal) × Option Bytes)
  | [], fs => .ok (fs, none)
  | (k, v) :: rest, fs =>
    match findField L fs k with
    | none => decodeFields L rest fs
    | some (fk, field) =>
      match v with
      | .str vt =>
        match field with
        | .string _ => (assign L fs fk (.string vt)).bind (decodeFields L rest)
        | _ => .ok (fs, some errTypeMismatch)
      | .int vt =>
        match field with
        | .int _ => (assign L fs fk (.int vt)).bind (decodeFields L rest)
        | _ => .fault
      | .bool vt =>
        match field with
        | .bool _ => (assign L fs fk (.bool vt)).bind (decodeFields L rest)
        | _ => .fault
      | .float vt =>
        match field with
        | .float64 _ => (assign L fs fk (.float64 vt)).bind (decodeFields L rest)
        | _ => .fault
      | .time vt =>
        match field with
        | .time _ => (assign L fs fk (.time vt)).bind (decodeFields L rest)
        | _ => .fault
      | .node d =>
        (decodeStructField L d field.typeOf).bind fun r =>
        match r with
        | none => .fault
        | some sv => (assign L fs fk sv).bind (decodeFields L rest)
      | .strArr l =>
        if l.isEmpty then .ok (fs, none)
        else (makeSlice field .string (l.map .string)).bind fun a =>
          (assign L fs fk a).bind (decodeFields L rest)
      | .intArr l =>
        if l.isEmpty then .ok (fs, none)
        else (makeSlice field .int (l.map .int)).bind fun a =>
          (assign L fs fk a).bind (decodeFields L rest)
      | .boolArr l =>
        if l.isEmpty then .ok (fs, none)
        else (makeSlice field .bool (l.map .bool)).bind fun a =>
          (assign L fs fk a).bind (decodeFields L rest)
      | .floatArr l =>
        if l.isEmpty then .ok (fs, none)
        else (makeSlice field .float64 (l.map .float64)).bind fun a =>
          (assign L fs fk a).bind (decodeFields L rest)
      | .timeArr l =>
        if l.isEmpty then .ok (fs, none)
        else (makeSlice field .time (l.map .time)).bind fun a =>
          (assign L fs fk a).bind (decodeFields L rest)
      | .nodeList l =>
        if l.isEmpty then .ok (fs, none)
        else
          match field.typeOf with
          | .slice e =>
            (decodeElems L l e).bind fun vs =>
            (assign L fs fk (.slice e vs)).bind (decodeFields L rest)
          | _ => .fault
      | .null => decodeFields L rest fs

/-- The function `decodeStructField`: none is the invalid `reflect.Value` it returns for a
type that is neither a struct nor a pointer; the error of `decodeNode` is dropped. -/
def decodeStructField (L : Lib) : List (Bytes × Value) → GoType → Res (Option GoVal)
  | d, .struct name tfs =>
    (decodeFields L d (GoType.zeroFields tfs)).bind fun r => .ok (some (.struct name r.1))
  | d, .time => (decodeTime d).bind fun _ => .ok (some (GoType.zero .time))
  | d, .ptr (.struct name tfs) =>
    (decodeFields L d (GoType.zeroFields tfs)).bind fun r =>
      .ok (some (.ptr (.struct name tfs) (some (.struct name r.1))))
  | d, .ptr .time =>
    (decodeTime d).bind fun _ => .ok (some (.ptr .time (some (GoType.zero .time))))
  | _, .ptr e => .ok (some (.ptr e (some (GoType.zero e))))
  | _, _ => .ok none

/-- The loop of the `[]*Node` case of `decodeNode`: every element is decoded and stored,
and an invalid value cannot be stored. -/
def decodeElems (L : Lib) : List (List (Bytes × Value)) → GoType → Res (List GoVal)
  | [], _ => .ok []
  | d :: rest, e =>
    (decodeStructField L d e).bind fun r =>
    match r with
    | none => .fault
    | some sv => (decodeElems L rest e).bind fun vs => .ok (sv :: vs)

end

/-- The function `decodeNode` on a node (none for nil) and an addressable value: the value
afterwards and the error. -/
def decodeNode (L : Lib) (n : Option Node) (rv : GoVal) : Res (GoVal × Option Bytes) :=
  match rv with
  | .struct name fs =>
    match n with
    | none => .fault
    | some d => (decodeFields L d fs).bind fun r => .ok (.struct name r.1, r.2)
  | .time t =>
    match n with
    | none => .fault
    | some d => (decodeTime d).bind fun r => .ok (.time t, r)
  | _ => .ok (rv, some errTypeMismatch)

/-- The function `decode`: `val` is the interface value, none for nil. -/
def decode (L : Lib) (n : Option Node) (val : Option GoVal) :
    Res (Option GoVal × Option Bytes) :=
  match val with
  | some (.ptr e (some rv)) =>
    (decodeNode L n rv).bind fun r => .ok (some (.ptr e (some r.1)), r.2)
  | _ => .ok (val, some errTypeMismatch)

/-- The function `Unmarshal`: the value `v` afterwards and the error. -/
def Unmarshal (L : Lib) (fuel : Nat) (data : Bytes) (v : Option GoVal) :
    Res (Option GoVal × Option Bytes) :=
  match Parse L fuel data with
  | none => .timeout
  | some (_, some err) => .ok (v, some err)
  | some (node, none) => decode L node v


/-! ## Families of inputs the statements below range over -/

/-- A piece of the body of a quoted literal: an ASCII byte other than the quote and the
backslash, or one of the escapes for a control character, given by its letter. -/
inductive Piece where
  | plain (c : Nat)
  | esc (e : Nat)

/-- The bytes and the letters a piece may hold: `b`, `f`, `n`, `r` and `t`. -/
def Piece.ok : Piece → Prop
  | .plain c => c < 128 ∧ c ≠ 34 ∧ c ≠ 92
  | .esc e => e = 98 ∨ e = 102 ∨ e = 110 ∨ e = 114 ∨ e = 116

/-- The control character an escape letter stands for. -/
def ctrl (e : Nat) : Nat :=
  if e = 98 then 8 else if e = 102 then 12 else if e = 110 then 10 else if e = 114 then 13
  else 9

/-- The text of a body in the buffer. -/
def bodySrc : List Piece → Bytes
  | [] => []
  | .plain c :: ps => c :: bodySrc ps
  | .esc e :: ps => 92 :: e :: bodySrc ps

/-- The string a body stands for. -/
def bodyVal : List Piece → Bytes
  | [] => []
  | .plain c :: ps => c :: bodyVal ps
  | .esc e :: ps => ctrl e :: bodyVal ps


/-- A unit of a string that a quoted literal holds as it is: an ASCII byte other than the
quote and the backslash, or the UTF-8 encoding, two to four bytes long, of a code point
other than U+FFFD. -/
def unitOK (u : Bytes) : Prop :=
  (∃ c, u = [c] ∧ c < 128 ∧ c ≠ 34 ∧ c ≠ 92) ∨
  (2 ≤ u.length ∧ (DecodeRune u).2 = u.length ∧ (DecodeRune u).1 ≠ RuneError)

/-- A string made of such units. -/
def Quotable (v : Bytes) : Prop :=
  ∃ units : List Bytes, (∀ u ∈ units, unitOK u) ∧ v = units.flatten

/-- The values of a Go `int`. -/
def isInt64 (a : Int) : Prop := -(2 : Int) ^ 63 ≤ a ∧ a < (2 : Int) ^ 63

/-- The string built so far in the loop of `scanQuotedString`. -/
def quotedAcc (d : Bytes) (off i : Nat) (ret : Option Bytes) : Bytes :=
  match ret with
  | some r => r
  | none => slice d off i

/-- Bytes that `scanName` reads through. -/
def nameByte (c : Nat) : Bool := !(isSpace c || c == 58 || c == 93 || isLineEnd c)

/-- Bytes of a token that `scanRaw` reads through and `TrimSpace` keeps. -/
def rawByte (c : Nat) : Bool :=
  c < 128 &&
    !(isLineEnd c || c == 44 || c == 93 || c == 125 || c == 35 || c == 47 || isTrimSpace c)

/-- Bytes at which `scanRaw` stops. -/
def rawStop (c : Nat) : Bool := isLineEnd c || c == 44 || c == 93 || c == 125


/-- A field value of one of the kinds that survive `Marshal` and `Unmarshal`: a string,
an integer, a sequence of strings or a sequence of integers. -/
inductive Field where
  | str (v : Bytes)
  | int (v : Int)
  | strs (vs : List Bytes)
  | ints (vs : List Int)

/-- The values of these kinds that round-trip: strings that need no escape, 64-bit
integers, and non-empty sequences of them. -/
def Field.ok : Field → Prop
  | .str v => Quotable v
  | .int v => isInt64 v
  | .strs vs => vs ≠ [] ∧ ∀ v ∈ vs, Quotable v
  | .ints vs => vs ≠ [] ∧ ∀ v ∈ vs, isInt64 v

/-- The Go value of a field. -/
def Field.goVal : Field → GoVal
  | .str v => .string v
  | .int v => .int v
  | .strs vs => .slice .string (vs.map .string)
  | .ints vs => .slice .int (vs.map .int)

/-- The Go type of a field. -/
def Field.goType : Field → GoType
  | .str _ => .string
  | .int _ => .int
  | .strs _ => .slice .string
  | .ints _ => .slice .int

/-- The tree value the scanner builds for a field. -/
def Field.value : Field → Value
  | .str v => .str v
  | .int v => .int v
  | .strs vs => .strArr vs
  | .ints vs => .intArr vs

/-- The text of the elements of a sequence of strings after the first: a comma and the
quoted string, for each. -/
def strsTail : List Bytes → Bytes
  | [] => []
  | v :: vs => 44 :: 34 :: (v ++ 34 :: strsTail vs)

/-- The text of the elements of a sequence of integers after the first. -/
def intsTail : List Int → Bytes
  | [] => []
  | a :: as => 44 :: (AppendInt a ++ intsTail as)

/-- The text of a field value. -/
def Field.text : Field → Bytes
  | .str v => 34 :: (v ++ [34])
  | .int a => AppendInt a
  | .strs [] => [91, 93]
  | .strs (v :: vs) => 91 :: 34 :: (v ++ 34 :: (strsTail vs ++ [93]))
  | .ints [] => [91, 93]
  | .ints (a :: as) => 91 :: (AppendInt a ++ (intsTail as ++ [93]))

/-- The text of the fields of a record: one line for each. -/
def recordText : List (Bytes × Field) → Bytes
  | [] => []
  | (nm, f) :: rest => nm ++ 58 :: 32 :: (f.text ++ 10 :: recordText rest)

/-- Steps that `scanValue` needs for a field. -/
def Field.cost : Field → Nat
  | .str _ => 1
  | .int _ => 1
  | .strs vs => vs.length + 2
  | .ints vs => vs.length + 2

/-- The name starts with an ASCII capital. -/
def capitalFirst (name : Bytes) : Bool :=
  match name with
  | c :: _ => 65 ≤ c && c ≤ 90
  | [] => false

/-- A field name as Go allows it for an exported field, as far as the scanner cares: an
ASCII capital first, and no space, tab, colon, closing bracket or line terminator. -/
def fieldName (nm : Bytes) : Prop := capitalFirst nm = true ∧ ∀ c ∈ nm, nameByte c = true

/-- The record value with the given type name and fields. -/
def recordVal (ty : Bytes) (fields : List (Bytes × Field)) : GoVal :=
  .struct ty (fields.map fun p => (p.1, p.2.goVal))

/-- The record type with the given name and fields. -/
def recordType (ty : Bytes) (fields : List (Bytes × Field)) : GoType :=
  .struct ty (fields.map fun p => (p.1, p.2.goType))

/-- The tree that holds the fields of a record. -/
def recordTree (fields : List (Bytes × Field)) : Node :=
  fields.map fun p => (p.1, p.2.value)

/-- A step budget that is enough to parse the text of a record. -/
def recordFuel (fields : List (Bytes × Field)) : Nat :=
  fields.length + (fields.map fun p => p.2.cost).sum + 2

/-- The root after the pairs of a record have been stored in order. -/
def storeAll (root : Node) (fields : List (Bytes × Field)) : Node :=
  fields.foldl (fun nd p => nd.set p.1 p.2.value) root

/-- The fields of a struct whose values are given by name. -/
def fieldsBy (fields : List (Bytes × Field)) (h : Bytes → GoVal) : List (Bytes × GoVal) :=
  fields.map fun p => (p.1, h p.1)

/-- A library for statements on one concrete input: every float text and time text is
rejected, the formatters write nothing and the Unicode tables know no rune. The inputs it is
used on hold no such text, and no key with a rune above 127. -/
def plainLib : Lib :=
  { parseFloat := fun _ => none
    timeParse := fun _ _ => .error []
    formatFloat := fun _ => []
    formatTime := fun _ => []
    timeFields := fun _ => []
    toTitle := fun r => r
    isLetter := fun _ => false
    isDigitRune := fun _ => false
    isSpaceRune := fun _ => false
    isUpper := fun _ => false }


/-! ## node.go -/

/-- Go `strings.SplitN(name, ".", 2)`: the text before the first dot, and the text after
it when there is a dot. -/
def splitDot : Bytes → Bytes × Option Bytes
  | [] => ([], none)
  | c :: cs => if c = 46 then ([], some cs) else (c :: (splitDot cs).1, (splitDot cs).2)

/-- The function `getFinalNameAndNode`; `node` is none for a nil pointer. A `*Node` found
in a `dict` is never nil, so the final node of a successful result is not nil. -/
def getFinalNameAndNode (name : Bytes) (node : Option Node) : Except Bytes (Bytes × Node) :=
  if name.length = 0 then .error errNoName
  else
    match node with
    | none => .error errValueNotFound
    | some nd =>
      if (splitDot name).1.length = 0 then .error errNoName
      else
        match h : (splitDot name).2 with
        | none => .ok (name, nd)
        | some rest =>
          if rest.length = 0 then .error errNoName
          else
            match nd.lookup (splitDot name).1 with
            | some (.node d) => getFinalNameAndNode rest (some d)
            | _ => .error errValueNotFound
termination_by name.length
decreasing_by
  have key : ∀ (nm r : Bytes), (splitDot nm).2 = some r → r.length < nm.length := by
    intro nm
    induction nm with
    | nil => intro r hr; simp [splitDot] at hr
    | cons c cs ih =>
      intro r hr
      by_cases hc : c = 46
      · simp [splitDot, hc] at hr
        simp [← hr]
      · simp [splitDot, hc] at hr
        have := ih r hr
        simp
        omega
  exact key name rest h

/-- The method `Get`: the value, or the error. -/
def Get (n : Option Node) (name : Bytes) : Except Bytes Value :=
  match getFinalNameAndNode name n with
  | .error e => .error e
  | .ok (finalName, finalNode) =>
    match finalNode.lookup finalName with
    | some v => .ok v
    | none => .error errValueNotFound

/-- The zero `time.Time`. -/
def zeroTime : Time := ⟨-62135596800, 0, 0⟩

def GetStringOr (n : Option Node) (name : Bytes) (defaultVal : Bytes) : Bytes :=
  match Get n name with
  | .ok (.str v) => v
  | _ => defaultVal

def GetString (n : Option Node) (name : Bytes) : Bytes := GetStringOr n name []

/-- The method `GetStringOrError`: the results `val` and `err`. -/
def GetStringOrError (n : Option Node) (name : Bytes) : Bytes × Option Bytes :=
  match Get n name with
  | .error e => ([], some e)
  | .ok (.str v) => (v, none)
  | .ok _ => ([], some errTypeMismatch)

def GetIntOr (n : Option Node) (name : Bytes) (defaultVal : Int) : Int :=
  match Get n name with
  | .ok (.int v) => v
  | _ => defaultVal

def GetInt (n : Option Node) (name : Bytes) : Int := GetIntOr n name 0

def GetIntOrError (n : Option Node) (name : Bytes) : Int × Option Bytes :=
  match Get n name with
  | .error e => (0, some e)
  | .ok (.int v) => (v, none)
  | .ok _ => (0, some errTypeMismatch)

def GetFloatOr (n : Option Node) (name : Bytes) (defaultVal : Float64) : Float64 :=
  match Get n name with
  | .ok (.float v) => v
  | _ => defaultVal

def GetFloat (n : Option Node) (name : Bytes) : Float64 := GetFloatOr n name 0

def GetFloatOrError (n : Option Node) (name : Bytes) : Float64 × Option Bytes :=
  match Get n name with
  | .error e => (0, some e)
  | .ok (.float v) => (v, none)
  | .ok _ => (0, some errTypeMismatch)

def GetBoolOr (n : Option Node) (name : Bytes) (defaultVal : Bool) : Bool :=
  match Get n name with
  | .ok (.bool v) => v
  | _ => defaultVal

def GetBool (n : Option Node) (name : Bytes) : Bool := GetBoolOr n name false

def GetBoolOrError (n : Option Node) (name : Bytes) : Bool × Option Bytes :=
  match Get n name with
  | .error e => (false, some e)
  | .ok (.bool v) => (v, none)
  | .ok _ => (false, some errTypeMismatch)

def GetTimeOr (n : Option Node) (name : Bytes) (defaultVal : Time) : Time :=
  match Get n name with
  | .ok (.time v) => v
  | _ => defaultVal

def GetTime (n : Option Node) (name : Bytes) : Time := GetTimeOr n name zeroTime

def GetTimeOrError (n : Option Node) (name : Bytes) : Time × Option Bytes :=
  match Get n name with
  | .error e => (zeroTime, some e)
  | .ok (.time v) => (v, none)
  | .ok _ => (zeroTime, some errTypeMismatch)

/-- The method `GetStringArrayOrError`: the slice (none for nil) and the error. -/
def GetStringArrayOrError (n : Option Node) (name : Bytes) : Option (List Bytes) × Option Bytes :=
  match Get n name with
  | .error e => (none, some e)
  | .ok (.strArr l) => (some l, none)
  | .ok _ => (none, some errTypeMismatch)

def GetBoolArrayOrError (n : Option Node) (name : Bytes) : Option (List Bool) × Option Bytes :=
  match Get n name with
  | .error e => (none, some e)
  | .ok (.boolArr l) => (some l, none)
  | .ok _ => (none, some errTypeMismatch)

def GetIntArrayOrError (n : Option Node) (name : Bytes) : Option (List Int) × Option Bytes :=
  match Get n name with
  | .error e => (none, some e)
  | .ok (.intArr l) => (some l, none)
  | .ok _ => (none, some errTypeMismatch)

def GetFloatArrayOrError (n : Option Node) (name : Bytes) :
    Option (List Float64) × Option Bytes :=
  match Get n name with
  | .error e => (none, some e)
  | .ok (.floatArr l) => (some l, none)
  | .ok _ => (none, some errTypeMismatch)

def GetTimeArrayOrError (n : Option Node) (name : Bytes) : Option (List Time) × Option Bytes :=
  match Get n name with
  | .error e => (none, some e)
  | .ok (.timeArr l) => (some l, none)
  | .ok _ => (none, some errTypeMismatch)

/-! ## Paths -/

/-- A dotted path: the segments before the last, each followed by a dot, then the rest. -/
def joinPath : List Bytes → Bytes → Bytes
  | [], last => last
  | a :: as, last => a ++ 46 :: joinPath as last

/-- The node reached from `n` through the nested nodes named by the segments. -/
def descend : Node → List Bytes → Option Node
  | n, [] => some n
  | n, a :: as =>
    match n.lookup a with
    | some (.node d) => descend d as
    | _ => none

/-- A segment of a path: not empty and without a dot. -/
def segment (a : Bytes) : Prop := a ≠ [] ∧ 46 ∉ a

/-- Is the value a nested node. -/
def Value.isNode : Value → Bool
  | .node _ => true
  | _ => false


/-! ## Hexadecimal numbers and UTF-8, by their definitions -/

/-- The value of a hexadecimal digit, in either case; none for any other byte. -/
def hexDigit (c : Nat) : Option Nat :=
  if 48 ≤ c ∧ c ≤ 57 then some (c - 48)
  else if 97 ≤ c ∧ c ≤ 102 then some (c - 87)
  else if 65 ≤ c ∧ c ≤ 70 then some (c - 55)
  else none

/-- The number that a string of hexadecimal digits denotes, most significant digit first. -/
def hexValue (inp : Bytes) : Nat :=
  inp.foldl (fun r c => r * 16 + (hexDigit c).getD 0) 0

/-- The surrogate code points, which stand for no character and have no UTF-8 encoding. -/
def isSurrogate (cp : Nat) : Bool := 55296 ≤ cp && cp ≤ 57343

/-- The UTF-8 encoding of a code point, by the bit layout of the standard: one byte below
U+0080, two below U+0800, three below U+10000, four from there on. -/
def utf8Encoding (cp : Nat) : Bytes :=
  if cp < 128 then [cp]
  else if cp < 2048 then [192 + cp / 64, 128 + cp % 64]
  else if cp < 65536 then [224 + cp / 4096, 128 + cp / 64 % 64, 128 + cp % 64]
  else [240 + cp / 262144, 128 + cp / 4096 % 64, 128 + cp / 64 % 64, 128 + cp % 64]


/-! ## What the entries of a tree stand for in a record -/

/-- The Go value of a scalar entry or of a non-empty scalar array: an array gives a slice
with the same elements in the same order. -/
def Value.toGoVal : Value → Option GoVal
  | .str v => some (.string v)
  | .int v => some (.int v)
  | .bool v => some (.bool v)
  | .float v => some (.float64 v)
  | .time v => some (.time v)
  | .strArr l => if l.isEmpty then none else some (.slice .string (l.map .string))
  | .intArr l => if l.isEmpty then none else some (.slice .int (l.map .int))
  | .boolArr l => if l.isEmpty then none else some (.slice .bool (l.map .bool))
  | .floatArr l => if l.isEmpty then none else some (.slice .float64 (l.map .float64))
  | .timeArr l => if l.isEmpty then none else some (.slice .time (l.map .time))
  | _ => none

/-- The record that the decoding of the node `d` into a fresh record of the type `nm` with
the fields `tfs` leaves, when that decoding returns (with or without an error). -/
def decodedRecord (L : Lib) (nm : Bytes) (tfs : List (Bytes × GoType)) (d : Node) : Option GoVal :=
  match decodeFields L d (GoType.zeroFields tfs) with
  | .ok r => some (.struct nm r.1)
  | _ => none

/-- The records that the nodes of a list decode to, in the order of the list. -/
def decodedRecords (L : Lib) (nm : Bytes) (tfs : List (Bytes × GoType)) :
    List Node → Option (List GoVal)
  | [] => some []
  | d :: rest =>
    match decodedRecord L nm tfs d, decodedRecords L nm tfs rest with
    | some g, some gs => some (g :: gs)
    | _, _ => none

/-- The Go value of a nested entry on a field of the type `t`: a node on a record field is
the decoded record, a node on a record-pointer field is a pointer to the decoded record, and
a non-empty node list on a sequence-of-records field is the sequence of the decoded records,
in the order of the list. -/
def nestedGoVal (L : Lib) (t : GoType) (v : Value) : Option GoVal :=
  match t, v with
  | .struct nm tfs, .node d => decodedRecord L nm tfs d
  | .ptr (.struct nm tfs), .node d =>
    (decodedRecord L nm tfs d).map fun g => .ptr (.struct nm tfs) (some g)
  | .slice (.struct nm tfs), .nodeList l =>
    if l.isEmpty then none
    else (decodedRecords L nm tfs l).map fun gs => .slice (.struct nm tfs) gs
  | _, _ => none

/-- The entry `(k, v)` is stored as `gv` in a field of the type `t`: on every record whose
field `k` has that type, the loop goes on with the field set to `gv`. -/
def storesAs (L : Lib) (k : Bytes) (v : Value) (t : GoType) (gv : GoVal) : Prop :=
  ∀ (fs : List (Bytes × GoVal)) (f : GoVal) (rest : List (Bytes × Value)),
    fieldByName fs k = some f → f.typeOf = t →
    decodeFields L ((k, v) :: rest) fs = decodeFields L rest (setField fs k gv)

/-- A key with its first letter capitalised (a lower-case ASCII letter is made upper-case,
any other first byte is left as it is). -/
def capFirst : Bytes → Bytes
  | [] => []
  | c :: cs => (if 97 ≤ c ∧ c ≤ 122 then c - 32 else c) :: cs

/-- The bytes of a Go identifier: ASCII letters, digits and the underscore, and the bytes
above 127, of which the letters and digits of other scripts are made. -/
def identByte (c : Nat) : Bool :=
  (48 ≤ c && c ≤ 57) || (97 ≤ c && c ≤ 122) || (65 ≤ c && c ≤ 90) || c == 95 || 128 ≤ c

/-- A Go identifier, as far as its bytes go: field names are identifiers. -/
def identifier (nm : Bytes) : Prop := ∀ c ∈ nm, identByte c = true

/-- What `strings.Title` makes of ASCII text, byte by byte: a lower-case letter that comes
after a byte that is no letter, digit or underscore is made upper-case. -/
def titleBytes : Bytes → Nat → Bytes
  | [], _ => []
  | c :: cs, prev =>
    (if !identByte prev && 97 ≤ c && c ≤ 122 then c - 32 else c) :: titleBytes cs c


/-! ## Library fixtures for statements on one concrete input -/

/-- A library that knows the float texts `1.5` and `2.5` (as their IEEE-754 bit patterns)
and rejects every other float text and every time text. -/
def floatLib : Lib :=
  { parseFloat := fun raw =>
      if raw = str "1.5" then some 4609434218613702656
      else if raw = str "2.5" then some 4612811918334230528
      else none
    timeParse := fun _ _ => .error []
    formatFloat := fun _ => []
    formatTime := fun _ => []
    timeFields := fun _ => []
    toTitle := fun r => r
    isLetter := fun _ => false
    isDigitRune := fun _ => false
    isSpaceRune := fun _ => false
    isUpper := fun _ => false }

/-- A library that knows what `time.Parse` answers on the text `2019-13-45` with the layout
`2006-01-02`: the error `parsing time "2019-13-45": month out of range`. It rejects every
float text. -/
def dateLib : Lib :=
  { parseFloat := fun _ => none
    timeParse := fun i raw =>
      if i = 0 ∧ raw = str "2019-13-45" then
        .error (str "parsing time \"2019-13-45\": month out of range")
      else .error []
    formatFloat := fun _ => []
    formatTime := fun _ => []
    timeFields := fun _ => []
    toTitle := fun r => r
    isLetter := fun _ => false
    isDigitRune := fun _ => false
    isSpaceRune := fun _ => false
    isUpper := fun _ => false }


/-! ## Tokens and gaps of the scanner -/

/-- The bytes that the loop of `scanRaw` reads through, from the head of the text on: up to
the first line terminator, comma, closing bracket, closing brace, `#` or `//`. -/
def rawSpan : Bytes → Bytes
  | [] => []
  | c :: t =>
    if isLineEnd c || c == 44 || c == 93 || c == 125 || c == 35 || (c == 47 && t.head? == some 47)
    then []
    else c :: rawSpan t

/-- The text of the elements of an array after the first, each given by its text: a comma
and the element, for each. -/
def tokTail : List Bytes → Bytes
  | [] => []
  | e :: es => 44 :: (e ++ tokTail es)

/-- Bytes that `scanRaw` reads through: no line terminator, comma, closing bracket or
brace, and no `#` or `/`. -/
def spanByte (x : Nat) : Bool :=
  !(isLineEnd x || x == 44 || x == 93 || x == 125 || x == 35 || x == 47)

/-- The text of the elements of an array of integers after the first, each given by the
blanks before it, its text and the blanks after it: a comma and those three, for each. -/
def intItems : List (Bytes × Bytes × Bytes) → Bytes
  | [] => []
  | (b1, e, b2) :: rest => 44 :: (b1 ++ (e ++ (b2 ++ intItems rest)))

/-- The text of a line before its line break, as far as a gap may hold it: nothing, or a
comment that starts with `#` or with `//` and runs to the end of the line. -/
def lineText (text : Bytes) : Prop :=
  text = [] ∨
  ((∀ b ∈ text, isLineEnd b = false) ∧ ((∃ r, text = 35 :: r) ∨ ∃ r, text = 47 :: 47 :: r))

/-- A line break in front of the text `g`: a line feed, a carriage return and a line feed,
or a carriage return that is not followed by a line feed. -/
def lineBreak (eol g : Bytes) : Prop :=
  eol = [10] ∨ eol = [13, 10] ∨ (eol = [13] ∧ g.head? ≠ some 10)

/-- Insignificant text between a comma and the next element of an array: spaces, tabs,
line breaks and comments that run to the end of their line, in any number and order. -/
inductive Gap : Bytes → Prop where
  | nil : Gap []
  | blank (c : Nat) (g : Bytes) : isSpace c = true → Gap g → Gap (c :: g)
  | line (text eol g : Bytes) : lineText text → lineBreak eol g → Gap g →
      Gap (text ++ (eol ++ g))

/-- The text of the elements of an array of strings after the first: for each, optional
blanks, a comma, a gap, and the quoted string. -/
def strItems : List (Bytes × Bytes × Bytes) → Bytes
  | [] => []
  | (b, g, v) :: rest => b ++ 44 :: (g ++ 34 :: (v ++ 34 :: strItems rest))

/-- A run of spaces and tabs. -/
def blanks (b : Bytes) : Prop := ∀ c ∈ b, isSpace c = true

/-- A key of a pair line: bytes that `scanName` reads through, the first of them not
`#`, `/` or `-`. -/
def keyName (nm : Bytes) : Prop :=
  (∀ c ∈ nm, nameByte c = true) ∧ ∃ c cs, nm = c :: cs ∧ c ≠ 35 ∧ c ≠ 47 ∧ c ≠ 45

/-- The text of pair lines: for each, the indentation, the key, a colon and a space, the
text of the value, and a line feed. -/
def pairLines : List (Bytes × (Bytes × Field)) → Bytes
  | [] => []
  | (ind, (key, f)) :: rest => ind ++ (key ++ 58 :: 32 :: (f.text ++ 10 :: pairLines rest))

/-- A pair line that the statements below range over: blanks as indentation, a key, and a
value that is a string without escapes, an integer, or a non-empty array of them. -/
def pairLine (l : Bytes × (Bytes × Field)) : Prop :=
  blanks l.1 ∧ keyName l.2.1 ∧ l.2.2.ok

/-- A step budget that is enough for the lines. -/
def linesFuel (lines : List (Bytes × (Bytes × Field))) : Nat :=
  lines.length + (lines.map fun l => l.2.2.cost).sum + 2

/-- What ends a section: blanks up to the end of the input, or blanks and a line feed. -/
def blankTail (tl : Bytes) : Prop :=
  ∃ b r, blanks b ∧ (tl = b ∨ tl = b ++ 10 :: r)

/-- The text of the groups of a section list: for each group a `-` and its pair
lines; the indentation of the first line of a group stands between the `-` and the key. -/
def dashGroups : List (List (Bytes × (Bytes × Field))) → Bytes
  | [] => []
  | g :: gs => 45 :: (pairLines g ++ dashGroups gs)


/-! ## Sequencing lemmas -/

@[simp] theorem Res.bind_ok {α β : Type} (a : α) (f : α → Res β) : (Res.ok a).bind f = f a := rfl

@[simp] theorem Res.bind_fault {α β : Type} (f : α → Res β) :
    (Res.fault : Res α).bind f = Res.fault := rfl

@[simp] theorem Res.bind_timeout {α β : Type} (f : α → Res β) :
    (Res.timeout : Res α).bind f = Res.timeout := rfl

/-- Evaluation order for `simp`: the first part of a sequence is simplified before its
continuation is looked at. -/
@[congr] theorem Res.bind_congr {α β : Type} {r r' : Res α} (f : α → Res β) (h : r = r') :
    r.bind f = r'.bind f := by rw [h]

/-! ## Parse: what it returns when the scan panics -/

/-- C3: on the two-byte input `a:` the value scan indexes past the end of the buffer, and
Parse returns a nil node together with the error `parse RJ failed`, whatever the step
budget from two on. -/
theorem Parse_fault_returns_nil_node (L : Lib) (n : Nat) :
    Parse L (n + 3) (str "a:") = some (none, some (str "parse RJ failed")) := by
  simp [str, Parse, scan, newScanner, scanner.skip, skipLoop, scanner.isComment,
    scanner.byteAt, scanPair, scanner.scanName, scanNameLoop, isSpace, isLineEnd, slice,
    scanner.skipSpace, skipSpaceLoop, scanValue, parseFailed]

/-- C5: whenever the scan of an input panics, Parse returns normally, with the error whose
message is exactly `parse RJ failed`. -/
theorem Parse_recovers_fault (L : Lib) (fuel : Nat) (input : Bytes)
    (h : scan L fuel (newScanner input) = Res.fault) :
    ∃ node, Parse L fuel input = some (node, some (str "parse RJ failed")) := by
  refine ⟨none, ?_⟩
  simp [Parse, h, parseFailed]

/-- C5, witness: the scan of `a:` panics. -/
theorem Parse_recovers_fault_witness :
    ∃ node, Parse ⟨fun _ => none, fun _ _ => .error [], fun _ => [], fun _ => [], fun _ => [],
        fun r => r, fun _ => false, fun _ => false, fun _ => false, fun _ => false⟩
      3 (str "a:") = some (node, some (str "parse RJ failed")) :=
  Parse_recovers_fault _ 3 (str "a:") (by
    simp [str, scan, newScanner, scanner.skip, skipLoop, scanner.isComment,
      scanner.byteAt, scanPair, scanner.scanName, scanNameLoop, isSpace, isLineEnd, slice,
      scanner.skipSpace, skipSpaceLoop, scanValue])


/-! ## Parse: a section body that ends on a non-blank byte -/

/-- In the buffer `[A]`, line feed, `ab`, the loop of `scanSingleNode` makes no progress once
the offset is on one of the last two bytes: no step budget is enough. -/
theorem scanSingleNode_stalls (L : Lib) (n : Nat) :
    ∀ (s : scanner) (node : Node), s.data = str "[A]\nab" → s.len = 6 →
      (s.offset = 4 ∨ s.offset = 5) → scanSingleNode L n s node = Res.timeout := by
  induction n with
  | zero => intro s node _ _ _; rfl
  | succ m ih =>
    intro s node hd hl ho
    cases m with
    | zero =>
      rcases ho with ho | ho <;>
      simp [str, scanSingleNode, scanner.isBlankLine, isBlankLineLoop, scanner.isComment, hd, hl,
        ho, isLineEnd, isSpace, scanLine, scanner.skipSpace, skipSpaceLoop, scanPair] at *
    | succ k =>
      have step : ∀ (s1 : scanner) (nd : Node), s1.data = str "[A]\nab" → s1.len = 6 →
          s1.offset = 5 → scanSingleNode L (k + 1) s1 nd = Res.timeout :=
        fun s1 nd h1 h2 h3 => ih s1 nd h1 h2 (Or.inr h3)
      rcases ho with ho | ho <;>
      · rw [scanSingleNode]
        simp [str, scanner.isBlankLine, isBlankLineLoop, scanner.isComment, hd, hl,
          ho, isLineEnd, isSpace, scanLine, scanner.skipSpace, skipSpaceLoop, scanPair,
          scanner.scanName, scanNameLoop, scanner.addErrorMsg, scanner.skipRestOfLine,
          scanner.skipUntil, skipUntilLoop, scanner.skipLineEnd] at *
        apply step <;> simp [str, hd, hl]

/-- C4: Parse does not terminate on the six-byte buffer `[A]`, line feed, `ab`: whatever the
step budget, the scan is still running when it is used up. -/
theorem Parse_diverges_in_section_body (L : Lib) (fuel : Nat) :
    Parse L fuel (str "[A]\nab") = none := by
  cases fuel with
  | zero => rfl
  | succ n =>
    have h := scanSingleNode_stalls L n
      { data := str "[A]\nab", len := 6, offset := 4, root := NewNode, error := none,
        state := .scanOk, line := 2 } NewNode rfl rfl (Or.inl rfl)
    simp [str] at h
    simp [str, Parse, scan, newScanner, scanner.skip, skipLoop, scanner.isComment,
      scanner.byteAt, scanNode, scanner.scanName, scanNameLoop, isSpace, isLineEnd, slice,
      scanner.skipRestOfLine, scanner.skipUntil, skipUntilLoop, scanner.skipLineEnd, h]

/-! ## Parse on documents with a malformed construct -/

/-- C6: in this document the first pair line holds a quoted string with the valid escape
`\n` followed by the invalid escape `\c`; Parse reports the invalid escape, and yet the root
holds the Integer 1 under the key `k` of the failed pair: the scan of the string wrote the
decoded line feed into the buffer, and the rest of the string was then read as a new line. -/
theorem Parse_failed_pair_key_present (L : Lib) (n : Nat) :
    Parse L (n + 8)
        (str "k: \"\\nk:1,\\c\"\narray: [\"a\",\"b\"]\n\n[ANode]\nname: \"Anna\"") =
      some (some [(str "k", .int 1), (str "array", .strArr [str "a", str "b"]),
                  (str "ANode", .node [(str "name", .str (str "Anna"))])],
            some (str "invalid escape, name: k")) := by
  simp [str, Parse, scan, newScanner, scanner.skip, skipLoop, scanner.isComment,
    scanner.byteAt, scanPair, scanner.scanName, scanNameLoop, isSpace, isLineEnd, slice,
    scanner.skipSpace, skipSpaceLoop, scanValue, scanner.scanNumber, scanner.scanRaw,
    scanRawLoop, trimSpace,
    trimLeftN, trimRightN, spaceWidth, spaceWidthRev, isTrimSpace, atoi, digitsVal, isDigit, Node.set,
    scanner.skipRestOfLine, scanner.skipUntil, skipUntilLoop, scanner.skipLineEnd, NewNode,
    scanner.scanQuotedString, scanQuotedLoop, strResult, RuneSelf, scanner.addErrorMsg,
    invalidEscape, appendRet, writeAt, scanArray, scanner.skipRestOfArrayItem,
    skipRestOfArrayItemLoop, strArrLoop, scanner.scanString, scanNode, scanSingleNode,
    scanLine, scanner.isBlankLine, isBlankLineLoop]

/-- C7: the array literal of this document has a malformed second element, and Parse
returns no error at all: the pair stores null under its key. -/
theorem Parse_malformed_array_no_error (L : Lib) (n : Nat) :
    Parse L (n + 5) (str "a: [1,x]\n") = some (some [(str "a", .null)], none) := by
  simp [str, Parse, scan, newScanner, scanner.skip, skipLoop, scanner.isComment,
    scanner.byteAt, scanPair, scanner.scanName, scanNameLoop, isSpace, isLineEnd, slice,
    scanner.skipSpace, skipSpaceLoop, scanValue, scanner.scanNumber, scanner.scanRaw,
    scanRawLoop, trimSpace,
    trimLeftN, trimRightN, spaceWidth, spaceWidthRev, isTrimSpace, atoi, digitsVal, isDigit, Node.set,
    scanner.skipRestOfLine, scanner.skipUntil, skipUntilLoop, scanner.skipLineEnd, NewNode,
    scanArray, scanner.skipRestOfArrayItem, skipRestOfArrayItemLoop, intArrLoop,
    scanner.arrayERR, scanner.skipUntilChar, findLoop]

/-- C8: the document `k: true` with a line feed yields the error `invalid bool value` and
stores nothing, because `scanExact` compares with the first bytes of the buffer; and the
document `rue: truex` yields no error and stores true. -/
theorem Parse_bool_literal (L : Lib) (n : Nat) :
    Parse L (n + 3) (str "k: true\n") =
        some (some [], some (str "invalid bool value, name: k")) ∧
    Parse L (n + 3) (str "rue: truex\n") = some (some [(str "rue", .bool true)], none) := by
  constructor <;>
  simp [str, Parse, scan, newScanner, scanner.skip, skipLoop, scanner.isComment,
    scanner.byteAt, scanPair, scanner.scanName, scanNameLoop, isSpace, isLineEnd, slice,
    scanner.skipSpace, skipSpaceLoop, scanValue, Node.set,
    scanner.skipRestOfLine, scanner.skipUntil, skipUntilLoop, scanner.skipLineEnd, NewNode,
    scanner.scanLiteral, scanner.scanExact, scanExactLoop, scanner.addErrorMsg,
    invalidBoolValue]

/-- C9: on the literal made of a quote, the escape backslash slash and a quote,
`scanQuotedString` succeeds with the one-byte string that holds a backslash, not a slash:
the escape appends the byte at index `i`, which is the backslash itself. -/
theorem scanQuotedString_literal_escape :
    scanner.scanQuotedString (newScanner (str "\"\\/\"")) =
      Res.ok ({ newScanner (str "\"\\/\"") with offset := 4 }, Except.ok [92]) := by
  simp [str, scanner.scanQuotedString, scanQuotedLoop, newScanner, appendRet, writeAt, slice]


/-! ## Reading the buffer at the cursor -/

/-- What `drop` tells about the byte at an index. -/
theorem getElem?_of_drop {d : Bytes} {i c : Nat} {t : Bytes} (h : d.drop i = c :: t) :
    d[i]? = some c := by
  have := List.getElem?_drop (L := d) (i := i) (j := 0)
  rw [h] at this
  simpa using this.symm

theorem lt_length_of_drop {d : Bytes} {i c : Nat} {t : Bytes} (h : d.drop i = c :: t) :
    i < d.length := by
  by_contra hn
  rw [List.drop_eq_nil_of_le (by omega)] at h
  cases h

theorem drop_succ_of_drop {d : Bytes} {i c : Nat} {t : Bytes} (h : d.drop i = c :: t) :
    d.drop (i + 1) = t := by
  have : d.drop (i + 1) = (d.drop i).drop 1 := by rw [List.drop_drop]
  rw [this, h]; rfl

theorem drop_add_of_drop {d : Bytes} {i : Nat} (a t : Bytes) (h : d.drop i = a ++ t) :
    d.drop (i + a.length) = t := by
  have : d.drop (i + a.length) = (d.drop i).drop a.length := by
    rw [List.drop_drop]
  rw [this, h, List.drop_left]

theorem length_of_drop_nil {d : Bytes} {i : Nat} (h : d.drop i = []) : d.length ≤ i := by
  simpa using h

/-- The slice from `lo` to `lo + a.length` when `a` stands at `lo`. -/
theorem slice_of_drop {d : Bytes} {lo : Nat} (a t : Bytes) (h : d.drop lo = a ++ t) :
    slice d lo (lo + a.length) = a := by
  simp [slice, h]

theorem drop_set_of_lt (d : Bytes) (w i x : Nat) (h : w < i) :
    (d.set w x).drop i = d.drop i := by
  exact List.drop_set_of_lt _ _ h


/-! ## scanQuotedString on control escapes -/

theorem length_slice_le {d : Bytes} {lo hi : Nat} (h : hi ≤ d.length) :
    (slice d lo hi).length = hi - lo := by
  simp [slice]; omega

theorem slice_succ {d : Bytes} {lo i c : Nat} {t : Bytes} (hlo : lo ≤ i)
    (h : d.drop i = c :: t) : slice d lo (i + 1) = slice d lo i ++ [c] := by
  have hi : i < d.length := lt_length_of_drop h
  have hg : d[i]? = some c := getElem?_of_drop h
  have hc : d[i] = c := by
    have := List.getElem?_eq_getElem hi
    rw [this] at hg; exact Option.some.inj hg
  unfold slice
  have e1 : i + 1 - lo = (i - lo) + 1 := by omega
  rw [e1, List.take_succ]
  congr 1
  rw [List.getElem?_drop]
  have : lo + (i - lo) = i := by omega
  rw [this, hg]; rfl

/-- The loop of `scanQuotedString` across a body of plain bytes and control escapes: it
reaches the index after the body with the string extended by the value of the body; the
buffer may have changed below that index only. -/
theorem scanQuotedLoop_pieces (ps : List Piece) (hps : ∀ p ∈ ps, p.ok) :
    ∀ (n : Nat) (s : scanner) (i : Nat) (ret : Option Bytes) (rest : Bytes),
      s.len = s.data.length → s.data.drop i = bodySrc ps ++ rest → s.offset ≤ i →
      (∀ r, ret = some r → s.offset + r.length ≤ i) →
      ∃ (d : Bytes) (ret' : Option Bytes),
        scanQuotedLoop (n + ps.length) s i ret =
          scanQuotedLoop n { s with data := d } (i + (bodySrc ps).length) ret' ∧
        d.length = s.data.length ∧ d.drop (i + (bodySrc ps).length) = rest ∧
        (∀ r, ret' = some r → s.offset + r.length ≤ i + (bodySrc ps).length) ∧
        quotedAcc d s.offset (i + (bodySrc ps).length) ret' =
          quotedAcc s.data s.offset i ret ++ bodyVal ps := by
  induction ps with
  | nil =>
    intro n s i ret rest hl hd ho hr
    exact ⟨s.data, ret, by simp [bodySrc], rfl, by simpa [bodySrc] using hd,
      by simpa [bodySrc] using hr, by simp [bodySrc, bodyVal]⟩
  | cons p ps ih =>
    intro n s i ret rest hl hd ho hr
    have hps' : ∀ q ∈ ps, q.ok := fun q hq => hps q (List.mem_cons_of_mem _ hq)
    have hp : p.ok := hps p (List.mem_cons_self _ _)
    cases p with
    | plain c =>
      simp only [bodySrc, List.cons_append] at hd
      obtain ⟨hc1, hc2, hc3⟩ := hp
      have hg := getElem?_of_drop hd
      have hlt : i < s.len := hl ▸ lt_length_of_drop hd
      have hd1 := drop_succ_of_drop hd
      cases ret with
      | none =>
        obtain ⟨d, ret', h1, h2, h3, h4, h5⟩ :=
          ih hps' n s (i + 1) none rest hl hd1 (by omega) (by intro r hr'; cases hr')
        refine ⟨d, ret', ?_, h2, ?_, ?_, ?_⟩
        · rw [show n + (Piece.plain c :: ps).length = (n + ps.length) + 1 by simp; omega]
          rw [scanQuotedLoop]
          simp only [hlt, hg, hc2, hc3, RuneSelf, hc1, if_true, if_false]
          rw [h1]
          simp [bodySrc]; congr 1; omega
        · simpa [bodySrc, Nat.add_assoc, Nat.add_comm 1] using h3
        · intro r hr'; have := h4 r hr'; simp [bodySrc]; omega
        · have e : i + (bodySrc (Piece.plain c :: ps)).length = i + 1 + (bodySrc ps).length := by
            simp [bodySrc]; omega
          rw [e, h5]
          simp [quotedAcc, bodyVal, slice_succ ho hd]
      | some r =>
        have hw : s.offset + r.length ≤ i := hr r rfl
        have hd1' : ({ s with data := s.data.set (s.offset + r.length) c } : scanner).data.drop
            (i + 1) = bodySrc ps ++ rest := by
          simp only []
          rw [drop_set_of_lt _ _ _ _ (by omega)]; exact hd1
        obtain ⟨d, ret', h1, h2, h3, h4, h5⟩ :=
          ih hps' n { s with data := s.data.set (s.offset + r.length) c } (i + 1)
            (some (r ++ [c])) rest (by simp [hl]) hd1' (by simp; omega)
            (by intro r' hr'; cases hr'; simp; omega)
        refine ⟨d, ret', ?_, by simpa using h2, ?_, ?_, ?_⟩
        · rw [show n + (Piece.plain c :: ps).length = (n + ps.length) + 1 by simp; omega]
          rw [scanQuotedLoop]
          simp only [hlt, hg, hc2, hc3, RuneSelf, hc1, if_true, if_false, appendRet, writeAt]
          rw [h1]
          simp [bodySrc]; congr 1; omega
        · simpa [bodySrc, Nat.add_assoc, Nat.add_comm 1] using h3
        · intro r' hr'; have := h4 r' hr'; simp [bodySrc] at this ⊢; omega
        · have e : i + (bodySrc (Piece.plain c :: ps)).length = i + 1 + (bodySrc ps).length := by
            simp [bodySrc]; omega
          rw [e]
          simp only [] at h5
          rw [h5]
          simp [quotedAcc, bodyVal]
    | esc e =>
      simp only [bodySrc, List.cons_append] at hd
      have hg := getElem?_of_drop hd
      have hlt : i < s.len := hl ▸ lt_length_of_drop hd
      have hd1 := drop_succ_of_drop hd
      have hg1 := getElem?_of_drop hd1
      have hlt1 : i + 1 < s.len := hl ▸ lt_length_of_drop hd1
      have hd2 := drop_succ_of_drop hd1
      have hne : ¬ (i + 1 = s.len) := by omega
      have hacc : s.offset + (quotedAcc s.data s.offset i ret).length ≤ i := by
        cases ret with
        | none => simp only [quotedAcc]; rw [length_slice_le (by omega)]; omega
        | some r => exact hr r rfl
      have hd2' : ∀ x, (s.data.set (s.offset + (quotedAcc s.data s.offset i ret).length) x).drop
            (i + 1 + 1) = bodySrc ps ++ rest := by
        intro x
        rw [drop_set_of_lt _ _ _ _ (by omega)]; exact hd2
      obtain ⟨d, ret', h1, h2, h3, h4, h5⟩ :=
        ih hps' n
          { s with data := (s.data.set (s.offset + (quotedAcc s.data s.offset i ret).length) (ctrl e)) }
          (i + 1 + 1)
          (some (quotedAcc s.data s.offset i ret ++ [ctrl e])) rest (by simp [hl]) (hd2' _)
          (by simp; omega) (by intro r' hr'; cases hr'; simp; omega)
      have e1 : i + (bodySrc (Piece.esc e :: ps)).length = i + 1 + 1 + (bodySrc ps).length := by
        simp [bodySrc]; omega
      refine ⟨d, ret', ?_, by simpa using h2, ?_, ?_, ?_⟩
      · rw [show n + (Piece.esc e :: ps).length = (n + ps.length) + 1 by simp; omega]
        rw [e1, ← h1]
        cases ret <;>
        · rw [scanQuotedLoop]
          simp only [hlt, hg, hg1, hne, if_true, if_false, appendRet, writeAt, quotedAcc]
          rcases hp with h | h | h | h | h <;> subst h <;> simp [ctrl]
      · rw [e1]; exact h3
      · intro r' hr'; have := h4 r' hr'; simp only [] at this; omega
      · rw [e1]
        simp only [] at h5
        rw [h5]
        simp [quotedAcc, bodyVal]


theorem length_le_bodySrc (ps : List Piece) : ps.length ≤ (bodySrc ps).length := by
  induction ps with
  | nil => simp [bodySrc]
  | cons p ps ih => cases p <;> simp [bodySrc] <;> omega

/-- C10: on a quoted literal whose body is made of ASCII bytes other than the quote and the
backslash and of the escapes for backspace, form feed, line feed, carriage return and tab,
`scanQuotedString` returns the body with every escape replaced by its control character and
leaves the offset just past the closing quote; when the buffer ends after the body it fails
with `invalid string value`, and when it ends with a backslash after the body it fails with
`invalid escape`. -/
theorem scanQuotedString_control_escapes (ps : List Piece) (hps : ∀ p ∈ ps, p.ok)
    (s : scanner) (pre post : Bytes) (hl : s.len = s.data.length)
    (ho : s.offset = pre.length) :
    (s.data = pre ++ 34 :: (bodySrc ps ++ 34 :: post) →
      ∃ d, d.length = s.data.length ∧
        s.scanQuotedString =
          Res.ok ({ s with data := d, offset := pre.length + (bodySrc ps).length + 2 },
                  Except.ok (bodyVal ps))) ∧
    (s.data = pre ++ 34 :: bodySrc ps →
      ∃ d, s.scanQuotedString =
        Res.ok ({ s with data := d, offset := pre.length + 1 },
                Except.error invalidStringValue)) ∧
    (s.data = pre ++ 34 :: (bodySrc ps ++ [92]) →
      ∃ d, s.scanQuotedString =
        Res.ok ({ s with data := d, offset := pre.length + 1 }, Except.error invalidEscape)) := by
  have hlen := length_le_bodySrc ps
  have key : ∀ rest, s.data = pre ++ 34 :: (bodySrc ps ++ rest) →
      ∃ d ret' m, s.scanQuotedString =
          scanQuotedLoop (m + 1) { s with data := d, offset := pre.length + 1 }
            (pre.length + 1 + (bodySrc ps).length) ret' ∧
        d.length = s.data.length ∧ d.drop (pre.length + 1 + (bodySrc ps).length) = rest ∧
        quotedAcc d (pre.length + 1) (pre.length + 1 + (bodySrc ps).length) ret' =
          bodyVal ps := by
    intro rest hd
    have hdrop : ({ s with offset := s.offset + 1 } : scanner).data.drop (s.offset + 1)
        = bodySrc ps ++ rest := by
      have h0 : s.data.drop (0 + pre.length) = 34 :: (bodySrc ps ++ rest) :=
        drop_add_of_drop pre _ (by simpa using hd)
      rw [Nat.zero_add] at h0
      simpa [ho] using drop_succ_of_drop h0
    have hfuel : s.len + 1 = (s.len - ps.length) + 1 + ps.length := by
      have : (bodySrc ps).length ≤ s.len := by rw [hl, hd]; simp; omega
      omega
    obtain ⟨d, ret', h1, h2, h3, _, h5⟩ :=
      scanQuotedLoop_pieces ps hps (s.len - ps.length + 1) { s with offset := s.offset + 1 }
        (s.offset + 1) none rest hl hdrop (Nat.le_refl _) (by intro r hr; cases hr)
    refine ⟨d, ret', s.len - ps.length, ?_, h2, ?_, ?_⟩
    · unfold scanner.scanQuotedString
      rw [hfuel, h1, ho]
    · rw [← ho]; exact h3
    · simp only [] at h5
      rw [← ho, h5]
      simp [quotedAcc, slice]
  refine ⟨?_, ?_, ?_⟩
  · intro hd
    obtain ⟨d, ret', m, h1, h2, h3, h4⟩ := key (34 :: post) hd
    refine ⟨d, h2, ?_⟩
    rw [h1]
    have hg := getElem?_of_drop h3
    have hlt : pre.length + 1 + (bodySrc ps).length < s.len := by
      rw [hl, ← h2]; exact lt_length_of_drop h3
    cases ret' <;>
    · rw [scanQuotedLoop]
      simp only [hlt, hg, if_true]
      simp only [quotedAcc] at h4
      simp [h4]; omega
  · intro hd
    obtain ⟨d, ret', m, h1, h2, h3, _⟩ := key [] (by simpa using hd)
    refine ⟨d, ?_⟩
    rw [h1]
    have hlt : ¬ pre.length + 1 + (bodySrc ps).length < s.len := by
      have := length_of_drop_nil h3
      rw [hl, ← h2]; omega
    cases ret' <;>
    · rw [scanQuotedLoop]
      simp only [hlt, if_false]
  · intro hd
    obtain ⟨d, ret', m, h1, h2, h3, _⟩ := key [92] hd
    refine ⟨d, ?_⟩
    rw [h1]
    have hg := getElem?_of_drop h3
    have hlt : pre.length + 1 + (bodySrc ps).length < s.len := by
      rw [hl, ← h2]; exact lt_length_of_drop h3
    have hend : pre.length + 1 + (bodySrc ps).length + 1 = s.len := by
      have := length_of_drop_nil (drop_succ_of_drop h3)
      rw [hl, ← h2]; rw [hl, ← h2] at hlt; omega
    cases ret' <;>
    · rw [scanQuotedLoop]
      simp [hlt, hg, hend]

/-- C10, witness: the literal of the bytes quote, `a`, backslash, `n`, quote. -/
theorem scanQuotedString_control_escapes_witness :
    ∃ d, d.length = 5 ∧
      scanner.scanQuotedString (newScanner [34, 97, 92, 110, 34]) =
        Res.ok ({ newScanner [34, 97, 92, 110, 34] with data := d, offset := 5 },
                Except.ok [97, 10]) :=
  (scanQuotedString_control_escapes [.plain 97, .esc 110]
    (by intro p hp; simp at hp; rcases hp with h | h <;> subst h <;> simp [Piece.ok])
    (newScanner [34, 97, 92, 110, 34]) [] [] rfl rfl).1 rfl


/-! ## The scanner's steps on a buffer described at the offset -/

theorem isComment_eq_false (s : scanner) {c : Nat} {t : Bytes}
    (hd : s.data.drop s.offset = c :: t) (h1 : c ≠ 35) (h2 : c ≠ 47) :
    s.isComment = Res.ok false := by
  simp [scanner.isComment, getElem?_of_drop hd, h1, h2]

theorem skipLoop_id (s : scanner) {c : Nat} {t : Bytes} (n : Nat)
    (hd : s.data.drop s.offset = c :: t) (h1 : c ≠ 35) (h2 : c ≠ 47)
    (h3 : isLineEnd c = false) (h4 : isSpace c = false) :
    skipLoop (n + 1) s = Res.ok s := by
  rw [skipLoop]
  simp [getElem?_of_drop hd, isComment_eq_false s hd h1 h2, h3, h4]

theorem skip_id (s : scanner) {c : Nat} {t : Bytes}
    (hd : s.data.drop s.offset = c :: t) (h1 : c ≠ 35) (h2 : c ≠ 47)
    (h3 : isLineEnd c = false) (h4 : isSpace c = false) :
    s.skip = Res.ok s :=
  skipLoop_id s s.len hd h1 h2 h3 h4

theorem scanNameLoop_ok (s : scanner) (hl : s.len = s.data.length) :
    ∀ (suf : Bytes) (n i : Nat) (t : Bytes), (∀ c ∈ suf, nameByte c = true) →
      s.data.drop i = suf ++ 58 :: t →
      scanNameLoop s (n + suf.length + 1) i =
        Res.ok ({ s with offset := i + suf.length + 1 }, slice s.data s.offset (i + suf.length)) := by
  intro suf
  induction suf with
  | nil =>
    intro n i t _ hd
    have hd' : s.data.drop i = 58 :: t := by simpa using hd
    have hlt : i < s.len := hl ▸ lt_length_of_drop hd'
    rw [show n + ([] : Bytes).length + 1 = n + 1 by simp, scanNameLoop]
    simp [getElem?_of_drop hd', hlt]
  | cons c suf ih =>
    intro n i t hs hd
    have hd' : s.data.drop i = c :: (suf ++ 58 :: t) := by simpa using hd
    have hc : nameByte c = true := hs c (List.mem_cons_self _ _)
    simp only [nameByte, Bool.not_eq_true', Bool.or_eq_false_iff] at hc
    obtain ⟨⟨⟨hc1, hc2⟩, hc3⟩, hc4⟩ := hc
    have hlt : i < s.len := hl ▸ lt_length_of_drop hd'
    rw [show n + (c :: suf).length + 1 = (n + suf.length + 1) + 1 by simp; omega, scanNameLoop]
    simp only [getElem?_of_drop hd', hlt, if_true, hc1, hc2, hc3, hc4,
      Bool.or_self, Bool.false_eq_true, if_false]
    rw [ih n (i + 1) t (fun c hc => hs c (List.mem_cons_of_mem _ hc)) (drop_succ_of_drop hd')]
    simp [Nat.add_assoc, Nat.add_comm 1]

theorem length_of_drop_append {d : Bytes} {i : Nat} {a t : Bytes} (h : d.drop i = a ++ t) :
    i + a.length + t.length = d.length ∨ (a = [] ∧ t = []) := by
  by_cases hi : i ≤ d.length
  · left
    have := congrArg List.length h
    simp at this; omega
  · right
    rw [List.drop_eq_nil_of_le (by omega)] at h
    simpa using h.symm

theorem scanName_ok (s : scanner) (hl : s.len = s.data.length) (nm t : Bytes)
    (hs : ∀ c ∈ nm, nameByte c = true) (hd : s.data.drop s.offset = nm ++ 58 :: t) :
    s.scanName = Res.ok ({ s with offset := s.offset + nm.length + 1 }, nm) := by
  have hlen : nm.length < s.len := by
    have := congrArg List.length hd
    simp at this; omega
  unfold scanner.scanName
  rw [show s.len + 1 = (s.len - nm.length) + nm.length + 1 by omega,
    scanNameLoop_ok s hl nm _ _ t hs hd, slice_of_drop nm _ hd]

theorem skipSpace_one (s : scanner) (hl : s.len = s.data.length) {c : Nat} {t : Bytes}
    (hd : s.data.drop s.offset = 32 :: c :: t) (hc : isSpace c = false) :
    s.skipSpace = Res.ok { s with offset := s.offset + 1 } := by
  have h0 := getElem?_of_drop hd
  have hd1 := drop_succ_of_drop hd
  have h1 := getElem?_of_drop hd1
  have hlt1 : s.offset + 1 < s.len := hl ▸ lt_length_of_drop hd1
  have hlt0 : s.offset < s.len := hl ▸ lt_length_of_drop hd
  have hc' : ¬ (c = 32 ∨ c = 9) := by simpa [isSpace] using hc
  unfold scanner.skipSpace
  rw [show s.len + 1 = (s.len - 1) + 1 + 1 by omega, skipSpaceLoop]
  simp only [hlt0, if_true, h0]
  rw [skipSpaceLoop]
  simp [hlt1, h1, hc', isSpace]

theorem skipRestOfLine_lf (s : scanner) (hl : s.len = s.data.length) {t : Bytes}
    (hd : s.data.drop s.offset = 10 :: t) :
    s.skipRestOfLine =
      Res.ok (if t = [] then s else { s with offset := s.offset + 1, line := s.line + 1 }) := by
  have h0 := getElem?_of_drop hd
  have hlt0 := lt_length_of_drop hd
  have hd1 := drop_succ_of_drop hd
  unfold scanner.skipRestOfLine scanner.skipUntil
  rw [skipUntilLoop]
  by_cases ht : t = []
  · subst ht
    have := length_of_drop_nil hd1
    have hlast : ¬ (s.offset + 1 < s.len) := by omega
    simp [hlast, scanner.skipLineEnd]
  · have hlt1 : s.offset + 1 < s.len := by
      rcases List.exists_cons_of_ne_nil ht with ⟨c, t', rfl⟩
      rw [hl]; exact lt_length_of_drop hd1
    simp [hlt1, h0, isLineEnd, scanner.skipLineEnd, ht]


/-! ## Strings that need no escape -/

/-- `DecodeRune` reads only the bytes of the encoding it returns. -/
theorem DecodeRune_append (u t : Bytes) (h2 : 2 ≤ u.length)
    (hw : (DecodeRune u).2 = u.length) : DecodeRune (u ++ t) = DecodeRune u := by
  rcases u with _ | ⟨p0, _ | ⟨b1, _ | ⟨b2, _ | ⟨b3, _ | ⟨b4, u⟩⟩⟩⟩⟩
  · simp at h2
  · simp at h2
  · by_cases h1 : p0 < 128
    · simp [DecodeRune, h1] at hw
    by_cases h2 : p0 < 194
    · simp [DecodeRune, h1, h2] at hw
    by_cases h3 : p0 < 224
    · simp only [DecodeRune, h1, h2, h3, if_true, if_false, List.cons_append, List.nil_append]
    by_cases h4 : p0 < 240
    · simp [DecodeRune, h1, h2, h3, h4] at hw
    by_cases h5 : p0 < 245
    · simp [DecodeRune, h1, h2, h3, h4, h5] at hw
    · simp [DecodeRune, h1, h2, h3, h4, h5] at hw
  · by_cases h1 : p0 < 128
    · simp [DecodeRune, h1] at hw
    by_cases h2 : p0 < 194
    · simp [DecodeRune, h1, h2] at hw
    by_cases h3 : p0 < 224
    · simp only [DecodeRune, h1, h2, h3, if_true, if_false, List.cons_append, List.nil_append]
    by_cases h4 : p0 < 240
    · simp only [DecodeRune, h1, h2, h3, h4, if_true, if_false, List.cons_append,
        List.nil_append]
    by_cases h5 : p0 < 245
    · simp [DecodeRune, h1, h2, h3, h4, h5] at hw
    · simp [DecodeRune, h1, h2, h3, h4, h5] at hw
  · by_cases h1 : p0 < 128
    · simp [DecodeRune, h1] at hw
    by_cases h2 : p0 < 194
    · simp [DecodeRune, h1, h2] at hw
    by_cases h3 : p0 < 224
    · simp only [DecodeRune, h1, h2, h3, if_true, if_false, List.cons_append, List.nil_append]
    by_cases h4 : p0 < 240
    · simp only [DecodeRune, h1, h2, h3, h4, if_true, if_false, List.cons_append,
        List.nil_append]
    by_cases h5 : p0 < 245
    · simp only [DecodeRune, h1, h2, h3, h4, h5, if_true, if_false, List.cons_append,
        List.nil_append]
    · simp [DecodeRune, h1, h2, h3, h4, h5] at hw
  · exfalso
    by_cases h1 : p0 < 128
    · simp [DecodeRune, h1] at hw
    by_cases h2 : p0 < 194
    · simp [DecodeRune, h1, h2] at hw
    by_cases h3 : p0 < 224
    · simp only [DecodeRune, h1, h2, h3, if_true, if_false] at hw
      split_ifs at hw <;> simp at hw
    by_cases h4 : p0 < 240
    · simp only [DecodeRune, h1, h2, h3, h4, if_true, if_false] at hw
      split_ifs at hw <;> simp at hw
    by_cases h5 : p0 < 245
    · simp only [DecodeRune, h1, h2, h3, h4, h5, if_true, if_false] at hw
      split_ifs at hw <;> simp at hw
    · simp [DecodeRune, h1, h2, h3, h4, h5] at hw

theorem DecodeRune_head_ge (u : Bytes) (h2 : 2 ≤ u.length)
    (hw : (DecodeRune u).2 = u.length) : ∃ c t, u = c :: t ∧ 128 ≤ c := by
  rcases u with _ | ⟨p0, t⟩
  · simp at h2
  · refine ⟨p0, t, rfl, ?_⟩
    by_contra hlt
    have : p0 < 128 := by omega
    simp only [DecodeRune, this, if_true, List.length_cons] at hw h2
    omega


/-- The loop of `scanQuotedString` across units that need no escape, before any escape
has been seen: nothing changes but the index. -/
theorem scanQuotedLoop_units (s : scanner) (hl : s.len = s.data.length) :
    ∀ (units : List Bytes) (n i : Nat) (rest : Bytes), (∀ u ∈ units, unitOK u) →
      s.data.drop i = units.flatten ++ rest →
      scanQuotedLoop (n + units.length) s i none =
        scanQuotedLoop n s (i + units.flatten.length) none := by
  intro units
  induction units with
  | nil => intro n i rest _ _; simp
  | cons u units ih =>
    intro n i rest hu hd
    have hu' : ∀ v ∈ units, unitOK v := fun v hv => hu v (List.mem_cons_of_mem _ hv)
    have hd' : s.data.drop i = u ++ (units.flatten ++ rest) := by
      simpa [List.append_assoc] using hd
    have hnext := drop_add_of_drop u _ hd'
    have e : i + (u :: units).flatten.length = i + u.length + units.flatten.length := by
      simp; omega
    rw [show n + (u :: units).length = (n + units.length) + 1 by simp; omega, e,
      ← ih n (i + u.length) rest hu' hnext]
    rcases hu u (List.mem_cons_self _ _) with ⟨c, rfl, hc1, hc2, hc3⟩ | ⟨h2, hw, hr⟩
    · have hdc : s.data.drop i = c :: (units.flatten ++ rest) := by simpa using hd'
      have hlt : i < s.len := hl ▸ lt_length_of_drop hdc
      rw [scanQuotedLoop]
      simp [hlt, getElem?_of_drop hdc, hc1, hc2, hc3, RuneSelf]
    · obtain ⟨c, t, rfl, hc⟩ := DecodeRune_head_ge u h2 hw
      have hdc : s.data.drop i = c :: (t ++ (units.flatten ++ rest)) := by simpa using hd'
      have hlt : i < s.len := hl ▸ lt_length_of_drop hdc
      have hdec : DecodeRune (s.data.drop i) = DecodeRune (c :: t) := by
        rw [hd']; exact DecodeRune_append _ _ h2 hw
      have h34 : c ≠ 34 := by omega
      have h92 : c ≠ 92 := by omega
      have hge : ¬ c < 128 := by omega
      have hw1 : ¬ (c :: t).length = 1 := by omega
      rw [scanQuotedLoop]
      simp only [hlt, getElem?_of_drop hdc, h34, h92, RuneSelf, hge, if_true, if_false, hdec,
        hr, hw1, or_self, hw]

/-- On a quoted literal whose body needs no escape, `scanQuotedString` returns the body and
moves the offset just past the closing quote; the buffer is as it was. -/
theorem scanQuotedString_quotable (s : scanner) (hl : s.len = s.data.length) (v t : Bytes)
    (hv : Quotable v) (hd : s.data.drop s.offset = 34 :: (v ++ 34 :: t)) :
    s.scanQuotedString = Res.ok ({ s with offset := s.offset + v.length + 2 }, Except.ok v) := by
  obtain ⟨units, hu, rfl⟩ := hv
  have hd1 := drop_succ_of_drop hd
  have hq := drop_add_of_drop _ _ hd1
  have hlen : units.length + 1 ≤ s.len := by
    have h1 := lt_length_of_drop hq
    have h2 : units.length ≤ units.flatten.length := by
      clear hd hd1 hq h1
      induction units with
      | nil => simp
      | cons u us ih =>
        have hu1 : 1 ≤ u.length := by
          rcases hu u (List.mem_cons_self _ _) with ⟨c, rfl, _⟩ | ⟨h2, _⟩
          · simp
          · omega
        have := ih (fun v hv => hu v (List.mem_cons_of_mem _ hv))
        simp only [List.flatten_cons, List.length_append, List.length_cons]
        omega
    omega
  unfold scanner.scanQuotedString
  rw [show s.len + 1 = (s.len - units.length + 1) + units.length by omega]
  have := scanQuotedLoop_units { s with offset := s.offset + 1 } hl units
    (s.len - units.length + 1) (s.offset + 1) (34 :: t) hu hd1
  rw [this]
  have hlt : s.offset + 1 + units.flatten.length < s.len := hl ▸ lt_length_of_drop hq
  rw [scanQuotedLoop]
  simp only [hlt, if_true, getElem?_of_drop hq]
  have hs : slice s.data (s.offset + 1) (s.offset + 1 + units.flatten.length)
      = units.flatten := slice_of_drop _ _ hd1
  rw [hs]
  have e2 : s.offset + 1 + units.flatten.length + 1 = s.offset + units.flatten.length + 2 := by
    omega
  rw [e2]


/-! ## Integers: `AppendInt`, `scanRaw` and `atoi` -/

theorem natDigits_ne_nil (n : Nat) : natDigits n ≠ [] := by
  rw [natDigits]; split_ifs <;> simp

theorem natDigits_isDigit (n : Nat) : ∀ c ∈ natDigits n, 48 ≤ c ∧ c ≤ 57 := by
  induction n using Nat.strong_induction_on with
  | _ n ih =>
    rw [natDigits]
    split_ifs with h
    · intro c hc; simp at hc; omega
    · intro c hc
      simp only [List.mem_append, List.mem_singleton] at hc
      rcases hc with hc | hc
      · exact ih (n / 10) (by omega) c hc
      · omega

theorem digitsVal_append (a b : Bytes) (acc : Nat) :
    digitsVal (a ++ b) acc = (digitsVal a acc).bind (digitsVal b) := by
  induction a generalizing acc with
  | nil => simp [digitsVal]
  | cons c a ih =>
    simp only [List.cons_append, digitsVal]
    split_ifs
    · exact ih _
    · rfl

theorem digitsVal_natDigits (n : Nat) : digitsVal (natDigits n) 0 = some n := by
  induction n using Nat.strong_induction_on with
  | _ n ih =>
    rw [natDigits]
    split_ifs with h
    · simp [digitsVal, isDigit]; omega
    · rw [digitsVal_append, ih (n / 10) (by omega)]
      simp [digitsVal, isDigit]
      omega

/-- `strconv.Atoi` reads back what `strconv.AppendInt` writes for a 64-bit integer. -/
theorem atoi_AppendInt (a : Int) (h : isInt64 a) : atoi (AppendInt a) = some a := by
  obtain ⟨h1, h2⟩ := h
  unfold AppendInt
  split_ifs with hneg
  · have hne := natDigits_ne_nil a.natAbs
    have hv := digitsVal_natDigits a.natAbs
    have hle : a.natAbs ≤ 2 ^ 63 := by omega
    simp only [atoi, if_true]
    cases hds : natDigits a.natAbs with
    | nil => exact absurd hds hne
    | cons c cs =>
      rw [hds] at hv
      simp only [hv, hle, if_true]
      congr 1
      omega
  · have hne := natDigits_ne_nil a.natAbs
    have hv := digitsVal_natDigits a.natAbs
    have hdig := natDigits_isDigit a.natAbs
    have hlt : a.natAbs < 2 ^ 63 := by omega
    cases hds : natDigits a.natAbs with
    | nil => exact absurd hds hne
    | cons c cs =>
      rw [hds] at hv hdig
      have hc := hdig c (List.mem_cons_self _ _)
      have c1 : c ≠ 45 := by omega
      have c2 : c ≠ 43 := by omega
      simp only [atoi, c1, c2, if_false, hv, hlt, if_true]
      congr 1
      omega

theorem scanRawLoop_token (c : Nat) (t : Bytes) (hc : rawStop c = true) :
    ∀ (tok : Bytes) (n : Nat) (s : scanner), s.len = s.data.length →
      (∀ b ∈ tok, rawByte b = true) → s.data.drop s.offset = tok ++ c :: t →
      scanRawLoop (n + tok.length + 1) s =
        Res.ok ({ s with offset := s.offset + tok.length }, true) := by
  intro tok
  induction tok with
  | nil =>
    intro n s hl _ hd
    have hd' : s.data.drop s.offset = c :: t := by simpa using hd
    have hlt : s.offset < s.len := hl ▸ lt_length_of_drop hd'
    simp only [rawStop] at hc
    rw [show n + ([] : Bytes).length + 1 = n + 1 by simp, scanRawLoop]
    simp [hlt, getElem?_of_drop hd', hc]
  | cons b tok ih =>
    intro n s hl hb hd
    have hd' : s.data.drop s.offset = b :: (tok ++ c :: t) := by simpa using hd
    have hlt : s.offset < s.len := hl ▸ lt_length_of_drop hd'
    have hb1 := hb b (List.mem_cons_self _ _)
    simp only [rawByte, Bool.and_eq_true, decide_eq_true_eq, Bool.not_eq_true',
      Bool.or_eq_false_iff, beq_eq_false_iff_ne, ne_eq] at hb1
    obtain ⟨_, ⟨⟨⟨⟨⟨b1, b2⟩, b3⟩, b4⟩, b5⟩, b6⟩, _⟩ := hb1
    have hcm := isComment_eq_false s hd' b5 b6
    have hcond : (isLineEnd b || b == 44 || b == 93 || b == 125) = false := by
      simp [b1, b2, b3, b4]
    rw [show n + (b :: tok).length + 1 = (n + tok.length + 1) + 1 by simp; omega, scanRawLoop]
    simp only [hlt, if_true, getElem?_of_drop hd', hcond, hcm, Bool.false_eq_true, if_false]
    rw [ih n { s with offset := s.offset + 1 } hl
      (fun x hx => hb x (List.mem_cons_of_mem _ hx)) (drop_succ_of_drop hd')]
    simp [Nat.add_assoc, Nat.add_comm 1]

theorem spaceWidth_ascii (l : Bytes) (h : ∀ b ∈ l, isTrimSpace b = false ∧ b < 128) :
    spaceWidth l = 0 ∧ spaceWidthRev l = 0 := by
  cases l with
  | nil => simp [spaceWidth, spaceWidthRev]
  | cons x l =>
    obtain ⟨h1, h2⟩ := h x (List.mem_cons_self _ _)
    have e1 : (x == 194) = false := by simp; omega
    have e2 : (x == 225) = false := by simp; omega
    have e3 : (x == 226) = false := by simp; omega
    have e4 : (x == 227) = false := by simp; omega
    have e5 : (x == 133) = false := by simp; omega
    have e6 : (x == 160) = false := by simp; omega
    have e7 : (x == 128) = false := by simp; omega
    have e8 : (x == 159) = false := by simp; omega
    have e9 : (x == 168) = false := by simp; omega
    have e10 : (x == 169) = false := by simp; omega
    have e11 : (x == 175) = false := by simp; omega
    have e12 : decide (128 ≤ x) = false := by simp; omega
    constructor
    · simp [spaceWidth, h1, e1, e2, e3, e4]
    · simp [spaceWidthRev, h1, e5, e6, e7, e8, e9, e10, e11, e12]

/-- A token of ASCII bytes that are no white space is left as it is by `TrimSpace`. -/
theorem trimSpace_id (tok : Bytes) (h : ∀ b ∈ tok, isTrimSpace b = false ∧ b < 128) :
    trimSpace tok = tok := by
  have hleft : ∀ (n : Nat) (l : Bytes), (∀ b ∈ l, isTrimSpace b = false ∧ b < 128) →
      trimLeftN n l = l := by
    intro n l hl
    cases n with
    | zero => rfl
    | succ m => simp [trimLeftN, (spaceWidth_ascii l hl).1]
  have hright : ∀ (n : Nat) (l : Bytes), (∀ b ∈ l, isTrimSpace b = false ∧ b < 128) →
      trimRightN n l = l := by
    intro n l hl
    cases n with
    | zero => rfl
    | succ m => simp [trimRightN, (spaceWidth_ascii l hl).2]
  unfold trimSpace
  rw [hleft _ tok h, hright _ tok.reverse (fun b hb => h b (List.mem_reverse.mp hb)),
    List.reverse_reverse]

theorem scanRaw_token (s : scanner) (hl : s.len = s.data.length) (tok : Bytes) (c : Nat)
    (t : Bytes) (hc : rawStop c = true) (hb : ∀ b ∈ tok, rawByte b = true)
    (hd : s.data.drop s.offset = tok ++ c :: t) :
    s.scanRaw = Res.ok ({ s with offset := s.offset + tok.length }, tok) := by
  have hq := drop_add_of_drop _ _ hd
  have hlt : s.offset + tok.length < s.len := hl ▸ lt_length_of_drop hq
  have htrim : trimSpace tok = tok := by
    apply trimSpace_id
    intro b hb'
    have := hb b hb'
    simp only [rawByte, Bool.and_eq_true, decide_eq_true_eq, Bool.not_eq_true',
      Bool.or_eq_false_iff] at this
    exact ⟨this.2.2, this.1⟩
  unfold scanner.scanRaw
  rw [show s.len + 1 = (s.len - tok.length) + tok.length + 1 by omega,
    scanRawLoop_token c t hc tok _ s hl hb hd]
  have hne : ¬ (s.offset + tok.length = s.len) := by omega
  simp only [if_true, hne, if_false, slice_of_drop _ _ hd, htrim]

theorem AppendInt_rawByte (a : Int) : ∀ b ∈ AppendInt a, rawByte b = true := by
  intro b hb
  have hdig := natDigits_isDigit a.natAbs
  have : b = 45 ∨ (48 ≤ b ∧ b ≤ 57) := by
    unfold AppendInt at hb
    split_ifs at hb
    · simp only [List.mem_cons] at hb
      rcases hb with rfl | hb
      · left; rfl
      · right; exact hdig b hb
    · right; exact hdig b hb
  rcases this with rfl | ⟨h1, h2⟩
  · decide
  · simp only [rawByte, isLineEnd, isTrimSpace, Bool.and_eq_true, decide_eq_true_eq,
      Bool.not_eq_true', Bool.or_eq_false_iff, beq_eq_false_iff_ne, ne_eq]
    omega

theorem AppendInt_head (a : Int) :
    ∃ c cs, AppendInt a = c :: cs ∧ ((48 ≤ c ∧ c ≤ 57) ∨ c = 45) := by
  have hne := natDigits_ne_nil a.natAbs
  have hdig := natDigits_isDigit a.natAbs
  unfold AppendInt
  split_ifs
  · exact ⟨45, _, rfl, Or.inr rfl⟩
  · cases hds : natDigits a.natAbs with
    | nil => exact absurd hds hne
    | cons c cs =>
      rw [hds] at hdig
      exact ⟨c, cs, rfl, Or.inl (hdig c (List.mem_cons_self _ _))⟩


/-! ## scanValue on the text of a field -/

theorem skipRestOfArrayItem_comma (s : scanner) (hl : s.len = s.data.length) (n : Nat)
    {t : Bytes} (hd : s.data.drop s.offset = 44 :: t) :
    s.skipRestOfArrayItem (n + 1) = Res.ok ({ s with offset := s.offset + 1 }, .endOfItem) := by
  have hlt : s.offset < s.len := hl ▸ lt_length_of_drop hd
  unfold scanner.skipRestOfArrayItem
  rw [skipRestOfArrayItemLoop]
  simp [hlt, getElem?_of_drop hd]

theorem skipRestOfArrayItem_close (s : scanner) (hl : s.len = s.data.length) (n : Nat)
    {t : Bytes} (hd : s.data.drop s.offset = 93 :: t) :
    s.skipRestOfArrayItem (n + 1) = Res.ok ({ s with offset := s.offset + 1 }, .endOfArray) := by
  have hlt : s.offset < s.len := hl ▸ lt_length_of_drop hd
  unfold scanner.skipRestOfArrayItem
  rw [skipRestOfArrayItemLoop]
  simp [hlt, getElem?_of_drop hd, isSpace]

theorem scanString_quotable (s : scanner) (hl : s.len = s.data.length) (v t : Bytes)
    (hv : Quotable v) (hd : s.data.drop s.offset = 34 :: (v ++ 34 :: t)) :
    s.scanString = Res.ok ({ s with offset := s.offset + v.length + 2 }, Except.ok v) := by
  unfold scanner.scanString
  simp [getElem?_of_drop hd, scanQuotedString_quotable s hl v t hv hd]

/-- The elements of a sequence of strings after the first, up to the closing bracket. -/
theorem strArrLoop_rest :
    ∀ (vs : List Bytes) (m : Nat) (s : scanner) (arr : List Bytes) (t : Bytes),
      s.len = s.data.length → (∀ v ∈ vs, Quotable v) →
      s.data.drop s.offset = strsTail vs ++ 93 :: t →
      ((s.skipRestOfArrayItem (m + vs.length + 1)).bind fun q =>
          strArrLoop (m + vs.length + 1) q.1 q.2 arr) =
        Res.ok ({ s with offset := s.offset + (strsTail vs).length + 1 },
                Except.ok (.strArr (arr ++ vs))) := by
  intro vs
  induction vs with
  | nil =>
    intro m s arr t hl _ hd
    have hd' : s.data.drop s.offset = 93 :: t := by simpa [strsTail] using hd
    rw [skipRestOfArrayItem_close s hl _ hd']
    simp [strArrLoop, strsTail]
  | cons v vs ih =>
    intro m s arr t hl hv hd
    have hd' : s.data.drop s.offset = 44 :: 34 :: (v ++ 34 :: (strsTail vs ++ 93 :: t)) := by
      simpa [strsTail] using hd
    have hd1 := drop_succ_of_drop hd'
    have hq : s.data.drop (s.offset + 1 + v.length + 2) = strsTail vs ++ 93 :: t := by
      have h1 := drop_succ_of_drop hd1
      have h2 := drop_add_of_drop _ _ h1
      have h3 := drop_succ_of_drop h2
      rw [show s.offset + 1 + v.length + 2 = s.offset + 1 + 1 + v.length + 1 by omega]
      exact h3
    rw [show m + (v :: vs).length + 1 = (m + vs.length + 1) + 1 by simp; omega,
      skipRestOfArrayItem_comma s hl _ hd']
    simp only [Res.bind_ok]
    rw [strArrLoop]
    rw [skip_id { s with offset := s.offset + 1 } hd1 (by decide) (by decide) (by decide)
      (by decide)]
    simp only [Res.bind_ok]
    rw [scanString_quotable { s with offset := s.offset + 1 } hl v _
      (hv v (List.mem_cons_self _ _)) hd1]
    simp only [Res.bind_ok]
    rw [ih m { s with offset := s.offset + 1 + v.length + 2 } (arr ++ [v]) t hl
      (fun x hx => hv x (List.mem_cons_of_mem _ hx)) hq]
    simp [strsTail]
    omega

/-- The elements of a sequence of integers after the first, up to the closing bracket. -/
theorem intArrLoop_rest :
    ∀ (vs : List Int) (m : Nat) (s : scanner) (arr : List Int) (t : Bytes),
      s.len = s.data.length → (∀ v ∈ vs, isInt64 v) →
      s.data.drop s.offset = intsTail vs ++ 93 :: t →
      ((s.skipRestOfArrayItem (m + vs.length + 1)).bind fun q =>
          intArrLoop (m + vs.length + 1) q.1 q.2 arr) =
        Res.ok ({ s with offset := s.offset + (intsTail vs).length + 1 },
                Except.ok (.intArr (arr ++ vs))) := by
  intro vs
  induction vs with
  | nil =>
    intro m s arr t hl _ hd
    have hd' : s.data.drop s.offset = 93 :: t := by simpa [intsTail] using hd
    rw [skipRestOfArrayItem_close s hl _ hd']
    simp [intArrLoop, intsTail]
  | cons v vs ih =>
    intro m s arr t hl hv hd
    have hd' : s.data.drop s.offset = 44 :: (AppendInt v ++ (intsTail vs ++ 93 :: t)) := by
      simpa [intsTail] using hd
    have hd1 := drop_succ_of_drop hd'
    have hq : s.data.drop (s.offset + 1 + (AppendInt v).length) = intsTail vs ++ 93 :: t :=
      drop_add_of_drop _ _ hd1
    have hstop : ∃ c t', intsTail vs ++ 93 :: t = c :: t' ∧ rawStop c = true := by
      cases vs with
      | nil => exact ⟨93, t, by simp [intsTail], by decide⟩
      | cons a as =>
        exact ⟨44, AppendInt a ++ (intsTail as ++ 93 :: t), by simp [intsTail], by decide⟩
    obtain ⟨c, t', hct, hc⟩ := hstop
    rw [hct] at hd1
    rw [show m + (v :: vs).length + 1 = (m + vs.length + 1) + 1 by simp; omega,
      skipRestOfArrayItem_comma s hl _ hd']
    simp only [Res.bind_ok]
    rw [intArrLoop]
    rw [scanRaw_token { s with offset := s.offset + 1 } hl (AppendInt v) c t' hc
      (AppendInt_rawByte v) hd1]
    simp only [Res.bind_ok, atoi_AppendInt v (hv v (List.mem_cons_self _ _))]
    rw [ih m { s with offset := s.offset + 1 + (AppendInt v).length } (arr ++ [v]) t hl
      (fun x hx => hv x (List.mem_cons_of_mem _ hx)) hq]
    simp [intsTail]
    omega


theorem Field.text_head (f : Field) (hf : f.ok) :
    ∃ c cs, f.text = c :: cs ∧ (c = 34 ∨ c = 91 ∨ c = 45 ∨ (48 ≤ c ∧ c ≤ 57)) := by
  cases f with
  | str v => exact ⟨34, _, rfl, Or.inl rfl⟩
  | int a =>
    obtain ⟨c, cs, h, hc⟩ := AppendInt_head a
    refine ⟨c, cs, h, ?_⟩
    rcases hc with hc | hc
    · exact Or.inr (Or.inr (Or.inr hc))
    · exact Or.inr (Or.inr (Or.inl hc))
  | strs vs =>
    cases vs with
    | nil => exact absurd rfl hf.1
    | cons v vs => exact ⟨91, _, rfl, Or.inr (Or.inl rfl)⟩
  | ints vs =>
    cases vs with
    | nil => exact absurd rfl hf.1
    | cons v vs => exact ⟨91, _, rfl, Or.inr (Or.inl rfl)⟩

/-- `scanValue` on the text of a field that is followed by a line feed: it returns the tree
value of the field and leaves the offset on the line feed. -/
theorem scanValue_field (L : Lib) (f : Field) (hf : f.ok) (n : Nat) (s : scanner) (t : Bytes)
    (hl : s.len = s.data.length) (hd : s.data.drop s.offset = f.text ++ 10 :: t) :
    scanValue L (n + f.cost) s =
      Res.ok ({ s with offset := s.offset + f.text.length }, Except.ok f.value) := by
  cases f with
  | str v =>
    have hd' : s.data.drop s.offset = 34 :: (v ++ 34 :: 10 :: t) := by
      simpa [Field.text] using hd
    simp only [Field.cost, Field.text, Field.value]
    rw [scanValue]
    simp only [getElem?_of_drop hd', if_true, scanQuotedString_quotable s hl v _ hf hd',
      Res.bind_ok, strResult]
    simp
    omega
  | int a =>
    obtain ⟨c, cs, hcs, hc⟩ := AppendInt_head a
    have hd' : s.data.drop s.offset = AppendInt a ++ 10 :: t := by
      simpa [Field.text] using hd
    have hd0 : s.data.drop s.offset = c :: (cs ++ 10 :: t) := by
      rw [hd', hcs]; rfl
    have c1 : c ≠ 34 := by omega
    have c2 : c ≠ 96 := by omega
    have c3 : (48 ≤ c ∧ c ≤ 57) ∨ c = 43 ∨ c = 45 := by omega
    simp only [Field.cost, Field.text, Field.value]
    rw [scanValue]
    simp only [getElem?_of_drop hd0, c1, c2, c3, if_true, if_false, scanner.scanNumber,
      scanRaw_token s hl (AppendInt a) 10 t (by decide) (AppendInt_rawByte a) hd',
      Res.bind_ok, atoi_AppendInt a hf]
  | strs vs =>
    cases vs with
    | nil => exact absurd rfl hf.1
    | cons v vs =>
      have hd' : s.data.drop s.offset
          = 91 :: 34 :: (v ++ 34 :: (strsTail vs ++ 93 :: 10 :: t)) := by
        simpa [Field.text] using hd
      have hd1 := drop_succ_of_drop hd'
      have hq : s.data.drop (s.offset + 1 + v.length + 2) = strsTail vs ++ 93 :: 10 :: t := by
        have h1 := drop_succ_of_drop hd1
        have h2 := drop_add_of_drop _ _ h1
        have h3 := drop_succ_of_drop h2
        rw [show s.offset + 1 + v.length + 2 = s.offset + 1 + 1 + v.length + 1 by omega]
        exact h3
      simp only [Field.cost, Field.text, Field.value]
      rw [show n + ((v :: vs).length + 2) = (n + vs.length + 1 + 1) + 1 by simp; omega,
        scanValue]
      simp only [getElem?_of_drop hd', if_true, if_false, Nat.reduceEqDiff, Nat.reduceLeDiff,
        false_and, false_or, and_false, or_false]
      rw [scanArray]
      rw [scanValue]
      simp only [getElem?_of_drop hd1, if_true,
        scanQuotedString_quotable { s with offset := s.offset + 1 } hl v _
          (hf.2 v (List.mem_cons_self _ _)) hd1, Res.bind_ok, strResult]
      rw [strArrLoop_rest vs n { s with offset := s.offset + 1 + v.length + 2 } [v]
        (10 :: t) hl (fun x hx => hf.2 x (List.mem_cons_of_mem _ hx)) hq]
      simp
      omega
  | ints vs =>
    cases vs with
    | nil => exact absurd rfl hf.1
    | cons v vs =>
      obtain ⟨c, cs, hcs, hc⟩ := AppendInt_head v
      have hd' : s.data.drop s.offset
          = 91 :: (AppendInt v ++ (intsTail vs ++ 93 :: 10 :: t)) := by
        simpa [Field.text] using hd
      have hd1 := drop_succ_of_drop hd'
      have hd0 : s.data.drop (s.offset + 1) = c :: (cs ++ (intsTail vs ++ 93 :: 10 :: t)) := by
        rw [hd1, hcs]; rfl
      have hq : s.data.drop (s.offset + 1 + (AppendInt v).length)
          = intsTail vs ++ 93 :: 10 :: t := drop_add_of_drop _ _ hd1
      have hstop : ∃ c' t', intsTail vs ++ 93 :: 10 :: t = c' :: t' ∧ rawStop c' = true := by
        cases vs with
        | nil => exact ⟨93, 10 :: t, by simp [intsTail], by decide⟩
        | cons a as =>
          exact ⟨44, AppendInt a ++ (intsTail as ++ 93 :: 10 :: t), by simp [intsTail],
            by decide⟩
      obtain ⟨c', t', hct, hc'⟩ := hstop
      have hd1' := hd1
      rw [hct] at hd1'
      have c1 : c ≠ 34 := by omega
      have c2 : c ≠ 96 := by omega
      have c3 : (48 ≤ c ∧ c ≤ 57) ∨ c = 43 ∨ c = 45 := by omega
      simp only [Field.cost, Field.text, Field.value]
      rw [show n + ((v :: vs).length + 2) = (n + vs.length + 1 + 1) + 1 by simp; omega,
        scanValue]
      simp only [getElem?_of_drop hd', if_true, if_false, Nat.reduceEqDiff, Nat.reduceLeDiff,
        false_and, false_or, and_false, or_false]
      rw [scanArray]
      rw [scanValue]
      simp only [getElem?_of_drop hd0, c1, c2, c3, if_true, if_false, scanner.scanNumber,
        scanRaw_token { s with offset := s.offset + 1 } hl (AppendInt v) c' t' hc'
          (AppendInt_rawByte v) hd1', Res.bind_ok,
        atoi_AppendInt v (hf.2 v (List.mem_cons_self _ _))]
      rw [intArrLoop_rest vs n { s with offset := s.offset + 1 + (AppendInt v).length } [v]
        (10 :: t) hl (fun x hx => hf.2 x (List.mem_cons_of_mem _ hx)) hq]
      simp
      omega


/-! ## Parse on the text of a record -/

theorem exported_of_capitalFirst (L : Lib) (nm : Bytes) (h : capitalFirst nm = true) :
    exported L nm = true := by
  cases nm with
  | nil => simp [capitalFirst] at h
  | cons c cs =>
    simp only [capitalFirst, Bool.and_eq_true, decide_eq_true_eq] at h
    have hc : c < 128 := by omega
    simp [exported, hc, h.1, h.2]

theorem fieldName_head (nm : Bytes) (h : fieldName nm) :
    ∃ c cs, nm = c :: cs ∧ 65 ≤ c ∧ c ≤ 90 := by
  obtain ⟨he, _⟩ := h
  cases nm with
  | nil => simp [capitalFirst] at he
  | cons c cs =>
    refine ⟨c, cs, rfl, ?_⟩
    simpa [capitalFirst] using he

/-- `scanPair` on the line of a field: the field is stored under its name and the offset is
left on the line feed. -/
theorem scanPair_field (L : Lib) (nm : Bytes) (f : Field) (hn : fieldName nm) (hf : f.ok)
    (n : Nat) (s : scanner) (t : Bytes) (nd : Node) (hl : s.len = s.data.length)
    (hd : s.data.drop s.offset = nm ++ 58 :: 32 :: (f.text ++ 10 :: t)) :
    scanPair L (n + f.cost + 1) s (some nd) =
      Res.ok ({ s with offset := s.offset + nm.length + 2 + f.text.length },
              some (nd.set nm f.value)) := by
  obtain ⟨c, cs, hcs, _, _⟩ := fieldName_head nm hn
  obtain ⟨c', cs', hcs', hc'⟩ := Field.text_head f hf
  have hne : nm ≠ [] := by rw [hcs]; simp
  have hd1 : s.data.drop (s.offset + nm.length + 1) = 32 :: (f.text ++ 10 :: t) :=
    drop_succ_of_drop (drop_add_of_drop _ _ hd)
  have hd1' : s.data.drop (s.offset + nm.length + 1) = 32 :: c' :: (cs' ++ 10 :: t) := by
    rw [hd1, hcs']; rfl
  have hsp : isSpace c' = false := by
    simp only [isSpace, Bool.or_eq_false_iff, beq_eq_false_iff_ne, ne_eq]
    omega
  have hd2 : s.data.drop (s.offset + nm.length + 1 + 1) = f.text ++ 10 :: t :=
    drop_succ_of_drop hd1
  rw [scanPair]
  simp only [scanName_ok s hl nm _ hn.2 hd, Res.bind_ok, hne, if_false]
  rw [skipSpace_one { s with offset := s.offset + nm.length + 1 } hl hd1' hsp]
  simp only [Res.bind_ok]
  rw [scanValue_field L f hf n { s with offset := s.offset + nm.length + 1 + 1 } t hl hd2]
  simp only [Res.bind_ok]

theorem recordText_ne_nil (p : Bytes × Field) (rest : List (Bytes × Field)) :
    recordText (p :: rest) ≠ [] := by
  obtain ⟨nm, f⟩ := p
  simp [recordText]

/-- `scan` on the text of a record that starts at the offset: every field is stored under
its name, and the offset ends on the last byte of the buffer. -/
theorem scan_record (L : Lib) :
    ∀ (fields : List (Bytes × Field)), fields ≠ [] →
      (∀ p ∈ fields, fieldName p.1 ∧ p.2.ok) →
      ∀ (N : Nat) (s : scanner), s.len = s.data.length →
        s.data.drop s.offset = recordText fields → recordFuel fields ≤ N →
        scan L N s = Res.ok { s with offset := s.data.length - 1,
                                     root := storeAll s.root fields,
                                     line := s.line + (fields.length - 1) } := by
  intro fields
  induction fields with
  | nil => intro h; exact absurd rfl h
  | cons p rest ih =>
    intro _ hp N s hl hd hN
    obtain ⟨nm, f⟩ := p
    obtain ⟨hn, hf⟩ := hp (nm, f) (List.mem_cons_self _ _)
    obtain ⟨c, cs, hcs, hc1, hc2⟩ := fieldName_head nm hn
    have hd' : s.data.drop s.offset = nm ++ 58 :: 32 :: (f.text ++ 10 :: recordText rest) := by
      simpa [recordText] using hd
    have hd0 : s.data.drop s.offset
        = c :: (cs ++ 58 :: 32 :: (f.text ++ 10 :: recordText rest)) := by
      rw [hd', hcs]; rfl
    have hd1 : s.data.drop (s.offset + nm.length + 2 + f.text.length) = 10 :: recordText rest := by
      have h1 := drop_succ_of_drop (drop_succ_of_drop (drop_add_of_drop _ _ hd'))
      have h2 := drop_add_of_drop _ _ h1
      rw [show s.offset + nm.length + 2 + f.text.length
        = s.offset + nm.length + 1 + 1 + f.text.length by omega]
      exact h2
    have hlt : s.offset + 1 < s.len := by
      have := lt_length_of_drop hd1
      rw [hl]; omega
    have hfuel : recordFuel ((nm, f) :: rest) = recordFuel rest + 1 + f.cost := by
      simp [recordFuel]; omega
    have hfuel0 : 2 ≤ recordFuel rest := by simp [recordFuel]
    obtain ⟨n, rfl⟩ : ∃ n, N = (n + f.cost + 1) + 1 := ⟨N - f.cost - 2, by omega⟩
    rw [scan]
    simp only [hlt, if_true]
    rw [skip_id s hd0 (by omega) (by omega)
      (by simp only [isLineEnd, Bool.or_eq_false_iff, beq_eq_false_iff_ne, ne_eq]; omega)
      (by simp only [isSpace, Bool.or_eq_false_iff, beq_eq_false_iff_ne, ne_eq]; omega)]
    simp only [Res.bind_ok, scanner.byteAt, getElem?_of_drop hd0]
    have c91 : c ≠ 91 := by omega
    simp only [c91, if_false, isComment_eq_false s hd0 (by omega) (by omega), Res.bind_ok,
      Bool.false_eq_true]
    rw [scanPair_field L nm f hn hf n s (recordText rest) s.root hl hd']
    simp only [Res.bind_ok, Option.getD_some]
    rw [skipRestOfLine_lf { s with offset := s.offset + nm.length + 2 + f.text.length,
                                   root := s.root.set nm f.value } hl hd1]
    simp only [Res.bind_ok]
    by_cases hr : rest = []
    · subst hr
      have hlast : ¬ (s.offset + nm.length + 2 + f.text.length + 1 < s.len) := by
        have := length_of_drop_nil (drop_succ_of_drop hd1)
        rw [hl]; omega
      have hend : s.offset + nm.length + 2 + f.text.length = s.data.length - 1 := by
        have h1 := length_of_drop_nil (drop_succ_of_drop hd1)
        have h2 := lt_length_of_drop hd1
        omega
      rw [show n + f.cost + 1 = (n + f.cost) + 1 by rfl, scan]
      simp only [recordText, if_true, hlast, if_false]
      simp [storeAll, hend]
    · have hrt : recordText rest ≠ [] := by
        cases rest with
        | nil => exact absurd rfl hr
        | cons q rest' => exact recordText_ne_nil q rest'
      simp only [hrt, if_false]
      rw [ih hr (fun q hq => hp q (List.mem_cons_of_mem _ hq)) (n + f.cost + 1)
        { s with offset := s.offset + nm.length + 2 + f.text.length + 1,
                 root := s.root.set nm f.value, line := s.line + 1 } hl
        (drop_succ_of_drop hd1) (by rw [hfuel] at hN; omega)]
      have hlen : 1 ≤ rest.length := by
        cases rest with
        | nil => exact absurd rfl hr
        | cons q rest' => simp
      simp [storeAll]
      omega


theorem Node.set_of_not_mem (nd : Node) (k : Bytes) (v : Value) (h : k ∉ nd.map Prod.fst) :
    Node.set nd k v = nd ++ [(k, v)] := by
  induction nd with
  | nil => rfl
  | cons p nd ih =>
    obtain ⟨k0, v0⟩ := p
    simp only [List.map_cons, List.mem_cons, not_or] at h
    have hne : ¬ k0 = k := fun e => h.1 e.symm
    simp [Node.set, hne, ih h.2]

/-- Storing the fields of a record whose names are distinct and new to the node appends
them in order. -/
theorem storeAll_eq (fields : List (Bytes × Field)) :
    ∀ (root : Node), (fields.map Prod.fst).Nodup →
      (∀ p ∈ fields, p.1 ∉ root.map Prod.fst) →
      storeAll root fields = root ++ recordTree fields := by
  induction fields with
  | nil => intro root _ _; simp [storeAll, recordTree]
  | cons p rest ih =>
    intro root hnd hnew
    obtain ⟨nm, f⟩ := p
    simp only [List.map_cons, List.nodup_cons] at hnd
    have h1 : nm ∉ root.map Prod.fst := hnew (nm, f) (List.mem_cons_self _ _)
    have step : storeAll root ((nm, f) :: rest) = storeAll (root.set nm f.value) rest := rfl
    rw [step, Node.set_of_not_mem root nm f.value h1, ih _ hnd.2]
    · simp [recordTree]
    · intro q hq
      simp only [List.map_append, List.map_cons, List.map_nil, List.mem_append,
        List.mem_singleton, not_or]
      refine ⟨hnew q (List.mem_cons_of_mem _ hq), ?_⟩
      intro e
      exact hnd.1 (e ▸ List.mem_map_of_mem Prod.fst hq)

/-- Parse on the text of a record: the tree holds every field under its name, and there is
no error. -/
theorem Parse_record (L : Lib) (fields : List (Bytes × Field))
    (hnd : (fields.map Prod.fst).Nodup) (hok : ∀ p ∈ fields, fieldName p.1 ∧ p.2.ok)
    (fuel : Nat) (hfuel : recordFuel fields ≤ fuel) :
    Parse L fuel (recordText fields) = some (some (recordTree fields), none) := by
  by_cases hne : fields = []
  · subst hne
    obtain ⟨n, rfl⟩ : ∃ n, fuel = n + 1 := ⟨fuel - 1, by simp [recordFuel] at hfuel; omega⟩
    simp [Parse, scan, newScanner, recordText, recordTree, NewNode]
  · have h := scan_record L fields hne hok fuel (newScanner (recordText fields)) rfl
      (by simp [newScanner]) hfuel
    simp only [Parse, h]
    have := storeAll_eq fields [] hnd (by intro p _; simp)
    simp only [newScanner, NewNode, this, List.nil_append]

theorem encodeArray_strs (L : Lib) (vs : List Bytes) :
    encodeArray L (vs.map .string) false = strsTail vs := by
  induction vs with
  | nil => simp [encodeArray, strsTail]
  | cons v vs ih => simp [encodeArray, encodeVal, strsTail, ih]

theorem encodeArray_ints (L : Lib) (vs : List Int) :
    encodeArray L (vs.map .int) false = intsTail vs := by
  induction vs with
  | nil => simp [encodeArray, intsTail]
  | cons v vs ih => simp [encodeArray, encodeVal, intsTail, ih]

theorem encodeVal_field (L : Lib) (f : Field) (hf : f.ok) : encodeVal L f.goVal = f.text := by
  cases f with
  | str v => simp [Field.goVal, Field.text, encodeVal]
  | int a => simp [Field.goVal, Field.text, encodeVal]
  | strs vs =>
    cases vs with
    | nil => exact absurd rfl hf.1
    | cons v vs =>
      simp [Field.goVal, Field.text, encodeVal, encodeArray, encodeArray_strs]
  | ints vs =>
    cases vs with
    | nil => exact absurd rfl hf.1
    | cons v vs =>
      simp [Field.goVal, Field.text, encodeVal, encodeArray, encodeArray_ints]

/-- What `encodeFields` writes for a record of the supported kinds. -/
theorem encodeFields_record (L : Lib) (fields : List (Bytes × Field))
    (hok : ∀ p ∈ fields, p.2.ok) :
    encodeFields L (fields.map fun p => (p.1, p.2.goVal)) = recordText fields := by
  induction fields with
  | nil => simp [encodeFields, recordText]
  | cons p rest ih =>
    obtain ⟨nm, f⟩ := p
    have hf : f.ok := hok (nm, f) (List.mem_cons_self _ _)
    have ih' := ih (fun q hq => hok q (List.mem_cons_of_mem _ hq))
    have ht := encodeVal_field L f hf
    cases f <;>
      simp only [List.map_cons, Field.goVal, encodeFields] at ih' ht ⊢ <;>
      simp [ih', ht, recordText, str]


/-! ## Decoding the tree of a record -/

theorem fieldByName_fieldsBy (fields : List (Bytes × Field)) (h : Bytes → GoVal) (k : Bytes)
    (hk : k ∈ fields.map Prod.fst) : fieldByName (fieldsBy fields h) k = some (h k) := by
  induction fields with
  | nil => simp at hk
  | cons p rest ih =>
    obtain ⟨n0, f0⟩ := p
    by_cases e : n0 = k
    · subst e; simp [fieldsBy, fieldByName]
    · have hk' : k ∈ rest.map Prod.fst := by
        simp only [List.map_cons, List.mem_cons] at hk
        rcases hk with hk | hk
        · exact absurd hk.symm e
        · exact hk
      have := ih hk'
      simp only [fieldsBy] at this
      simp [fieldsBy, fieldByName, e, this]

theorem setField_fieldsBy (fields : List (Bytes × Field)) (h : Bytes → GoVal) (k : Bytes)
    (v : GoVal) (hnd : (fields.map Prod.fst).Nodup) :
    setField (fieldsBy fields h) k v = fieldsBy fields (Function.update h k v) := by
  induction fields with
  | nil => simp [fieldsBy, setField]
  | cons p rest ih =>
    obtain ⟨n0, f0⟩ := p
    simp only [List.map_cons, List.nodup_cons] at hnd
    by_cases e : n0 = k
    · subst e
      have : ∀ q ∈ rest, (q.1, h q.1) = (q.1, Function.update h n0 v q.1) := by
        intro q hq
        have hne : q.1 ≠ n0 := fun e => hnd.1 (e ▸ List.mem_map_of_mem Prod.fst hq)
        simp [Function.update, hne]
      simp only [fieldsBy, List.map_cons, setField, if_true, Function.update_same]
      rw [List.map_congr_left this]
    · have := ih hnd.2
      simp only [fieldsBy] at this
      simp [fieldsBy, setField, e, this, Function.update, Ne.symm e]

theorem Field.typeOf_goVal (f : Field) : f.goVal.typeOf = f.goType := by
  cases f <;> simp [Field.goVal, Field.goType, GoVal.typeOf]

/-- `decodeNode`'s loop over entries that are fields of the record, in any order and
number, on a struct of the record type: no error, every field named by an entry ends up
with the value of the record, and the others are as they were. -/
theorem decodeFields_entries (L : Lib) (fields : List (Bytes × Field))
    (hnd : (fields.map Prod.fst).Nodup) (hok : ∀ p ∈ fields, fieldName p.1 ∧ p.2.ok) :
    ∀ (ents : List (Bytes × Value)) (h : Bytes → GoVal),
      (∀ e ∈ ents, ∃ f, (e.1, f) ∈ fields ∧ e.2 = f.value) →
      (∀ p ∈ fields, (h p.1).typeOf = p.2.goType) →
      ∃ h', decodeFields L ents (fieldsBy fields h) = Res.ok (fieldsBy fields h', none) ∧
        (∀ p ∈ fields, (h' p.1).typeOf = p.2.goType) ∧
        (∀ p ∈ fields, p.1 ∈ ents.map Prod.fst → h' p.1 = p.2.goVal) ∧
        (∀ p ∈ fields, p.1 ∉ ents.map Prod.fst → h' p.1 = h p.1) := by
  intro ents
  induction ents with
  | nil =>
    intro h _ hty
    exact ⟨h, by simp [decodeFields], hty, by simp, by simp⟩
  | cons e rest ih =>
    intro h hent hty
    obtain ⟨k, v⟩ := e
    obtain ⟨f, hmem, hv⟩ := hent (k, v) (List.mem_cons_self _ _)
    simp only at hmem hv
    have hkmem : k ∈ fields.map Prod.fst := List.mem_map_of_mem Prod.fst hmem
    have hexp : exported L k = true := exported_of_capitalFirst L k (hok (k, f) hmem).1.1
    have hfok : f.ok := (hok (k, f) hmem).2
    have hfind : findField L (fieldsBy fields h) k = some (k, h k) := by
      simp [findField, fieldByName_fieldsBy fields h k hkmem]
    have htk : (h k).typeOf = f.goType := hty (k, f) hmem
    -- the struct after the assignment
    have hty' : ∀ p ∈ fields, (Function.update h k f.goVal p.1).typeOf = p.2.goType := by
      intro p hp
      by_cases e : p.1 = k
      · have hpf : p = (k, f) := by
          obtain ⟨pn, pf⟩ := p
          simp only at e
          subst e
          have := List.inj_on_of_nodup_map hnd hp hmem rfl
          exact this
        rw [hpf]; simp [Field.typeOf_goVal]
      · simp [Function.update, e, hty p hp]
    obtain ⟨h', hdec, hty'', hset, hkeep⟩ :=
      ih (Function.update h k f.goVal) (fun e he => hent e (List.mem_cons_of_mem _ he)) hty'
    have hstep : decodeFields L ((k, v) :: rest) (fieldsBy fields h) =
        decodeFields L rest (fieldsBy fields (Function.update h k f.goVal)) := by
      rw [decodeFields, hfind]
      subst hv
      cases f with
      | str s =>
        simp only [Field.value, Field.goVal]
        simp only [Field.goType] at htk
        cases hg : h k <;> rw [hg] at htk <;> simp [GoVal.typeOf] at htk
        simp [assign, hexp, setField_fieldsBy fields h k _ hnd]
      | int a =>
        simp only [Field.value, Field.goVal]
        simp only [Field.goType] at htk
        cases hg : h k <;> rw [hg] at htk <;> simp [GoVal.typeOf] at htk
        simp [assign, hexp, setField_fieldsBy fields h k _ hnd]
      | strs vs =>
        have hne : vs.isEmpty = false := by
          cases vs with
          | nil => exact absurd rfl hfok.1
          | cons _ _ => rfl
        simp only [Field.value, Field.goVal, hne, Bool.false_eq_true, if_false]
        simp only [Field.goType] at htk
        simp [makeSlice, htk, assign, hexp, setField_fieldsBy fields h k _ hnd]
      | ints vs =>
        have hne : vs.isEmpty = false := by
          cases vs with
          | nil => exact absurd rfl hfok.1
          | cons _ _ => rfl
        simp only [Field.value, Field.goVal, hne, Bool.false_eq_true, if_false]
        simp only [Field.goType] at htk
        simp [makeSlice, htk, assign, hexp, setField_fieldsBy fields h k _ hnd]
    refine ⟨h', by rw [hstep, hdec], hty'', ?_, ?_⟩
    · intro p hp hin
      by_cases hin' : p.1 ∈ rest.map Prod.fst
      · exact hset p hp hin'
      · have e : p.1 = k := by
          simp only [List.map_cons, List.mem_cons] at hin
          rcases hin with hin | hin
          · exact hin
          · exact absurd hin hin'
        have hpf : p = (k, f) := by
          obtain ⟨pn, pf⟩ := p
          simp only at e
          subst e
          exact List.inj_on_of_nodup_map hnd hp hmem rfl
        rw [hkeep p hp hin', hpf]
        simp
    · intro p hp hnin
      simp only [List.map_cons, List.mem_cons, not_or] at hnin
      rw [hkeep p hp hnin.2]
      simp [Function.update, hnin.1]


theorem Field.typeOf_zero (f : Field) : (GoType.zero f.goType).typeOf = f.goType := by
  cases f <;> simp [Field.goType, GoType.zero, GoVal.typeOf]

/-- The fresh record of a record type, with its fields given by name. -/
theorem zeroFields_record (fields : List (Bytes × Field)) (hnd : (fields.map Prod.fst).Nodup) :
    ∃ h0, GoType.zeroFields (fields.map fun p => (p.1, p.2.goType)) = fieldsBy fields h0 ∧
      ∀ p ∈ fields, (h0 p.1).typeOf = p.2.goType := by
  induction fields with
  | nil => exact ⟨fun _ => .int 0, by simp [GoType.zeroFields, fieldsBy], by simp⟩
  | cons p rest ih =>
    obtain ⟨nm, f⟩ := p
    simp only [List.map_cons, List.nodup_cons] at hnd
    obtain ⟨h0, he, ht⟩ := ih hnd.2
    have hne : ∀ q ∈ rest, q.1 ≠ nm := fun q hq e => hnd.1 (e ▸ List.mem_map_of_mem Prod.fst hq)
    refine ⟨Function.update h0 nm (GoType.zero f.goType), ?_, ?_⟩
    · have : ∀ q ∈ rest, (q.1, h0 q.1)
          = (q.1, Function.update h0 nm (GoType.zero f.goType) q.1) := by
        intro q hq; simp [Function.update, hne q hq]
      simp only [List.map_cons, GoType.zeroFields, fieldsBy, Function.update_same, he]
      rw [List.map_congr_left this]
    · intro q hq
      simp only [List.mem_cons] at hq
      rcases hq with rfl | hq
      · simp [Field.typeOf_zero]
      · simp [Function.update, hne q hq, ht q hq]

/-- Decoding the tree of a record, its entries taken in any order, into a record of the
same type whose fields hold anything of their types, yields the record. -/
theorem decodeFields_record (L : Lib) (fields : List (Bytes × Field))
    (hnd : (fields.map Prod.fst).Nodup) (hok : ∀ p ∈ fields, fieldName p.1 ∧ p.2.ok)
    (ents : List (Bytes × Value)) (hp : ents.Perm (recordTree fields)) (h : Bytes → GoVal)
    (hty : ∀ p ∈ fields, (h p.1).typeOf = p.2.goType) :
    decodeFields L ents (fieldsBy fields h) =
      Res.ok (fields.map fun p => (p.1, p.2.goVal), none) := by
  have hent : ∀ e ∈ ents, ∃ f, (e.1, f) ∈ fields ∧ e.2 = f.value := by
    intro e he
    have := hp.mem_iff.mp he
    simp only [recordTree, List.mem_map] at this
    obtain ⟨p, hp1, rfl⟩ := this
    exact ⟨p.2, hp1, rfl⟩
  obtain ⟨h', hdec, _, hset, _⟩ := decodeFields_entries L fields hnd hok ents h hent hty
  rw [hdec]
  have hall : ∀ p ∈ fields, (p.1, h' p.1) = (p.1, p.2.goVal) := by
    intro p hp1
    have hin : p.1 ∈ ents.map Prod.fst := by
      have : (p.1, p.2.value) ∈ ents :=
        hp.mem_iff.mpr (by simp only [recordTree, List.mem_map]; exact ⟨p, hp1, rfl⟩)
      exact List.mem_map_of_mem Prod.fst this
    rw [hset p hp1 hin]
  simp only [fieldsBy]
  rw [List.map_congr_left hall]

theorem Marshal_record (L : Lib) (ty : Bytes) (fields : List (Bytes × Field))
    (hty : ty ≠ str "Time") (hok : ∀ p ∈ fields, p.2.ok) :
    Marshal L (some (recordVal ty fields)) = Res.ok (recordText fields) := by
  simp [Marshal, encode, recordVal, hty, encodeFields_record L fields hok]

/-- C2, as amended: for a record type not named `Time` whose fields have distinct exported
names and hold strings that need no escape, 64-bit integers, or non-empty sequences of
such strings or of such integers, Marshal succeeds, Parse of its output returns a tree and
no error once the step budget reaches `recordFuel`, and decoding that tree, its entries
visited in any order, into a fresh record of the type yields a record equal to the
original. -/
theorem Marshal_Parse_decode_record (L : Lib) (ty : Bytes) (fields : List (Bytes × Field))
    (hty : ty ≠ str "Time") (hnd : (fields.map Prod.fst).Nodup)
    (hok : ∀ p ∈ fields, fieldName p.1 ∧ p.2.ok) (fuel : Nat)
    (hfuel : recordFuel fields ≤ fuel) :
    ∃ data tree, Marshal L (some (recordVal ty fields)) = Res.ok data ∧
      Parse L fuel data = some (some tree, none) ∧
      ∀ ents : List (Bytes × Value), ents.Perm tree →
        decode L (some ents)
            (some (.ptr (recordType ty fields) (some (GoType.zero (recordType ty fields))))) =
          Res.ok (some (.ptr (recordType ty fields) (some (recordVal ty fields))), none) := by
  refine ⟨recordText fields, recordTree fields,
    Marshal_record L ty fields hty (fun p hp => (hok p hp).2),
    Parse_record L fields hnd hok fuel hfuel, ?_⟩
  intro ents hp
  obtain ⟨h0, he, ht⟩ := zeroFields_record fields hnd
  simp only [decode, decodeNode, recordType, GoType.zero, he,
    decodeFields_record L fields hnd hok ents hp h0 ht, Res.bind_ok, recordVal]


theorem Quotable_ascii (v : Bytes) (h : ∀ c ∈ v, c < 128 ∧ c ≠ 34 ∧ c ≠ 92) : Quotable v := by
  refine ⟨v.map fun c => [c], ?_, ?_⟩
  · intro u hu
    simp only [List.mem_map] at hu
    obtain ⟨c, hc, rfl⟩ := hu
    exact Or.inl ⟨c, rfl, h c hc⟩
  · induction v with
    | nil => rfl
    | cons c v ih =>
      have := ih (fun x hx => h x (List.mem_cons_of_mem _ hx))
      simp only [List.map_cons, List.flatten_cons, List.singleton_append]
      rw [← this]

theorem fieldName_Name : fieldName (str "Name") := by
  refine ⟨by decide, ?_⟩
  intro c hc
  simp [str] at hc
  rcases hc with rfl | rfl | rfl | rfl <;> decide

theorem fieldName_Age : fieldName (str "Age") := by
  refine ⟨by decide, ?_⟩
  intro c hc
  simp [str] at hc
  rcases hc with rfl | rfl | rfl <;> decide

/-- C1, as amended: for a record type not named `Time` with the fields `Name`, a string, and
`Age`, an integer, for every Name that needs no escape (made of ASCII bytes other than the
quote and the backslash and of well-formed UTF-8 encodings of code points other than
U+FFFD) and every 64-bit Age, Marshal succeeds and Unmarshal of its output, given a step
budget of six or more, into a record of this type succeeds and leaves it equal to the
original, in whichever order the two entries of the tree are visited. -/
theorem Unmarshal_Marshal_Name_Age (L : Lib) (ty name : Bytes) (age : Int) (n0 : Bytes)
    (a0 : Int) (T : GoType) (hty : ty ≠ str "Time") (hq : Quotable name) (ha : isInt64 age)
    (fuel : Nat) (hfuel : 6 ≤ fuel) :
    ∃ data,
      Marshal L (some (.struct ty [(str "Name", .string name), (str "Age", .int age)])) =
        Res.ok data ∧
      Unmarshal L fuel data
          (some (.ptr T (some (.struct ty [(str "Name", .string n0), (str "Age", .int a0)])))) =
        Res.ok (some (.ptr T (some
          (.struct ty [(str "Name", .string name), (str "Age", .int age)]))), none) ∧
      ∀ ents : List (Bytes × Value),
        ents.Perm [(str "Name", .str name), (str "Age", .int age)] →
        decode L (some ents)
            (some (.ptr T (some (.struct ty [(str "Name", .string n0), (str "Age", .int a0)])))) =
          Res.ok (some (.ptr T (some
            (.struct ty [(str "Name", .string name), (str "Age", .int age)]))), none) := by
  have hnd : (([(str "Name", Field.str name), (str "Age", Field.int age)] :
      List (Bytes × Field)).map Prod.fst).Nodup := by
    simp [str]
  have hok : ∀ p ∈ ([(str "Name", Field.str name), (str "Age", Field.int age)] :
      List (Bytes × Field)), fieldName p.1 ∧ p.2.ok := by
    intro p hp
    simp only [List.mem_cons, List.mem_singleton, List.not_mem_nil, or_false] at hp
    rcases hp with rfl | rfl
    · exact ⟨fieldName_Name, hq⟩
    · exact ⟨fieldName_Age, ha⟩
  have hm := Marshal_record L ty _ hty (fun p hp => (hok p hp).2)
  have hp := Parse_record L _ hnd hok fuel (by simpa [recordFuel, Field.cost] using hfuel)
  have hdec : ∀ ents : List (Bytes × Value),
      ents.Perm [(str "Name", .str name), (str "Age", .int age)] →
      decodeFields L ents [(str "Name", .string n0), (str "Age", .int a0)] =
        Res.ok ([(str "Name", .string name), (str "Age", .int age)], none) := by
    intro ents hperm
    have := decodeFields_record L _ hnd hok ents hperm
      (fun k => if k = str "Name" then .string n0 else .int a0)
      (by
        intro p hp
        simp only [List.mem_cons, List.mem_singleton, List.not_mem_nil, or_false] at hp
        rcases hp with rfl | rfl <;> simp [str, GoVal.typeOf, Field.goType])
    simpa [fieldsBy, str, Field.goVal] using this
  refine ⟨_, hm, ?_, ?_⟩
  · simp only [Unmarshal, hp, decode, decodeNode, recordTree, List.map_cons, List.map_nil,
      Field.value, hdec _ (List.Perm.refl _), Res.bind_ok]
  · intro ents hperm
    simp only [decode, decodeNode, hdec ents hperm, Res.bind_ok]

/-- C1, witness: the record of `TestMarshal`, Name `abc` and Age 12. -/
theorem Unmarshal_Marshal_Name_Age_witness :
    ∃ data,
      Marshal plainLib
          (some (.struct (str "s") [(str "Name", .string (str "abc")), (str "Age", .int 12)])) =
        Res.ok data ∧
      Unmarshal plainLib 6 data
          (some (.ptr (.struct (str "s") [(str "Name", .string), (str "Age", .int)]) (some (.struct (str "s")
            [(str "Name", .string []), (str "Age", .int 0)])))) =
        Res.ok (some (.ptr (.struct (str "s") [(str "Name", .string), (str "Age", .int)]) (some
          (.struct (str "s") [(str "Name", .string (str "abc")), (str "Age", .int 12)]))),
          none) ∧
      ∀ ents : List (Bytes × Value),
        ents.Perm [(str "Name", .str (str "abc")), (str "Age", .int 12)] →
        decode plainLib (some ents)
            (some (.ptr (.struct (str "s") [(str "Name", .string), (str "Age", .int)]) (some (.struct (str "s")
              [(str "Name", .string []), (str "Age", .int 0)])))) =
          Res.ok (some (.ptr (.struct (str "s") [(str "Name", .string), (str "Age", .int)]) (some
            (.struct (str "s") [(str "Name", .string (str "abc")), (str "Age", .int 12)]))),
            none) :=
  Unmarshal_Marshal_Name_Age plainLib (str "s") (str "abc") 12 [] 0
    (.struct (str "s") [(str "Name", .string), (str "Age", .int)]) (by decide)
    (Quotable_ascii _ (by decide)) (by unfold isInt64; omega) 6 (Nat.le_refl 6)


/-- C1, counterexample: for the record with Name made of one quote and Age 0, Marshal writes
the line `Name: """`, and Unmarshal of that text into a fresh record succeeds with the empty
string as Name, which is not the original. -/
theorem Unmarshal_Marshal_quote_counterexample :
    Marshal plainLib
        (some (.struct (str "s") [(str "Name", .string [34]), (str "Age", .int 0)])) =
      Res.ok (str "Name: \"\"\"\nAge: 0\n") ∧
    Unmarshal plainLib 6 (str "Name: \"\"\"\nAge: 0\n")
        (some (.ptr (.struct (str "s") [(str "Name", .string), (str "Age", .int)])
          (some (.struct (str "s") [(str "Name", .string []), (str "Age", .int 0)])))) =
      Res.ok (some (.ptr (.struct (str "s") [(str "Name", .string), (str "Age", .int)])
        (some (.struct (str "s") [(str "Name", .string []), (str "Age", .int 0)]))), none) ∧
    GoVal.struct (str "s") [(str "Name", .string []), (str "Age", .int 0)] ≠
      GoVal.struct (str "s") [(str "Name", .string [34]), (str "Age", .int 0)] := by
  refine ⟨?_, ?_, by simp⟩
  · simp [Marshal, encode, encodeFields, encodeVal, AppendInt, natDigits, str]
  · simp [str, Unmarshal, Parse, scan, newScanner, scanner.skip, skipLoop, scanner.isComment,
      scanner.byteAt, scanPair, scanner.scanName, scanNameLoop, isSpace, isLineEnd, slice,
      scanner.skipSpace, skipSpaceLoop, scanValue, scanner.scanNumber, scanner.scanRaw,
      scanRawLoop, trimSpace,
      trimLeftN, trimRightN, spaceWidth, spaceWidthRev, isTrimSpace, atoi, digitsVal, isDigit, Node.set,
      scanner.skipRestOfLine, scanner.skipUntil, skipUntilLoop, scanner.skipLineEnd, NewNode,
      scanner.scanQuotedString, scanQuotedLoop, strResult, decode, decodeNode, decodeFields,
      findField, fieldByName, assign, exported, setField]

/-- C2, counterexample: a record with one boolean field, a record with one nested-record
field, a record with a string that holds a quote and a record with an empty sequence do not
come back: Parse of what Marshal writes reports an error and stores nothing for the first,
the second and the fourth, and stores the empty string for the third; and Marshal panics on
a record whose type is named `Time`. -/
theorem Marshal_Parse_decode_counterexample :
    (Marshal plainLib (some (.struct (str "s") [(str "B", .bool true)])) =
        Res.ok (str "B: true\n") ∧
      Parse plainLib 3 (str "B: true\n") =
        some (some [], some (str "invalid bool value, name: B")) ∧
      decode plainLib (some [])
          (some (.ptr (.struct (str "s") [(str "B", .bool)])
            (some (.struct (str "s") [(str "B", .bool false)])))) =
        Res.ok (some (.ptr (.struct (str "s") [(str "B", .bool)])
          (some (.struct (str "s") [(str "B", .bool false)]))), none)) ∧
    (Marshal plainLib
          (some (.struct (str "s") [(str "In", .struct (str "U") [(str "A", .int 1)])])) =
        Res.ok (str "In: U:\x7bA: 1\n\x7d\n") ∧
      Parse plainLib 4 (str "In: U:\x7bA: 1\n\x7d\n") =
        some (some [], some (str "invalid value, name: In;invalid name"))) ∧
    (Marshal plainLib (some (.struct (str "s") [(str "S", .string [34])])) =
        Res.ok (str "S: \"\"\"\n") ∧
      Parse plainLib 3 (str "S: \"\"\"\n") = some (some [(str "S", .str [])], none)) ∧
    (Marshal plainLib (some (.struct (str "s") [(str "A", .slice .string [])])) =
        Res.ok (str "A: []\n") ∧
      Parse plainLib 5 (str "A: []\n") =
        some (some [], some (str "invalid value, name: A"))) ∧
    Marshal plainLib (some (.struct (str "Time") [(str "S", .string [])])) = Res.fault := by
  refine ⟨⟨?_, ?_, ?_⟩, ⟨?_, ?_⟩, ⟨?_, ?_⟩, ⟨?_, ?_⟩, ?_⟩
  · simp [Marshal, encode, encodeFields, encodeVal, str]
  · simp [str, Parse, scan, newScanner, scanner.skip, skipLoop, scanner.isComment,
      scanner.byteAt, scanPair, scanner.scanName, scanNameLoop, isSpace, isLineEnd, slice,
      scanner.skipSpace, skipSpaceLoop, scanValue, Node.set,
      scanner.skipRestOfLine, scanner.skipUntil, skipUntilLoop, scanner.skipLineEnd, NewNode,
      scanner.scanLiteral, scanner.scanExact, scanExactLoop, scanner.addErrorMsg,
      invalidBoolValue]
  · simp [decode, decodeNode, decodeFields]
  · simp [Marshal, encode, encodeFields, encodeVal, AppendInt, natDigits, str]
  · simp [str, Parse, scan, newScanner, scanner.skip, skipLoop, scanner.isComment,
      scanner.byteAt, scanPair, scanner.scanName, scanNameLoop, isSpace, isLineEnd, slice,
      scanner.skipSpace, skipSpaceLoop, scanValue, Node.set,
      scanner.skipRestOfLine, scanner.skipUntil, skipUntilLoop, scanner.skipLineEnd, NewNode,
      scanner.addErrorMsg, invalidValue, invalidName, addMsg]
  · simp [Marshal, encode, encodeFields, encodeVal, str]
  · simp [str, Parse, scan, newScanner, scanner.skip, skipLoop, scanner.isComment,
      scanner.byteAt, scanPair, scanner.scanName, scanNameLoop, isSpace, isLineEnd, slice,
      scanner.skipSpace, skipSpaceLoop, scanValue, Node.set,
      scanner.skipRestOfLine, scanner.skipUntil, skipUntilLoop, scanner.skipLineEnd, NewNode,
      scanner.scanQuotedString, scanQuotedLoop, strResult]
  · simp [Marshal, encode, encodeFields, encodeVal, encodeArray, str]
  · simp [str, Parse, scan, newScanner, scanner.skip, skipLoop, scanner.isComment,
      scanner.byteAt, scanPair, scanner.scanName, scanNameLoop, isSpace, isLineEnd, slice,
      scanner.skipSpace, skipSpaceLoop, scanValue, scanArray, Node.set,
      scanner.skipRestOfLine, scanner.skipUntil, skipUntilLoop, scanner.skipLineEnd, NewNode,
      scanner.addErrorMsg, invalidValue]
  · simp [Marshal, encode, str]

/-- C2, witness: a record with a string, a sequence of strings, an integer and a sequence of
integers. -/
theorem Marshal_Parse_decode_record_witness :
    ∃ data tree,
      Marshal plainLib (some (recordVal (str "s")
        [(str "Name", .str (str "abc")), (str "Tags", .strs [str "a", str "b"]),
         (str "Age", .int (-12)), (str "Nums", .ints [1, 20])])) = Res.ok data ∧
      Parse plainLib 16 data = some (some tree, none) ∧
      ∀ ents : List (Bytes × Value), ents.Perm tree →
        decode plainLib (some ents)
            (some (.ptr (recordType (str "s")
                [(str "Name", .str (str "abc")), (str "Tags", .strs [str "a", str "b"]),
                 (str "Age", .int (-12)), (str "Nums", .ints [1, 20])])
              (some (GoType.zero (recordType (str "s")
                [(str "Name", .str (str "abc")), (str "Tags", .strs [str "a", str "b"]),
                 (str "Age", .int (-12)), (str "Nums", .ints [1, 20])]))))) =
          Res.ok (some (.ptr (recordType (str "s")
                [(str "Name", .str (str "abc")), (str "Tags", .strs [str "a", str "b"]),
                 (str "Age", .int (-12)), (str "Nums", .ints [1, 20])])
              (some (recordVal (str "s")
                [(str "Name", .str (str "abc")), (str "Tags", .strs [str "a", str "b"]),
                 (str "Age", .int (-12)), (str "Nums", .ints [1, 20])]))), none) :=
  Marshal_Parse_decode_record plainLib (str "s")
    [(str "Name", .str (str "abc")), (str "Tags", .strs [str "a", str "b"]),
     (str "Age", .int (-12)), (str "Nums", .ints [1, 20])]
    (by decide) (by decide)
    (by
      intro p hp
      simp only [List.mem_cons, List.mem_singleton, List.not_mem_nil, or_false] at hp
      rcases hp with rfl | rfl | rfl | rfl
      · exact ⟨⟨by decide, by decide⟩, Quotable_ascii _ (by decide)⟩
      · refine ⟨⟨by decide, by decide⟩, by simp, ?_⟩
        intro v hv
        simp only [List.mem_cons, List.mem_singleton, List.not_mem_nil, or_false] at hv
        rcases hv with rfl | rfl <;> exact Quotable_ascii _ (by decide)
      · exact ⟨⟨by decide, by decide⟩, by simp only [Field.ok, isInt64]; omega⟩
      · refine ⟨⟨by decide, by decide⟩, by simp, ?_⟩
        intro v hv
        simp only [List.mem_cons, List.mem_singleton, List.not_mem_nil, or_false] at hv
        rcases hv with rfl | rfl <;> (simp only [isInt64]; omega))
    16 (by decide)


/-! ## The accessors of node.go -/

theorem splitDot_snd_length (nm r : Bytes) (h : (splitDot nm).2 = some r) :
    r.length < nm.length := by
  induction nm generalizing r with
  | nil => simp [splitDot] at h
  | cons c cs ih =>
    by_cases hc : c = 46
    · simp [splitDot, hc] at h
      simp [← h]
    · simp [splitDot, hc] at h
      have := ih r h
      simp
      omega

/-- The two errors of `getFinalNameAndNode`. -/
theorem getFinalNameAndNode_error (k : Nat) : ∀ (name : Bytes) (node : Option Node) (e : Bytes),
    name.length ≤ k → getFinalNameAndNode name node = .error e →
    e = errNoName ∨ e = errValueNotFound := by
  induction k with
  | zero =>
    intro name node e hk h
    rw [getFinalNameAndNode.eq_def] at h
    have h0 : name.length = 0 := by omega
    simp [h0] at h
    exact Or.inl h.symm
  | succ k ih =>
    intro name node e hk h
    rw [getFinalNameAndNode.eq_def] at h
    split at h
    · simp at h; exact Or.inl h.symm
    · split at h
      · simp at h; exact Or.inr h.symm
      · split at h
        · simp at h; exact Or.inl h.symm
        · split at h
          · simp at h
          · rename_i rest hrest
            split at h
            · simp at h; exact Or.inl h.symm
            · split at h
              · have hl := splitDot_snd_length name rest hrest
                exact ih rest _ e (by omega) h
              · simp at h; exact Or.inr h.symm

/-- The two errors of `Get`. -/
theorem Get_error (n : Option Node) (name e : Bytes) (h : Get n name = .error e) :
    e = errNoName ∨ e = errValueNotFound := by
  unfold Get at h
  split at h
  · rename_i e' he
    simp at h
    subst h
    exact getFinalNameAndNode_error name.length name n e' (le_refl _) he
  · split at h
    · simp at h
    · simp at h; exact Or.inr h.symm

theorem errNoName_ne_errTypeMismatch : errNoName ≠ errTypeMismatch := by
  simp [errNoName, errTypeMismatch, str]

theorem errValueNotFound_ne_errTypeMismatch : errValueNotFound ≠ errTypeMismatch := by
  simp [errValueNotFound, errTypeMismatch, str]

theorem Get_error_ne (n : Option Node) (name e : Bytes) (h : Get n name = .error e) :
    e ≠ errTypeMismatch := by
  rcases Get_error n name e h with h | h
  · rw [h]; exact errNoName_ne_errTypeMismatch
  · rw [h]; exact errValueNotFound_ne_errTypeMismatch

/-- Claim C14. Each typed `OrError` accessor (string, int, float, bool, time and the five
typed arrays) returns the stored value and no error when `Get` succeeds with a value of the
requested variant, returns type-mismatch when `Get` succeeds with a value of another
variant, and returns the error of `Get` unchanged otherwise; the error of `Get` is never
type-mismatch, so each of the three outcomes occurs exactly in its case. -/
theorem GetOrError_accessors (n : Option Node) (name : Bytes) :
  ((∀ v, Get n name = .ok (.str v) → GetStringOrError n name = (v, none)) ∧
   (∀ w, Get n name = .ok w → (∀ v, w ≠ .str v) →
      GetStringOrError n name = ([], some errTypeMismatch)) ∧
   (∀ e, Get n name = .error e → GetStringOrError n name = ([], some e))) ∧
  ((∀ v, Get n name = .ok (.int v) → GetIntOrError n name = (v, none)) ∧
   (∀ w, Get n name = .ok w → (∀ v, w ≠ .int v) →
      GetIntOrError n name = (0, some errTypeMismatch)) ∧
   (∀ e, Get n name = .error e → GetIntOrError n name = (0, some e))) ∧
  ((∀ v, Get n name = .ok (.float v) → GetFloatOrError n name = (v, none)) ∧
   (∀ w, Get n name = .ok w → (∀ v, w ≠ .float v) →
      GetFloatOrError n name = (0, some errTypeMismatch)) ∧
   (∀ e, Get n name = .error e → GetFloatOrError n name = (0, some e))) ∧
  ((∀ v, Get n name = .ok (.bool v) → GetBoolOrError n name = (v, none)) ∧
   (∀ w, Get n name = .ok w → (∀ v, w ≠ .bool v) →
      GetBoolOrError n name = (false, some errTypeMismatch)) ∧
   (∀ e, Get n name = .error e → GetBoolOrError n name = (false, some e))) ∧
  ((∀ v, Get n name = .ok (.time v) → GetTimeOrError n name = (v, none)) ∧
   (∀ w, Get n name = .ok w → (∀ v, w ≠ .time v) →
      GetTimeOrError n name = (zeroTime, some errTypeMismatch)) ∧
   (∀ e, Get n name = .error e → GetTimeOrError n name = (zeroTime, some e))) ∧
  ((∀ l, Get n name = .ok (.strArr l) → GetStringArrayOrError n name = (some l, none)) ∧
   (∀ w, Get n name = .ok w → (∀ l, w ≠ .strArr l) →
      GetStringArrayOrError n name = (none, some errTypeMismatch)) ∧
   (∀ e, Get n name = .error e → GetStringArrayOrError n name = (none, some e))) ∧
  ((∀ l, Get n name = .ok (.boolArr l) → GetBoolArrayOrError n name = (some l, none)) ∧
   (∀ w, Get n name = .ok w → (∀ l, w ≠ .boolArr l) →
      GetBoolArrayOrError n name = (none, some errTypeMismatch)) ∧
   (∀ e, Get n name = .error e → GetBoolArrayOrError n name = (none, some e))) ∧
  ((∀ l, Get n name = .ok (.intArr l) → GetIntArrayOrError n name = (some l, none)) ∧
   (∀ w, Get n name = .ok w → (∀ l, w ≠ .intArr l) →
      GetIntArrayOrError n name = (none, some errTypeMismatch)) ∧
   (∀ e, Get n name = .error e → GetIntArrayOrError n name = (none, some e))) ∧
  ((∀ l, Get n name = .ok (.floatArr l) → GetFloatArrayOrError n name = (some l, none)) ∧
   (∀ w, Get n name = .ok w → (∀ l, w ≠ .floatArr l) →
      GetFloatArrayOrError n name = (none, some errTypeMismatch)) ∧
   (∀ e, Get n name = .error e → GetFloatArrayOrError n name = (none, some e))) ∧
  ((∀ l, Get n name = .ok (.timeArr l) → GetTimeArrayOrError n name = (some l, none)) ∧
   (∀ w, Get n name = .ok w → (∀ l, w ≠ .timeArr l) →
      GetTimeArrayOrError n name = (none, some errTypeMismatch)) ∧
   (∀ e, Get n name = .error e → GetTimeArrayOrError n name = (none, some e))) ∧
  (∀ e, Get n name = .error e → e ≠ errTypeMismatch) := by
  refine ⟨?_, ?_, ?_, ?_, ?_, ?_, ?_, ?_, ?_, ?_, fun e h => Get_error_ne n name e h⟩ <;>
  · refine ⟨?_, ?_, ?_⟩
    · intro v h
      simp [GetStringOrError, GetIntOrError, GetFloatOrError, GetBoolOrError, GetTimeOrError, GetStringArrayOrError, GetBoolArrayOrError, GetIntArrayOrError, GetFloatArrayOrError, GetTimeArrayOrError, h]
    · intro w h hw
      cases w <;>
        simp_all [GetStringOrError, GetIntOrError, GetFloatOrError, GetBoolOrError, GetTimeOrError, GetStringArrayOrError, GetBoolArrayOrError, GetIntArrayOrError, GetFloatArrayOrError, GetTimeArrayOrError]
    · intro e h
      simp [GetStringOrError, GetIntOrError, GetFloatOrError, GetBoolOrError, GetTimeOrError, GetStringArrayOrError, GetBoolArrayOrError, GetIntArrayOrError, GetFloatArrayOrError, GetTimeArrayOrError, h]

/-- Claim C15. For every tree, name and default `d`, `GetStringOr` (and likewise the int,
float, bool and time forms) returns the stored value when `Get` succeeds with a value of
that variant and `d` in every other case, and the bare accessor is the `Or` form at the
zero value. Both forms are total functions: they return a plain value in every case. -/
theorem GetOr_accessors (n : Option Node) (name : Bytes) :
  ((∀ d v, Get n name = .ok (.str v) → GetStringOr n name d = v) ∧
   (∀ d, (∀ v, Get n name ≠ .ok (.str v)) → GetStringOr n name d = d) ∧
   GetString n name = GetStringOr n name []) ∧
  ((∀ d v, Get n name = .ok (.int v) → GetIntOr n name d = v) ∧
   (∀ d, (∀ v, Get n name ≠ .ok (.int v)) → GetIntOr n name d = d) ∧
   GetInt n name = GetIntOr n name 0) ∧
  ((∀ d v, Get n name = .ok (.float v) → GetFloatOr n name d = v) ∧
   (∀ d, (∀ v, Get n name ≠ .ok (.float v)) → GetFloatOr n name d = d) ∧
   GetFloat n name = GetFloatOr n name 0) ∧
  ((∀ d v, Get n name = .ok (.bool v) → GetBoolOr n name d = v) ∧
   (∀ d, (∀ v, Get n name ≠ .ok (.bool v)) → GetBoolOr n name d = d) ∧
   GetBool n name = GetBoolOr n name false) ∧
  ((∀ d v, Get n name = .ok (.time v) → GetTimeOr n name d = v) ∧
   (∀ d, (∀ v, Get n name ≠ .ok (.time v)) → GetTimeOr n name d = d) ∧
   GetTime n name = GetTimeOr n name zeroTime) := by
  refine ⟨?_, ?_, ?_, ?_, ?_⟩ <;>
  · refine ⟨?_, ?_, rfl⟩
    · intro d v h
      simp [GetStringOr, GetIntOr, GetFloatOr, GetBoolOr, GetTimeOr, h]
    · intro d h
      simp only [GetStringOr, GetIntOr, GetFloatOr, GetBoolOr, GetTimeOr]


/-! ## Dotted paths -/

theorem splitDot_segment (a rest : Bytes) (ha : 46 ∉ a) :
    splitDot (a ++ 46 :: rest) = (a, some rest) := by
  induction a with
  | nil => simp [splitDot]
  | cons c cs ih =>
    have hc : c ≠ 46 := fun h => ha (by simp [h])
    have hcs : 46 ∉ cs := fun h => ha (by simp [h])
    simp [splitDot, hc, ih hcs]

/-- The body of `getFinalNameAndNode`, as an equation. -/
theorem getFinalNameAndNode_eq (name : Bytes) (node : Option Node) :
    getFinalNameAndNode name node =
      if name.length = 0 then .error errNoName
      else
        match node with
        | none => .error errValueNotFound
        | some nd =>
          if (splitDot name).1.length = 0 then .error errNoName
          else
            match (splitDot name).2 with
            | none => .ok (name, nd)
            | some rest =>
              if rest.length = 0 then .error errNoName
              else
                match nd.lookup (splitDot name).1 with
                | some (.node d) => getFinalNameAndNode rest (some d)
                | _ => .error errValueNotFound := by
  rw [getFinalNameAndNode.eq_def]
  split
  · rfl
  · split
    · rfl
    · rename_i nd
      split
      · rfl
      · split
        · rename_i h
          simp only [h]
        · rename_i r h
          first
            | (simp only [h]; done)
            | (simp only [h]
               by_cases hr : List.length r = 0
               · simp [hr]
               · simp only [hr, if_false]
                 generalize nd.lookup (splitDot name).1 = x
                 cases x with
                 | none => rfl
                 | some v => cases v <;> rfl)

theorem getFinalNameAndNode_nil (node : Option Node) :
    getFinalNameAndNode [] node = .error errNoName := by
  rw [getFinalNameAndNode.eq_def]
  simp

theorem getFinalNameAndNode_dot (n : Node) (rest : Bytes) :
    getFinalNameAndNode (46 :: rest) (some n) = .error errNoName := by
  rw [getFinalNameAndNode.eq_def]
  simp [splitDot]

theorem getFinalNameAndNode_trailing (n : Node) (a : Bytes) (ha : segment a) :
    getFinalNameAndNode (a ++ [46]) (some n) = .error errNoName := by
  rw [getFinalNameAndNode_eq]
  have hne : a ≠ [] := ha.1
  simp [splitDot_segment a [] ha.2, hne]

theorem getFinalNameAndNode_step (n : Node) (a rest : Bytes) (ha : segment a)
    (hr : rest ≠ []) :
    getFinalNameAndNode (a ++ 46 :: rest) (some n) =
      match n.lookup a with
      | some (.node d) => getFinalNameAndNode rest (some d)
      | _ => .error errValueNotFound := by
  rw [getFinalNameAndNode_eq]
  have hne : a ≠ [] := ha.1
  simp [splitDot_segment a rest ha.2, hne, hr]

theorem Get_nil (node : Option Node) : Get node [] = .error errNoName := by
  simp [Get, getFinalNameAndNode_nil]

theorem Get_step (n d : Node) (a rest : Bytes) (ha : segment a)
    (hl : n.lookup a = some (.node d)) :
    Get (some n) (a ++ 46 :: rest) = Get (some d) rest := by
  by_cases hr : rest = []
  · subst hr
    simp [Get, getFinalNameAndNode_trailing n a ha, getFinalNameAndNode_nil]
  · simp [Get, getFinalNameAndNode_step n a rest ha hr, hl]

theorem Get_descend : ∀ (pre : List Bytes) (n d : Node) (last : Bytes),
    (∀ a ∈ pre, segment a) → descend n pre = some d →
    Get (some n) (joinPath pre last) = Get (some d) last := by
  intro pre
  induction pre with
  | nil =>
    intro n d last _ hd
    simp [descend] at hd
    simp [joinPath, hd]
  | cons a as ih =>
    intro n d last hpre hd
    have ha : segment a := hpre a (by simp)
    simp only [descend] at hd
    split at hd
    · rename_i d1 hl
      rw [joinPath, Get_step n d1 a _ ha hl]
      exact ih d1 d last (fun b hb => hpre b (by simp [hb])) hd
    · simp at hd

theorem errNoName_ne_errValueNotFound : errNoName ≠ errValueNotFound := by
  simp [errNoName, errValueNotFound, str]

/-- Claim C12, amended. For every tree `n` and every run `pre` of segments (each not
empty and without a dot) that name nested nodes leading from `n` to the node `d`:
`Get` on `pre` followed by a remainder equals `Get` of the remainder on `d` (so
`Get("a.rest")` is `Get("rest")` on the node stored under `a`); and if the next segment
`a` does not hold a nested node in `d` (it holds a value of another kind, or nothing) and
the text after its dot is not empty, `Get` fails with the value-not-found error. -/
theorem Get_dotted_path (n : Node) (pre : List Bytes) (d : Node)
    (hpre : ∀ a ∈ pre, segment a) (hd : descend n pre = some d) :
    (∀ last, Get (some n) (joinPath pre last) = Get (some d) last) ∧
    (∀ a rest, segment a → rest ≠ [] → (∀ d1, d.lookup a ≠ some (.node d1)) →
      Get (some n) (joinPath pre (a ++ 46 :: rest)) = .error errValueNotFound ∧
      errValueNotFound ≠ errTypeMismatch) := by
  refine ⟨fun last => Get_descend pre n d last hpre hd, ?_⟩
  intro a rest ha hr hl
  refine ⟨?_, errValueNotFound_ne_errTypeMismatch⟩
  rw [Get_descend pre n d _ hpre hd]
  simp only [Get, getFinalNameAndNode_step d a rest ha hr]

theorem Get_dotted_path_witness :
    (∀ last, Get (some [(str "a", .node [(str "b", .int 1)])]) (joinPath [str "a"] last) =
      Get (some [(str "b", .int 1)]) last) ∧
    (∀ a rest, segment a → rest ≠ [] → (∀ d1, Node.lookup [(str "b", .int 1)] a ≠ some (.node d1)) →
      Get (some [(str "a", .node [(str "b", .int 1)])]) (joinPath [str "a"] (a ++ 46 :: rest)) =
        .error errValueNotFound ∧
      errValueNotFound ≠ errTypeMismatch) :=
  Get_dotted_path [(str "a", .node [(str "b", .int 1)])] [str "a"] [(str "b", .int 1)]
    (by simp [segment, str]) (by simp [descend, Node.lookup, str])

/-- Claim C12, counterexample: on the tree that holds the integer 1 under `a`, the path
`a.` has the non-final segment `a`, which names a key that holds a value that is not a
nested node, and `Get` fails with the no-name error, not with value-not-found. -/
theorem Get_trailing_dot_counterexample :
    Get (some [(str "a", .int 1)]) (str "a.") = .error errNoName ∧
    errNoName ≠ errValueNotFound := by
  refine ⟨?_, errNoName_ne_errValueNotFound⟩
  simp [Get, getFinalNameAndNode, splitDot, str, Node.lookup]

/-- Claim C13, amended. `Get` on the empty path fails with the no-name error, on every
tree and on a nil node. For every tree `n` and every run `pre` of segments that name
nested nodes leading from `n` to the node `d`, `Get` fails with the no-name error on `pre`
followed by an empty segment (a leading dot when `pre` is empty, two consecutive dots
otherwise), and on `pre` followed by a segment and a trailing dot, whatever `d` holds
under that segment. On `pre` followed by a segment that holds no nested node in `d`, a dot
and more text, `Get` fails with value-not-found, whatever that text is, also when it holds
an empty segment. -/
theorem Get_empty_segment (n : Node) (pre : List Bytes) (d : Node)
    (hpre : ∀ a ∈ pre, segment a) (hd : descend n pre = some d) :
    (∀ node, Get node [] = .error errNoName) ∧
    (∀ rest, Get (some n) (joinPath pre (46 :: rest)) = .error errNoName) ∧
    (∀ a, segment a → Get (some n) (joinPath pre (a ++ [46])) = .error errNoName) ∧
    (∀ a rest, segment a → rest ≠ [] → (∀ d1, d.lookup a ≠ some (.node d1)) →
      Get (some n) (joinPath pre (a ++ 46 :: rest)) = .error errValueNotFound) := by
  refine ⟨Get_nil, ?_, ?_, ?_⟩
  · intro rest
    rw [Get_descend pre n d _ hpre hd]
    simp [Get, getFinalNameAndNode_dot]
  · intro a ha
    rw [Get_descend pre n d _ hpre hd]
    simp [Get, getFinalNameAndNode_trailing d a ha]
  · intro a rest ha hr hl
    rw [Get_descend pre n d _ hpre hd]
    simp only [Get, getFinalNameAndNode_step d a rest ha hr]

theorem Get_empty_segment_witness :
    (∀ node, Get node [] = .error errNoName) ∧
    (∀ rest, Get (some [(str "a", .node [(str "b", .int 1)])])
      (joinPath [str "a"] (46 :: rest)) = .error errNoName) ∧
    (∀ a, segment a → Get (some [(str "a", .node [(str "b", .int 1)])])
      (joinPath [str "a"] (a ++ [46])) = .error errNoName) ∧
    (∀ a rest, segment a → rest ≠ [] →
      (∀ d1, Node.lookup [(str "b", .int 1)] a ≠ some (.node d1)) →
      Get (some [(str "a", .node [(str "b", .int 1)])])
        (joinPath [str "a"] (a ++ 46 :: rest)) = .error errValueNotFound) :=
  Get_empty_segment [(str "a", .node [(str "b", .int 1)])] [str "a"] [(str "b", .int 1)]
    (by simp [segment, str]) (by simp [descend, Node.lookup, str])

/-- Claim C13, counterexample: on the tree that holds the integer 1 under `a`, the paths
`a.b.` (a trailing dot) and `a..b` (two consecutive dots) hold an empty segment, and `Get`
fails with value-not-found, not with the no-name error. -/
theorem Get_empty_segment_counterexample :
    Get (some [(str "a", .int 1)]) (str "a.b.") = .error errValueNotFound ∧
    Get (some [(str "a", .int 1)]) (str "a..b") = .error errValueNotFound ∧
    errValueNotFound ≠ errNoName := by
  refine ⟨?_, ?_, fun h => errNoName_ne_errValueNotFound h.symm⟩ <;>
  simp [Get, getFinalNameAndNode, splitDot, str, Node.lookup]


/-! ## escapeU4 -/

theorem escapeU4Loop_hex : ∀ (inp : Bytes) (r : Nat), (∀ c ∈ inp, (hexDigit c).isSome = true) →
    escapeU4Loop inp r = some (inp.foldl (fun r c => r * 16 + (hexDigit c).getD 0) r) := by
  intro inp
  induction inp with
  | nil => intro r _; simp [escapeU4Loop]
  | cons c cs ih =>
    intro r h
    have hc := h c (by simp)
    have hcs : ∀ d ∈ cs, (hexDigit d).isSome = true := fun d hd => h d (by simp [hd])
    unfold hexDigit at hc
    rw [escapeU4Loop]
    by_cases h1 : 48 ≤ c ∧ c ≤ 57
    · simp only [h1, and_self, if_true, List.foldl_cons]
      rw [ih _ hcs]
      simp [hexDigit, h1]
    · by_cases h2 : 97 ≤ c ∧ c ≤ 102
      · simp only [h1, h2, and_self, if_true, if_false, List.foldl_cons]
        rw [ih _ hcs]
        have : c - 97 + 10 = c - 87 := by omega
        simp [hexDigit, h1, h2, this]
      · by_cases h3 : 65 ≤ c ∧ c ≤ 70
        · simp only [h1, h2, h3, and_self, if_true, if_false, List.foldl_cons]
          rw [ih _ hcs]
          have : c - 65 + 10 = c - 55 := by omega
          simp [hexDigit, h1, h2, h3, this]
        · simp [h1, h2, h3] at hc

theorem escapeU4Loop_bad : ∀ (inp : Bytes) (r : Nat), (∃ c ∈ inp, (hexDigit c).isSome = false) →
    escapeU4Loop inp r = none := by
  intro inp
  induction inp with
  | nil => intro r h; simp at h
  | cons c cs ih =>
    intro r h
    rw [escapeU4Loop]
    by_cases hc : (hexDigit c).isSome = false
    · unfold hexDigit at hc
      by_cases h1 : 48 ≤ c ∧ c ≤ 57
      · simp [h1] at hc
      · by_cases h2 : 97 ≤ c ∧ c ≤ 102
        · simp [h1, h2] at hc
        · by_cases h3 : 65 ≤ c ∧ c ≤ 70
          · simp [h1, h2, h3] at hc
          · simp only [h1, h2, h3, if_false]
    · have hcs : ∃ d ∈ cs, (hexDigit d).isSome = false := by
        obtain ⟨d, hd, hdb⟩ := h
        simp at hd
        rcases hd with hd | hd
        · subst hd; exact absurd hdb hc
        · exact ⟨d, hd, hdb⟩
      split
      · exact ih _ hcs
      · split
        · exact ih _ hcs
        · split
          · exact ih _ hcs
          · rfl

theorem hexDigit_getD_le (c : Nat) : (hexDigit c).getD 0 ≤ 15 := by
  unfold hexDigit
  split
  · simp; omega
  · split
    · simp; omega
    · split
      · simp; omega
      · simp

theorem hexValue_lt (inp : Bytes) (h : inp.length = 4) : hexValue inp < 65536 := by
  match inp, h with
  | [a, b, c, d], _ =>
    have ha := hexDigit_getD_le a
    have hb := hexDigit_getD_le b
    have hc := hexDigit_getD_le c
    have hd := hexDigit_getD_le d
    simp only [hexValue, List.foldl_cons, List.foldl_nil]
    omega

theorem EncodeRune_eq (r : Nat) (h : r < 65536) :
    EncodeRune r = utf8Encoding (if isSurrogate r then 65533 else r) := by
  unfold EncodeRune utf8Encoding isSurrogate
  by_cases h1 : r < 128
  · have : ¬ (55296 ≤ r) := by omega
    simp [h1, this]
  · by_cases h2 : r < 2048
    · have : ¬ (55296 ≤ r) := by omega
      simp [h1, h2, this]
    · by_cases h3 : 55296 ≤ r ∧ r ≤ 57343
      · simp [h1, h2, h3]
      · have h4 : ¬ (55296 ≤ r ∧ r ≤ 57343) := h3
        simp only [h1, h2, h3, if_false]
        have : (decide (55296 ≤ r) && decide (r ≤ 57343)) = false := by
          simp only [Bool.and_eq_false_imp, decide_eq_true_eq, decide_eq_false_iff_not]
          intro h5 h6
          exact h4 ⟨h5, h6⟩
        simp [this, h1, h2, h]

/-- Go `utf8.DecodeRune` reads back the code point that the encoding was made from. -/
theorem DecodeRune_utf8Encoding (r : Nat) (h : r < 65536) (hs : isSurrogate r = false) :
    DecodeRune (utf8Encoding r) = (r, (utf8Encoding r).length) := by
  unfold utf8Encoding
  simp only [isSurrogate, Bool.and_eq_false_imp, decide_eq_true_eq, decide_eq_false_iff_not]
    at hs
  by_cases h1 : r < 128
  · simp [h1, DecodeRune]
  · by_cases h2 : r < 2048
    · simp only [h1, h2, if_true, if_false, DecodeRune, inRange]
      have a1 : ¬ (192 + r / 64 < 128) := by omega
      have a2 : ¬ (192 + r / 64 < 194) := by omega
      have a3 : 192 + r / 64 < 224 := by omega
      have a4 : (128 ≤ 128 + r % 64) := by omega
      have a5 : (128 + r % 64 ≤ 191) := by omega
      simp only [a1, a2, a3, a4, a5, if_true, if_false, decide_True, Bool.and_self,
        List.length_cons, List.length_nil]
      simp
      omega
    · simp only [h1, h2, h, if_true, if_false, DecodeRune, inRange]
      have a1 : ¬ (224 + r / 4096 < 128) := by omega
      have a2 : ¬ (224 + r / 4096 < 194) := by omega
      have a3 : ¬ (224 + r / 4096 < 224) := by omega
      have a4 : 224 + r / 4096 < 240 := by omega
      simp only [a1, a2, a3, a4, if_true, if_false]
      have b1 : (if 224 + r / 4096 = 224 then 160 else 128) ≤ 128 + r / 64 % 64 := by
        split <;> omega
      have b2 : 128 + r / 64 % 64 ≤ (if 224 + r / 4096 = 237 then 159 else 191) := by
        split
        · rename_i h5
          by_cases h6 : 55296 ≤ r
          · have := hs h6
            omega
          · omega
        · omega
      have b3 : 128 ≤ 128 + r % 64 := by omega
      have b4 : 128 + r % 64 ≤ 191 := by omega
      simp only [b1, b2, b3, b4, decide_True, Bool.and_self, Bool.not_true, if_false]
      simp
      omega

/-- Claim C11, amended. For every 4-byte input made of hexadecimal digits, in either case,
`escapeU4` succeeds: it returns the UTF-8 encoding of the code point whose value is that
hexadecimal number when the number is not a surrogate (and `utf8.DecodeRune` reads that code
point back from it, over the whole length of the result), and the encoding of U+FFFD when
the number is a surrogate, from D800 to DFFF. For every input whose length is not 4 or
that holds a byte that is not a hexadecimal digit it fails with
`invalid utf-8 string value`. -/
theorem escapeU4_hex (inp : Bytes) :
    (inp.length = 4 → (∀ c ∈ inp, (hexDigit c).isSome = true) →
      escapeU4 inp = .ok (utf8Encoding (if isSurrogate (hexValue inp) then 65533
        else hexValue inp)) ∧
      (isSurrogate (hexValue inp) = false →
        DecodeRune (utf8Encoding (hexValue inp)) =
          (hexValue inp, (utf8Encoding (hexValue inp)).length))) ∧
    ((inp.length ≠ 4 ∨ ∃ c ∈ inp, (hexDigit c).isSome = false) →
      escapeU4 inp = .error invalidUTF8StringValue) := by
  constructor
  · intro hl hh
    have hv := hexValue_lt inp hl
    refine ⟨?_, fun hs => DecodeRune_utf8Encoding _ hv hs⟩
    unfold escapeU4
    rw [escapeU4Loop_hex inp 0 hh]
    simp only [hl, ne_eq, not_true_eq_false, if_false]
    rw [← EncodeRune_eq _ hv]
    rfl
  · intro h
    unfold escapeU4
    by_cases hl : inp.length = 4
    · rcases h with h | h
      · exact absurd hl h
      · simp [hl, escapeU4Loop_bad inp 0 h]
    · simp [hl]

/-- Claim C11, counterexample: on the four hexadecimal digits `D800` the function succeeds
with the three bytes EF BF BD, the encoding of U+FFFD, which `utf8.DecodeRune` reads back as
65533 and not as the number 55296 that the digits denote. -/
theorem escapeU4_surrogate_counterexample :
    escapeU4 (str "D800") = .ok [239, 191, 189] ∧
    hexValue (str "D800") = 55296 ∧
    utf8Encoding 65533 = [239, 191, 189] ∧
    DecodeRune [239, 191, 189] = (65533, 3) ∧
    utf8Encoding 55296 ≠ [239, 191, 189] := by
  refine ⟨?_, ?_, ?_, ?_, ?_⟩
  · simp [escapeU4, escapeU4Loop, EncodeRune, str]
  · simp [hexValue, hexDigit, str]
  · simp [utf8Encoding]
  · simp [DecodeRune, inRange, RuneError]
  · simp [utf8Encoding]


/-! ## The loop of decodeNode, one entry at a time -/

theorem fieldByName_setField_same (fs : List (Bytes × GoVal)) (k : Bytes) (f v : GoVal)
    (h : fieldByName fs k = some f) : fieldByName (setField fs k v) k = some v := by
  induction fs with
  | nil => simp [fieldByName] at h
  | cons p rest ih =>
    obtain ⟨n0, v0⟩ := p
    by_cases e : n0 = k
    · simp [setField, fieldByName, e]
    · simp only [fieldByName, e, if_false] at h
      simp [setField, fieldByName, e, ih h]

theorem fieldByName_setField_ne (fs : List (Bytes × GoVal)) (k k1 : Bytes) (v : GoVal)
    (h : k1 ≠ k) : fieldByName (setField fs k v) k1 = fieldByName fs k1 := by
  induction fs with
  | nil => simp [setField, fieldByName]
  | cons p rest ih =>
    obtain ⟨n0, v0⟩ := p
    by_cases e : n0 = k
    · subst e
      simp [setField, fieldByName, Ne.symm h]
    · by_cases e1 : n0 = k1
      · subst e1
        simp [setField, fieldByName, h]
      · simp [setField, fieldByName, e, e1, ih]

theorem map_fst_setField (fs : List (Bytes × GoVal)) (k : Bytes) (v : GoVal) :
    (setField fs k v).map Prod.fst = fs.map Prod.fst := by
  induction fs with
  | nil => simp [setField]
  | cons p rest ih =>
    obtain ⟨n0, v0⟩ := p
    by_cases e : n0 = k
    · simp [setField, e]
    · simp [setField, e, ih]

/-- Entries with distinct keys that are all stored: the loop ends without an error, every
entry's field holds its value, and the other fields are as they were. -/
theorem decodeFields_stored (L : Lib) (gvs : Bytes → GoVal) : ∀ (ents : List (Bytes × Value))
    (fs : List (Bytes × GoVal)), (ents.map Prod.fst).Nodup →
    (∀ e ∈ ents, ∃ f, fieldByName fs e.1 = some f ∧ storesAs L e.1 e.2 f.typeOf (gvs e.1)) →
    ∃ fs1, decodeFields L ents fs = Res.ok (fs1, none) ∧
      (∀ e ∈ ents, fieldByName fs1 e.1 = some (gvs e.1)) ∧
      (∀ k, k ∉ ents.map Prod.fst → fieldByName fs1 k = fieldByName fs k) ∧
      fs1.map Prod.fst = fs.map Prod.fst := by
  intro ents
  induction ents with
  | nil =>
    intro fs _ _
    exact ⟨fs, by simp [decodeFields], by simp, by simp, rfl⟩
  | cons e rest ih =>
    intro fs hnd hok
    obtain ⟨k, v⟩ := e
    simp only [List.map_cons, List.nodup_cons] at hnd
    obtain ⟨f, hf, hst⟩ := hok (k, v) (List.mem_cons_self _ _)
    simp only at hf hst
    have hok1 : ∀ e ∈ rest, ∃ f1, fieldByName (setField fs k (gvs k)) e.1 = some f1 ∧
        storesAs L e.1 e.2 f1.typeOf (gvs e.1) := by
      intro e he
      obtain ⟨f1, hf1, hst1⟩ := hok e (List.mem_cons_of_mem _ he)
      have hne : e.1 ≠ k := fun h => hnd.1 (h ▸ List.mem_map_of_mem Prod.fst he)
      exact ⟨f1, by rw [fieldByName_setField_ne fs k e.1 _ hne]; exact hf1, hst1⟩
    obtain ⟨fs1, hdec, hset, hkeep, hnames⟩ := ih (setField fs k (gvs k)) hnd.2 hok1
    refine ⟨fs1, by rw [hst fs f rest hf rfl, hdec], ?_, ?_, ?_⟩
    · intro e he
      simp only [List.mem_cons] at he
      rcases he with he | he
      · subst he
        simp only
        rw [hkeep k hnd.1]
        exact fieldByName_setField_same fs k f _ hf
      · exact hset e he
    · intro k1 hk1
      simp only [List.map_cons, List.mem_cons, not_or] at hk1
      rw [hkeep k1 hk1.2, fieldByName_setField_ne fs k k1 _ hk1.1]
    · rw [hnames, map_fst_setField]

theorem findField_of_fieldByName (L : Lib) (fs : List (Bytes × GoVal)) (k : Bytes) (f : GoVal)
    (h : fieldByName fs k = some f) : findField L fs k = some (k, f) := by
  simp [findField, h]

/-- A scalar entry or a non-empty scalar array on an exported field of its kind is stored
as its value. -/
theorem storesAs_scalar (L : Lib) (k : Bytes) (v : Value) (gv : GoVal) (hx : exported L k = true)
    (hv : v.toGoVal = some gv) : storesAs L k v gv.typeOf gv := by
  intro fs f rest hf ht
  rw [decodeFields, findField_of_fieldByName L fs k f hf]
  cases v with
  | str s =>
    simp only [Value.toGoVal, Option.some.injEq] at hv
    subst hv
    cases f <;> simp [GoVal.typeOf] at ht
    simp [assign, hx]
  | int s =>
    simp only [Value.toGoVal, Option.some.injEq] at hv
    subst hv
    cases f <;> simp [GoVal.typeOf] at ht
    simp [assign, hx]
  | bool s =>
    simp only [Value.toGoVal, Option.some.injEq] at hv
    subst hv
    cases f <;> simp [GoVal.typeOf] at ht
    simp [assign, hx]
  | float s =>
    simp only [Value.toGoVal, Option.some.injEq] at hv
    subst hv
    cases f <;> simp [GoVal.typeOf] at ht
    simp [assign, hx]
  | time s =>
    simp only [Value.toGoVal, Option.some.injEq] at hv
    subst hv
    cases f <;> simp [GoVal.typeOf] at ht
    simp [assign, hx]
  | null => simp [Value.toGoVal] at hv
  | node d => simp [Value.toGoVal] at hv
  | nodeList l => simp [Value.toGoVal] at hv
  | strArr l =>
    by_cases hl : l.isEmpty = true
    · simp [Value.toGoVal, hl] at hv
    · have hl1 : l.isEmpty = false := by simpa using hl
      simp only [Value.toGoVal, hl1, Bool.false_eq_true, if_false, Option.some.injEq] at hv
      subst hv
      simp only [GoVal.typeOf] at ht
      simp [hl1, makeSlice, ht, assign, hx]
  | intArr l =>
    by_cases hl : l.isEmpty = true
    · simp [Value.toGoVal, hl] at hv
    · have hl1 : l.isEmpty = false := by simpa using hl
      simp only [Value.toGoVal, hl1, Bool.false_eq_true, if_false, Option.some.injEq] at hv
      subst hv
      simp only [GoVal.typeOf] at ht
      simp [hl1, makeSlice, ht, assign, hx]
  | boolArr l =>
    by_cases hl : l.isEmpty = true
    · simp [Value.toGoVal, hl] at hv
    · have hl1 : l.isEmpty = false := by simpa using hl
      simp only [Value.toGoVal, hl1, Bool.false_eq_true, if_false, Option.some.injEq] at hv
      subst hv
      simp only [GoVal.typeOf] at ht
      simp [hl1, makeSlice, ht, assign, hx]
  | floatArr l =>
    by_cases hl : l.isEmpty = true
    · simp [Value.toGoVal, hl] at hv
    · have hl1 : l.isEmpty = false := by simpa using hl
      simp only [Value.toGoVal, hl1, Bool.false_eq_true, if_false, Option.some.injEq] at hv
      subst hv
      simp only [GoVal.typeOf] at ht
      simp [hl1, makeSlice, ht, assign, hx]
  | timeArr l =>
    by_cases hl : l.isEmpty = true
    · simp [Value.toGoVal, hl] at hv
    · have hl1 : l.isEmpty = false := by simpa using hl
      simp only [Value.toGoVal, hl1, Bool.false_eq_true, if_false, Option.some.injEq] at hv
      subst hv
      simp only [GoVal.typeOf] at ht
      simp [hl1, makeSlice, ht, assign, hx]

/-- The same with the stored values given by a function of the entry. -/
theorem decodeFields_stored_by (L : Lib) (g : Bytes × Value → Option GoVal)
    (ents : List (Bytes × Value)) (fs : List (Bytes × GoVal))
    (hnd : (ents.map Prod.fst).Nodup)
    (hok : ∀ e ∈ ents, ∃ gv f, g e = some gv ∧ fieldByName fs e.1 = some f ∧
      storesAs L e.1 e.2 f.typeOf gv) :
    ∃ fs1, decodeFields L ents fs = Res.ok (fs1, none) ∧
      (∀ e ∈ ents, fieldByName fs1 e.1 = g e) ∧
      (∀ k, k ∉ ents.map Prod.fst → fieldByName fs1 k = fieldByName fs k) ∧
      fs1.map Prod.fst = fs.map Prod.fst := by
  -- the value stored under each key
  let gvs : Bytes → GoVal := fun k =>
    match ents.find? (fun e => e.1 = k) with
    | some e => (g e).getD (.int 0)
    | none => .int 0
  have hgvs : ∀ e ∈ ents, g e = some (gvs e.1) := by
    intro e he
    obtain ⟨gv, _, hg, _, _⟩ := hok e he
    have hfind : ents.find? (fun e1 => e1.1 = e.1) = some e := by
      have hinj : ∀ a ∈ ents, a.1 = e.1 → a = e := fun a ha h =>
        List.inj_on_of_nodup_map hnd ha he h
      clear hok hg gvs
      induction ents with
      | nil => simp at he
      | cons a rest ih =>
        by_cases ha : a.1 = e.1
        · have := hinj a (List.mem_cons_self _ _) ha
          subst this
          simp
        · have her : e ∈ rest := by
            simp only [List.mem_cons] at he
            rcases he with he | he
            · subst he; exact absurd rfl ha
            · exact he
          simp only [List.map_cons, List.nodup_cons] at hnd
          simp only [List.find?_cons, ha, decide_False]
          exact ih hnd.2 her (fun b hb h => hinj b (List.mem_cons_of_mem _ hb) h)
    simp only [gvs, hfind, hg, Option.getD_some]
  have hst : ∀ e ∈ ents, ∃ f, fieldByName fs e.1 = some f ∧
      storesAs L e.1 e.2 f.typeOf (gvs e.1) := by
    intro e he
    obtain ⟨gv, f, hg, hf, hs⟩ := hok e he
    have hge := hgvs e he
    rw [hg] at hge
    simp only [Option.some.injEq] at hge
    exact ⟨f, hf, hge ▸ hs⟩
  obtain ⟨fs1, hdec, hset, hkeep, hnames⟩ := decodeFields_stored L gvs ents fs hnd hst
  exact ⟨fs1, hdec, fun e he => by rw [hset e he, hgvs e he], hkeep, hnames⟩

/-- Claim C16, amended. For every tree whose entries have distinct keys and are String,
Integer, Float, Boolean, Datetime or non-empty scalar arrays, each stored under the name
of an exported target field of the matching kind, `decode` succeeds with no error,
whichever order the entries are visited in; afterwards every such field equals the entry's
value (for an array entry: the slice of the same elements in the same order), every other
field is as it was, and the record has the same field names. -/
theorem decode_scalar_entries (L : Lib) (ents : List (Bytes × Value)) (T : GoType) (name : Bytes)
    (fs : List (Bytes × GoVal)) (hnd : (ents.map Prod.fst).Nodup)
    (hok : ∀ e ∈ ents, exported L e.1 = true ∧ ∃ gv f, e.2.toGoVal = some gv ∧
      fieldByName fs e.1 = some f ∧ f.typeOf = gv.typeOf) :
    ∃ fs1, decode L (some ents) (some (.ptr T (some (.struct name fs)))) =
        Res.ok (some (.ptr T (some (.struct name fs1))), none) ∧
      (∀ e ∈ ents, fieldByName fs1 e.1 = e.2.toGoVal) ∧
      (∀ k, k ∉ ents.map Prod.fst → fieldByName fs1 k = fieldByName fs k) ∧
      fs1.map Prod.fst = fs.map Prod.fst := by
  have hst : ∀ e ∈ ents, ∃ gv f, e.2.toGoVal = some gv ∧ fieldByName fs e.1 = some f ∧
      storesAs L e.1 e.2 f.typeOf gv := by
    intro e he
    obtain ⟨hx, gv, f, hg, hf, ht⟩ := hok e he
    exact ⟨gv, f, hg, hf, ht ▸ storesAs_scalar L e.1 e.2 gv hx hg⟩
  obtain ⟨fs1, hdec, hset, hkeep, hnames⟩ :=
    decodeFields_stored_by L (fun e => e.2.toGoVal) ents fs hnd hst
  exact ⟨fs1, by simp [decode, decodeNode, hdec, Res.bind], hset, hkeep, hnames⟩

theorem decode_scalar_entries_witness :
    ∃ fs1, decode plainLib (some [(str "Fi", .int 12), (str "Fa", .strArr [str "a", str "b"])])
        (some (.ptr (.struct (str "ts") [(str "Fa", .slice .string), (str "Fi", .int), (str "Fs", .string)]) (some (.struct (str "ts")
          [(str "Fa", .nilSlice .string), (str "Fi", .int 0), (str "Fs", .string [])])))) =
        Res.ok (some (.ptr (.struct (str "ts") [(str "Fa", .slice .string), (str "Fi", .int), (str "Fs", .string)]) (some (.struct (str "ts") fs1))), none) ∧
      (∀ e ∈ [(str "Fi", Value.int 12), (str "Fa", Value.strArr [str "a", str "b"])],
        fieldByName fs1 e.1 = e.2.toGoVal) ∧
      (∀ k, k ∉ [(str "Fi", Value.int 12), (str "Fa", Value.strArr [str "a", str "b"])].map
          Prod.fst →
        fieldByName fs1 k = fieldByName
          [(str "Fa", .nilSlice .string), (str "Fi", .int 0), (str "Fs", .string [])] k) ∧
      fs1.map Prod.fst =
        [(str "Fa", GoVal.nilSlice .string), (str "Fi", .int 0), (str "Fs", .string [])].map
          Prod.fst :=
  decode_scalar_entries plainLib [(str "Fi", .int 12), (str "Fa", .strArr [str "a", str "b"])]
    (.struct (str "ts") [(str "Fa", .slice .string), (str "Fi", .int), (str "Fs", .string)])
    (str "ts") [(str "Fa", .nilSlice .string), (str "Fi", .int 0), (str "Fs", .string [])]
    (by simp [str])
    (by
      intro e he
      simp only [List.mem_cons, List.mem_singleton, List.not_mem_nil, or_false] at he
      rcases he with he | he
      · subst he
        exact ⟨by simp [exported, str], .int 12, .int 0, by simp [Value.toGoVal],
          by simp [fieldByName, str], by simp [GoVal.typeOf]⟩
      · subst he
        exact ⟨by simp [exported, str], .slice .string [.string (str "a"), .string (str "b")],
          .nilSlice .string, by simp [Value.toGoVal],
          by simp [fieldByName, str], by simp [GoVal.typeOf]⟩)

/-- Claim C16, counterexample: the record has the string field `fs`, whose name is not
exported, and the tree holds a String under `fs`; `FieldByName` finds the field and
`SetString` panics on it, so `decode` does not return. -/
theorem decode_unexported_counterexample :
    decode plainLib (some [(str "fs", .str (str "x"))])
      (some (.ptr (.struct (str "ts") [(str "fs", .string)])
        (some (.struct (str "ts") [(str "fs", .string [])])))) = Res.fault := by
  simp [decode, decodeNode, decodeFields, findField, fieldByName, assign, exported, str,
    Res.bind]


/-! ## Nested nodes and node lists -/

theorem decodeStructField_struct (L : Lib) (d : Node) (nm : Bytes) (tfs : List (Bytes × GoType))
    (g : GoVal) (h : decodedRecord L nm tfs d = some g) :
    decodeStructField L d (.struct nm tfs) = Res.ok (some g) := by
  unfold decodedRecord at h
  rw [decodeStructField]
  cases hr : decodeFields L d (GoType.zeroFields tfs) with
  | ok r => rw [hr] at h; simp at h; simp [Res.bind, h]
  | fault => rw [hr] at h; simp at h
  | timeout => rw [hr] at h; simp at h

theorem decodeStructField_ptr (L : Lib) (d : Node) (nm : Bytes) (tfs : List (Bytes × GoType))
    (g : GoVal) (h : decodedRecord L nm tfs d = some g) :
    decodeStructField L d (.ptr (.struct nm tfs)) =
      Res.ok (some (.ptr (.struct nm tfs) (some g))) := by
  unfold decodedRecord at h
  rw [decodeStructField]
  cases hr : decodeFields L d (GoType.zeroFields tfs) with
  | ok r => rw [hr] at h; simp at h; simp [Res.bind, h]
  | fault => rw [hr] at h; simp at h
  | timeout => rw [hr] at h; simp at h

theorem decodeElems_records (L : Lib) (nm : Bytes) (tfs : List (Bytes × GoType)) :
    ∀ (l : List Node) (gs : List GoVal), decodedRecords L nm tfs l = some gs →
    decodeElems L l (.struct nm tfs) = Res.ok gs := by
  intro l
  induction l with
  | nil =>
    intro gs h
    simp [decodedRecords] at h
    simp [decodeElems, h]
  | cons d rest ih =>
    intro gs h
    simp only [decodedRecords] at h
    cases hd : decodedRecord L nm tfs d with
    | none => rw [hd] at h; simp at h
    | some g =>
      cases hr : decodedRecords L nm tfs rest with
      | none => rw [hd, hr] at h; simp at h
      | some gs1 =>
        rw [hd, hr] at h
        simp at h
        rw [decodeElems, decodeStructField_struct L d nm tfs g hd]
        simp [Res.bind, ih gs1 hr, h]

/-- A node on an exported record field or record-pointer field, and a non-empty node list
on an exported sequence-of-records field, is stored as its decoding. -/
theorem storesAs_nested (L : Lib) (k : Bytes) (v : Value) (t : GoType) (gv : GoVal)
    (hx : exported L k = true) (hv : nestedGoVal L t v = some gv) : storesAs L k v t gv := by
  intro fs f rest hf ht
  rw [decodeFields, findField_of_fieldByName L fs k f hf]
  unfold nestedGoVal at hv
  split at hv
  · rename_i nm tfs d
    simp [ht, decodeStructField_struct L d nm tfs gv hv, Res.bind, assign, hx]
  · rename_i nm tfs d
    cases hg : decodedRecord L nm tfs d with
    | none => rw [hg] at hv; simp at hv
    | some g =>
      rw [hg] at hv
      simp at hv
      simp [ht, decodeStructField_ptr L d nm tfs g hg, Res.bind, assign, hx, hv]
  · rename_i nm tfs l
    by_cases hl : l.isEmpty = true
    · simp [hl] at hv
    · have hl1 : l.isEmpty = false := by simpa using hl
      cases hg : decodedRecords L nm tfs l with
      | none => rw [hg] at hv; simp [hl1] at hv
      | some gs =>
        rw [hg] at hv
        simp [hl1] at hv
        simp [ht, hl1, decodeElems_records L nm tfs l gs hg, Res.bind, assign, hx, hv]
  · simp at hv

/-- Claim C17, amended. For every tree whose entries have distinct keys and are nested
nodes under the names of exported record-typed or record-pointer-typed fields, or non-empty
node lists under the names of exported sequence-of-records fields, and whose nested
decodings return: `decode` succeeds with no error, whichever order the entries are visited
in; the record field equals the decoding of its node, the pointer field is non-null and
points to the decoding of its node, the sequence holds one decoded record for each list
node, in list order; every other field is as it was. -/
theorem decode_nested_entries (L : Lib) (ents : List (Bytes × Value)) (T : GoType) (name : Bytes)
    (fs : List (Bytes × GoVal)) (hnd : (ents.map Prod.fst).Nodup)
    (hok : ∀ e ∈ ents, exported L e.1 = true ∧ ∃ f gv, fieldByName fs e.1 = some f ∧
      nestedGoVal L f.typeOf e.2 = some gv) :
    ∃ fs1, decode L (some ents) (some (.ptr T (some (.struct name fs)))) =
        Res.ok (some (.ptr T (some (.struct name fs1))), none) ∧
      (∀ e ∈ ents, ∃ f gv, fieldByName fs e.1 = some f ∧
        nestedGoVal L f.typeOf e.2 = some gv ∧ fieldByName fs1 e.1 = some gv) ∧
      (∀ k, k ∉ ents.map Prod.fst → fieldByName fs1 k = fieldByName fs k) ∧
      fs1.map Prod.fst = fs.map Prod.fst := by
  have hst : ∀ e ∈ ents, ∃ gv f,
      (fun e : Bytes × Value => (fieldByName fs e.1).bind fun f => nestedGoVal L f.typeOf e.2) e
        = some gv ∧
      fieldByName fs e.1 = some f ∧ storesAs L e.1 e.2 f.typeOf gv := by
    intro e he
    obtain ⟨hx, f, gv, hf, hg⟩ := hok e he
    exact ⟨gv, f, by simp [hf, hg], hf, storesAs_nested L e.1 e.2 f.typeOf gv hx hg⟩
  obtain ⟨fs1, hdec, hset, hkeep, hnames⟩ := decodeFields_stored_by L _ ents fs hnd hst
  refine ⟨fs1, by simp [decode, decodeNode, hdec, Res.bind], ?_, hkeep, hnames⟩
  intro e he
  obtain ⟨_, f, gv, hf, hg⟩ := hok e he
  refine ⟨f, gv, hf, hg, ?_⟩
  rw [hset e he]
  simp [hf, hg]

/-- The tree of the test `TestDecodeNested`. -/
theorem decode_nested_entries_witness :
    ∃ fs1, decode plainLib (some [(str "StrChild", .node [(str "Fs", .str (str "ABC"))]),
          (str "PtrChild", .node [(str "Fs", .str (str "DEF"))]),
          (str "Children", .nodeList [[(str "Fs", .str (str "ABC"))],
            [(str "Fs", .str (str "DEF"))]])])
        (some (.ptr (.struct (str "parent") [(str "StrChild", (.struct (str "child") [(str "Fs", .string)])), (str "PtrChild", .ptr (.struct (str "child") [(str "Fs", .string)])), (str "Children", .slice (.struct (str "child") [(str "Fs", .string)]))]) (some (.struct (str "parent")
          [(str "StrChild", .struct (str "child") [(str "Fs", .string [])]),
           (str "PtrChild", .ptr (.struct (str "child") [(str "Fs", .string)]) none),
           (str "Children", .nilSlice (.struct (str "child") [(str "Fs", .string)]))])))) =
        Res.ok (some (.ptr (.struct (str "parent") [(str "StrChild", (.struct (str "child") [(str "Fs", .string)])), (str "PtrChild", .ptr (.struct (str "child") [(str "Fs", .string)])), (str "Children", .slice (.struct (str "child") [(str "Fs", .string)]))]) (some (.struct (str "parent") fs1))),
          none) ∧
      (∀ e ∈ [(str "StrChild", Value.node [(str "Fs", .str (str "ABC"))]),
          (str "PtrChild", .node [(str "Fs", .str (str "DEF"))]),
          (str "Children", .nodeList [[(str "Fs", .str (str "ABC"))],
            [(str "Fs", .str (str "DEF"))]])],
        ∃ f gv, fieldByName [(str "StrChild", .struct (str "child") [(str "Fs", .string [])]),
           (str "PtrChild", .ptr (.struct (str "child") [(str "Fs", .string)]) none),
           (str "Children", .nilSlice (.struct (str "child") [(str "Fs", .string)]))] e.1 = some f ∧
        nestedGoVal plainLib f.typeOf e.2 = some gv ∧ fieldByName fs1 e.1 = some gv) ∧
      (∀ k, k ∉ [(str "StrChild", Value.node [(str "Fs", .str (str "ABC"))]),
          (str "PtrChild", .node [(str "Fs", .str (str "DEF"))]),
          (str "Children", .nodeList [[(str "Fs", .str (str "ABC"))],
            [(str "Fs", .str (str "DEF"))]])].map Prod.fst →
        fieldByName fs1 k = fieldByName
          [(str "StrChild", .struct (str "child") [(str "Fs", .string [])]),
           (str "PtrChild", .ptr (.struct (str "child") [(str "Fs", .string)]) none),
           (str "Children", .nilSlice (.struct (str "child") [(str "Fs", .string)]))] k) ∧
      fs1.map Prod.fst = [(str "StrChild", GoVal.struct (str "child") [(str "Fs", .string [])]),
           (str "PtrChild", .ptr (.struct (str "child") [(str "Fs", .string)]) none),
           (str "Children", .nilSlice (.struct (str "child") [(str "Fs", .string)]))].map Prod.fst :=
  decode_nested_entries plainLib _ (.struct (str "parent") [(str "StrChild", (.struct (str "child") [(str "Fs", .string)])), (str "PtrChild", .ptr (.struct (str "child") [(str "Fs", .string)])), (str "Children", .slice (.struct (str "child") [(str "Fs", .string)]))]) (str "parent") _
    (by simp [str])
    (by
      intro e he
      simp only [List.mem_cons, List.mem_singleton, List.not_mem_nil, or_false] at he
      rcases he with he | he | he
      · subst he
        exact ⟨by simp [exported, str], .struct (str "child") [(str "Fs", .string [])],
          .struct (str "child") [(str "Fs", .string (str "ABC"))],
          by simp [fieldByName, str],
          by simp [nestedGoVal, GoVal.typeOf, GoVal.typeOfFields, decodedRecord, decodeFields,
            GoType.zeroFields, GoType.zero, findField, fieldByName, assign, exported,
            setField, str, Res.bind]⟩
      · subst he
        exact ⟨by simp [exported, str], .ptr (.struct (str "child") [(str "Fs", .string)]) none,
          .ptr (.struct (str "child") [(str "Fs", .string)]) (some (.struct (str "child") [(str "Fs", .string (str "DEF"))])),
          by simp [fieldByName, str],
          by simp [nestedGoVal, GoVal.typeOf, GoVal.typeOfFields, decodedRecord, decodeFields,
            GoType.zeroFields, GoType.zero, findField, fieldByName, assign, exported,
            setField, str, Res.bind]⟩
      · subst he
        exact ⟨by simp [exported, str], .nilSlice (.struct (str "child") [(str "Fs", .string)]),
          .slice (.struct (str "child") [(str "Fs", .string)]) [.struct (str "child") [(str "Fs", .string (str "ABC"))],
            .struct (str "child") [(str "Fs", .string (str "DEF"))]],
          by simp [fieldByName, str],
          by simp [nestedGoVal, GoVal.typeOf, GoVal.typeOfFields, decodedRecord,
            decodedRecords, decodeFields,
            GoType.zeroFields, GoType.zero, findField, fieldByName, assign, exported,
            setField, str, Res.bind]⟩)

/-- Claim C17, counterexample: the record has the record-typed field `in`, whose name is
not exported, and the tree holds a nested node under `in`; `FieldByName` finds the field
and `Set` panics on it, so `decode` does not return. -/
theorem decode_nested_unexported_counterexample :
    decode plainLib (some [(str "in", .node [])])
      (some (.ptr (.struct (str "p") [(str "in", .struct (str "c") [])])
        (some (.struct (str "p") [(str "in", .struct (str "c") [])])))) = Res.fault := by
  simp [decode, decodeNode, decodeFields, decodeStructField, findField, fieldByName, assign,
    exported, str, Res.bind, GoVal.typeOf, GoVal.typeOfFields, GoType.zeroFields]


/-! ## The fallback to the capitalised key -/

/-- On ASCII text `strings.Title` works byte by byte. -/
theorem titleLoop_ascii (L : Lib) : ∀ (n : Nat) (k : Bytes) (prev : Nat), k.length ≤ n →
    (∀ c ∈ k, c < 128) → prev < 128 → titleLoop L n k prev = titleBytes k prev := by
  intro n
  induction n with
  | zero =>
    intro k prev hk _ _
    have : k = [] := List.length_eq_zero.1 (Nat.le_zero.1 hk)
    subst this
    rfl
  | succ m ih =>
    intro k prev hk hascii hprev
    cases k with
    | nil => rfl
    | cons c t =>
      have hc : c < 128 := hascii c (List.mem_cons_self _ _)
      have hd : DecodeRune (c :: t) = (c, 1) := by simp [DecodeRune, hc]
      have hsep : isSeparator L prev = !identByte prev := by
        have hp : prev ≤ 127 := by omega
        have hp2 : ¬ 128 ≤ prev := by omega
        simp [isSeparator, identByte, hp, hp2]
      have htl := ih t c (by simpa using hk) (fun x hx => hascii x (List.mem_cons_of_mem _ hx)) hc
      have hc127 : c ≤ 127 := by omega
      rw [titleLoop, titleBytes]
      simp only [hd, List.drop_succ_cons, List.drop_zero, htl, hsep]
      by_cases hs : identByte prev = true
      · simp [hs, WriteRune, EncodeRune, hc, show c < 65536 by omega]
      · have hs' : identByte prev = false := by simpa using hs
        by_cases hlow : 97 ≤ c ∧ c ≤ 122
        · have h1 : c - 32 < 128 := by omega
          simp [hs', ToTitle, hc127, hlow.1, hlow.2, WriteRune, EncodeRune, h1,
            show c - 32 < 65536 by omega]
        · have hlow' : (decide (97 ≤ c) && decide (c ≤ 122)) = false := by
            by_cases h1 : 97 ≤ c
            · have h2 : ¬ c ≤ 122 := fun h2 => hlow ⟨h1, h2⟩
              simp [h2]
            · simp [h1]
          simp [hs', ToTitle, hc127, hlow', WriteRune, EncodeRune, hc,
            show c < 65536 by omega]

theorem Title_ascii (L : Lib) (k : Bytes) (h : ∀ c ∈ k, c < 128) :
    Title L k = titleBytes k 32 :=
  titleLoop_ascii L k.length k 32 (Nat.le_refl _) h (by decide)

theorem titleBytes_id : ∀ (cs : Bytes) (prev : Nat), identByte prev = true →
    (∀ c ∈ cs, identByte c = true) → titleBytes cs prev = cs := by
  intro cs
  induction cs with
  | nil => intro prev _ _; rfl
  | cons c cs ih =>
    intro prev hp h
    have hc := h c (by simp)
    rw [titleBytes, ih c hc (fun d hd => h d (by simp [hd]))]
    simp [hp]

theorem identByte_upper (c : Nat) (h : 97 ≤ c ∧ c ≤ 122) : identByte (c - 32) = true := by
  have h1 : 65 ≤ c - 32 := by omega
  have h2 : c - 32 ≤ 90 := by omega
  simp [identByte, h1, h2]

theorem identByte_lower (c : Nat) (h : 97 ≤ c ∧ c ≤ 122) : identByte c = true := by
  simp [identByte, h.1, h.2]

theorem titleBytes_identifier (k : Bytes) (h : identifier k) : titleBytes k 32 = capFirst k := by
  cases k with
  | nil => rfl
  | cons c cs =>
    have hc := h c (by simp)
    have hcs : ∀ d ∈ cs, identByte d = true := fun d hd => h d (by simp [hd])
    rw [titleBytes, titleBytes_id cs c hc hcs]
    simp [capFirst, identByte]

theorem identifier_of_titleBytes : ∀ (cs : Bytes) (prev : Nat),
    (∀ c ∈ titleBytes cs prev, identByte c = true) → ∀ c ∈ cs, identByte c = true := by
  intro cs
  induction cs with
  | nil => intro prev _ c hc; simp at hc
  | cons d ds ih =>
    intro prev h c hc
    rw [titleBytes] at h
    simp only [List.mem_cons] at hc
    rcases hc with hc | hc
    · subst hc
      have h0 := h _ (List.mem_cons_self _ _)
      by_cases hl : 97 ≤ c ∧ c ≤ 122
      · exact identByte_lower c hl
      · have : (if (!identByte prev && decide (97 ≤ c) && decide (c ≤ 122)) = true then c - 32
            else c) = c := by
          by_cases h1 : 97 ≤ c
          · have h2 : ¬ c ≤ 122 := fun h2 => hl ⟨h1, h2⟩
            simp [h2]
          · simp [h1]
        rw [this] at h0
        exact h0
    · exact ih d (fun e he => h e (List.mem_cons_of_mem _ he)) c hc

theorem identifier_of_capFirst (k : Bytes) (h : identifier (capFirst k)) : identifier k := by
  cases k with
  | nil => exact h
  | cons c cs =>
    intro d hd
    simp only [List.mem_cons] at hd
    rcases hd with hd | hd
    · subst hd
      have h0 := h _ (List.mem_cons_self _ _)
      by_cases hl : 97 ≤ d ∧ d ≤ 122
      · exact identByte_lower d hl
      · simp only [hl, if_false] at h0
        exact h0
    · exact h d (List.mem_cons_of_mem _ hd)

theorem identifier_of_fieldByName (fs : List (Bytes × GoVal)) (hid : ∀ p ∈ fs, identifier p.1)
    (k : Bytes) (f : GoVal) (h : fieldByName fs k = some f) : identifier k := by
  induction fs with
  | nil => simp [fieldByName] at h
  | cons p rest ih =>
    obtain ⟨n0, v0⟩ := p
    by_cases e : n0 = k
    · subst e
      exact hid (n0, v0) (List.mem_cons_self _ _)
    · simp only [fieldByName, e, if_false] at h
      exact ih (fun q hq => hid q (List.mem_cons_of_mem _ hq)) h

/-- For an ASCII key, what `strings.Title` makes of it names a field exactly when the key
with its first letter capitalised does, and then the two are the same name. -/
theorem fieldByName_Title (L : Lib) (fs : List (Bytes × GoVal))
    (hid : ∀ p ∈ fs, identifier p.1) (k : Bytes) (hk : ∀ c ∈ k, c < 128) :
    fieldByName fs (Title L k) = fieldByName fs (capFirst k) ∧
    ((fieldByName fs (capFirst k)).isSome = true → Title L k = capFirst k) := by
  rw [Title_ascii L k hk]
  by_cases hi : identifier k
  · rw [titleBytes_identifier k hi]
    exact ⟨rfl, fun _ => rfl⟩
  · have h1 : fieldByName fs (titleBytes k 32) = none := by
      cases h : fieldByName fs (titleBytes k 32) with
      | none => rfl
      | some f =>
        exact absurd
          (identifier_of_titleBytes k 32 (identifier_of_fieldByName fs hid _ f h)) hi
    have h2 : fieldByName fs (capFirst k) = none := by
      cases h : fieldByName fs (capFirst k) with
      | none => rfl
      | some f =>
        exact absurd (identifier_of_capFirst k (identifier_of_fieldByName fs hid _ f h)) hi
    rw [h1, h2]
    exact ⟨rfl, fun h => by simp at h⟩

/-- Claim C18. For every tree entry `(k, v)`, every target record and every library, when
the key names no field as written: if what `strings.Title` makes of the key names no field
either, the entry is skipped, that is, the loop goes on with the other entries on the same
fields, and alone it leaves every field as it was and returns no error; if it names a field,
the entry is decoded into that field: a scalar or a non-empty scalar array on an exported
field of its type, and a nested node or node list on an exported field of a record type,
leaves that field holding the value and every other field as it was. For an ASCII key, what
`strings.Title` makes of it names a field exactly when the key with its first letter
capitalised does, and then it is that name, which is exported. -/
theorem decodeFields_key_fallback (L : Lib) (fs : List (Bytes × GoVal)) (k : Bytes) (v : Value)
    (rest : List (Bytes × Value)) (hno : fieldByName fs k = none) :
    (fieldByName fs (Title L k) = none →
      decodeFields L ((k, v) :: rest) fs = decodeFields L rest fs ∧
      decodeFields L [(k, v)] fs = Res.ok (fs, none)) ∧
    (∀ f gv, fieldByName fs (Title L k) = some f → exported L (Title L k) = true →
      ((v.toGoVal = some gv ∧ f.typeOf = gv.typeOf) ∨ nestedGoVal L f.typeOf v = some gv) →
      decodeFields L ((k, v) :: rest) fs = decodeFields L rest (setField fs (Title L k) gv) ∧
      decodeFields L [(k, v)] fs = Res.ok (setField fs (Title L k) gv, none) ∧
      fieldByName (setField fs (Title L k) gv) (Title L k) = some gv ∧
      ∀ k1, k1 ≠ Title L k →
        fieldByName (setField fs (Title L k) gv) k1 = fieldByName fs k1) ∧
    ((∀ c ∈ k, c < 128) → (∀ p ∈ fs, identifier p.1) →
      fieldByName fs (Title L k) = fieldByName fs (capFirst k) ∧
      ((fieldByName fs (capFirst k)).isSome = true →
        Title L k = capFirst k ∧ exported L (capFirst k) = true)) := by
  refine ⟨?_, ?_, ?_⟩
  · intro hc
    have hskip : ∀ r, decodeFields L ((k, v) :: r) fs = decodeFields L r fs := by
      intro r
      rw [decodeFields]
      simp [findField, hno, hc]
    refine ⟨hskip rest, ?_⟩
    rw [hskip []]
    simp [decodeFields]
  · intro f gv hf hx hv
    have h1 : findField L fs k = some (Title L k, f) := by
      simp [findField, hno, hf]
    have h2 : findField L fs (Title L k) = some (Title L k, f) := by
      simp [findField, hf]
    have hsame : ∀ r, decodeFields L ((k, v) :: r) fs =
        decodeFields L ((Title L k, v) :: r) fs := by
      intro r
      rw [decodeFields, decodeFields, h1, h2]
    have hst : storesAs L (Title L k) v f.typeOf gv := by
      rcases hv with ⟨hg, ht⟩ | hn
      · exact ht ▸ storesAs_scalar L (Title L k) v gv hx hg
      · exact storesAs_nested L (Title L k) v f.typeOf gv hx hn
    refine ⟨?_, ?_, fieldByName_setField_same fs _ f gv hf,
      fun k1 hk1 => fieldByName_setField_ne fs _ k1 gv hk1⟩
    · rw [hsame rest, hst fs f rest hf rfl]
    · rw [hsame [], hst fs f [] hf rfl]
      simp [decodeFields]
  · intro hk hid
    obtain ⟨h1, h2⟩ := fieldByName_Title L fs hid k hk
    refine ⟨h1, fun hc => ⟨h2 hc, ?_⟩⟩
    cases k with
    | nil => simp [capFirst, hno] at hc
    | cons c cs =>
      by_cases hlow : 97 ≤ c ∧ c ≤ 122
      · have h3 : 65 ≤ c - 32 := by omega
        have h4 : c - 32 ≤ 90 := by omega
        simp only [capFirst, hlow, and_self, decide_True, Bool.and_self, if_true]
        exact exported_of_capitalFirst L _ (by simp [capitalFirst, h3, h4])
      · simp [capFirst, hlow, hno] at hc

theorem decodeFields_key_fallback_witness :
    decodeFields plainLib [(str "nick", .str (str "x"))] [(str "Name", GoVal.string [])] =
      Res.ok ([(str "Name", GoVal.string [])], none) ∧
    decodeFields plainLib [(str "name", .str (str "x")), (str "nick", .str (str "y"))]
        [(str "Name", GoVal.string [])] =
      Res.ok ([(str "Name", GoVal.string (str "x"))], none) ∧
    Title plainLib (str "name") = str "Name" := by
  have hskip := (decodeFields_key_fallback plainLib [(str "Name", .string [])] (str "nick")
    (.str (str "x")) [] (by simp [fieldByName, str])).1
    (by simp [fieldByName, Title, titleLoop, DecodeRune, isSeparator, ToTitle, WriteRune,
      EncodeRune, str])
  have hset := (decodeFields_key_fallback plainLib [(str "Name", .string [])] (str "name")
    (.str (str "x")) [(str "nick", .str (str "y"))] (by simp [fieldByName, str])).2.1
    (.string []) (.string (str "x"))
    (by simp [fieldByName, Title, titleLoop, DecodeRune, isSeparator, ToTitle, WriteRune,
      EncodeRune, str])
    (by simp [exported, Title, titleLoop, DecodeRune, isSeparator, ToTitle, WriteRune,
      EncodeRune, str])
    (Or.inl ⟨by simp [Value.toGoVal], by simp [GoVal.typeOf]⟩)
  have ht : Title plainLib (str "name") = str "Name" := by
    simp [Title, titleLoop, DecodeRune, isSeparator, ToTitle, WriteRune, EncodeRune, str]
  have hskip2 := (decodeFields_key_fallback plainLib [(str "Name", .string (str "x"))]
    (str "nick") (.str (str "y")) [] (by simp [fieldByName, str])).1
    (by simp [fieldByName, Title, titleLoop, DecodeRune, isSeparator, ToTitle, WriteRune,
      EncodeRune, str])
  refine ⟨hskip.2, ?_, ht⟩
  rw [hset.1, ht]
  simpa [setField, str] using hskip2.2


/-! ## decodeNode on entries that do not fit -/

/-- Claim C19. A String entry whose field is not of string kind ends the loop with
type-mismatch when the loop reaches it (first conjunct, for every record, key, field and
later entries). The loop does not always reach it: on the record with the fields `A string`
and `S int` and the tree with the Integer 1 under `A` and the String `x` under `S`, when `A`
is visited before `S`, `SetInt` panics on the string field and `decode` faults, and so does
`Unmarshal` of the text of the two pairs; when `S` is visited first, `decode` returns
type-mismatch. -/
theorem decode_string_mismatch_not_reached (L : Lib) (n : Nat) :
    (∀ (fs : List (Bytes × GoVal)) (k vt : Bytes) (f : GoVal) (rest : List (Bytes × Value)),
      fieldByName fs k = some f → f.typeOf ≠ .string →
      decodeFields L ((k, .str vt) :: rest) fs = Res.ok (fs, some errTypeMismatch)) ∧
    decode L (some [(str "A", .int 1), (str "S", .str (str "x"))])
      (some (.ptr (.struct (str "ts") [(str "A", .string), (str "S", .int)])
        (some (.struct (str "ts") [(str "A", .string []), (str "S", .int 0)])))) =
      Res.fault ∧
    Unmarshal L (n + 4) (str "A: 1\nS: \"x\"\n")
      (some (.ptr (.struct (str "ts") [(str "A", .string), (str "S", .int)])
        (some (.struct (str "ts") [(str "A", .string []), (str "S", .int 0)])))) =
      Res.fault ∧
    decode L (some [(str "S", .str (str "x")), (str "A", .int 1)])
      (some (.ptr (.struct (str "ts") [(str "A", .string), (str "S", .int)])
        (some (.struct (str "ts") [(str "A", .string []), (str "S", .int 0)])))) =
      Res.ok (some (.ptr (.struct (str "ts") [(str "A", .string), (str "S", .int)])
        (some (.struct (str "ts") [(str "A", .string []), (str "S", .int 0)]))),
        some errTypeMismatch) := by
  refine ⟨?_, ?_, ?_, ?_⟩
  · intro fs k vt f rest hf ht
    rw [decodeFields, findField_of_fieldByName L fs k f hf]
    cases f <;> simp [GoVal.typeOf] at ht <;> rfl
  · simp [decode, decodeNode, decodeFields, findField, fieldByName, str, Res.bind]
  · have hp : Parse L (n + 4) (str "A: 1\nS: \"x\"\n") =
        some (some [(str "A", .int 1), (str "S", .str (str "x"))], none) := by
      simp [str, Parse, scan, newScanner, scanner.skip, skipLoop, scanner.isComment,
        scanner.byteAt, scanPair, scanner.scanName, scanNameLoop, isSpace, isLineEnd, slice,
        scanner.skipSpace, skipSpaceLoop, scanValue, scanner.scanNumber, scanner.scanRaw,
        scanRawLoop, trimSpace, trimLeftN, trimRightN, spaceWidth, spaceWidthRev,
        isTrimSpace, atoi, digitsVal, isDigit, Node.set, scanner.skipRestOfLine,
        scanner.skipUntil, skipUntilLoop, scanner.skipLineEnd, NewNode,
        scanner.scanQuotedString, scanQuotedLoop, RuneSelf, strResult]
    rw [Unmarshal, hp]
    simp [decode, decodeNode, decodeFields, findField, fieldByName, str, Res.bind]
  · simp [decode, decodeNode, decodeFields, findField, fieldByName, str, Res.bind,
      Title, titleLoop, DecodeRune, isSeparator, ToTitle, WriteRune, EncodeRune]

/-- Claim C20. An Integer entry named after a string field: `SetInt` panics on the field,
so `decode` does not return an error, it faults, and `Unmarshal` of the text `S: 1` into
the same record faults as well; the same holds for a Boolean and a Float entry. -/
theorem decode_int_into_string_faults (L : Lib) (n : Nat) :
    decode L (some [(str "S", .int 1)])
      (some (.ptr (.struct (str "ts") [(str "S", .string)])
        (some (.struct (str "ts") [(str "S", .string [])])))) = Res.fault ∧
    Unmarshal L (n + 3) (str "S: 1\n")
      (some (.ptr (.struct (str "ts") [(str "S", .string)])
        (some (.struct (str "ts") [(str "S", .string [])])))) = Res.fault ∧
    decode L (some [(str "S", .bool true)])
      (some (.ptr (.struct (str "ts") [(str "S", .string)])
        (some (.struct (str "ts") [(str "S", .string [])])))) = Res.fault ∧
    decode L (some [(str "S", .float 0)])
      (some (.ptr (.struct (str "ts") [(str "S", .string)])
        (some (.struct (str "ts") [(str "S", .string [])])))) = Res.fault := by
  refine ⟨?_, ?_, ?_, ?_⟩
  · simp [decode, decodeNode, decodeFields, findField, fieldByName, str, Res.bind]
  · have hp : Parse L (n + 3) (str "S: 1\n") = some (some [(str "S", .int 1)], none) := by
      simp [str, Parse, scan, newScanner, scanner.skip, skipLoop, scanner.isComment,
        scanner.byteAt, scanPair, scanner.scanName, scanNameLoop, isSpace, isLineEnd, slice,
        scanner.skipSpace, skipSpaceLoop, scanValue, scanner.scanNumber, scanner.scanRaw,
        scanRawLoop, trimSpace, trimLeftN, trimRightN, spaceWidth, spaceWidthRev,
        isTrimSpace, atoi, digitsVal, isDigit, Node.set,
        scanner.skipRestOfLine, scanner.skipUntil, skipUntilLoop, scanner.skipLineEnd, NewNode]
    rw [Unmarshal, hp]
    simp [decode, decodeNode, decodeFields, findField, fieldByName, str, Res.bind]
  · simp [decode, decodeNode, decodeFields, findField, fieldByName, str, Res.bind]
  · simp [decode, decodeNode, decodeFields, findField, fieldByName, str, Res.bind]

/-- Claim C21, amended. For every tree that holds an empty scalar array under one key and
a String under another key, the first naming a field of the target and the second an
exported string field: `decode` returns no error and leaves the array field as it was,
whichever of the two entries is visited first; when the String entry is visited first, the
string field holds its value afterwards. -/
theorem decode_empty_array_entry (L : Lib) (T : GoType) (name : Bytes)
    (fs : List (Bytes × GoVal)) (a s x old : Bytes) (va : Value) (fa : GoVal)
    (hva : va = .strArr [] ∨ va = .intArr [] ∨ va = .boolArr [] ∨ va = .floatArr [] ∨
      va = .timeArr [])
    (hfa : fieldByName fs a = some fa) (hfs : fieldByName fs s = some (.string old))
    (hx : exported L s = true) (hne : a ≠ s) :
    (∃ fs1, decode L (some [(a, va), (s, .str x)]) (some (.ptr T (some (.struct name fs)))) =
        Res.ok (some (.ptr T (some (.struct name fs1))), none) ∧
      fieldByName fs1 a = some fa) ∧
    (∃ fs1, decode L (some [(s, .str x), (a, va)]) (some (.ptr T (some (.struct name fs)))) =
        Res.ok (some (.ptr T (some (.struct name fs1))), none) ∧
      fieldByName fs1 a = some fa ∧ fieldByName fs1 s = some (.string x)) := by
  have hempty : ∀ (fs0 : List (Bytes × GoVal)) (rest : List (Bytes × Value)),
      fieldByName fs0 a = some fa → decodeFields L ((a, va) :: rest) fs0 = Res.ok (fs0, none) := by
    intro fs0 rest h0
    rw [decodeFields, findField_of_fieldByName L fs0 a fa h0]
    rcases hva with h | h | h | h | h <;> subst h <;> simp
  constructor
  · refine ⟨fs, ?_, hfa⟩
    simp [decode, decodeNode, hempty fs _ hfa, Res.bind]
  · have hfa1 : fieldByName (setField fs s (.string x)) a = some fa := by
      rw [fieldByName_setField_ne fs s a _ hne]
      exact hfa
    refine ⟨setField fs s (.string x), ?_, hfa1,
      fieldByName_setField_same fs s (.string old) _ hfs⟩
    have hstep : decodeFields L [(s, .str x), (a, va)] fs =
        decodeFields L [(a, va)] (setField fs s (.string x)) := by
      rw [decodeFields, findField_of_fieldByName L fs s _ hfs]
      simp [assign, hx]
    simp [decode, decodeNode, hstep, hempty _ _ hfa1, Res.bind]

theorem decode_empty_array_entry_witness :
    (∃ fs1, decode plainLib (some [(str "A", .strArr []), (str "S", .str (str "x"))])
        (some (.ptr (.struct (str "ts") [(str "A", .slice .string), (str "S", .string)])
          (some (.struct (str "ts")
            [(str "A", .nilSlice .string), (str "S", .string [])])))) =
        Res.ok (some (.ptr (.struct (str "ts") [(str "A", .slice .string), (str "S", .string)])
          (some (.struct (str "ts") fs1))), none) ∧
      fieldByName fs1 (str "A") = some (.nilSlice .string)) ∧
    (∃ fs1, decode plainLib (some [(str "S", .str (str "x")), (str "A", .strArr [])])
        (some (.ptr (.struct (str "ts") [(str "A", .slice .string), (str "S", .string)])
          (some (.struct (str "ts")
            [(str "A", .nilSlice .string), (str "S", .string [])])))) =
        Res.ok (some (.ptr (.struct (str "ts") [(str "A", .slice .string), (str "S", .string)])
          (some (.struct (str "ts") fs1))), none) ∧
      fieldByName fs1 (str "A") = some (.nilSlice .string) ∧
      fieldByName fs1 (str "S") = some (.string (str "x"))) :=
  decode_empty_array_entry plainLib
    (.struct (str "ts") [(str "A", .slice .string), (str "S", .string)]) (str "ts")
    [(str "A", .nilSlice .string), (str "S", .string [])] (str "A") (str "S") (str "x") []
    (.strArr []) (.nilSlice .string) (Or.inl rfl) (by simp [fieldByName, str])
    (by simp [fieldByName, str]) (by simp [exported, str]) (by simp [str])

/-- Claim C21, counterexample: on the record with the fields `A []string` and `S string`,
when the empty array under `A` is visited before the String under `S`, `decode` returns no
error and the string field is still empty: it is not set whatever the order. -/
theorem decode_empty_array_counterexample :
    decode plainLib (some [(str "A", .strArr []), (str "S", .str (str "x"))])
      (some (.ptr (.struct (str "ts") [(str "A", .slice .string), (str "S", .string)])
        (some (.struct (str "ts") [(str "A", .nilSlice .string), (str "S", .string [])])))) =
      Res.ok (some (.ptr (.struct (str "ts") [(str "A", .slice .string), (str "S", .string)])
        (some (.struct (str "ts") [(str "A", .nilSlice .string), (str "S", .string [])]))),
        none) := by
  simp [decode, decodeNode, decodeFields, findField, fieldByName, assign, exported, setField,
    str, Res.bind]

/-- Claim C22. The nested node holds a String under `A`, and the nested record type has the
integer field `A`: the nested `decodeNode` returns type-mismatch, `decodeStructField`
drops it, and `decode` of the outer tree reports no error and leaves `A` at zero. -/
theorem decode_nested_error_dropped (L : Lib) :
    decodeNode L (some [(str "A", .str (str "x"))])
        (.struct (str "c") [(str "A", .int 0)]) =
      Res.ok (.struct (str "c") [(str "A", .int 0)], some errTypeMismatch) ∧
    decode L (some [(str "In", .node [(str "A", .str (str "x"))])])
      (some (.ptr (.struct (str "p") [(str "In", .struct (str "c") [(str "A", .int)])])
        (some (.struct (str "p") [(str "In", .struct (str "c") [(str "A", .int 0)])])))) =
      Res.ok (some (.ptr (.struct (str "p") [(str "In", .struct (str "c") [(str "A", .int)])])
        (some (.struct (str "p") [(str "In", .struct (str "c") [(str "A", .int 0)])]))),
        none) := by
  constructor <;>
  simp [decode, decodeNode, decodeFields, decodeStructField, findField, fieldByName, assign,
    exported, setField, str, Res.bind, GoVal.typeOf, GoVal.typeOfFields, GoType.zeroFields,
    GoType.zero]


/-! ## The encoder -/

theorem encodeFields_lines (L : Lib) : ∀ (fields : List (Bytes × GoVal)),
    (∀ p ∈ fields, (∃ s, p.2 = .string s) ∨ (∃ i, p.2 = .int i) ∨ (∃ b, p.2 = .bool b)) →
    encodeFields L fields =
      (fields.map fun p => p.1 ++ str ": " ++ encodeVal L p.2 ++ [10]).flatten := by
  intro fields
  induction fields with
  | nil => intro _; simp [encodeFields]
  | cons p rest ih =>
    intro h
    obtain ⟨nm, v⟩ := p
    have ihr := ih (fun q hq => h q (List.mem_cons_of_mem _ hq))
    rcases h (nm, v) (List.mem_cons_self _ _) with ⟨s, hs⟩ | ⟨i, hi⟩ | ⟨b, hb⟩
    · simp only at hs
      subst hs
      simp [encodeFields, ihr]
    · simp only at hi
      subst hi
      simp [encodeFields, ihr]
    · simp only at hb
      subst hb
      simp [encodeFields, ihr]

/-- Claim C23. For every record whose type is not named `Time` and whose fields are
strings, integers or booleans, `Marshal` (of the record or of a pointer to it) outputs
exactly the concatenation, in field order, of the lines `FieldName: value` with a line feed
after each (second conjunct). A record type that is named `Time` and is not `time.Time` is
taken for one: `encodeTime` asserts the type `time.Time` and `Marshal` panics. -/
theorem Marshal_record_lines (L : Lib) :
    Marshal L (some (.struct (str "Time") [(str "Name", .string (str "x"))])) = Res.fault ∧
    (∀ (name : Bytes) (fields : List (Bytes × GoVal)) (T : GoType), name ≠ str "Time" →
      (∀ p ∈ fields, (∃ s, p.2 = .string s) ∨ (∃ i, p.2 = .int i) ∨ (∃ b, p.2 = .bool b)) →
      Marshal L (some (.struct name fields)) =
        Res.ok (fields.map fun p => p.1 ++ str ": " ++ encodeVal L p.2 ++ [10]).flatten ∧
      Marshal L (some (.ptr T (some (.struct name fields)))) =
        Res.ok (fields.map fun p => p.1 ++ str ": " ++ encodeVal L p.2 ++ [10]).flatten) := by
  constructor
  · simp [Marshal, encode]
  · intro name fields T hn hf
    simp [Marshal, encode, hn, encodeFields_lines L fields hf]

theorem intercalate_AppendInt (a : Int) (as : List Int) :
    List.intercalate [44] ((a :: as).map AppendInt) = AppendInt a ++ intsTail as := by
  induction as generalizing a with
  | nil => simp [List.intercalate, intsTail]
  | cons b bs ih =>
    have := ih b
    simp only [List.intercalate, List.map_cons, List.intersperse_cons₂] at this ⊢
    simp only [List.flatten_cons, this, intsTail]
    simp

/-- Claim C24. For every sequence of integers the encoder writes `[`, the decimal texts
of the elements separated by one comma each, and `]`, with no trailing comma and no space;
the empty sequence, nil or not, is written `[]`. `Marshal` of the sequence writes the
same. -/
theorem encode_int_sequence (L : Lib) (vs : List Int) :
    encodeVal L (.slice .int (vs.map .int)) =
      91 :: (List.intercalate [44] (vs.map AppendInt) ++ [93]) ∧
    Marshal L (some (.slice .int (vs.map .int))) =
      Res.ok (91 :: (List.intercalate [44] (vs.map AppendInt) ++ [93])) ∧
    encodeVal L (.slice .int []) = str "[]" ∧
    encodeVal L (.nilSlice .int) = str "[]" := by
  have h : encodeVal L (.slice .int (vs.map .int)) =
      91 :: (List.intercalate [44] (vs.map AppendInt) ++ [93]) := by
    cases vs with
    | nil => simp [encodeVal, encodeArray, List.intercalate]
    | cons a as =>
      rw [intercalate_AppendInt]
      simp [encodeVal, encodeArray, encodeArray_ints]
  refine ⟨h, ?_, ?_, ?_⟩
  · simp only [Marshal, encode]
    rw [h]
  · simp [encodeVal, encodeArray, str]
  · simp [encodeVal, str]

/-- Claim C25. For every string the encoder writes a double quote, the bytes of the string
as they are, and a double quote: the output is two bytes longer than the string. `Marshal`
of the string writes the same. -/
theorem encode_string_quoted (L : Lib) (s : Bytes) :
    encodeVal L (.string s) = 34 :: (s ++ [34]) ∧
    (encodeVal L (.string s)).length = s.length + 2 ∧
    Marshal L (some (.string s)) = Res.ok (34 :: (s ++ [34])) := by
  refine ⟨?_, ?_, ?_⟩ <;> simp [encodeVal, Marshal, encode]

/-- Claim C26. `Marshal` of a nil interface value and of a nil pointer writes nothing: the
invalid `reflect.Value` has the kind `Invalid`, which no case of `encodeVal` handles. The
output is empty, not the four bytes `null`. -/
theorem Marshal_nil_writes_nothing (L : Lib) (T : GoType) :
    Marshal L none = Res.ok [] ∧
    Marshal L (some (.ptr T none)) = Res.ok [] ∧
    ([] : Bytes) ≠ str "null" := by
  refine ⟨?_, ?_, ?_⟩ <;> simp [Marshal, encode, str]


/-! ## The scanner on inputs that go wrong -/

/-- Claim C27. The scan writes into the input buffer. On the unterminated string with the
escape `\n` followed by the line `x: 1`, the buffer the scanner is left with differs from
the input: the bytes after the backslash have moved one place to the left. On the same
text with one more line in between and no final line feed, the last byte is doubled and
the pair `x` is stored as 11, not as 1. -/
theorem scan_overwrites_input (L : Lib) (n : Nat) :
    scan L (n + 6) (newScanner (str "k: \"a\\nb\nx: 1\n")) =
      Res.ok { data := str "k: \"a\nb\nx: 1\n\n", len := 14, offset := 13, root := [],
               error := some (str "invalid string value, name: k;invalid name"),
               state := .scanOk, line := 4 } ∧
    str "k: \"a\nb\nx: 1\n\n" ≠ str "k: \"a\\nb\nx: 1\n" ∧
    Parse L (n + 6) (str "k: \"a\\nb\ny\nx: 1") =
      some (some [(str "x", .int 11)],
        some (str "invalid string value, name: k;invalid name")) := by
  refine ⟨?_, by simp [str], ?_⟩ <;>
  simp [str, Parse, scan, newScanner, scanner.skip, skipLoop, scanner.isComment,
    scanner.byteAt, scanPair, scanner.scanName, scanNameLoop, isSpace, isLineEnd, slice,
    scanner.skipSpace, skipSpaceLoop, scanValue, scanner.scanNumber, scanner.scanRaw,
    scanRawLoop, trimSpace,
    trimLeftN, trimRightN, spaceWidth, spaceWidthRev, isTrimSpace, atoi, digitsVal, isDigit, Node.set,
    scanner.skipRestOfLine, scanner.skipUntil, skipUntilLoop, scanner.skipLineEnd, NewNode,
    scanner.scanQuotedString, scanQuotedLoop, appendRet, writeAt, RuneSelf, strResult,
    scanner.addErrorMsg, addMsg, invalidStringValue, invalidName]

/-- Claim C28. An array of floats and an array of objects come out as null. In the float
(and datetime and object) case the loop of `scanArray` runs while the state is `endOfItem`
and then falls through to the label `ERR`: on `[1.5,2.5]` both elements are read, the
closing bracket ends the loop, and the result is null with the offset one past the end of
the buffer. On an array of one object, `scanObject` leaves the offset on the closing brace,
`skipRestOfArrayItem` reports an error there, and the result is null again. In a document
the search of `ERR` for the next `]` swallows the pairs `b` and `c`. -/
theorem scanArray_typed_arrays_null (L : Lib) (n : Nat) :
    scanArray floatLib (n + 4) (newScanner (str "[1.5,2.5]")) =
      Res.ok ({ newScanner (str "[1.5,2.5]") with offset := 10 }, .ok .null) ∧
    scanArray L (n + 6) (newScanner (str "[\x7ba: 1\n\x7d]\n")) =
      Res.ok ({ newScanner (str "[\x7ba: 1\n\x7d]\n") with offset := 9, line := 2 }, .ok .null) ∧
    Parse floatLib (n + 8) (str "a: [1.5,2.5]\nb: 1\nc: [2]\nd: 3\n") =
      some (some [(str "a", .null), (str "d", .int 3)], none) := by
  refine ⟨?_, ?_, ?_⟩ <;>
  simp [str, Parse, scan, newScanner, scanner.skip, skipLoop, scanner.isComment,
    scanner.byteAt, scanPair, scanner.scanName, scanNameLoop, isSpace, isLineEnd, slice,
    scanner.skipSpace, skipSpaceLoop, scanValue, scanner.scanNumber, scanner.scanRaw,
    scanRawLoop, trimSpace,
    trimLeftN, trimRightN, spaceWidth, spaceWidthRev, isTrimSpace, atoi, digitsVal, isDigit, Node.set,
    scanner.skipRestOfLine, scanner.skipUntil, skipUntilLoop, scanner.skipLineEnd, NewNode,
    scanArray, scanner.skipRestOfArrayItem, skipRestOfArrayItemLoop, intArrLoop,
    floatArrLoop, nodeArrLoop, scanObject, scanObjectLoop, floatLib,
    scanner.arrayERR, scanner.skipUntilChar, findLoop]

/-- Claim C31. A comment after an element and one space: the loop of `skipRestOfArrayItem`
steps over the space with its own index and then asks `isComment`, which looks at the byte
at the offset, the space, so the comment is not seen and the array is rejected with
`invalid array`. Without the space the comment is skipped and the array is read. -/
theorem scanArray_comment_after_space (L : Lib) (n : Nat) :
    scanArray L (n + 3) (newScanner (str "[\"x\" # c\n]\n")) =
      Res.ok ({ newScanner (str "[\"x\" # c\n]\n") with offset := 4 },
        .error (str "invalid array")) ∧
    scanArray L (n + 3) (newScanner (str "[\"x\" // c\n,\"y\"]\n")) =
      Res.ok ({ newScanner (str "[\"x\" // c\n,\"y\"]\n") with offset := 4 },
        .error (str "invalid array")) ∧
    scanArray L (n + 4) (newScanner (str "[\"x\"# c\n]\n")) =
      Res.ok ({ newScanner (str "[\"x\"# c\n]\n") with offset := 9, line := 2 },
        .ok (.strArr [str "x"])) := by
  refine ⟨?_, ?_, ?_⟩ <;>
  simp [str, newScanner, scanner.skip, skipLoop, scanner.isComment,
    scanner.byteAt, isSpace, isLineEnd, slice, scanValue,
    scanner.skipRestOfLine, scanner.skipUntil, skipUntilLoop, scanner.skipLineEnd, NewNode,
    scanArray, scanner.skipRestOfArrayItem, skipRestOfArrayItemLoop, strArrLoop,
    scanner.scanQuotedString, scanQuotedLoop, RuneSelf, strResult, invalidArray,
    scanner.arrayERR, scanner.skipUntilChar, findLoop]

/-- Claim C32. Spaces followed by a comment are not a blank line for `isBlankLine`: its
loop has its own index, and `isComment` looks at the byte at the offset, which is the first
space. A comment at the offset, and spaces up to the end of the input, are blank. -/
theorem isBlankLine_comment_after_space :
    scanner.isBlankLine (newScanner (str "  # c\n")) =
      Res.ok (newScanner (str "  # c\n"), false) ∧
    scanner.isBlankLine (newScanner (str " \t// c\nx")) =
      Res.ok (newScanner (str " \t// c\nx"), false) ∧
    scanner.isBlankLine (newScanner (str "# c\nx")) =
      Res.ok ({ newScanner (str "# c\nx") with offset := 4, line := 2 }, true) ∧
    scanner.isBlankLine (newScanner (str " \t")) = Res.ok (newScanner (str " \t"), true) := by
  refine ⟨?_, ?_, ?_, ?_⟩ <;>
  simp [str, newScanner, scanner.isBlankLine, isBlankLineLoop, scanner.isComment, isSpace,
    isLineEnd, scanner.skipRestOfLine, scanner.skipUntil, skipUntilLoop, scanner.skipLineEnd]

/-- Claim C37. An object that is not closed and ends after the colon of a pair: `scanValue`
reads the byte at the offset, which is past the end of the buffer, and `scanObject` panics
instead of returning `invalid object`. An object with a boolean pair comes back without
the pair (the slip of `scanExact`). The objects of the test `TestScanObject` are read as
the claim says. -/
theorem scanObject_unclosed_faults (L : Lib) (n : Nat) :
    scanObject L (n + 4) (newScanner (str "\x7ba:")) = Res.fault ∧
    scanObject L (n + 4) (newScanner (str "\x7bb: true\n\x7d\n")) =
      Res.ok ({ newScanner (str "\x7bb: true\n\x7d\n") with
          offset := 9, line := 2,
          error := some (str "invalid bool value, name: b;invalid name") }, .ok []) ∧
    scanObject L (n + 5) (newScanner (str "\x7bname: \"Jason\"\nage: 12\x7d\n")) =
      Res.ok ({ newScanner (str "\x7bname: \"Jason\"\nage: 12\x7d\n") with
          offset := 22, line := 2 },
        .ok [(str "name", .str (str "Jason")), (str "age", .int 12)]) ∧
    scanObject L (n + 4) (newScanner (str "\x7bname: \"Jason\"")) =
      Res.ok ({ newScanner (str "\x7bname: \"Jason\"") with offset := 14 },
        .error (str "invalid object")) := by
  refine ⟨?_, ?_, ?_, ?_⟩ <;>
  simp [str, newScanner, scanner.skip, skipLoop, scanner.isComment,
    scanner.byteAt, scanPair, scanner.scanName, scanNameLoop, isSpace, isLineEnd, slice,
    scanner.skipSpace, skipSpaceLoop, scanValue, scanner.scanNumber, scanner.scanRaw,
    scanRawLoop, trimSpace,
    trimLeftN, trimRightN, spaceWidth, spaceWidthRev, isTrimSpace, atoi, digitsVal, isDigit, Node.set,
    scanner.skipRestOfLine, scanner.skipUntil, skipUntilLoop, scanner.skipLineEnd, NewNode,
    scanObject, scanObjectLoop, scanner.scanLiteral, scanner.scanExact, scanExactLoop,
    scanner.scanQuotedString, scanQuotedLoop, RuneSelf, strResult,
    scanner.addErrorMsg, addMsg, invalidBoolValue, invalidName, invalidObject]


/-! ## scanRaw on any text -/

theorem rawSpan_append_drop : ∀ (rest : Bytes),
    rawSpan rest ++ rest.drop (rawSpan rest).length = rest := by
  intro rest
  induction rest with
  | nil => simp [rawSpan]
  | cons c t ih =>
    rw [rawSpan]
    split
    · simp
    · simp [ih]

theorem rawSpan_length_le (rest : Bytes) : (rawSpan rest).length ≤ rest.length := by
  have h := congrArg List.length (rawSpan_append_drop rest)
  simp only [List.length_append] at h
  omega

theorem scanRawLoop_span : ∀ (rest : Bytes) (n : Nat) (s : scanner),
    s.len = s.data.length → s.data.drop s.offset = rest → rest.length < n →
    scanRawLoop n s = Res.ok ({ s with offset := s.offset + (rawSpan rest).length },
      decide ((rawSpan rest).length < rest.length)) := by
  intro rest
  induction rest with
  | nil =>
    intro n s hl hd hn
    obtain ⟨m, rfl⟩ : ∃ m, n = m + 1 := ⟨n - 1, by simp at hn; omega⟩
    have hlen : s.len ≤ s.offset := hl ▸ length_of_drop_nil hd
    rw [scanRawLoop]
    have : ¬ s.offset < s.len := by omega
    simp [this, rawSpan]
  | cons c t ih =>
    intro n s hl hd hn
    obtain ⟨m, rfl⟩ : ∃ m, n = m + 1 := ⟨n - 1, by simp at hn; omega⟩
    have hlt : s.offset < s.len := hl ▸ lt_length_of_drop hd
    have hc := getElem?_of_drop hd
    have hd1 := drop_succ_of_drop hd
    rw [scanRawLoop]
    simp only [hlt, if_true, hc]
    by_cases hstop : (isLineEnd c || c == 44 || c == 93 || c == 125) = true
    · have hr : rawSpan (c :: t) = [] := by
        rw [rawSpan]
        simp only [Bool.or_eq_true] at hstop ⊢
        rcases hstop with ((h | h) | h) | h <;> simp [h]
      simp [hstop, hr]
    · have hstop1 : (isLineEnd c || c == 44 || c == 93 || c == 125) = false := by
        simpa using hstop
      simp only [hstop1, Bool.false_eq_true, if_false]
      by_cases h35 : c = 35
      · subst h35
        have hr : rawSpan (35 :: t) = [] := by
          rw [rawSpan]; simp
        simp [scanner.isComment, hc, hr]
      · by_cases h47 : c = 47
        · subst h47
          cases t with
          | nil =>
            have hend : ¬ s.offset + 1 < s.len := by
              have := length_of_drop_nil hd1
              omega
            have hr : rawSpan [47] = [47] := by
              rw [rawSpan]
              simp [isLineEnd, rawSpan]
            have ih1 := ih m { s with offset := s.offset + 1 } hl hd1 (by simp at hn ⊢; omega)
            simp only [scanner.isComment, hc, if_true, hend]
            simp only [show ¬ (47 = 35) by decide, if_false]
            rw [ih1]
            simp [rawSpan, isLineEnd]
          | cons d t1 =>
            have hlt1 : s.offset + 1 < s.len := hl ▸ lt_length_of_drop hd1
            have hd1c := getElem?_of_drop hd1
            by_cases hd47 : d = 47
            · subst hd47
              have hr : rawSpan (47 :: 47 :: t1) = [] := by
                rw [rawSpan]; simp
              simp [scanner.isComment, hc, hlt1, hd1c, hr]
            · have hr : rawSpan (47 :: d :: t1) = 47 :: rawSpan (d :: t1) := by
                rw [rawSpan]
                simp [hd47, isLineEnd]
              have ih1 := ih m { s with offset := s.offset + 1 } hl hd1
                (by simp at hn ⊢; omega)
              simp only [scanner.isComment, hc, hlt1, hd1c, if_true]
              simp only [show ¬ (47 = 35) by decide, if_false, beq_iff_eq, hd47,
                decide_False, Bool.false_eq_true]
              rw [ih1]
              simp [hr]
              omega
        · have hr : rawSpan (c :: t) = c :: rawSpan t := by
            rw [rawSpan]
            simp only [Bool.or_eq_false_iff] at hstop1
            simp [hstop1.1.1.1, hstop1.1.1.2, hstop1.1.2, hstop1.2, h35, h47]
          have ih1 := ih m { s with offset := s.offset + 1 } hl hd1 (by simp at hn ⊢; omega)
          simp only [scanner.isComment, hc, h35, h47, if_false]
          rw [ih1]
          simp [hr]
          omega

/-- The method `scanRaw` on any text: it reads the span of the text and returns it
trimmed. -/
theorem scanRaw_span (s : scanner) (hl : s.len = s.data.length) (rest : Bytes)
    (hd : s.data.drop s.offset = rest) :
    s.scanRaw = Res.ok ({ s with offset := s.offset + (rawSpan rest).length },
      trimSpace (rawSpan rest)) := by
  have hlen : rest.length < s.len + 1 := by
    have := congrArg List.length hd
    simp at this
    omega
  unfold scanner.scanRaw
  rw [scanRawLoop_span rest (s.len + 1) s hl hd hlen]
  simp only
  have hpre := rawSpan_append_drop rest
  by_cases hb : (rawSpan rest).length < rest.length
  · have hoff : s.offset + rest.length = s.len := by
      have := congrArg List.length hd
      simp at this
      omega
    have hne : ¬ s.offset + (rawSpan rest).length = s.len := by omega
    have hsl : slice s.data s.offset (s.offset + (rawSpan rest).length) = rawSpan rest :=
      slice_of_drop (rawSpan rest) (rest.drop (rawSpan rest).length) (by rw [hd, hpre])
    simp [hb, hne, hsl]
  · have heq : (rawSpan rest).length = rest.length := by
      have := rawSpan_length_le rest
      omega
    have hfull : rawSpan rest = rest := by
      have h1 : rest.drop (rawSpan rest).length = [] := by
        rw [heq]; simp
      rw [h1] at hpre
      simpa using hpre
    by_cases hend : s.offset + (rawSpan rest).length = s.len
    · have hend1 : s.offset + rest.length = s.len := by rw [← heq]; exact hend
      simp [hb, hend, hd, hfull, hend1]
    · -- the offset is past the end of the buffer and the text is empty
      have hnil : rest = [] := by
        by_contra hne
        have := congrArg List.length hd
        simp at this
        have hpos : 0 < rest.length := List.length_pos.mpr hne
        omega
      subst hnil
      simp [rawSpan, hd]


/-! ## Numeric tokens that are no number -/

theorem decodeDatetime_no_pattern (L : Lib) (raw : Bytes)
    (h : ∀ i, i < 4 → dateTimeRegs i raw = false) :
    decodeDatetime L raw = .error invalidTime := by
  simp [decodeDatetime, decodeDatetimeLoop, h 0, h 1, h 2, h 3]

theorem decodeDatetime_first_pattern (L : Lib) (raw : Bytes) (i : Nat) (hi : i < 4)
    (hm : dateTimeRegs i raw = true) (hfirst : ∀ j, j < i → dateTimeRegs j raw = false) :
    decodeDatetime L raw = L.timeParse i raw := by
  interval_cases i
  · simp [decodeDatetime, decodeDatetimeLoop, hm]
  · simp [decodeDatetime, decodeDatetimeLoop, hm, hfirst 0]
  · simp [decodeDatetime, decodeDatetimeLoop, hm, hfirst 0, hfirst 1]
  · simp [decodeDatetime, decodeDatetimeLoop, hm, hfirst 0, hfirst 1, hfirst 2]

theorem scanValue_number (L : Lib) (n : Nat) (s : scanner) (c : Nat) (t : Bytes)
    (hd : s.data.drop s.offset = c :: t) (hc : (48 ≤ c ∧ c ≤ 57) ∨ c = 43 ∨ c = 45) :
    scanValue L (n + 1) s = s.scanNumber L := by
  rw [scanValue]
  have h34 : c ≠ 34 := by omega
  have h96 : c ≠ 96 := by omega
  simp [getElem?_of_drop hd, h34, h96, hc]

/-- Claim C35, amended. For every token that starts with a digit, `+` or `-` and is
neither an integer literal nor a float literal: if it matches none of the four datetime
patterns, `scanValue` fails with the error `invalid time value`; if it matches one, the
result is what `time.Parse` answers for the first pattern that matches, which for a text
that is not a real date is the error of `time.Parse`, with its own message. The offset is
left after the bytes that `scanRaw` read. -/
theorem scanValue_numeric_token (L : Lib) (n : Nat) (s : scanner) (c : Nat) (t : Bytes)
    (hl : s.len = s.data.length) (hd : s.data.drop s.offset = c :: t)
    (hc : (48 ≤ c ∧ c ≤ 57) ∨ c = 43 ∨ c = 45)
    (ha : atoi (trimSpace (rawSpan (c :: t))) = none)
    (hf : L.parseFloat (trimSpace (rawSpan (c :: t))) = none) :
    ((∀ i, i < 4 → dateTimeRegs i (trimSpace (rawSpan (c :: t))) = false) →
      scanValue L (n + 1) s =
        Res.ok ({ s with offset := s.offset + (rawSpan (c :: t)).length },
          .error invalidTime)) ∧
    (∀ i, i < 4 → dateTimeRegs i (trimSpace (rawSpan (c :: t))) = true →
      (∀ j, j < i → dateTimeRegs j (trimSpace (rawSpan (c :: t))) = false) →
      scanValue L (n + 1) s =
        Res.ok ({ s with offset := s.offset + (rawSpan (c :: t)).length },
          match L.timeParse i (trimSpace (rawSpan (c :: t))) with
          | .ok tm => .ok (.time tm)
          | .error m => .error m)) := by
  have hnum := scanValue_number L n s c t hd hc
  constructor
  · intro h
    rw [hnum, scanner.scanNumber, scanRaw_span s hl _ hd]
    simp only [Res.bind_ok, ha, hf, decodeDatetime_no_pattern L _ h]
  · intro i hi hm hfirst
    rw [hnum, scanner.scanNumber, scanRaw_span s hl _ hd]
    simp only [Res.bind_ok, ha, hf, decodeDatetime_first_pattern L _ i hi hm hfirst]
    cases L.timeParse i (trimSpace (rawSpan (c :: t))) <;> rfl

/-- The token `2019-09-09T13:54:46.123+a` matches none of the four patterns. -/
theorem dateTimeRegs_no_match :
    ∀ i, i < 4 → dateTimeRegs i
      (trimSpace (rawSpan (50 :: str "019-09-09T13:54:46.123+a"))) = false := by
  intro i hi
  have hraw : trimSpace (rawSpan (50 :: str "019-09-09T13:54:46.123+a")) =
      str "2019-09-09T13:54:46.123+a" := by
    simp [str, rawSpan, isLineEnd, trimSpace,
    trimLeftN, trimRightN, spaceWidth, spaceWidthRev, isTrimSpace]
  rw [hraw]
  interval_cases i <;>
  simp [str, dateTimeRegs, matchDate, matchClock, matchDigits, matchByte, isDigit, matchFrac,
    matchZone, DecodeRune]

theorem scanValue_numeric_token_witness :
    scanValue plainLib 1 (newScanner (str "2019-09-09T13:54:46.123+a")) =
      Res.ok ({ newScanner (str "2019-09-09T13:54:46.123+a") with offset := 25 },
        .error invalidTime) := by
  have h := (scanValue_numeric_token plainLib 0 (newScanner (str "2019-09-09T13:54:46.123+a"))
    50 (str "019-09-09T13:54:46.123+a") (by simp [newScanner]) (by simp [newScanner, str])
    (by decide)
    (by simp [str, rawSpan, isLineEnd, trimSpace,
      trimLeftN, trimRightN, spaceWidth, spaceWidthRev, isTrimSpace, atoi, digitsVal, isDigit])
    (by simp [plainLib])).1 dateTimeRegs_no_match
  have hlen : (rawSpan (50 :: str "019-09-09T13:54:46.123+a")).length = 25 := by
    simp [str, rawSpan, isLineEnd]
  rw [hlen] at h
  simpa [newScanner] using h

/-- Claim C35, counterexample: the token `2019-13-45` is no integer and no float, it
matches the first pattern, and `decodeDatetime` returns the error of `time.Parse`, whose
message is `parsing time "2019-13-45": month out of range`, not `invalid time value`. -/
theorem scanValue_bad_date_counterexample :
    atoi (str "2019-13-45") = none ∧
    dateLib.parseFloat (str "2019-13-45") = none ∧
    dateTimeRegs 0 (str "2019-13-45") = true ∧
    scanValue dateLib 1 (newScanner (str "2019-13-45")) =
      Res.ok ({ newScanner (str "2019-13-45") with offset := 10 },
        .error (str "parsing time \"2019-13-45\": month out of range")) ∧
    str "parsing time \"2019-13-45\": month out of range" ≠ invalidTime := by
  refine ⟨?_, ?_, ?_, ?_, ?_⟩
  · simp [str, atoi, digitsVal, isDigit]
  · simp [dateLib]
  · simp [str, dateTimeRegs, matchDate, matchDigits, matchByte, isDigit]
  · simp [str, newScanner, scanValue, scanner.scanNumber, scanner.scanRaw, scanRawLoop,
      scanner.isComment, isLineEnd, slice, trimSpace,
      trimLeftN, trimRightN, spaceWidth, spaceWidthRev, isTrimSpace, atoi, digitsVal, isDigit,
      dateLib, decodeDatetime, decodeDatetimeLoop, dateTimeRegs, matchDate, matchDigits,
      matchByte]
  · simp [str, invalidTime]


/-! ## Arrays of integers with an element that is no integer -/

theorem digitsVal_isDigit : ∀ (cs : Bytes) (acc v : Nat), digitsVal cs acc = some v →
    ∀ b ∈ cs, isDigit b = true := by
  intro cs
  induction cs with
  | nil => intro _ _ _ b hb; simp at hb
  | cons c cs ih =>
    intro acc v h b hb
    rw [digitsVal] at h
    by_cases hc : isDigit c = true
    · simp only [hc, if_true] at h
      simp only [List.mem_cons] at hb
      rcases hb with hb | hb
      · rw [hb]; exact hc
      · exact ih _ v h b hb
    · simp [hc] at h

theorem rawByte_of_isDigit (b : Nat) (h : isDigit b = true) : rawByte b = true := by
  simp only [isDigit, Bool.and_eq_true, decide_eq_true_eq] at h
  simp only [rawByte, isLineEnd, isTrimSpace, Bool.and_eq_true, decide_eq_true_eq,
    Bool.not_eq_true', Bool.or_eq_false_iff, beq_eq_false_iff_ne, ne_eq]
  omega

/-- The text of an integer literal: sign and digits, with a sign or a digit first. -/
theorem atoi_token (e : Bytes) (v : Int) (h : atoi e = some v) :
    (∀ b ∈ e, rawByte b = true) ∧
    ∃ c cs, e = c :: cs ∧ ((48 ≤ c ∧ c ≤ 57) ∨ c = 43 ∨ c = 45) := by
  cases e with
  | nil => simp [atoi] at h
  | cons c cs =>
    unfold atoi at h
    simp only at h
    by_cases h45 : c = 45
    · subst h45
      simp only [if_true] at h
      cases cs with
      | nil => simp at h
      | cons d ds =>
        simp only at h
        cases hv : digitsVal (d :: ds) 0 with
        | none => rw [hv] at h; simp at h
        | some w =>
          refine ⟨?_, 45, d :: ds, rfl, Or.inr (Or.inr rfl)⟩
          intro b hb
          simp only [List.mem_cons] at hb
          rcases hb with hb | hb
          · subst hb; decide
          · exact rawByte_of_isDigit b (digitsVal_isDigit (d :: ds) 0 w hv b (by simpa using hb))
    · by_cases h43 : c = 43
      · subst h43
        simp only [show ¬ (43 = 45) by decide, if_false, if_true] at h
        cases cs with
        | nil => simp at h
        | cons d ds =>
          simp only at h
          cases hv : digitsVal (d :: ds) 0 with
          | none => rw [hv] at h; simp at h
          | some w =>
            refine ⟨?_, 43, d :: ds, rfl, Or.inr (Or.inl rfl)⟩
            intro b hb
            simp only [List.mem_cons] at hb
            rcases hb with hb | hb
            · subst hb; decide
            · exact rawByte_of_isDigit b
                (digitsVal_isDigit (d :: ds) 0 w hv b (by simpa using hb))
      · simp only [h45, h43, if_false] at h
        cases hv : digitsVal (c :: cs) 0 with
        | none => rw [hv] at h; simp at h
        | some w =>
          have hd := digitsVal_isDigit (c :: cs) 0 w hv
          refine ⟨fun b hb => rawByte_of_isDigit b (hd b hb), c, cs, rfl, Or.inl ?_⟩
          have := hd c (List.mem_cons_self _ _)
          simpa [isDigit] using this

theorem findLoop_first (s : scanner) (hl : s.len = s.data.length) (c : Nat) :
    ∀ (pre : Bytes) (n i : Nat) (t : Bytes), c ∉ pre → s.data.drop i = pre ++ c :: t →
    findLoop s c (n + pre.length + 1) i = Res.ok (some (i + pre.length)) := by
  intro pre
  induction pre with
  | nil =>
    intro n i t _ hd
    have hd' : s.data.drop i = c :: t := by simpa using hd
    have hlt : i < s.len := hl ▸ lt_length_of_drop hd'
    rw [show n + ([] : Bytes).length + 1 = n + 1 by simp, findLoop]
    simp [hlt, getElem?_of_drop hd']
  | cons d ds ih =>
    intro n i t hc hd
    have hd' : s.data.drop i = d :: (ds ++ c :: t) := by simpa using hd
    have hlt : i < s.len := hl ▸ lt_length_of_drop hd'
    have hne : d ≠ c := fun h => hc (by simp [h])
    have hcs : c ∉ ds := fun h => hc (by simp [h])
    rw [show n + (d :: ds).length + 1 = (n + ds.length + 1) + 1 by simp; omega, findLoop]
    simp only [hlt, if_true, getElem?_of_drop hd', hne, if_false]
    rw [ih n (i + 1) t hcs (drop_succ_of_drop hd')]
    simp
    omega

/-- The label `ERR`: the offset goes one past the first closing bracket from the offset
on. -/
theorem arrayERR_first (s : scanner) (hl : s.len = s.data.length) (pre t : Bytes)
    (hpre : 93 ∉ pre) (hd : s.data.drop s.offset = pre ++ 93 :: t) :
    s.arrayERR = Res.ok ({ s with offset := s.offset + pre.length + 1 }, .ok .null) := by
  have hlen : pre.length < s.len := by
    have := congrArg List.length hd
    simp at this
    omega
  unfold scanner.arrayERR scanner.skipUntilChar
  rw [show s.len + 1 = (s.len - pre.length) + pre.length + 1 by omega,
    findLoop_first s hl 93 pre _ _ t hpre hd]

theorem takeWhile_append_of_mem (bad : Bytes) (h : 93 ∈ bad) :
    ∃ t, bad = bad.takeWhile (fun b => b != 93) ++ 93 :: t := by
  induction bad with
  | nil => simp at h
  | cons c cs ih =>
    by_cases hc : c = 93
    · exact ⟨cs, by simp [hc]⟩
    · have hcs : 93 ∈ cs := by
        simp only [List.mem_cons] at h
        rcases h with h | h
        · exact absurd h.symm hc
        · exact h
      obtain ⟨t, ht⟩ := ih hcs
      refine ⟨t, ?_⟩
      have hb : (c != 93) = true := by simpa using hc
      rw [List.takeWhile_cons, hb]
      simp only [if_true, List.cons_append]
      rw [← ht]

theorem not_mem_takeWhile (bad : Bytes) : 93 ∉ bad.takeWhile (fun b => b != 93) := by
  intro h
  have := List.mem_takeWhile_imp h
  simp at this

theorem rawSpan_le_takeWhile (bad : Bytes) :
    (rawSpan bad).length ≤ (bad.takeWhile (fun b => b != 93)).length := by
  induction bad with
  | nil => simp [rawSpan]
  | cons c t ih =>
    rw [rawSpan]
    split
    · simp
    · rename_i h
      have hc : c ≠ 93 := by
        intro hc
        apply h
        simp [hc]
      have hb : (c != 93) = true := by simpa using hc
      rw [List.takeWhile_cons, hb]
      simp only [if_true, List.length_cons]
      omega

/-- After `scanRaw` has read an element that is no integer, `ERR` leaves the offset one
past the first closing bracket of the text that starts at the element. -/
theorem arrayERR_after_span (s : scanner) (hl : s.len = s.data.length) (bad : Bytes)
    (hd : s.data.drop s.offset = bad) (hclose : 93 ∈ bad) :
    scanner.arrayERR { s with offset := s.offset + (rawSpan bad).length } =
      Res.ok ({ s with offset := s.offset + (bad.takeWhile (fun b => b != 93)).length + 1 },
        .ok .null) := by
  obtain ⟨t, ht⟩ := takeWhile_append_of_mem bad hclose
  have hle := rawSpan_le_takeWhile bad
  have hnot := not_mem_takeWhile bad
  generalize hw : bad.takeWhile (fun b => b != 93) = w at ht hle hnot
  generalize hk : (rawSpan bad).length = k at hle
  have hdrop : s.data.drop (s.offset + k) = w.drop k ++ 93 :: t := by
    rw [← List.drop_drop, hd, ht, List.drop_append_of_le_length hle]
  have hnot1 : 93 ∉ w.drop k := fun h => hnot (List.mem_of_mem_drop h)
  rw [arrayERR_first { s with offset := s.offset + k } hl _ t hnot1 hdrop]
  simp only [List.length_drop]
  congr 2
  simp only [scanner.mk.injEq, true_and, and_true]
  omega


theorem tokTail_comma_head (es : List Bytes) (bad : Bytes) :
    ∃ t1, tokTail es ++ 44 :: bad = 44 :: t1 := by
  cases es with
  | nil => exact ⟨bad, by simp [tokTail]⟩
  | cons e es => exact ⟨e ++ tokTail es ++ 44 :: bad, by simp [tokTail]⟩

/-- A number as the value of a pair or as the first element of an array: an integer
literal followed by a byte at which `scanRaw` stops. -/
theorem scanValue_int_token (L : Lib) (n : Nat) (s : scanner) (e : Bytes) (v : Int) (c : Nat)
    (t : Bytes) (hl : s.len = s.data.length) (he : atoi e = some v) (hc : rawStop c = true)
    (hd : s.data.drop s.offset = e ++ c :: t) :
    scanValue L (n + 1) s =
      Res.ok ({ s with offset := s.offset + e.length }, .ok (.int v)) := by
  obtain ⟨hraw, c0, cs, hcs, hnum⟩ := atoi_token e v he
  have hd0 : s.data.drop s.offset = c0 :: (cs ++ c :: t) := by
    rw [hd, hcs]; rfl
  rw [scanValue_number L n s c0 _ hd0 hnum, scanner.scanNumber,
    scanRaw_token s hl e c t hc hraw hd]
  simp only [Res.bind_ok, he]

/-- The loop of `scanArray` in the `int` case over elements that are integers, up to an
element that is not: the label `ERR` is reached and the result is null. -/
theorem intArrLoop_toks_bad : ∀ (es : List Bytes) (vs : List Int),
    List.Forall₂ (fun e v => atoi e = some v) es vs →
    ∀ (m : Nat) (s : scanner) (arr : List Int) (bad : Bytes), s.len = s.data.length →
    s.data.drop s.offset = tokTail es ++ 44 :: bad →
    atoi (trimSpace (rawSpan bad)) = none → 93 ∈ bad →
    ((s.skipRestOfArrayItem (m + es.length + 2)).bind fun q =>
        intArrLoop (m + es.length + 2) q.1 q.2 arr) =
      Res.ok ({ s with offset := s.offset + (tokTail es).length + 1 +
          (bad.takeWhile (fun b => b != 93)).length + 1 }, .ok .null) := by
  intro es vs h
  induction h with
  | nil =>
    intro m s arr bad hl hd hbad hclose
    have hd' : s.data.drop s.offset = 44 :: bad := by simpa [tokTail] using hd
    have hd1 := drop_succ_of_drop hd'
    rw [show m + ([] : List Bytes).length + 2 = (m + 1) + 1 by simp,
      skipRestOfArrayItem_comma s hl _ hd']
    simp only [Res.bind_ok]
    rw [intArrLoop]
    rw [scanRaw_span { s with offset := s.offset + 1 } hl bad hd1]
    simp only [Res.bind_ok, hbad]
    rw [arrayERR_after_span { s with offset := s.offset + 1 } hl bad hd1 hclose]
    simp [tokTail]
  | @cons e v es vs he _ ih =>
    intro m s arr bad hl hd hbad hclose
    obtain ⟨t1, ht1⟩ := tokTail_comma_head es bad
    have hd' : s.data.drop s.offset = 44 :: (e ++ (tokTail es ++ 44 :: bad)) := by
      simpa [tokTail] using hd
    have hd1 := drop_succ_of_drop hd'
    have hq : s.data.drop (s.offset + 1 + e.length) = tokTail es ++ 44 :: bad :=
      drop_add_of_drop _ _ hd1
    have hd1' : s.data.drop (s.offset + 1) = e ++ 44 :: t1 := by rw [hd1, ht1]
    rw [show m + (e :: es).length + 2 = (m + es.length + 2) + 1 by simp; omega,
      skipRestOfArrayItem_comma s hl _ hd']
    simp only [Res.bind_ok]
    rw [intArrLoop]
    rw [scanRaw_token { s with offset := s.offset + 1 } hl e 44 t1 (by decide)
      (atoi_token e v he).1 hd1']
    simp only [Res.bind_ok, he]
    rw [ih m { s with offset := s.offset + 1 + e.length } (arr ++ [v]) bad hl hq hbad hclose]
    simp [tokTail]
    omega

/-- Claim C30. For every array literal whose first element is an integer literal, followed
by any number of further integer literals, each after a comma, and then, after a comma, by
an element that is not a decimal integer (what `scanRaw` reads of it, trimmed, is rejected
by `strconv.Atoi`), with a closing bracket somewhere from that element on: `scanArray`
returns no error and a null value, and leaves the offset just past the first closing
bracket at or after the failing element; the enclosing pair stores null under its key. -/
theorem scanArray_int_then_bad (L : Lib) (e0 : Bytes) (v0 : Int) (es : List Bytes)
    (vs : List Int) (bad : Bytes) (m : Nat)
    (h0 : atoi e0 = some v0) (hes : List.Forall₂ (fun e v => atoi e = some v) es vs)
    (hbad : atoi (trimSpace (rawSpan bad)) = none) (hclose : 93 ∈ bad) :
    (∀ (s : scanner), s.len = s.data.length →
      s.data.drop s.offset = 91 :: (e0 ++ (tokTail es ++ 44 :: bad)) →
      scanArray L (m + es.length + 3) s =
        Res.ok ({ s with offset := s.offset + 1 + e0.length + (tokTail es).length + 1 +
            (bad.takeWhile (fun b => b != 93)).length + 1 }, .ok .null)) ∧
    (∀ (s : scanner) (key : Bytes) (nd : Node), s.len = s.data.length →
      key ≠ [] → (∀ c ∈ key, nameByte c = true) →
      s.data.drop s.offset = key ++ 58 :: 32 :: 91 :: (e0 ++ (tokTail es ++ 44 :: bad)) →
      scanPair L (m + es.length + 5) s (some nd) =
        Res.ok ({ s with offset := s.offset + key.length + 2 + 1 + e0.length +
            (tokTail es).length + 1 + (bad.takeWhile (fun b => b != 93)).length + 1 },
          some (nd.set key .null))) := by
  have harr : ∀ (s : scanner), s.len = s.data.length →
      s.data.drop s.offset = 91 :: (e0 ++ (tokTail es ++ 44 :: bad)) →
      scanArray L (m + es.length + 3) s =
        Res.ok ({ s with offset := s.offset + 1 + e0.length + (tokTail es).length + 1 +
            (bad.takeWhile (fun b => b != 93)).length + 1 }, .ok .null) := by
    intro s hl hd
    obtain ⟨t1, ht1⟩ := tokTail_comma_head es bad
    have hd1 := drop_succ_of_drop hd
    have hd1' : s.data.drop (s.offset + 1) = e0 ++ 44 :: t1 := by rw [hd1, ht1]
    have hq : s.data.drop (s.offset + 1 + e0.length) = tokTail es ++ 44 :: bad :=
      drop_add_of_drop _ _ hd1
    rw [show m + es.length + 3 = (m + es.length + 2) + 1 by omega, scanArray]
    rw [show m + es.length + 2 = (m + es.length + 1) + 1 by omega,
      scanValue_int_token L _ { s with offset := s.offset + 1 } e0 v0 44 t1 hl h0 (by decide)
        hd1']
    simp only [Res.bind_ok]
    rw [show m + es.length + 1 + 1 = m + es.length + 2 by omega,
      intArrLoop_toks_bad es vs hes m { s with offset := s.offset + 1 + e0.length } [v0] bad
        hl hq hbad hclose]
  refine ⟨harr, ?_⟩
  intro s key nd hl hne hkey hd
  have hd1 : s.data.drop (s.offset + key.length + 1) =
      32 :: 91 :: (e0 ++ (tokTail es ++ 44 :: bad)) :=
    drop_succ_of_drop (drop_add_of_drop _ _ hd)
  have hd2 := drop_succ_of_drop hd1
  rw [show m + es.length + 5 = (m + es.length + 4) + 1 by omega, scanPair]
  simp only [scanName_ok s hl key _ hkey hd, Res.bind_ok, hne, if_false]
  rw [skipSpace_one { s with offset := s.offset + key.length + 1 } hl hd1 (by decide)]
  simp only [Res.bind_ok]
  rw [show m + es.length + 4 = (m + es.length + 3) + 1 by omega, scanValue]
  simp only [getElem?_of_drop hd2]
  simp only [show ¬ ((91 : Nat) = 34) by decide, show ¬ ((91 : Nat) = 96) by decide,
    show ¬ ((48 ≤ (91 : Nat) ∧ (91 : Nat) ≤ 57) ∨ (91 : Nat) = 43 ∨ (91 : Nat) = 45) by decide,
    if_true, if_false]
  rw [harr { s with offset := s.offset + key.length + 1 + 1 } hl hd2]
  simp only [Res.bind_ok]

theorem scanArray_int_then_bad_witness :
    scanArray plainLib 3 (newScanner (str "[1,\"a\"]\n")) =
      Res.ok ({ newScanner (str "[1,\"a\"]\n") with offset := 7 }, .ok .null) ∧
    scanPair plainLib 6 (newScanner (str "k: [1,2,2.5]\n")) (some []) =
      Res.ok ({ newScanner (str "k: [1,2,2.5]\n") with offset := 12 },
        some [(str "k", .null)]) := by
  constructor
  · have h := (scanArray_int_then_bad plainLib (str "1") 1 [] [] (str "\"a\"]\n") 0
      (by simp [str, atoi, digitsVal, isDigit]) List.Forall₂.nil
      (by simp [str, rawSpan, isLineEnd, trimSpace,
        trimLeftN, trimRightN, spaceWidth, spaceWidthRev, isTrimSpace, atoi, digitsVal, isDigit])
      (by simp [str])).1 (newScanner (str "[1,\"a\"]\n")) (by simp [newScanner])
      (by simp [newScanner, str, tokTail])
    simpa [newScanner, str, tokTail] using h
  · have h := (scanArray_int_then_bad plainLib (str "1") 1 [str "2"] [2] (str "2.5]\n") 0
      (by simp [str, atoi, digitsVal, isDigit])
      (List.Forall₂.cons (by simp [str, atoi, digitsVal, isDigit]) List.Forall₂.nil)
      (by simp [str, rawSpan, isLineEnd, trimSpace,
        trimLeftN, trimRightN, spaceWidth, spaceWidthRev, isTrimSpace, atoi, digitsVal, isDigit])
      (by simp [str])).2 (newScanner (str "k: [1,2,2.5]\n")) (str "k") []
      (by simp [newScanner]) (by simp [str]) (by simp [str, nameByte, isSpace, isLineEnd])
      (by simp [newScanner, str, tokTail])
    simpa [newScanner, str, tokTail, Node.set] using h


/-! ## Skipping a gap -/

theorem skipUntilLoop_body (s : scanner) (hl : s.len = s.data.length) (le : Nat) (rest : Bytes)
    (hle : isLineEnd le = true) (hrest : rest ≠ []) :
    ∀ (body : Bytes) (n : Nat) (off : Nat), (∀ b ∈ body, isLineEnd b = false) →
    s.data.drop off = body ++ le :: rest →
    skipUntilLoop isLineEnd (n + body.length + 1) { s with offset := off } =
      Res.ok { s with offset := off + body.length } := by
  intro body
  induction body with
  | nil =>
    intro n off _ hd
    have hd' : s.data.drop off = le :: rest := by simpa using hd
    have hd1 := drop_succ_of_drop hd'
    obtain ⟨r0, rs, hr⟩ := List.exists_cons_of_ne_nil hrest
    have hlt : off + 1 < s.len := by
      rw [hr] at hd1
      exact hl ▸ lt_length_of_drop hd1
    rw [show n + ([] : Bytes).length + 1 = n + 1 by simp, skipUntilLoop]
    simp [hlt, getElem?_of_drop hd', hle]
  | cons b bs ih =>
    intro n off hb hd
    have hd' : s.data.drop off = b :: (bs ++ le :: rest) := by simpa using hd
    have hd1 := drop_succ_of_drop hd'
    have hlt : off + 1 < s.len := by
      have : s.data.drop (off + 1) = bs ++ le :: rest := hd1
      have h2 := congrArg List.length this
      simp at h2
      omega
    have hb0 : isLineEnd b = false := hb b (by simp)
    rw [show n + (b :: bs).length + 1 = (n + bs.length + 1) + 1 by simp; omega, skipUntilLoop]
    simp only [hlt, if_true, getElem?_of_drop hd', hb0, Bool.false_eq_true, if_false]
    rw [ih n (off + 1) (fun x hx => hb x (by simp [hx])) hd1]
    simp
    omega

theorem skipLineEnd_break (s : scanner) (hl : s.len = s.data.length) (eol g r : Bytes)
    (hb : lineBreak eol g) (hr : r ≠ []) (hrg : r.head? ≠ some 10 ∨ g ≠ [])
    (hd : s.data.drop s.offset = eol ++ (g ++ r)) :
    s.skipLineEnd = Res.ok { s with offset := s.offset + eol.length, line := s.line + 1 } := by
  obtain ⟨r0, rs, hr0⟩ := List.exists_cons_of_ne_nil hr
  have hgr : g ++ r ≠ [] := by simp [hr]
  obtain ⟨x0, xs, hx⟩ := List.exists_cons_of_ne_nil hgr
  rcases hb with h | h | ⟨h, hg⟩
  · subst h
    have hd' : s.data.drop s.offset = 10 :: (g ++ r) := by simpa using hd
    have hd1 := drop_succ_of_drop hd'
    rw [hx] at hd1
    have hlt : s.offset + 1 < s.len := hl ▸ lt_length_of_drop hd1
    unfold scanner.skipLineEnd
    have : ¬ s.len ≤ s.offset + 1 := by omega
    simp [this, getElem?_of_drop hd']
  · subst h
    have hd' : s.data.drop s.offset = 13 :: 10 :: (g ++ r) := by simpa using hd
    have hd1 := drop_succ_of_drop hd'
    have hlt : s.offset + 1 < s.len := hl ▸ lt_length_of_drop hd1
    unfold scanner.skipLineEnd
    have : ¬ s.len ≤ s.offset + 1 := by omega
    simp [this, getElem?_of_drop hd', hlt, getElem?_of_drop hd1]
  · subst h
    have hd' : s.data.drop s.offset = 13 :: (g ++ r) := by simpa using hd
    have hd1 := drop_succ_of_drop hd'
    rw [hx] at hd1
    have hlt : s.offset + 1 < s.len := hl ▸ lt_length_of_drop hd1
    have hx10 : x0 ≠ 10 := by
      cases g with
      | nil =>
        simp only [List.nil_append] at hx
        rcases hrg with h | h
        · rw [hx] at h
          simpa using h
        · exact absurd rfl h
      | cons g0 gs =>
        simp only [List.cons_append, List.cons.injEq] at hx
        rw [← hx.1]
        simpa using hg
    unfold scanner.skipLineEnd
    have : ¬ s.len ≤ s.offset + 1 := by omega
    simp [this, getElem?_of_drop hd', hlt, getElem?_of_drop hd1, hx10]

theorem lineBreak_head (eol g : Bytes) (hb : lineBreak eol g) :
    ∃ le rest, eol = le :: rest ∧ isLineEnd le = true := by
  rcases hb with h | h | ⟨h, _⟩
  · exact ⟨10, [], h, by decide⟩
  · exact ⟨13, [10], h, by decide⟩
  · exact ⟨13, [], h, by decide⟩

/-- The method `skipRestOfLine` on a line of a gap: the offset goes past the line break. -/
theorem skipRestOfLine_line (s : scanner) (hl : s.len = s.data.length) (text eol g r : Bytes)
    (ht : ∀ b ∈ text, isLineEnd b = false) (hb : lineBreak eol g) (hr : r ≠ [])
    (hrg : r.head? ≠ some 10 ∨ g ≠ [])
    (hd : s.data.drop s.offset = text ++ (eol ++ (g ++ r))) :
    s.skipRestOfLine =
      Res.ok { s with offset := s.offset + text.length + eol.length, line := s.line + 1 } := by
  obtain ⟨le, rest, hle, hle1⟩ := lineBreak_head eol g hb
  have hne : rest ++ (g ++ r) ≠ [] := by simp [hr]
  have hd' : s.data.drop s.offset = text ++ le :: (rest ++ (g ++ r)) := by
    rw [hd, hle]; simp
  have hlen : text.length < s.len := by
    have := congrArg List.length hd'
    simp at this
    omega
  have h1 := skipUntilLoop_body s hl le _ hle1 hne text (s.len - text.length) s.offset ht hd'
  unfold scanner.skipRestOfLine scanner.skipUntil
  rw [show s.len + 1 = (s.len - text.length) + text.length + 1 by omega]
  have hs : ({ s with offset := s.offset } : scanner) = s := rfl
  rw [hs] at h1
  rw [h1]
  simp only [Res.bind_ok]
  have hd2 : s.data.drop (s.offset + text.length) = eol ++ (g ++ r) :=
    drop_add_of_drop _ _ hd
  rw [skipLineEnd_break { s with offset := s.offset + text.length } hl eol g r hb hr hrg hd2]

/-- The method `skip` over a gap that is followed by a significant byte which is not the
last byte of the buffer: the offset goes to that byte. -/
theorem skipLoop_gap : ∀ (g : Bytes), Gap g → ∀ (n : Nat) (s : scanner) (c : Nat) (t : Bytes),
    s.len = s.data.length → s.data.drop s.offset = g ++ c :: t → t ≠ [] →
    c ≠ 35 → c ≠ 47 → isLineEnd c = false → isSpace c = false → g.length < n →
    ∃ ln, skipLoop n s = Res.ok { s with offset := s.offset + g.length, line := ln } := by
  intro g hg
  induction hg with
  | nil =>
    intro n s c t hl hd _ h1 h2 h3 h4 hn
    obtain ⟨m, rfl⟩ : ∃ m, n = m + 1 := ⟨n - 1, by simp at hn; omega⟩
    have hd' : s.data.drop s.offset = c :: t := by simpa using hd
    exact ⟨s.line, by rw [skipLoop_id s m hd' h1 h2 h3 h4]; simp⟩
  | blank c0 g hc0 _ ih =>
    intro n s c t hl hd ht h1 h2 h3 h4 hn
    obtain ⟨m, rfl⟩ : ∃ m, n = m + 1 := ⟨n - 1, by simp at hn; omega⟩
    have hd' : s.data.drop s.offset = c0 :: (g ++ c :: t) := by simpa using hd
    have hd1 := drop_succ_of_drop hd'
    have hlt : s.offset + 1 < s.len := by
      have h2 := congrArg List.length hd1
      simp at h2
      omega
    have hsp : c0 = 32 ∨ c0 = 9 := by simpa [isSpace] using hc0
    have c35 : c0 ≠ 35 := by omega
    have c47 : c0 ≠ 47 := by omega
    have cle : isLineEnd c0 = false := by
      simp only [isLineEnd, Bool.or_eq_false_iff, beq_eq_false_iff_ne, ne_eq]; omega
    obtain ⟨ln, hih⟩ := ih m { s with offset := s.offset + 1 } c t hl hd1 ht h1 h2 h3 h4
      (by simp at hn; omega)
    refine ⟨ln, ?_⟩
    rw [skipLoop]
    simp only [hlt, if_true, getElem?_of_drop hd', isComment_eq_false s hd' c35 c47, cle,
      Bool.or_self, Bool.false_eq_true, if_false, hc0]
    rw [hih]
    simp
    omega
  | line text eol g htext hbreak _ ih =>
    intro n s c t hl hd ht h1 h2 h3 h4 hn
    obtain ⟨m, rfl⟩ : ∃ m, n = m + 1 := ⟨n - 1, by simp at hn; omega⟩
    obtain ⟨le, rest, hle, hle1⟩ := lineBreak_head eol g hbreak
    have hd0 : s.data.drop s.offset = text ++ (eol ++ (g ++ c :: t)) := by
      rw [hd]; simp
    have hnl : ∀ b ∈ text, isLineEnd b = false := by
      rcases htext with h | ⟨h, _⟩
      · subst h; simp
      · exact h
    have hrg : (c :: t).head? ≠ some 10 ∨ g ≠ [] := by
      left
      simp only [List.head?_cons, ne_eq, Option.some.injEq]
      intro hc
      subst hc
      simp [isLineEnd] at h3
    have hline := skipRestOfLine_line s hl text eol g (c :: t) hnl hbreak (by simp) hrg hd0
    have hd2 : s.data.drop (s.offset + text.length + eol.length) = g ++ c :: t := by
      have := drop_add_of_drop _ _ (drop_add_of_drop _ _ hd0)
      exact this
    have hel : 1 ≤ eol.length := by rw [hle]; simp
    obtain ⟨ln, hih⟩ := ih m
      { s with offset := s.offset + text.length + eol.length, line := s.line + 1 } c t hl hd2
      ht h1 h2 h3 h4 (by simp at hn; omega)
    -- the first byte of the line starts a comment or is a line end
    have hlt : s.offset + 1 < s.len := by
      have h2 := congrArg List.length hd0
      simp [hle] at h2
      have : 0 < t.length := List.length_pos.mpr ht
      omega
    have hfirst : ∃ x0, s.data[s.offset]? = some x0 ∧
        ∃ cm, s.isComment = Res.ok cm ∧ (cm || isLineEnd x0) = true := by
      rcases htext with h | ⟨_, h | h⟩
      · subst h
        have hd' : s.data.drop s.offset = le :: (rest ++ (g ++ c :: t)) := by
          rw [hd0, hle]; simp
        have hle2 : le = 13 ∨ le = 10 := by simpa [isLineEnd] using hle1
        exact ⟨le, getElem?_of_drop hd', false,
          isComment_eq_false s hd' (by omega) (by omega), by simp [hle1]⟩
      · obtain ⟨r, hr⟩ := h
        have hd' : s.data.drop s.offset = 35 :: (r ++ (eol ++ (g ++ c :: t))) := by
          rw [hd0, hr]; simp
        exact ⟨35, getElem?_of_drop hd', true,
          by simp [scanner.isComment, getElem?_of_drop hd'], by simp⟩
      · obtain ⟨r, hr⟩ := h
        have hd' : s.data.drop s.offset = 47 :: 47 :: (r ++ (eol ++ (g ++ c :: t))) := by
          rw [hd0, hr]; simp
        have hd1 := drop_succ_of_drop hd'
        exact ⟨47, getElem?_of_drop hd', true,
          by simp [scanner.isComment, getElem?_of_drop hd', hlt, getElem?_of_drop hd1],
          by simp⟩
    obtain ⟨x0, hx0, cm, hcm, hor⟩ := hfirst
    refine ⟨ln, ?_⟩
    rw [skipLoop]
    simp only [hlt, if_true, hx0, hcm, hor, hline, Res.bind_ok]
    rw [hih]
    simp
    omega

/-- The same for the method `skip`. -/
theorem skip_gap (g : Bytes) (hg : Gap g) (s : scanner) (c : Nat) (t : Bytes)
    (hl : s.len = s.data.length) (hd : s.data.drop s.offset = g ++ c :: t) (ht : t ≠ [])
    (h1 : c ≠ 35) (h2 : c ≠ 47) (h3 : isLineEnd c = false) (h4 : isSpace c = false) :
    ∃ ln, s.skip = Res.ok { s with offset := s.offset + g.length, line := ln } := by
  have hlen : g.length < s.len + 1 := by
    have := congrArg List.length hd
    simp at this
    omega
  exact skipLoop_gap g hg (s.len + 1) s c t hl hd ht h1 h2 h3 h4 hlen


/-! ## Arrays of strings with gaps, arrays of integers -/

theorem skipRestOfArrayItemLoop_blanks (s : scanner) (hl : s.len = s.data.length) :
    ∀ (b : Bytes) (n i : Nat) (x : Nat) (t : Bytes), blanks b →
    s.data.drop i = b ++ x :: t → (x = 44 ∨ x = 93) →
    skipRestOfArrayItemLoop (n + b.length + 1) s i =
      Res.ok ({ s with offset := i + b.length + 1 },
        if x = 44 then scanState.endOfItem else scanState.endOfArray) := by
  intro b
  induction b with
  | nil =>
    intro n i x t _ hd hx
    have hd' : s.data.drop i = x :: t := by simpa using hd
    have hlt : i < s.len := hl ▸ lt_length_of_drop hd'
    rw [show n + ([] : Bytes).length + 1 = n + 1 by simp, skipRestOfArrayItemLoop]
    rcases hx with hx | hx
    · subst hx
      simp [hlt, getElem?_of_drop hd']
    · subst hx
      simp [hlt, getElem?_of_drop hd', isSpace]
  | cons c cs ih =>
    intro n i x t hb hd hx
    have hd' : s.data.drop i = c :: (cs ++ x :: t) := by simpa using hd
    have hlt : i < s.len := hl ▸ lt_length_of_drop hd'
    have hc : isSpace c = true := hb c (by simp)
    have hsp : c = 32 ∨ c = 9 := by simpa [isSpace] using hc
    have h44 : c ≠ 44 := by omega
    rw [show n + (c :: cs).length + 1 = (n + cs.length + 1) + 1 by simp; omega,
      skipRestOfArrayItemLoop]
    simp only [hlt, if_true, getElem?_of_drop hd', h44, if_false, hc]
    rw [ih n (i + 1) x t (fun y hy => hb y (by simp [hy])) (drop_succ_of_drop hd') hx]
    simp
    omega

theorem skipRestOfArrayItem_blanks (s : scanner) (hl : s.len = s.data.length) (b : Bytes)
    (n : Nat) (x : Nat) (t : Bytes) (hb : blanks b) (hd : s.data.drop s.offset = b ++ x :: t)
    (hx : x = 44 ∨ x = 93) (hn : b.length + 1 ≤ n) :
    s.skipRestOfArrayItem n =
      Res.ok ({ s with offset := s.offset + b.length + 1 },
        if x = 44 then scanState.endOfItem else scanState.endOfArray) := by
  unfold scanner.skipRestOfArrayItem
  rw [show n = (n - b.length - 1) + b.length + 1 by omega,
    skipRestOfArrayItemLoop_blanks s hl b _ s.offset x t hb hd hx]

/-- The elements of an array of strings after the first, with blanks before the commas and
the closing bracket and gaps after the commas. -/
theorem strArrLoop_items : ∀ (items : List (Bytes × Bytes × Bytes)) (n : Nat) (s : scanner)
    (arr : List Bytes) (bend t : Bytes), s.len = s.data.length →
    (∀ it ∈ items, blanks it.1 ∧ Gap it.2.1 ∧ Quotable it.2.2) → blanks bend →
    s.data.drop s.offset = strItems items ++ (bend ++ 93 :: t) →
    (strItems items).length + bend.length + 1 ≤ n →
    ∃ ln, ((s.skipRestOfArrayItem n).bind fun q => strArrLoop n q.1 q.2 arr) =
      Res.ok ({ s with offset := s.offset + (strItems items).length + bend.length + 1,
                       line := ln },
        Except.ok (.strArr (arr ++ items.map fun it => it.2.2))) := by
  intro items
  induction items with
  | nil =>
    intro n s arr bend t hl _ hbend hd hn
    have hd' : s.data.drop s.offset = bend ++ 93 :: t := by simpa [strItems] using hd
    simp only [strItems, List.length_nil, Nat.zero_add] at hn
    obtain ⟨m, rfl⟩ : ∃ m, n = m + 1 := ⟨n - 1, by omega⟩
    refine ⟨s.line, ?_⟩
    rw [skipRestOfArrayItem_blanks s hl bend _ 93 t hbend hd' (Or.inr rfl) hn]
    simp [strArrLoop, strItems]
  | cons it rest ih =>
    intro n s arr bend t hl hit hbend hd hn
    obtain ⟨b, g, v⟩ := it
    obtain ⟨hb, hg, hv⟩ := hit (b, g, v) (List.mem_cons_self _ _)
    simp only at hb hg hv
    have hd' : s.data.drop s.offset =
        b ++ 44 :: (g ++ 34 :: (v ++ 34 :: (strItems rest ++ (bend ++ 93 :: t)))) := by
      simpa [strItems] using hd
    have hlen : (strItems ((b, g, v) :: rest)).length =
        b.length + 1 + g.length + 1 + v.length + 1 + (strItems rest).length := by
      simp [strItems]; omega
    rw [hlen] at hn
    obtain ⟨m, rfl⟩ : ∃ m, n = m + 1 := ⟨n - 1, by omega⟩
    -- the comma
    rw [skipRestOfArrayItem_blanks s hl b _ 44 _ hb hd' (Or.inl rfl) (by omega)]
    simp only [if_true, Res.bind_ok]
    have hd1 : s.data.drop (s.offset + b.length + 1) =
        g ++ 34 :: (v ++ 34 :: (strItems rest ++ (bend ++ 93 :: t))) :=
      drop_succ_of_drop (drop_add_of_drop _ _ hd')
    -- the gap
    obtain ⟨ln, hskip⟩ := skip_gap g hg { s with offset := s.offset + b.length + 1 } 34 _ hl
      hd1 (by simp) (by decide) (by decide) (by decide) (by decide)
    have hd2 : s.data.drop (s.offset + b.length + 1 + g.length) =
        34 :: (v ++ 34 :: (strItems rest ++ (bend ++ 93 :: t))) :=
      drop_add_of_drop _ _ hd1
    have hd3 : s.data.drop (s.offset + b.length + 1 + g.length + v.length + 2) =
        strItems rest ++ (bend ++ 93 :: t) := by
      have h1 := drop_succ_of_drop hd2
      have h2 := drop_add_of_drop _ _ h1
      have h3 := drop_succ_of_drop h2
      rw [show s.offset + b.length + 1 + g.length + v.length + 2 =
        s.offset + b.length + 1 + g.length + 1 + v.length + 1 by omega]
      exact h3
    obtain ⟨ln2, hih⟩ := ih m
      { s with offset := s.offset + b.length + 1 + g.length + v.length + 2, line := ln }
      (arr ++ [v]) bend t hl (fun x hx => hit x (List.mem_cons_of_mem _ hx)) hbend hd3
      (by omega)
    refine ⟨ln2, ?_⟩
    rw [strArrLoop]
    simp only [hskip, Res.bind_ok]
    rw [scanString_quotable
      { s with offset := s.offset + b.length + 1 + g.length, line := ln } hl v _ hv hd2]
    simp only [Res.bind_ok]
    rw [hih]
    simp [hlen]
    omega

/-- The elements of an array of integers after the first, up to the closing bracket. -/
theorem intArrLoop_toks : ∀ (es : List Bytes) (vs : List Int),
    List.Forall₂ (fun e v => atoi e = some v) es vs →
    ∀ (m : Nat) (s : scanner) (arr : List Int) (t : Bytes), s.len = s.data.length →
    s.data.drop s.offset = tokTail es ++ 93 :: t →
    ((s.skipRestOfArrayItem (m + es.length + 1)).bind fun q =>
        intArrLoop (m + es.length + 1) q.1 q.2 arr) =
      Res.ok ({ s with offset := s.offset + (tokTail es).length + 1 },
        Except.ok (.intArr (arr ++ vs))) := by
  intro es vs h
  induction h with
  | nil =>
    intro m s arr t hl hd
    have hd' : s.data.drop s.offset = 93 :: t := by simpa [tokTail] using hd
    rw [skipRestOfArrayItem_close s hl _ hd']
    simp [intArrLoop, tokTail]
  | @cons e v es vs he _ ih =>
    intro m s arr t hl hd
    have hd' : s.data.drop s.offset = 44 :: (e ++ (tokTail es ++ 93 :: t)) := by
      simpa [tokTail] using hd
    have hd1 := drop_succ_of_drop hd'
    have hq : s.data.drop (s.offset + 1 + e.length) = tokTail es ++ 93 :: t :=
      drop_add_of_drop _ _ hd1
    have hstop : ∃ c t1, tokTail es ++ 93 :: t = c :: t1 ∧ rawStop c = true := by
      cases es with
      | nil => exact ⟨93, t, by simp [tokTail], by decide⟩
      | cons a as =>
        exact ⟨44, a ++ (tokTail as ++ 93 :: t), by simp [tokTail], by decide⟩
    obtain ⟨c, t1, hct, hc⟩ := hstop
    rw [hct] at hd1
    rw [show m + (e :: es).length + 1 = (m + es.length + 1) + 1 by simp; omega,
      skipRestOfArrayItem_comma s hl _ hd']
    simp only [Res.bind_ok]
    rw [intArrLoop]
    rw [scanRaw_token { s with offset := s.offset + 1 } hl e c t1 hc (atoi_token e v he).1 hd1]
    simp only [Res.bind_ok, he]
    rw [ih m { s with offset := s.offset + 1 + e.length } (arr ++ [v]) t hl hq]
    simp [tokTail]
    omega


/-! ## Lines of a section -/

theorem scanNameLoop_close (s : scanner) (hl : s.len = s.data.length) :
    ∀ (suf : Bytes) (n i : Nat) (t : Bytes), (∀ c ∈ suf, nameByte c = true) →
      s.data.drop i = suf ++ 93 :: t →
      scanNameLoop s (n + suf.length + 1) i =
        Res.ok ({ s with offset := i + suf.length + 1 },
          slice s.data s.offset (i + suf.length)) := by
  intro suf
  induction suf with
  | nil =>
    intro n i t _ hd
    have hd' : s.data.drop i = 93 :: t := by simpa using hd
    have hlt : i < s.len := hl ▸ lt_length_of_drop hd'
    rw [show n + ([] : Bytes).length + 1 = n + 1 by simp, scanNameLoop]
    simp [getElem?_of_drop hd', hlt]
  | cons c suf ih =>
    intro n i t hs hd
    have hd' : s.data.drop i = c :: (suf ++ 93 :: t) := by simpa using hd
    have hc : nameByte c = true := hs c (List.mem_cons_self _ _)
    simp only [nameByte, Bool.not_eq_true', Bool.or_eq_false_iff] at hc
    obtain ⟨⟨⟨hc1, hc2⟩, hc3⟩, hc4⟩ := hc
    have hlt : i < s.len := hl ▸ lt_length_of_drop hd'
    rw [show n + (c :: suf).length + 1 = (n + suf.length + 1) + 1 by simp; omega, scanNameLoop]
    simp only [getElem?_of_drop hd', hlt, if_true, hc1, hc2, hc3, hc4,
      Bool.or_self, Bool.false_eq_true, if_false]
    rw [ih n (i + 1) t (fun c hc => hs c (List.mem_cons_of_mem _ hc)) (drop_succ_of_drop hd')]
    simp [Nat.add_assoc, Nat.add_comm 1]

/-- The name of a section header, up to the closing bracket. -/
theorem scanName_close (s : scanner) (hl : s.len = s.data.length) (nm t : Bytes)
    (hs : ∀ c ∈ nm, nameByte c = true) (hd : s.data.drop s.offset = nm ++ 93 :: t) :
    s.scanName = Res.ok ({ s with offset := s.offset + nm.length + 1 }, nm) := by
  have hlen : nm.length < s.len := by
    have := congrArg List.length hd
    simp at this; omega
  unfold scanner.scanName
  rw [show s.len + 1 = (s.len - nm.length) + nm.length + 1 by omega,
    scanNameLoop_close s hl nm _ _ t hs hd, slice_of_drop nm _ hd]

theorem scanNameLoop_none (s : scanner) (hl : s.len = s.data.length) :
    ∀ (junk : Bytes) (n i : Nat), (∀ c ∈ junk, nameByte c = true) →
      (s.data.drop i = junk ∨ ∃ le t, isLineEnd le = true ∧ s.data.drop i = junk ++ le :: t) →
      scanNameLoop s (n + junk.length + 1) i = Res.ok (s, []) := by
  intro junk
  induction junk with
  | nil =>
    intro n i _ hd
    rw [show n + ([] : Bytes).length + 1 = n + 1 by simp, scanNameLoop]
    rcases hd with hd | ⟨le, t, hle, hd⟩
    · have : ¬ i < s.len := by
        have := length_of_drop_nil hd
        omega
      simp [this]
    · have hd' : s.data.drop i = le :: t := by simpa using hd
      have hlt : i < s.len := hl ▸ lt_length_of_drop hd'
      have hle2 : le = 13 ∨ le = 10 := by simpa [isLineEnd] using hle
      have h1 : isSpace le = false := by
        simp only [isSpace, Bool.or_eq_false_iff, beq_eq_false_iff_ne, ne_eq]; omega
      have h2 : le ≠ 58 := by omega
      have h3 : le ≠ 93 := by omega
      simp [getElem?_of_drop hd', hlt, h1, h2, h3, hle]
  | cons c junk ih =>
    intro n i hs hd
    have hd' : ∃ t, s.data.drop i = c :: t := by
      rcases hd with hd | ⟨le, t, _, hd⟩
      · exact ⟨junk, hd⟩
      · exact ⟨junk ++ le :: t, by simpa using hd⟩
    obtain ⟨t0, hd0⟩ := hd'
    have hd1 : s.data.drop (i + 1) = junk ∨
        ∃ le t, isLineEnd le = true ∧ s.data.drop (i + 1) = junk ++ le :: t := by
      rcases hd with hd | ⟨le, t, hle, hd⟩
      · left
        exact drop_succ_of_drop hd
      · right
        exact ⟨le, t, hle, drop_succ_of_drop (by simpa using hd)⟩
    have hc : nameByte c = true := hs c (List.mem_cons_self _ _)
    simp only [nameByte, Bool.not_eq_true', Bool.or_eq_false_iff] at hc
    obtain ⟨⟨⟨hc1, hc2⟩, hc3⟩, hc4⟩ := hc
    have hlt : i < s.len := hl ▸ lt_length_of_drop hd0
    rw [show n + (c :: junk).length + 1 = (n + junk.length + 1) + 1 by simp; omega,
      scanNameLoop]
    simp only [getElem?_of_drop hd0, hlt, if_true, hc1, hc2, hc3, hc4,
      Bool.or_self, Bool.false_eq_true, if_false]
    exact ih n (i + 1) (fun c hc => hs c (List.mem_cons_of_mem _ hc)) hd1

/-! ### What the skips leave as it is -/

theorem skipUntilLoop_frame (fn : Nat → Bool) : ∀ (n : Nat) (s : scanner),
    s.len = s.data.length → s.len + 1 ≤ n + s.offset → 1 ≤ n →
    ∃ k, skipUntilLoop fn n s = Res.ok { s with offset := s.offset + k } := by
  intro n
  induction n with
  | zero => intro s _ _ h; omega
  | succ m ih =>
    intro s hl hn _
    rw [skipUntilLoop]
    by_cases hlt : s.offset + 1 < s.len
    · have hget : ∃ c, s.data[s.offset]? = some c := by
        have : s.offset < s.data.length := by omega
        exact ⟨s.data[s.offset], by simp [this]⟩
      obtain ⟨c, hc⟩ := hget
      simp only [hlt, if_true, hc]
      by_cases hf : fn c = true
      · exact ⟨0, by simp [hf]⟩
      · obtain ⟨k, hk⟩ := ih { s with offset := s.offset + 1 } hl (by simp; omega)
          (by omega)
        refine ⟨k + 1, ?_⟩
        simp only [hf, Bool.false_eq_true, if_false, hk]
        simp
        omega
    · exact ⟨0, by simp [hlt]⟩

theorem skipLineEnd_frame (s : scanner) (hl : s.len = s.data.length) :
    ∃ k ln, s.skipLineEnd = Res.ok { s with offset := s.offset + k, line := ln } := by
  unfold scanner.skipLineEnd
  by_cases h : s.len ≤ s.offset + 1
  · exact ⟨0, s.line, by simp [h]⟩
  · have hget : ∃ c, s.data[s.offset]? = some c := by
      have : s.offset < s.data.length := by omega
      exact ⟨s.data[s.offset], by simp [this]⟩
    have hget1 : ∃ d, s.data[s.offset + 1]? = some d := by
      have : s.offset + 1 < s.data.length := by omega
      exact ⟨s.data[s.offset + 1], by simp [this]⟩
    obtain ⟨c, hc⟩ := hget
    obtain ⟨d, hd⟩ := hget1
    have hlt : s.offset + 1 < s.len := by omega
    simp only [h, if_false, hc, hlt, if_true, hd]
    by_cases h13 : c = 13
    · by_cases h10 : d = 10
      · exact ⟨2, s.line + 1, by simp [h13, h10]⟩
      · exact ⟨1, s.line + 1, by simp [h13, h10]⟩
    · exact ⟨1, s.line + 1, by simp [h13]⟩

theorem skipRestOfLine_frame (s : scanner) (hl : s.len = s.data.length) :
    ∃ k ln, s.skipRestOfLine = Res.ok { s with offset := s.offset + k, line := ln } := by
  obtain ⟨k, hk⟩ := skipUntilLoop_frame isLineEnd (s.len + 1) s hl (by omega) (by omega)
  obtain ⟨k2, ln, hk2⟩ := skipLineEnd_frame { s with offset := s.offset + k } hl
  refine ⟨k + k2, ln, ?_⟩
  unfold scanner.skipRestOfLine scanner.skipUntil
  rw [hk]
  simp only [Res.bind_ok, hk2]
  simp
  omega

/-! ### isBlankLine -/

theorem isBlankLineLoop_pair (s : scanner) (hl : s.len = s.data.length)
    (hcm : s.isComment = Res.ok false) (c : Nat) (t : Bytes) (h1 : isSpace c = false)
    (h2 : isLineEnd c = false) :
    ∀ (ind : Bytes) (n i : Nat), blanks ind → s.data.drop i = ind ++ c :: t →
    isBlankLineLoop s (n + ind.length + 1) i = Res.ok (s, false) := by
  intro ind
  induction ind with
  | nil =>
    intro n i _ hd
    have hd' : s.data.drop i = c :: t := by simpa using hd
    have hlt : i < s.len := hl ▸ lt_length_of_drop hd'
    rw [show n + ([] : Bytes).length + 1 = n + 1 by simp, isBlankLineLoop]
    simp [hlt, getElem?_of_drop hd', hcm, h1, h2]
  | cons b bs ih =>
    intro n i hb hd
    have hd' : s.data.drop i = b :: (bs ++ c :: t) := by simpa using hd
    have hlt : i < s.len := hl ▸ lt_length_of_drop hd'
    have hb0 : isSpace b = true := hb b (by simp)
    have hsp : b = 32 ∨ b = 9 := by simpa [isSpace] using hb0
    have hble : isLineEnd b = false := by
      simp only [isLineEnd, Bool.or_eq_false_iff, beq_eq_false_iff_ne, ne_eq]; omega
    rw [show n + (b :: bs).length + 1 = (n + bs.length + 1) + 1 by simp; omega,
      isBlankLineLoop]
    simp only [hlt, if_true, getElem?_of_drop hd', hcm, hble, Bool.or_self,
      Bool.false_eq_true, if_false, hb0, Bool.not_true]
    exact ih n (i + 1) (fun x hx => hb x (by simp [hx])) (drop_succ_of_drop hd')

/-- A line that holds a significant byte after its indentation is not blank, and the
scanner is left as it is. -/
theorem isBlankLine_pair (s : scanner) (hl : s.len = s.data.length) (ind : Bytes) (c : Nat)
    (t : Bytes) (hind : blanks ind) (h1 : isSpace c = false) (h2 : isLineEnd c = false)
    (h3 : c ≠ 35) (h4 : c ≠ 47) (hd : s.data.drop s.offset = ind ++ c :: t) :
    s.isBlankLine = Res.ok (s, false) := by
  have hcm : s.isComment = Res.ok false := by
    cases ind with
    | nil =>
      have hd' : s.data.drop s.offset = c :: t := by simpa using hd
      exact isComment_eq_false s hd' h3 h4
    | cons b bs =>
      have hd' : s.data.drop s.offset = b :: (bs ++ c :: t) := by simpa using hd
      have hsp : b = 32 ∨ b = 9 := by simpa [isSpace] using hind b (by simp)
      exact isComment_eq_false s hd' (by omega) (by omega)
  have hlen : ind.length < s.len := by
    have := congrArg List.length hd
    simp at this; omega
  unfold scanner.isBlankLine
  rw [show s.len + 1 = (s.len - ind.length) + ind.length + 1 by omega]
  exact isBlankLineLoop_pair s hl hcm c t h1 h2 ind _ s.offset hind hd

theorem isBlankLineLoop_end (s : scanner) (hl : s.len = s.data.length)
    (hcm : s.isComment = Res.ok false) (tl : Bytes) (htl : tl = [] ∨ ∃ r, tl = 10 :: r) :
    ∀ (b : Bytes) (n i : Nat), blanks b → s.data.drop i = b ++ tl →
    ∃ k ln, isBlankLineLoop s (n + b.length + 1) i =
      Res.ok ({ s with offset := s.offset + k, line := ln }, true) := by
  intro b
  induction b with
  | nil =>
    intro n i _ hd
    rw [show n + ([] : Bytes).length + 1 = n + 1 by simp, isBlankLineLoop]
    rcases htl with h | ⟨r, h⟩
    · subst h
      have : ¬ i < s.len := by
        have := length_of_drop_nil (by simpa using hd : s.data.drop i = [])
        omega
      exact ⟨0, s.line, by simp [this]⟩
    · subst h
      have hd' : s.data.drop i = 10 :: r := by simpa using hd
      have hlt : i < s.len := hl ▸ lt_length_of_drop hd'
      obtain ⟨k, ln, hk⟩ := skipRestOfLine_frame s hl
      exact ⟨k, ln, by simp [hlt, getElem?_of_drop hd', hcm, isLineEnd, hk]⟩
  | cons c cs ih =>
    intro n i hb hd
    have hd' : s.data.drop i = c :: (cs ++ tl) := by simpa using hd
    have hlt : i < s.len := hl ▸ lt_length_of_drop hd'
    have hc0 : isSpace c = true := hb c (by simp)
    have hsp : c = 32 ∨ c = 9 := by simpa [isSpace] using hc0
    have hcle : isLineEnd c = false := by
      simp only [isLineEnd, Bool.or_eq_false_iff, beq_eq_false_iff_ne, ne_eq]; omega
    obtain ⟨k, ln, hk⟩ := ih n (i + 1) (fun x hx => hb x (by simp [hx]))
      (drop_succ_of_drop hd')
    refine ⟨k, ln, ?_⟩
    rw [show n + (c :: cs).length + 1 = (n + cs.length + 1) + 1 by simp; omega,
      isBlankLineLoop]
    simp only [hlt, if_true, getElem?_of_drop hd', hcm, hcle, Bool.or_self,
      Bool.false_eq_true, if_false, hc0, Bool.not_true]
    exact hk

/-- A line of blanks, up to a line feed or to the end of the input, is blank. -/
theorem isBlankLine_end (s : scanner) (hl : s.len = s.data.length) (b tl : Bytes)
    (hb : blanks b) (htl : tl = [] ∨ ∃ r, tl = 10 :: r)
    (hd : s.data.drop s.offset = b ++ tl) :
    ∃ k ln, s.isBlankLine =
      Res.ok ({ s with offset := s.offset + k, line := ln }, true) := by
  unfold scanner.isBlankLine
  by_cases hnil : b ++ tl = []
  · rw [hnil] at hd
    have : ¬ s.offset < s.len := by
      have := length_of_drop_nil hd
      omega
    refine ⟨0, s.line, ?_⟩
    rw [isBlankLineLoop]
    simp [this]
  · have hcm : s.isComment = Res.ok false := by
      obtain ⟨x, xs, hx⟩ := List.exists_cons_of_ne_nil hnil
      rw [hx] at hd
      have hx2 : x = 32 ∨ x = 9 ∨ x = 10 := by
        cases b with
        | nil =>
          rcases htl with h | ⟨r, h⟩
          · subst h; simp at hx
          · subst h
            simp at hx
            omega
        | cons b0 bs =>
          simp only [List.cons_append, List.cons.injEq] at hx
          have := hb b0 (by simp)
          simp only [isSpace, Bool.or_eq_true, beq_iff_eq] at this
          omega
      exact isComment_eq_false s hd (by omega) (by omega)
    have hlen : b.length ≤ s.len := by
      have := congrArg List.length hd
      simp at this; omega
    rw [show s.len + 1 = (s.len - b.length) + b.length + 1 by omega]
    exact isBlankLineLoop_end s hl hcm tl htl b _ s.offset hb hd


theorem skipSpaceLoop_blanks (c : Nat) (t : Bytes) (hc : isSpace c = false) :
    ∀ (ind : Bytes) (n : Nat) (s : scanner), s.len = s.data.length → blanks ind →
    s.data.drop s.offset = ind ++ c :: t →
    skipSpaceLoop (n + ind.length + 1) s s.offset =
      Res.ok { s with offset := s.offset + ind.length } := by
  intro ind
  induction ind with
  | nil =>
    intro n s hl _ hd
    have hd' : s.data.drop s.offset = c :: t := by simpa using hd
    have hlt : s.offset < s.len := hl ▸ lt_length_of_drop hd'
    rw [show n + ([] : Bytes).length + 1 = n + 1 by simp, skipSpaceLoop]
    simp [hlt, getElem?_of_drop hd', hc]
  | cons b bs ih =>
    intro n s hl hb hd
    have hd' : s.data.drop s.offset = b :: (bs ++ c :: t) := by simpa using hd
    have hlt : s.offset < s.len := hl ▸ lt_length_of_drop hd'
    have hb0 : isSpace b = true := hb b (by simp)
    rw [show n + (b :: bs).length + 1 = (n + bs.length + 1) + 1 by simp; omega, skipSpaceLoop]
    simp only [hlt, if_true, getElem?_of_drop hd', hb0]
    have := ih n { s with offset := s.offset + 1 } hl (fun x hx => hb x (by simp [hx]))
      (drop_succ_of_drop hd')
    simp only at this
    rw [this]
    simp
    omega

/-- The method `skipSpace` over the indentation of a line. -/
theorem skipSpace_blanks (s : scanner) (hl : s.len = s.data.length) (ind : Bytes) (c : Nat)
    (t : Bytes) (hind : blanks ind) (hc : isSpace c = false)
    (hd : s.data.drop s.offset = ind ++ c :: t) :
    s.skipSpace = Res.ok { s with offset := s.offset + ind.length } := by
  have hlen : ind.length < s.len := by
    have := congrArg List.length hd
    simp at this; omega
  unfold scanner.skipSpace
  rw [show s.len + 1 = (s.len - ind.length) + ind.length + 1 by omega]
  exact skipSpaceLoop_blanks c t hc ind _ s hl hind hd

theorem scanValue_field_le (L : Lib) (f : Field) (hf : f.ok) (n : Nat) (s : scanner)
    (t : Bytes) (hl : s.len = s.data.length) (hd : s.data.drop s.offset = f.text ++ 10 :: t)
    (hn : f.cost ≤ n) :
    scanValue L n s =
      Res.ok ({ s with offset := s.offset + f.text.length }, Except.ok f.value) := by
  rw [show n = (n - f.cost) + f.cost by omega]
  exact scanValue_field L f hf _ s t hl hd

/-- The method `scanPair` on a pair line: the value is stored under the key and the offset
is left on the line feed. -/
theorem scanPair_line (L : Lib) (key : Bytes) (f : Field) (hk : keyName key) (hf : f.ok)
    (n : Nat) (s : scanner) (t : Bytes) (nd : Node) (hl : s.len = s.data.length)
    (hd : s.data.drop s.offset = key ++ 58 :: 32 :: (f.text ++ 10 :: t))
    (hn : f.cost + 1 ≤ n) :
    scanPair L n s (some nd) =
      Res.ok ({ s with offset := s.offset + key.length + 2 + f.text.length },
              some (nd.set key f.value)) := by
  obtain ⟨m, rfl⟩ : ∃ m, n = m + 1 := ⟨n - 1, by omega⟩
  obtain ⟨hkb, c, cs, hcs, _, _, _⟩ := hk
  obtain ⟨c1, cs1, hcs1, hc1⟩ := Field.text_head f hf
  have hne : key ≠ [] := by rw [hcs]; simp
  have hd1 : s.data.drop (s.offset + key.length + 1) = 32 :: (f.text ++ 10 :: t) :=
    drop_succ_of_drop (drop_add_of_drop _ _ hd)
  have hd1' : s.data.drop (s.offset + key.length + 1) = 32 :: c1 :: (cs1 ++ 10 :: t) := by
    rw [hd1, hcs1]; rfl
  have hsp : isSpace c1 = false := by
    simp only [isSpace, Bool.or_eq_false_iff, beq_eq_false_iff_ne, ne_eq]
    omega
  have hd2 : s.data.drop (s.offset + key.length + 1 + 1) = f.text ++ 10 :: t :=
    drop_succ_of_drop hd1
  rw [scanPair]
  simp only [scanName_ok s hl key _ hkb hd, Res.bind_ok, hne, if_false]
  rw [skipSpace_one { s with offset := s.offset + key.length + 1 } hl hd1' hsp]
  simp only [Res.bind_ok]
  rw [scanValue_field_le L f hf m { s with offset := s.offset + key.length + 1 + 1 } t hl hd2
    (by omega)]
  simp only [Res.bind_ok]

/-- The method `scanLine` on a pair line: the value is stored under the key, and the offset
goes to the start of the next line (it stays on the line feed when that is the last byte of
the buffer). -/
theorem scanLine_pair (L : Lib) (l : Bytes × (Bytes × Field)) (hline : pairLine l)
    (n : Nat) (s : scanner) (t : Bytes) (nd : Node) (hl : s.len = s.data.length)
    (hd : s.data.drop s.offset = pairLines [l] ++ t) (hn : l.2.2.cost + 1 ≤ n) :
    scanLine L n s (some nd) =
      Res.ok (if t = [] then
          { s with offset := s.offset + (pairLines [l]).length - 1 }
        else { s with offset := s.offset + (pairLines [l]).length, line := s.line + 1 },
        some (nd.set l.2.1 l.2.2.value)) := by
  obtain ⟨ind, key, f⟩ := l
  obtain ⟨hind, hk, hf⟩ := hline
  simp only at hind hk hf hn
  obtain ⟨hkb, c, cs, hcs, _, _, _⟩ := hk
  have hd' : s.data.drop s.offset = ind ++ (key ++ 58 :: 32 :: (f.text ++ 10 :: t)) := by
    simpa [pairLines] using hd
  have hd0 : s.data.drop s.offset = ind ++ c :: (cs ++ 58 :: 32 :: (f.text ++ 10 :: t)) := by
    rw [hd', hcs]; simp
  have hcsp : isSpace c = false := by
    have := hkb c (by rw [hcs]; simp)
    simp only [nameByte, Bool.not_eq_true', Bool.or_eq_false_iff] at this
    exact this.1.1.1
  have hd1 : s.data.drop (s.offset + ind.length) =
      key ++ 58 :: 32 :: (f.text ++ 10 :: t) := drop_add_of_drop _ _ hd'
  have hd2 : s.data.drop (s.offset + ind.length + key.length + 2 + f.text.length) =
      10 :: t := by
    have h1 := drop_add_of_drop _ _ hd1
    have h2 := drop_succ_of_drop (drop_succ_of_drop h1)
    have h3 := drop_add_of_drop _ _ h2
    rw [show s.offset + ind.length + key.length + 2 + f.text.length =
      s.offset + ind.length + key.length + 1 + 1 + f.text.length by omega]
    exact h3
  have hlen : (pairLines [(ind, (key, f))]).length =
      ind.length + key.length + 2 + f.text.length + 1 := by
    simp [pairLines]; omega
  unfold scanLine
  rw [skipSpace_blanks s hl ind c _ hind hcsp hd0]
  simp only [Res.bind_ok]
  rw [scanPair_line L key f ⟨hkb, c, cs, hcs, by assumption, by assumption, by assumption⟩ hf n
    { s with offset := s.offset + ind.length } t nd hl hd1 hn]
  simp only [Res.bind_ok]
  rw [skipRestOfLine_lf
    { s with offset := s.offset + ind.length + key.length + 2 + f.text.length } hl hd2]
  simp only [Res.bind_ok, hlen]
  by_cases ht : t = []
  · simp [ht]
    omega
  · simp [ht]
    omega


/-! ## Sections -/

theorem pairLines_cons (l : Bytes × (Bytes × Field)) (rest : List (Bytes × (Bytes × Field))) :
    pairLines (l :: rest) = pairLines [l] ++ pairLines rest := by
  obtain ⟨ind, key, f⟩ := l
  simp [pairLines]

theorem pairLines_head (l : Bytes × (Bytes × Field)) (hline : pairLine l) (t : Bytes) :
    ∃ c r, pairLines [l] ++ t = l.1 ++ c :: r ∧ isSpace c = false ∧ isLineEnd c = false ∧
      c ≠ 35 ∧ c ≠ 47 ∧ c ≠ 45 ∧ r ≠ [] := by
  obtain ⟨ind, key, f⟩ := l
  obtain ⟨_, ⟨hkb, c, cs, hcs, h35, h47, h45⟩, _⟩ := hline
  simp only at hkb hcs
  have hc := hkb c (by rw [hcs]; simp)
  simp only [nameByte, Bool.not_eq_true', Bool.or_eq_false_iff] at hc
  refine ⟨c, cs ++ 58 :: 32 :: (f.text ++ 10 :: t), ?_, hc.1.1.1, hc.2, h35, h47, h45, by simp⟩
  simp [pairLines, hcs]

theorem linesFuel_cons (l : Bytes × (Bytes × Field)) (rest : List (Bytes × (Bytes × Field))) :
    linesFuel (l :: rest) = linesFuel rest + 1 + l.2.2.cost := by
  simp [linesFuel]
  omega

/-- The end of a section: a blank line, or blanks up to the end of the input. -/
theorem scanSingleNode_end (L : Lib) (m : Nat) (s : scanner) (node : Node) (b tl : Bytes)
    (hl : s.len = s.data.length) (hb : blanks b) (htl : tl = [] ∨ ∃ r, tl = 10 :: r)
    (hd : s.data.drop s.offset = b ++ tl) :
    ∃ k ln, scanSingleNode L (m + 1) s node =
      Res.ok ({ s with offset := s.offset + k, line := ln }, node) := by
  obtain ⟨k, ln, hk⟩ := isBlankLine_end s hl b tl hb htl hd
  exact ⟨k, ln, by rw [scanSingleNode, hk]; simp⟩

/-- The method `scanSingleNode` on pair lines that are followed by a blank line or by the
end of the input: the node holds the pairs, stored in order. -/
theorem scanSingleNode_lines (L : Lib) : ∀ (lines : List (Bytes × (Bytes × Field))) (N : Nat)
    (s : scanner) (node : Node) (tl : Bytes), s.len = s.data.length →
    (∀ l ∈ lines, pairLine l) → blankTail tl →
    s.data.drop s.offset = pairLines lines ++ tl → linesFuel lines ≤ N →
    ∃ k ln, scanSingleNode L N s node =
      Res.ok ({ s with offset := s.offset + k, line := ln },
        storeAll node (lines.map Prod.snd)) := by
  intro lines
  induction lines with
  | nil =>
    intro N s node tl hl _ htl hd hN
    obtain ⟨m, rfl⟩ : ∃ m, N = m + 1 := ⟨N - 1, by simp [linesFuel] at hN; omega⟩
    obtain ⟨b, r, hb, htl2⟩ := htl
    have hd' : s.data.drop s.offset = tl := by simpa [pairLines] using hd
    rcases htl2 with h | h
    · exact scanSingleNode_end L m s node b [] hl hb (Or.inl rfl) (by rw [hd', h]; simp)
    · exact scanSingleNode_end L m s node b (10 :: r) hl hb (Or.inr ⟨r, rfl⟩) (by rw [hd', h])
  | cons l rest ih =>
    intro N s node tl hl hlines htl hd hN
    have hline := hlines l (List.mem_cons_self _ _)
    rw [linesFuel_cons] at hN
    have hf2 : 2 ≤ linesFuel rest := by simp [linesFuel]
    have hc1 : 1 ≤ l.2.2.cost := by
      cases l.2.2 <;> simp [Field.cost]
    obtain ⟨m, rfl⟩ : ∃ m, N = m + 1 := ⟨N - 1, by omega⟩
    have hd' : s.data.drop s.offset = pairLines [l] ++ (pairLines rest ++ tl) := by
      rw [hd, pairLines_cons]; simp
    obtain ⟨c, r, hcr, h1, h2, h3, h4, _, _⟩ := pairLines_head l hline (pairLines rest ++ tl)
    have hblank := isBlankLine_pair s hl l.1 c r hline.1 h1 h2 h3 h4 (by rw [hd', hcr])
    have hscan := scanLine_pair L l hline m s (pairLines rest ++ tl) node hl hd' (by omega)
    have hstore : storeAll node ((l :: rest).map Prod.snd) =
        storeAll (node.set l.2.1 l.2.2.value) (rest.map Prod.snd) := rfl
    rw [scanSingleNode, hblank]
    simp only [Res.bind_ok, Bool.false_eq_true, if_false, hscan, Option.getD_some]
    rw [hstore]
    by_cases ht : pairLines rest ++ tl = []
    · -- the line feed of this line is the last byte of the buffer
      have hrest : rest = [] := by
        cases rest with
        | nil => rfl
        | cons l2 r2 =>
          obtain ⟨i2, k2, f2⟩ := l2
          simp [pairLines] at ht
      subst hrest
      simp only [ht, if_true, List.map_nil, storeAll, List.foldl_nil]
      have hlen : 1 ≤ (pairLines [l]).length := by
        obtain ⟨i1, k1, f1⟩ := l
        simp only [pairLines, List.length_append, List.length_cons, List.length_nil]
        omega
      have hdl : s.data.drop (s.offset + (pairLines [l]).length - 1) = [] ++ 10 :: [] := by
        obtain ⟨i1, k1, f1⟩ := l
        have hd2 : s.data.drop s.offset =
            (i1 ++ (k1 ++ 58 :: 32 :: f1.text)) ++ [10] := by
          rw [hd', ht]; simp [pairLines]
        have h5 := drop_add_of_drop _ _ hd2
        have hl5 : (pairLines [(i1, (k1, f1))]).length - 1 =
            (i1 ++ (k1 ++ 58 :: 32 :: f1.text)).length := by
          simp only [pairLines, List.length_append, List.length_cons, List.length_nil]
          omega
        rw [Nat.add_sub_assoc hlen, hl5]
        simpa using h5
      obtain ⟨m2, rfl⟩ : ∃ m2, m = m2 + 1 := ⟨m - 1, by omega⟩
      obtain ⟨k, ln, hk⟩ := scanSingleNode_end L m2
        { s with offset := s.offset + (pairLines [l]).length - 1 }
        (node.set l.2.1 l.2.2.value) [] (10 :: []) hl (by simp [blanks]) (Or.inr ⟨[], rfl⟩) hdl
      refine ⟨(pairLines [l]).length - 1 + k, ln, ?_⟩
      rw [hk]
      simp
      omega
    · simp only [ht, if_false]
      have hd2 : s.data.drop (s.offset + (pairLines [l]).length) = pairLines rest ++ tl :=
        drop_add_of_drop _ _ hd'
      obtain ⟨k, ln, hk⟩ := ih m
        { s with offset := s.offset + (pairLines [l]).length, line := s.line + 1 }
        (node.set l.2.1 l.2.2.value) tl hl (fun x hx => hlines x (List.mem_cons_of_mem _ hx))
        htl hd2 (by omega)
      refine ⟨(pairLines [l]).length + k, ln, ?_⟩
      rw [hk]
      simp
      omega


/-! ## The method `scanNode` on a single section -/

theorem Gap_blanks : ∀ (b : Bytes), blanks b → Gap b := by
  intro b
  induction b with
  | nil => intro _; exact Gap.nil
  | cons c b ih =>
    intro hb
    exact Gap.blank c b (hb c (by simp)) (ih fun x hx => hb x (by simp [hx]))

theorem Gap_append_blanks (g : Bytes) (hg : Gap g) (b : Bytes) (hb : blanks b) :
    Gap (g ++ b) := by
  induction hg with
  | nil => simpa using Gap_blanks b hb
  | blank c g hc _ ih => simpa using Gap.blank c (g ++ b) hc ih
  | line text eol g ht he _ ih =>
    have hbr : lineBreak eol (g ++ b) := by
      rcases he with h | h | ⟨h, hh⟩
      · exact Or.inl h
      · exact Or.inr (Or.inl h)
      · refine Or.inr (Or.inr ⟨h, ?_⟩)
        cases g with
        | cons x xs => simpa using hh
        | nil =>
          cases b with
          | nil => simp
          | cons y ys =>
            have hy : y = 32 ∨ y = 9 := by simpa [isSpace] using hb y (by simp)
            simp only [List.nil_append, List.head?_cons, ne_eq, Option.some.injEq]
            omega
    have := Gap.line text eol (g ++ b) ht hbr ih
    simpa [List.append_assoc] using this

/-- A section with pair lines: the header, a gap, the lines, and a blank tail. -/
theorem scanNode_lines (L : Lib) (nm g : Bytes) (lines : List (Bytes × (Bytes × Field)))
    (tl : Bytes) (n : Nat) (s : scanner) (parent : Node)
    (hnm : nm ≠ []) (hnb : ∀ c ∈ nm, nameByte c = true) (hg : Gap g) (hne : lines ≠ [])
    (hlines : ∀ l ∈ lines, pairLine l) (htl : blankTail tl) (hl : s.len = s.data.length)
    (hd : s.data.drop s.offset = 91 :: (nm ++ 93 :: (g ++ (pairLines lines ++ tl))))
    (hn : linesFuel lines ≤ n) :
    ∃ k ln, scanNode L n s parent =
      Res.ok ({ s with offset := s.offset + k, line := ln },
        parent.set nm (.node (storeAll NewNode (lines.map Prod.snd)))) := by
  obtain ⟨l, rest, rfl⟩ : ∃ l rest, lines = l :: rest := by
    cases lines with
    | nil => exact absurd rfl hne
    | cons l rest => exact ⟨l, rest, rfl⟩
  have hline := hlines l (List.mem_cons_self _ _)
  -- the name
  have hd0 : s.data.drop (s.offset + 1) =
      nm ++ 93 :: (g ++ (pairLines (l :: rest) ++ tl)) := drop_succ_of_drop hd
  have hname := scanName_close { s with offset := s.offset + 1 } hl nm _ hnb hd0
  -- the gap and the indentation of the first line
  have hd1 : s.data.drop (s.offset + 1 + nm.length + 1) =
      g ++ (pairLines (l :: rest) ++ tl) := drop_succ_of_drop (drop_add_of_drop _ _ hd0)
  obtain ⟨c, r, hcr, h1, h2, h3, h4, h5, hr⟩ := pairLines_head l hline (pairLines rest ++ tl)
  have hd2 : s.data.drop (s.offset + 1 + nm.length + 1) = (g ++ l.1) ++ c :: r := by
    rw [hd1, pairLines_cons, List.append_assoc, hcr]; simp
  obtain ⟨ln, hskip⟩ := skip_gap (g ++ l.1) (Gap_append_blanks g hg l.1 hline.1)
    { s with offset := s.offset + 1 + nm.length + 1 } c r hl hd2 hr h3 h4 h2 h1
  have hd3 : s.data.drop (s.offset + 1 + nm.length + 1 + (g ++ l.1).length) = c :: r :=
    drop_add_of_drop _ _ hd2
  -- the lines, the first one without its indentation
  have hline0 : pairLine (([] : Bytes), l.2) := ⟨by simp [blanks], hline.2.1, hline.2.2⟩
  have hlines0 : ∀ x ∈ (([] : Bytes), l.2) :: rest, pairLine x := by
    intro x hx
    rcases List.mem_cons.1 hx with h | h
    · rw [h]; exact hline0
    · exact hlines x (List.mem_cons_of_mem _ h)
  have hd4 : s.data.drop (s.offset + 1 + nm.length + 1 + (g ++ l.1).length) =
      pairLines ((([] : Bytes), l.2) :: rest) ++ tl := by
    have h6 : l.1 ++ pairLines ((([] : Bytes), l.2) :: rest) = pairLines (l :: rest) := by
      obtain ⟨ind, key, f⟩ := l
      simp [pairLines]
    have h7 := drop_add_of_drop (g ++ l.1) (pairLines ((([] : Bytes), l.2) :: rest) ++ tl)
      (d := s.data) (i := s.offset + 1 + nm.length + 1)
      (by rw [hd1, ← h6]; simp)
    exact h7
  have hfuel : linesFuel ((([] : Bytes), l.2) :: rest) ≤ n := by
    rw [linesFuel_cons] at hn ⊢
    exact hn
  obtain ⟨k, ln2, hk⟩ := scanSingleNode_lines L ((([] : Bytes), l.2) :: rest) n
    { s with offset := s.offset + 1 + nm.length + 1 + (g ++ l.1).length, line := ln }
    NewNode tl hl hlines0 htl hd4 hfuel
  refine ⟨1 + nm.length + 1 + (g ++ l.1).length + k, ln2, ?_⟩
  unfold scanNode
  rw [hname]
  simp only [Res.bind_ok, hnm, if_false, hskip, scanner.byteAt, getElem?_of_drop hd3, h5, hk]
  simp
  omega

/-- A header that runs to the end of its line without a space, a colon or a closing
bracket. -/
theorem scanNode_unclosed (L : Lib) (junk tl : Bytes) (n : Nat) (s : scanner) (parent : Node)
    (hj : ∀ c ∈ junk, nameByte c = true)
    (htl : tl = [] ∨ ∃ le t, isLineEnd le = true ∧ tl = le :: t)
    (hl : s.len = s.data.length) (hd : s.data.drop s.offset = 91 :: (junk ++ tl)) :
    ∃ k ln, scanNode L n s parent =
      Res.ok ({ s.addErrorMsg invalidNodeName with offset := s.offset + k, line := ln },
        parent) := by
  have hd0 : s.data.drop (s.offset + 1) = junk ++ tl := drop_succ_of_drop hd
  have hlen : junk.length < s.len + 1 := by
    have := congrArg List.length hd
    simp at this
    omega
  have hname : scanner.scanName { s with offset := s.offset + 1 } =
      Res.ok ({ s with offset := s.offset + 1 }, []) := by
    unfold scanner.scanName
    have h := scanNameLoop_none { s with offset := s.offset + 1 } hl junk
      (s.len - junk.length) (s.offset + 1) hj
      (by
        rcases htl with h | ⟨le, t, hle, h⟩
        · left; rw [hd0, h]; simp
        · right; exact ⟨le, t, hle, by rw [hd0, h]⟩)
    rw [show s.len - junk.length + junk.length + 1 = s.len + 1 by omega] at h
    exact h
  obtain ⟨k, ln, hk⟩ := skipRestOfLine_frame
    (scanner.addErrorMsg { s with offset := s.offset + 1 } invalidNodeName) hl
  refine ⟨1 + k, ln, ?_⟩
  unfold scanNode
  rw [hname]
  simp only [Res.bind_ok, if_true, hk]
  simp [scanner.addErrorMsg]
  omega


/-! ## Claim C33 -/

/-- Claim C33. A header without a closing bracket is not always rejected: `scanName` stops
at a space, a tab or a colon as it does at the bracket, and `scanNode` does not look at the
byte it stopped at. On `[A b: 1`, line feed, line feed, the name is `A`, the rest of the
header line is read as the first pair line, and no error at all is recorded, by `scanNode`
and by `Parse`; on `[A b`, line feed, the error is `invalid name`. The header `[TestNode`
of the test, which runs to the end of the input, does get `invalid node name`, and so does
every header made of `[` and bytes that run to the end of the line, or of the input, without
a space, a tab, a colon or a closing bracket (last conjunct). The first half of the claim
holds (fifth conjunct): for a section written as `[`, a non-empty name, `]`, insignificant
input, one or more pair lines with distinct keys, and blanks up to a line feed or to the end
of the input, `scanNode`, given enough steps, stores under the name one node that holds
exactly the pairs of the lines, in order, and leaves the error of the scanner as it was. -/
theorem scanNode_unclosed_header (L : Lib) (n : Nat) :
    scanNode L (n + 3) (newScanner (str "[A b: 1\n\n")) NewNode =
      Res.ok ({ newScanner (str "[A b: 1\n\n") with offset := 8, line := 2 },
        [(str "A", .node [(str "b", .int 1)])]) ∧
    Parse L (n + 4) (str "[A b: 1\n\n") =
      some (some [(str "A", .node [(str "b", .int 1)])], none) ∧
    scanNode L (n + 2) (newScanner (str "[A b\n")) NewNode =
      Res.ok ({ newScanner (str "[A b\n") with
          offset := 4, error := some (str "invalid name") },
        [(str "A", .node [])]) ∧
    scanNode L n (newScanner (str "[TestNode")) NewNode =
      Res.ok ({ newScanner (str "[TestNode") with
          offset := 8, error := some (str "invalid node name") }, []) ∧
    (∀ (nm g : Bytes) (lines : List (Bytes × (Bytes × Field))) (tl : Bytes) (N : Nat)
      (s : scanner) (parent : Node),
      nm ≠ [] → (∀ c ∈ nm, nameByte c = true) → Gap g → lines ≠ [] →
      (∀ l ∈ lines, pairLine l) → (lines.map fun l => l.2.1).Nodup → blankTail tl →
      s.len = s.data.length →
      s.data.drop s.offset = 91 :: (nm ++ 93 :: (g ++ (pairLines lines ++ tl))) →
      linesFuel lines ≤ N →
      ∃ k ln, scanNode L N s parent =
        Res.ok ({ s with offset := s.offset + k, line := ln },
          parent.set nm (.node (recordTree (lines.map Prod.snd))))) ∧
    (∀ (junk stop : Bytes) (N : Nat) (s : scanner) (parent : Node),
      (∀ c ∈ junk, nameByte c = true) →
      (stop = [] ∨ ∃ le t, isLineEnd le = true ∧ stop = le :: t) →
      s.len = s.data.length → s.data.drop s.offset = 91 :: (junk ++ stop) →
      ∃ k ln, scanNode L N s parent =
        Res.ok ({ s.addErrorMsg invalidNodeName with offset := s.offset + k, line := ln },
          parent)) := by
  refine ⟨?_, ?_, ?_, ?_, ?_, ?_⟩
  · simp [str, scanNode, scanSingleNode, scanLine, newScanner, scanner.skip, skipLoop,
      scanner.isComment, scanner.isBlankLine, isBlankLineLoop,
      scanner.byteAt, scanPair, scanner.scanName, scanNameLoop, isSpace, isLineEnd, slice,
      scanner.skipSpace, skipSpaceLoop, Node.set, scanValue, scanner.scanNumber,
      scanner.scanRaw, scanRawLoop, trimSpace, trimLeftN, trimRightN, spaceWidth,
      spaceWidthRev, isTrimSpace, atoi, digitsVal, isDigit,
      scanner.skipRestOfLine, scanner.skipUntil, skipUntilLoop, scanner.skipLineEnd, NewNode]
  · simp [str, Parse, scan, scanNode, scanSingleNode, scanLine, newScanner, scanner.skip,
      skipLoop, scanner.isComment, scanner.isBlankLine, isBlankLineLoop,
      scanner.byteAt, scanPair, scanner.scanName, scanNameLoop, isSpace, isLineEnd, slice,
      scanner.skipSpace, skipSpaceLoop, Node.set, scanValue, scanner.scanNumber,
      scanner.scanRaw, scanRawLoop, trimSpace, trimLeftN, trimRightN, spaceWidth,
      spaceWidthRev, isTrimSpace, atoi, digitsVal, isDigit,
      scanner.skipRestOfLine, scanner.skipUntil, skipUntilLoop, scanner.skipLineEnd, NewNode]
  · simp [str, scanNode, scanSingleNode, scanLine, newScanner, scanner.skip, skipLoop,
      scanner.isComment, scanner.isBlankLine, isBlankLineLoop,
      scanner.byteAt, scanPair, scanner.scanName, scanNameLoop, isSpace, isLineEnd, slice,
      scanner.skipSpace, skipSpaceLoop, Node.set,
      scanner.skipRestOfLine, scanner.skipUntil, skipUntilLoop, scanner.skipLineEnd, NewNode,
      scanner.addErrorMsg, addMsg, invalidName]
  · simp [str, scanNode, newScanner, scanner.scanName, scanNameLoop, isSpace, isLineEnd,
      slice, scanner.skipRestOfLine, scanner.skipUntil, skipUntilLoop, scanner.skipLineEnd,
      NewNode, scanner.addErrorMsg, addMsg, invalidNodeName]
  · intro nm g lines tl N s parent hnm hnb hg hne hlines hkeys htl hl hd hn
    have hst : storeAll NewNode (lines.map Prod.snd) = recordTree (lines.map Prod.snd) := by
      have h := storeAll_eq (lines.map Prod.snd) NewNode
        (by simpa [List.map_map, Function.comp_def] using hkeys)
        (by intro p _; simp [NewNode])
      simpa [NewNode] using h
    rw [← hst]
    exact scanNode_lines L nm g lines tl N s parent hnm hnb hg hne hlines htl hl hd hn
  · intro junk stop N s parent hj hstop hl hd
    exact scanNode_unclosed L junk stop N s parent hj hstop hl hd


/-! ## The method `scanNodeList` -/

/-- Pair lines that do not start with a dash go to the last node of the list. -/
theorem scanNodeList_run (L : Lib) : ∀ (lines : List (Bytes × (Bytes × Field))) (M : Nat)
    (s : scanner) (list : List Node) (nd : Node) (rest : Bytes), s.len = s.data.length →
    (∀ l ∈ lines, pairLine l) → (∀ l ∈ lines, l.2.2.cost + 1 ≤ M) → rest ≠ [] →
    s.data.drop s.offset = pairLines lines ++ rest →
    scanNodeList L (M + lines.length) s (list ++ [nd]) =
      scanNodeList L M
        { s with offset := s.offset + (pairLines lines).length, line := s.line + lines.length }
        (list ++ [storeAll nd (lines.map Prod.snd)]) := by
  intro lines
  induction lines with
  | nil =>
    intro M s list nd rest _ _ _ _ _
    simp [pairLines, storeAll]
  | cons l ls ih =>
    intro M s list nd rest hl hlines hcost hrest hd
    have hline := hlines l (List.mem_cons_self _ _)
    have hc := hcost l (List.mem_cons_self _ _)
    have hd' : s.data.drop s.offset = pairLines [l] ++ (pairLines ls ++ rest) := by
      rw [hd, pairLines_cons]; simp
    obtain ⟨c, r, hcr, h1, h2, h3, h4, h5, _⟩ := pairLines_head l hline (pairLines ls ++ rest)
    have hblank := isBlankLine_pair s hl l.1 c r hline.1 h1 h2 h3 h4 (by rw [hd', hcr])
    have hbyte : ∃ x, s.data[s.offset]? = some x ∧ x ≠ 45 := by
      have hd0 : s.data.drop s.offset = l.1 ++ c :: r := by rw [hd', hcr]
      cases hi : l.1 with
      | nil =>
        rw [hi] at hd0
        exact ⟨c, getElem?_of_drop (by simpa using hd0), h5⟩
      | cons b bs =>
        rw [hi] at hd0
        have hb : b = 32 ∨ b = 9 := by
          have := hline.1 b (by rw [hi]; simp)
          simpa [isSpace] using this
        exact ⟨b, getElem?_of_drop (by simpa using hd0), by omega⟩
    obtain ⟨x, hx, hx45⟩ := hbyte
    have ht : pairLines ls ++ rest ≠ [] := by simp [hrest]
    have hscan := scanLine_pair L l hline (M + ls.length) s (pairLines ls ++ rest) nd hl hd'
      (by omega)
    have hd2 : s.data.drop (s.offset + (pairLines [l]).length) = pairLines ls ++ rest :=
      drop_add_of_drop _ _ hd'
    have hnext := ih M
      { s with offset := s.offset + (pairLines [l]).length, line := s.line + 1 } list
      (nd.set l.2.1 l.2.2.value) rest hl (fun y hy => hlines y (List.mem_cons_of_mem _ hy))
      (fun y hy => hcost y (List.mem_cons_of_mem _ hy)) hrest hd2
    have hstore : storeAll nd ((l :: ls).map Prod.snd) =
        storeAll (nd.set l.2.1 l.2.2.value) (ls.map Prod.snd) := rfl
    rw [show M + (l :: ls).length = (M + ls.length) + 1 by simp; omega, scanNodeList, hblank]
    simp only [Res.bind_ok, Bool.false_eq_true, if_false, scanner.byteAt, hx, hx45,
      List.getLast?_append, List.getLast?_singleton, Option.or, hscan, ht,
      List.dropLast_concat]
    rw [hnext, hstore, pairLines_cons l ls]
    simp only [List.length_append, List.length_cons]
    rw [Nat.add_assoc s.offset, Nat.add_assoc s.line, Nat.add_comm 1 ls.length]

/-- A line that starts with a dash opens a node, and the pair on that line and on the lines
after it go to that node. -/
theorem scanNodeList_group (L : Lib) (l : Bytes × (Bytes × Field))
    (ls : List (Bytes × (Bytes × Field))) (M : Nat) (s : scanner) (list : List Node)
    (rest : Bytes) (hl : s.len = s.data.length) (hlines : ∀ y ∈ l :: ls, pairLine y)
    (hcost : ∀ y ∈ l :: ls, y.2.2.cost + 1 ≤ M) (hrest : rest ≠ [])
    (hd : s.data.drop s.offset = 45 :: (pairLines (l :: ls) ++ rest)) :
    scanNodeList L (M + ls.length + 1) s list =
      scanNodeList L M
        { s with offset := s.offset + 1 + (pairLines (l :: ls)).length,
                 line := s.line + ls.length + 1 }
        (list ++ [storeAll NewNode ((l :: ls).map Prod.snd)]) := by
  have hline := hlines l (List.mem_cons_self _ _)
  have hc := hcost l (List.mem_cons_self _ _)
  have hblank := isBlankLine_pair s hl [] 45 (pairLines (l :: ls) ++ rest) (by simp [blanks])
    (by decide) (by decide) (by decide) (by decide) (by simpa using hd)
  have hx : s.data[s.offset]? = some 45 := getElem?_of_drop hd
  have hd1 : s.data.drop (s.offset + 1) = pairLines [l] ++ (pairLines ls ++ rest) := by
    rw [drop_succ_of_drop hd, pairLines_cons]; simp
  have ht : pairLines ls ++ rest ≠ [] := by simp [hrest]
  have hscan := scanLine_pair L l hline (M + ls.length) { s with offset := s.offset + 1 }
    (pairLines ls ++ rest) NewNode hl hd1 (by omega)
  have hd2 : s.data.drop (s.offset + 1 + (pairLines [l]).length) = pairLines ls ++ rest :=
    drop_add_of_drop _ _ hd1
  have hrun := scanNodeList_run L ls M
    { s with offset := s.offset + 1 + (pairLines [l]).length, line := s.line + 1 } list
    (NewNode.set l.2.1 l.2.2.value) rest hl (fun y hy => hlines y (List.mem_cons_of_mem _ hy))
    (fun y hy => hcost y (List.mem_cons_of_mem _ hy)) hrest hd2
  have hstore : storeAll NewNode ((l :: ls).map Prod.snd) =
      storeAll (NewNode.set l.2.1 l.2.2.value) (ls.map Prod.snd) := rfl
  rw [scanNodeList, hblank]
  simp only [Res.bind_ok, Bool.false_eq_true, if_false, scanner.byteAt, hx, if_true,
    List.getLast?_append, List.getLast?_singleton, Option.or, hscan, ht,
    List.dropLast_concat]
  rw [hrun, hstore, pairLines_cons l ls]
  simp only [List.length_append, List.length_cons]
  rw [Nat.add_assoc (s.offset + 1), Nat.add_assoc s.line, Nat.add_comm 1 ls.length,
    Nat.add_assoc s.line]

/-- Groups of pair lines, each opened by a dash, and then a blank line. -/
theorem scanNodeList_groups (L : Lib) : ∀ (groups : List (List (Bytes × (Bytes × Field))))
    (M : Nat) (s : scanner) (list : List Node) (b r : Bytes), s.len = s.data.length →
    (∀ g ∈ groups, g ≠ []) → (∀ g ∈ groups, ∀ l ∈ g, pairLine l) →
    (∀ g ∈ groups, ∀ l ∈ g, l.2.2.cost + 1 ≤ M) → blanks b →
    s.data.drop s.offset = dashGroups groups ++ (b ++ 10 :: r) →
    ∃ k ln, scanNodeList L (M + groups.flatten.length + 1) s list =
      Res.ok ({ s with offset := s.offset + k, line := ln },
        list ++ groups.map fun g => storeAll NewNode (g.map Prod.snd)) := by
  intro groups
  induction groups with
  | nil =>
    intro M s list b r hl _ _ _ hb hd
    obtain ⟨k, ln, hk⟩ := isBlankLine_end s hl b (10 :: r) hb (Or.inr ⟨r, rfl⟩)
      (by simpa [dashGroups] using hd)
    refine ⟨k, ln, ?_⟩
    rw [scanNodeList, hk]
    simp
  | cons g gs ih =>
    intro M s list b r hl hne hlines hcost hb hd
    obtain ⟨l, ls, rfl⟩ : ∃ l ls, g = l :: ls := by
      cases g with
      | nil => exact absurd rfl (hne [] (List.mem_cons_self _ _))
      | cons l ls => exact ⟨l, ls, rfl⟩
    have hd' : s.data.drop s.offset =
        45 :: (pairLines (l :: ls) ++ (dashGroups gs ++ (b ++ 10 :: r))) := by
      rw [hd]; simp [dashGroups]
    have hgroup := scanNodeList_group L l ls (M + gs.flatten.length + 1) s list
      (dashGroups gs ++ (b ++ 10 :: r)) hl (hlines _ (List.mem_cons_self _ _))
      (fun y hy => by have := hcost _ (List.mem_cons_self _ _) y hy; omega) (by simp) hd'
    have hd2 : s.data.drop (s.offset + 1 + (pairLines (l :: ls)).length) =
        dashGroups gs ++ (b ++ 10 :: r) :=
      drop_add_of_drop _ _ (drop_succ_of_drop hd')
    obtain ⟨k, ln, hk⟩ := ih M
      { s with offset := s.offset + 1 + (pairLines (l :: ls)).length,
               line := s.line + ls.length + 1 }
      (list ++ [storeAll NewNode ((l :: ls).map Prod.snd)]) b r hl
      (fun x hx => hne x (List.mem_cons_of_mem _ hx))
      (fun x hx => hlines x (List.mem_cons_of_mem _ hx))
      (fun x hx => hcost x (List.mem_cons_of_mem _ hx)) hb hd2
    refine ⟨1 + (pairLines (l :: ls)).length + k, ln, ?_⟩
    rw [show M + ((l :: ls) :: gs).flatten.length + 1 =
      (M + gs.flatten.length + 1) + ls.length + 1 by simp; omega, hgroup, hk]
    simp
    omega

theorem cost_le_linesFuel : ∀ (lines : List (Bytes × (Bytes × Field)))
    (l : Bytes × (Bytes × Field)), l ∈ lines →
    l.2.2.cost + lines.length + 2 ≤ linesFuel lines := by
  intro lines
  induction lines with
  | nil => intro l h; simp at h
  | cons x xs ih =>
    intro l h
    rw [linesFuel_cons]
    rcases List.mem_cons.1 h with h | h
    · subst h
      have : 2 ≤ linesFuel xs := by simp [linesFuel]
      have : xs.length + 2 ≤ linesFuel xs := by simp [linesFuel]
      simp only [List.length_cons]
      omega
    · have := ih l h
      simp only [List.length_cons]
      omega


/-! ## Claim C34 -/

/-- Claim C34. A line that holds only the dash opens a node, but the pair line after it is
lost: `scanLine` finds no name on the rest of the dash line, `scanPair` records
`invalid name` and skips to the next line, and `scanLine` then skips that line as the rest
of the line. In the section `[L]` with the lines `-` and `a: 1` and a blank line, `Parse`
returns a list of one node that is empty, and with a further line `b: 2` only `b` is stored;
`scanNodeList` on the body alone does the same. When the dash line fails on its value
instead (`-x: !`), the next line is kept. The claim holds when every dash line carries a
pair (last conjunct): for a body made of groups, each a `-`, on the same line a pair, then
zero or more pair lines whose key does not start with a dash, and after the last group a
blank line, `scanNodeList`, given enough steps, returns one node for each group, in the
order of the text, and the node of a group holds the pairs of that group, stored in order,
and nothing else. -/
theorem scanNodeList_bare_dash (L : Lib) (n : Nat) :
    Parse L (n + 3) (str "[L]\n-\na: 1\n\n") =
      some (some [(str "L", .nodeList [[]])], some (str "invalid name")) ∧
    Parse L (n + 5) (str "[L]\n-\na: 1\nb: 2\n\n") =
      some (some [(str "L", .nodeList [[(str "b", .int 2)]])], some (str "invalid name")) ∧
    scanNodeList L (n + 2) (newScanner (str "-\na: 1\n\n")) [] =
      Res.ok ({ newScanner (str "-\na: 1\n\n") with
          offset := 7, line := 3, error := some (str "invalid name") }, [[]]) ∧
    Parse L (n + 5) (str "[L]\n-x: !\na: 1\n\n") =
      some (some [(str "L", .nodeList [[(str "a", .int 1)]])],
        some (str "invalid value, name: x")) ∧
    (∀ (groups : List (List (Bytes × (Bytes × Field)))) (b r : Bytes) (N : Nat) (s : scanner),
      (∀ g ∈ groups, g ≠ []) → (∀ g ∈ groups, ∀ l ∈ g, pairLine l) → blanks b →
      s.len = s.data.length →
      s.data.drop s.offset = dashGroups groups ++ (b ++ 10 :: r) →
      linesFuel groups.flatten ≤ N →
      ∃ k ln, scanNodeList L N s [] =
        Res.ok ({ s with offset := s.offset + k, line := ln },
          groups.map fun g => storeAll NewNode (g.map Prod.snd))) := by
  refine ⟨?_, ?_, ?_, ?_, ?_⟩
  · simp [str, Parse, scan, scanNode, scanNodeList, scanLine, newScanner, scanner.skip,
      skipLoop, scanner.isComment, scanner.isBlankLine,
      isBlankLineLoop, scanner.byteAt, scanPair, scanner.scanName, scanNameLoop, isSpace,
      isLineEnd, slice, scanner.skipSpace, skipSpaceLoop, Node.set, scanValue,
      scanner.scanNumber, scanner.scanRaw, scanRawLoop, trimSpace, trimLeftN, trimRightN,
      spaceWidth, spaceWidthRev, isTrimSpace, atoi, digitsVal,
      isDigit, scanner.skipRestOfLine, scanner.skipUntil, skipUntilLoop, scanner.skipLineEnd,
      NewNode, scanner.addErrorMsg, addMsg, invalidName]
  · simp [str, Parse, scan, scanNode, scanNodeList, scanLine, newScanner, scanner.skip,
      skipLoop, scanner.isComment, scanner.isBlankLine,
      isBlankLineLoop, scanner.byteAt, scanPair, scanner.scanName, scanNameLoop, isSpace,
      isLineEnd, slice, scanner.skipSpace, skipSpaceLoop, Node.set, scanValue,
      scanner.scanNumber, scanner.scanRaw, scanRawLoop, trimSpace, trimLeftN, trimRightN,
      spaceWidth, spaceWidthRev, isTrimSpace, atoi, digitsVal,
      isDigit, scanner.skipRestOfLine, scanner.skipUntil, skipUntilLoop, scanner.skipLineEnd,
      NewNode, scanner.addErrorMsg, addMsg, invalidName]
  · simp [str, scanNodeList, scanLine, newScanner, scanner.isComment, scanner.isBlankLine,
      isBlankLineLoop, scanner.byteAt, scanPair, scanner.scanName, scanNameLoop, isSpace,
      isLineEnd, slice, scanner.skipSpace, skipSpaceLoop, Node.set, scanValue,
      scanner.skipRestOfLine, scanner.skipUntil, skipUntilLoop, scanner.skipLineEnd, NewNode,
      scanner.addErrorMsg, addMsg, invalidName]
  · simp [str, Parse, scan, scanNode, scanNodeList, scanLine, newScanner, scanner.skip,
      skipLoop, scanner.isComment, scanner.isBlankLine,
      isBlankLineLoop, scanner.byteAt, scanPair, scanner.scanName, scanNameLoop, isSpace,
      isLineEnd, slice, scanner.skipSpace, skipSpaceLoop, Node.set, scanValue,
      scanner.scanNumber, scanner.scanRaw, scanRawLoop, trimSpace, trimLeftN, trimRightN,
      spaceWidth, spaceWidthRev, isTrimSpace, atoi, digitsVal,
      isDigit, scanner.skipRestOfLine, scanner.skipUntil, skipUntilLoop, scanner.skipLineEnd,
      NewNode, scanner.addErrorMsg, addMsg, invalidName, invalidValue]
  · intro groups b r N s hne hlines hb hl hd hn
    have hf : groups.flatten.length + 2 ≤ linesFuel groups.flatten := by simp [linesFuel]
    have hcost : ∀ g ∈ groups, ∀ l ∈ g,
        l.2.2.cost + 1 ≤ N - groups.flatten.length - 1 := by
      intro g hg l hlg
      have := cost_le_linesFuel groups.flatten l (List.mem_flatten.2 ⟨g, hg, hlg⟩)
      omega
    obtain ⟨k, ln, hk⟩ := scanNodeList_groups L groups (N - groups.flatten.length - 1) s []
      b r hl hne hlines hcost hb hd
    refine ⟨k, ln, ?_⟩
    rw [show N - groups.flatten.length - 1 + groups.flatten.length + 1 = N by omega] at hk
    simpa using hk


/-! ## Integer literals with blanks around them -/

theorem rawSpan_stop : ∀ (w : Bytes) (c : Nat) (t : Bytes), (∀ x ∈ w, spanByte x = true) →
    rawStop c = true → rawSpan (w ++ c :: t) = w := by
  intro w
  induction w with
  | nil =>
    intro c t _ hc
    simp only [rawStop] at hc
    simp only [List.nil_append, rawSpan]
    rw [if_pos]
    rw [Bool.or_eq_true, Bool.or_eq_true]
    exact Or.inl (Or.inl hc)
  | cons x w ih =>
    intro c t hw hc
    have hx := hw x (List.mem_cons_self _ _)
    simp only [spanByte, Bool.not_eq_true', Bool.or_eq_false_iff, beq_eq_false_iff_ne,
      ne_eq] at hx
    obtain ⟨⟨⟨⟨⟨h1, h2⟩, h3⟩, h4⟩, h5⟩, h6⟩ := hx
    have hih := ih c t (fun y hy => hw y (List.mem_cons_of_mem _ hy)) hc
    rw [List.cons_append, rawSpan, if_neg, hih]
    simp [h1, h2, h3, h4, h5, h6]

theorem spaceWidth_head (x : Nat) (t : Bytes) (h1 : isTrimSpace x = false) (h2 : x < 128) :
    spaceWidth (x :: t) = 0 ∧ spaceWidthRev (x :: t) = 0 := by
  have e1 : (x == 194) = false := by simp; omega
  have e2 : (x == 225) = false := by simp; omega
  have e3 : (x == 226) = false := by simp; omega
  have e4 : (x == 227) = false := by simp; omega
  have e5 : (x == 133) = false := by simp; omega
  have e6 : (x == 160) = false := by simp; omega
  have e7 : (x == 128) = false := by simp; omega
  have e8 : (x == 159) = false := by simp; omega
  have e9 : (x == 168) = false := by simp; omega
  have e10 : (x == 169) = false := by simp; omega
  have e11 : (x == 175) = false := by simp; omega
  have e12 : decide (128 ≤ x) = false := by simp; omega
  constructor
  · simp [spaceWidth, h1, e1, e2, e3, e4]
  · simp [spaceWidthRev, h1, e5, e6, e7, e8, e9, e10, e11, e12]

theorem trimLeftN_blanks : ∀ (b : Bytes) (n : Nat) (r : Bytes), blanks b → b.length ≤ n →
    spaceWidth r = 0 → trimLeftN n (b ++ r) = r := by
  intro b
  induction b with
  | nil =>
    intro n r _ _ hr
    cases n with
    | zero => rfl
    | succ m => simp [trimLeftN, hr]
  | cons c b ih =>
    intro n r hb hn hr
    obtain ⟨m, rfl⟩ : ∃ m, n = m + 1 := ⟨n - 1, by simp at hn; omega⟩
    have hc : c = 32 ∨ c = 9 := by simpa [isSpace] using hb c (List.mem_cons_self _ _)
    have hw : spaceWidth (c :: (b ++ r)) = 1 := by
      rcases hc with h | h <;> subst h <;> simp [spaceWidth, isTrimSpace]
    rw [List.cons_append, trimLeftN, hw]
    simp only [Nat.one_ne_zero, if_false, List.drop_succ_cons, List.drop_zero]
    exact ih m r (fun y hy => hb y (List.mem_cons_of_mem _ hy)) (by simpa using hn) hr

theorem trimRightN_blanks : ∀ (b : Bytes) (n : Nat) (r : Bytes), blanks b → b.length ≤ n →
    spaceWidthRev r = 0 → trimRightN n (b ++ r) = r := by
  intro b
  induction b with
  | nil =>
    intro n r _ _ hr
    cases n with
    | zero => rfl
    | succ m => simp [trimRightN, hr]
  | cons c b ih =>
    intro n r hb hn hr
    obtain ⟨m, rfl⟩ : ∃ m, n = m + 1 := ⟨n - 1, by simp at hn; omega⟩
    have hc : c = 32 ∨ c = 9 := by simpa [isSpace] using hb c (List.mem_cons_self _ _)
    have hw : spaceWidthRev (c :: (b ++ r)) = 1 := by
      rcases hc with h | h <;> subst h <;> simp [spaceWidthRev, isTrimSpace]
    rw [List.cons_append, trimRightN, hw]
    simp only [Nat.one_ne_zero, if_false, List.drop_succ_cons, List.drop_zero]
    exact ih m r (fun y hy => hb y (List.mem_cons_of_mem _ hy)) (by simpa using hn) hr

theorem rawByte_ascii (x : Nat) (h : rawByte x = true) : isTrimSpace x = false ∧ x < 128 := by
  simp only [rawByte, Bool.and_eq_true, decide_eq_true_eq, Bool.not_eq_true',
    Bool.or_eq_false_iff] at h
  exact ⟨h.2.2, h.1⟩

/-- Blanks around a token are trimmed away. -/
theorem trimSpace_token (b1 e b2 : Bytes) (hb1 : blanks b1) (hb2 : blanks b2)
    (he : ∀ x ∈ e, rawByte x = true) (hne : e ≠ []) : trimSpace (b1 ++ (e ++ b2)) = e := by
  have hleft : trimLeftN (b1 ++ (e ++ b2)).length (b1 ++ (e ++ b2)) = e ++ b2 := by
    apply trimLeftN_blanks b1 _ _ hb1 (by simp)
    cases e with
    | nil => exact absurd rfl hne
    | cons x e1 =>
      obtain ⟨h1, h2⟩ := rawByte_ascii x (he x (List.mem_cons_self _ _))
      exact (spaceWidth_head x _ h1 h2).1
  have hright : trimRightN (b1 ++ (e ++ b2)).length (e ++ b2).reverse = e.reverse := by
    rw [List.reverse_append]
    apply trimRightN_blanks b2.reverse _ _ (fun y hy => hb2 y (List.mem_reverse.1 hy))
      (by simp; omega)
    cases hr : e.reverse with
    | nil => exact absurd (List.reverse_eq_nil_iff.1 hr) hne
    | cons x e1 =>
      have hx : x ∈ e := List.mem_reverse.1 (by rw [hr]; exact List.mem_cons_self _ _)
      obtain ⟨h1, h2⟩ := rawByte_ascii x (he x hx)
      exact (spaceWidth_head x _ h1 h2).2
  unfold trimSpace
  rw [hleft, hright, List.reverse_reverse]

theorem spanByte_of_blank (x : Nat) (h : isSpace x = true) : spanByte x = true := by
  have hc : x = 32 ∨ x = 9 := by simpa [isSpace] using h
  rcases hc with h | h <;> subst h <;> decide

theorem spanByte_of_rawByte (x : Nat) (h : rawByte x = true) : spanByte x = true := by
  simp only [rawByte, Bool.and_eq_true, decide_eq_true_eq, Bool.not_eq_true',
    Bool.or_eq_false_iff] at h
  obtain ⟨_, ⟨⟨⟨⟨⟨h1, h2⟩, h3⟩, h4⟩, h5⟩, h6⟩, _⟩ := h
  simp [spanByte, h1, h2, h3, h4, h5, h6]

/-- The method `scanRaw` on an integer literal with blanks around it. -/
theorem scanRaw_blanks_token (s : scanner) (hl : s.len = s.data.length) (b1 e b2 : Bytes)
    (v : Int) (c : Nat) (t : Bytes) (hb1 : blanks b1) (hb2 : blanks b2)
    (he : atoi e = some v) (hc : rawStop c = true)
    (hd : s.data.drop s.offset = b1 ++ (e ++ (b2 ++ c :: t))) :
    s.scanRaw =
      Res.ok ({ s with offset := s.offset + (b1 ++ (e ++ b2)).length }, e) := by
  obtain ⟨hraw, c0, cs, hcs, _⟩ := atoi_token e v he
  have hne : e ≠ [] := by rw [hcs]; simp
  have hspan : rawSpan (b1 ++ (e ++ (b2 ++ c :: t))) = b1 ++ (e ++ b2) := by
    have h := rawSpan_stop (b1 ++ (e ++ b2)) c t
      (by
        intro x hx
        simp only [List.mem_append] at hx
        rcases hx with hx | hx | hx
        · exact spanByte_of_blank x (hb1 x hx)
        · exact spanByte_of_rawByte x (hraw x hx)
        · exact spanByte_of_blank x (hb2 x hx)) hc
    simpa [List.append_assoc] using h
  rw [scanRaw_span s hl _ hd, hspan, trimSpace_token b1 e b2 hb1 hb2 hraw hne]

/-- The first element of an array of integers, with blanks after it. -/
theorem scanValue_int_blanks (L : Lib) (n : Nat) (s : scanner) (e b : Bytes) (v : Int)
    (c : Nat) (t : Bytes) (hl : s.len = s.data.length) (hb : blanks b)
    (he : atoi e = some v) (hc : rawStop c = true)
    (hd : s.data.drop s.offset = e ++ (b ++ c :: t)) :
    scanValue L (n + 1) s =
      Res.ok ({ s with offset := s.offset + (e ++ b).length }, .ok (.int v)) := by
  obtain ⟨_, c0, cs, hcs, hnum⟩ := atoi_token e v he
  have hd0 : s.data.drop s.offset = c0 :: (cs ++ (b ++ c :: t)) := by
    rw [hd, hcs]; rfl
  have hraw := scanRaw_blanks_token s hl [] e b v c t (by simp [blanks]) hb he hc
    (by simpa using hd)
  rw [scanValue_number L n s c0 _ hd0 hnum, scanner.scanNumber, hraw]
  simp only [Res.bind_ok, he, List.nil_append]

theorem intItems_head (items : List (Bytes × Bytes × Bytes)) (t : Bytes) :
    ∃ c t1, intItems items ++ 93 :: t = c :: t1 ∧ rawStop c = true := by
  cases items with
  | nil => exact ⟨93, t, by simp [intItems], by decide⟩
  | cons a as =>
    obtain ⟨b1, e, b2⟩ := a
    exact ⟨44, b1 ++ (e ++ (b2 ++ (intItems as ++ 93 :: t))), by simp [intItems], by decide⟩

/-- The elements of an array of integers after the first, with blanks around them, up to
the closing bracket. -/
theorem intArrLoop_items : ∀ (items : List (Bytes × Bytes × Bytes)) (vs : List Int),
    List.Forall₂ (fun it v => blanks it.1 ∧ atoi it.2.1 = some v ∧ blanks it.2.2) items vs →
    ∀ (m : Nat) (s : scanner) (arr : List Int) (t : Bytes), s.len = s.data.length →
    s.data.drop s.offset = intItems items ++ 93 :: t →
    ((s.skipRestOfArrayItem (m + items.length + 1)).bind fun q =>
        intArrLoop (m + items.length + 1) q.1 q.2 arr) =
      Res.ok ({ s with offset := s.offset + (intItems items).length + 1 },
        Except.ok (.intArr (arr ++ vs))) := by
  intro items vs h
  induction h with
  | nil =>
    intro m s arr t hl hd
    have hd' : s.data.drop s.offset = 93 :: t := by simpa [intItems] using hd
    rw [skipRestOfArrayItem_close s hl _ hd']
    simp [intArrLoop, intItems]
  | @cons it v items vs hit _ ih =>
    intro m s arr t hl hd
    obtain ⟨b1, e, b2⟩ := it
    obtain ⟨hb1, he, hb2⟩ := hit
    simp only at hb1 he hb2
    have hd' : s.data.drop s.offset =
        44 :: (b1 ++ (e ++ (b2 ++ (intItems items ++ 93 :: t)))) := by
      simpa [intItems] using hd
    have hd1 := drop_succ_of_drop hd'
    obtain ⟨c, t1, hct, hc⟩ := intItems_head items t
    have hq : s.data.drop (s.offset + 1 + (b1 ++ (e ++ b2)).length) =
        intItems items ++ 93 :: t := by
      apply drop_add_of_drop
      rw [hd1]; simp
    rw [hct] at hd1
    rw [show m + ((b1, e, b2) :: items).length + 1 = (m + items.length + 1) + 1 by
      simp; omega, skipRestOfArrayItem_comma s hl _ hd']
    simp only [Res.bind_ok]
    rw [intArrLoop]
    rw [scanRaw_blanks_token { s with offset := s.offset + 1 } hl b1 e b2 v c t1 hb1 hb2 he hc
      hd1]
    simp only [Res.bind_ok, he]
    rw [ih m { s with offset := s.offset + 1 + (b1 ++ (e ++ b2)).length } (arr ++ [v]) t hl hq]
    simp [intItems]
    omega


/-! ## Claim C29 -/

/-- Claim C29, amended. For every array literal of one or more quoted strings that hold no
escape and are made of ASCII bytes and well-formed UTF-8 other than U+FFFD, with optional
blanks before each comma and before the closing bracket and, after each comma, a gap of
spaces, tabs, line breaks and comments that run to the end of their line, `scanArray`,
given enough steps, returns the string array of exactly those strings in order and leaves
the offset just past the closing bracket. For every array literal of one or more integer
literals that `strconv.Atoi` accepts (a sign or not, decimal digits, a value that fits in 64
bits), separated by commas on one line, with optional blanks after the first and around the
others, it returns the integer array of their values in order. -/
theorem scanArray_strings_and_ints (L : Lib)
    (v0 : Bytes) (items : List (Bytes × Bytes × Bytes)) (bend t : Bytes) (s : scanner) (n : Nat)
    (e0 b0 : Bytes) (w0 : Int) (ints : List (Bytes × Bytes × Bytes)) (ws : List Int)
    (t2 : Bytes) (s2 : scanner) (m : Nat)
    (hl : s.len = s.data.length) (hv0 : Quotable v0)
    (hit : ∀ it ∈ items, blanks it.1 ∧ Gap it.2.1 ∧ Quotable it.2.2) (hbend : blanks bend)
    (hd : s.data.drop s.offset =
      91 :: 34 :: (v0 ++ 34 :: (strItems items ++ (bend ++ 93 :: t))))
    (hn : (strItems items).length + bend.length + 3 ≤ n)
    (hl2 : s2.len = s2.data.length) (h0 : atoi e0 = some w0) (hb0 : blanks b0)
    (hes : List.Forall₂
      (fun it v => blanks it.1 ∧ atoi it.2.1 = some v ∧ blanks it.2.2) ints ws)
    (hd2 : s2.data.drop s2.offset = 91 :: (e0 ++ (b0 ++ (intItems ints ++ 93 :: t2)))) :
    (∃ ln, scanArray L n s =
      Res.ok ({ s with offset := s.offset + 1 + (v0.length + 2) + (strItems items).length +
                         bend.length + 1, line := ln },
        .ok (.strArr (v0 :: items.map fun it => it.2.2)))) ∧
    scanArray L (m + ints.length + 2) s2 =
      Res.ok ({ s2 with offset := s2.offset + 1 + (e0 ++ b0).length +
          (intItems ints).length + 1 },
        .ok (.intArr (w0 :: ws))) := by
  constructor
  · obtain ⟨k, rfl⟩ : ∃ k, n = k + 2 := ⟨n - 2, by omega⟩
    have hd1 := drop_succ_of_drop hd
    have hd3 : s.data.drop (s.offset + 1 + v0.length + 2) =
        strItems items ++ (bend ++ 93 :: t) := by
      have h1 := drop_succ_of_drop hd1
      have h2 := drop_add_of_drop _ _ h1
      have h3 := drop_succ_of_drop h2
      rw [show s.offset + 1 + v0.length + 2 = s.offset + 1 + 1 + v0.length + 1 by omega]
      exact h3
    obtain ⟨ln, hloop⟩ := strArrLoop_items items (k + 1)
      { s with offset := s.offset + 1 + v0.length + 2 } [v0] bend t hl hit hbend hd3
      (by omega)
    refine ⟨ln, ?_⟩
    rw [scanArray, scanValue]
    simp only [getElem?_of_drop hd1, if_true,
      scanQuotedString_quotable { s with offset := s.offset + 1 } hl v0 _ hv0 hd1,
      Res.bind_ok, strResult]
    rw [hloop]
    simp
    omega
  · obtain ⟨c, t1, hct, hc⟩ := intItems_head ints t2
    have hd1 := drop_succ_of_drop hd2
    have hq : s2.data.drop (s2.offset + 1 + (e0 ++ b0).length) = intItems ints ++ 93 :: t2 := by
      apply drop_add_of_drop
      rw [hd1]; simp
    rw [hct] at hd1
    rw [show m + ints.length + 2 = (m + ints.length + 1) + 1 by omega, scanArray]
    rw [show m + ints.length + 1 = (m + ints.length) + 1 by omega,
      scanValue_int_blanks L _ { s2 with offset := s2.offset + 1 } e0 b0 w0 c t1 hl2 hb0 h0 hc
        hd1]
    simp only [Res.bind_ok]
    rw [show m + ints.length + 1 = m + ints.length + 1 by rfl,
      intArrLoop_items ints ws hes m { s2 with offset := s2.offset + 1 + (e0 ++ b0).length }
        [w0] t2 hl2 hq]
    simp

/-- The array of the test `TestScanPair`, with a line break, tabs and a comment after the
second comma, and the array `[12 , 23,34]`. -/
theorem scanArray_strings_and_ints_witness :
    (∃ ln, scanArray plainLib 18 (newScanner (str "[\"a\",\"b\",\n\t# c\n\t\"c\"]")) =
      Res.ok ({ newScanner (str "[\"a\",\"b\",\n\t# c\n\t\"c\"]") with offset := 20, line := ln },
        .ok (.strArr [str "a", str "b", str "c"]))) ∧
    scanArray plainLib 4 (newScanner (str "[12 , 23,34]")) =
      Res.ok ({ newScanner (str "[12 , 23,34]") with offset := 12 },
        .ok (.intArr [12, 23, 34])) := by
  have hgap : Gap (str "\n\t# c\n\t") := by
    have h1 : Gap [9] := Gap.blank 9 [] (by decide) Gap.nil
    have h2 : Gap (str "# c" ++ ([10] ++ [9])) :=
      Gap.line (str "# c") [10] [9]
        (Or.inr ⟨by simp [str, isLineEnd], Or.inl ⟨str " c", by simp [str]⟩⟩) (Or.inl rfl) h1
    have h3 : Gap (9 :: (str "# c" ++ ([10] ++ [9]))) := Gap.blank 9 _ (by decide) h2
    have h4 : Gap ([] ++ ([10] ++ (9 :: (str "# c" ++ ([10] ++ [9]))))) :=
      Gap.line [] [10] _ (Or.inl rfl) (Or.inl rfl) h3
    have e : str "\n\t# c\n\t" = [] ++ ([10] ++ (9 :: (str "# c" ++ ([10] ++ [9])))) := by
      simp [str]
    rw [e]
    exact h4
  have hq : ∀ c, c < 128 ∧ c ≠ 34 ∧ c ≠ 92 → Quotable [c] := fun c hc =>
    Quotable_ascii [c] (by simpa using hc)
  have h := scanArray_strings_and_ints plainLib (str "a")
    [([], [], str "b"), ([], str "\n\t# c\n\t", str "c")] [] [] 
    (newScanner (str "[\"a\",\"b\",\n\t# c\n\t\"c\"]")) 18
    (str "12") [32] 12 [([32], str "23", []), ([], str "34", [])] [23, 34] []
    (newScanner (str "[12 , 23,34]")) 0
    (by simp [newScanner])
    (hq 97 (by decide))
    (by
      intro it hit
      simp only [List.mem_cons, List.mem_singleton, List.not_mem_nil, or_false] at hit
      rcases hit with hit | hit
      · subst hit
        exact ⟨by simp [blanks], Gap.nil, hq 98 (by decide)⟩
      · subst hit
        exact ⟨by simp [blanks], hgap, hq 99 (by decide)⟩)
    (by simp [blanks])
    (by simp [newScanner, str, strItems])
    (by simp [str, strItems])
    (by simp [newScanner])
    (by simp [str, atoi, digitsVal, isDigit])
    (by simp [blanks, isSpace])
    (List.Forall₂.cons ⟨by simp [blanks, isSpace], by simp [str, atoi, digitsVal, isDigit],
        by simp [blanks]⟩
      (List.Forall₂.cons ⟨by simp [blanks], by simp [str, atoi, digitsVal, isDigit],
        by simp [blanks]⟩ List.Forall₂.nil))
    (by simp [newScanner, str, intItems])
  obtain ⟨⟨ln, h1⟩, h2⟩ := h
  refine ⟨⟨ln, ?_⟩, ?_⟩
  · simpa [newScanner, str, strItems] using h1
  · simpa [newScanner, str, intItems] using h2

/-- Claim C29, counterexample: the array of the one quoted string that holds the three
bytes of U+FFFD, a well-formed string without escapes, is rejected with the error
`invalid utf-8 string value`; and the array of the decimal integers 1 and
99999999999999999999, which does not fit in 64 bits, comes out as null. -/
theorem scanArray_strings_and_ints_counterexample :
    scanArray plainLib 2 (newScanner [91, 34, 239, 191, 189, 34, 93]) =
      Res.ok ({ newScanner [91, 34, 239, 191, 189, 34, 93] with offset := 2 },
        .error (str "invalid utf-8 string value")) ∧
    scanArray plainLib 2 (newScanner (str "[1,99999999999999999999]")) =
      Res.ok ({ newScanner (str "[1,99999999999999999999]") with offset := 24 },
        .ok .null) := by
  constructor <;>
  simp [str, newScanner, scanArray, scanValue, scanner.scanNumber, scanner.scanRaw,
    scanRawLoop, scanner.isComment, isLineEnd, trimSpace, trimLeftN, trimRightN, spaceWidth,
    spaceWidthRev, isTrimSpace, atoi, digitsVal, isDigit, scanner.skipRestOfArrayItem,
    skipRestOfArrayItemLoop, isSpace, intArrLoop, scanner.arrayERR, scanner.skipUntilChar,
    findLoop, scanner.scanQuotedString, scanQuotedLoop, RuneSelf, RuneError, DecodeRune,
    inRange, strResult, invalidUTF8StringValue, slice]


/-! ## The last byte of the buffer -/

/-- The top-level loop on pair lines that are followed by nothing or by one byte: the pairs
are stored in the root, and the byte after them is not looked at. -/
theorem scan_pairLines (L : Lib) : ∀ (lines : List (Bytes × (Bytes × Field))) (N : Nat)
    (s : scanner) (tail : Bytes), s.len = s.data.length →
    (∀ l ∈ lines, pairLine l ∧ l.2.1.head? ≠ some 91) → tail.length ≤ 1 →
    s.data.drop s.offset = pairLines lines ++ tail → linesFuel lines ≤ N →
    ∃ k ln, scan L N s =
      Res.ok { s with offset := s.offset + k, line := ln,
                      root := storeAll s.root (lines.map Prod.snd) } := by
  intro lines
  induction lines with
  | nil =>
    intro N s tail hl _ htail hd hN
    obtain ⟨m, rfl⟩ : ∃ m, N = m + 1 := ⟨N - 1, by simp [linesFuel] at hN; omega⟩
    have hlen : ¬ s.offset + 1 < s.len := by
      have h1 := congrArg List.length hd
      simp [pairLines] at h1
      omega
    refine ⟨0, s.line, ?_⟩
    rw [scan]
    simp [hlen, storeAll]
  | cons l rest ih =>
    intro N s tail hl hlines htail hd hN
    obtain ⟨hline, h91⟩ := hlines l (List.mem_cons_self _ _)
    rw [linesFuel_cons] at hN
    have hf2 : 2 ≤ linesFuel rest := by simp [linesFuel]
    obtain ⟨m, rfl⟩ : ∃ m, N = m + 1 := ⟨N - 1, by omega⟩
    obtain ⟨ind, key, f⟩ := l
    obtain ⟨hind, hk, hf⟩ := hline
    simp only at hind hk hf h91 hN
    obtain ⟨hkb, c, cs, hcs, h35, h47, h45⟩ := hk
    have hc91 : c ≠ 91 := by
      intro h
      apply h91
      rw [hcs, h]
      rfl
    have hc := hkb c (by rw [hcs]; simp)
    simp only [nameByte, Bool.not_eq_true', Bool.or_eq_false_iff] at hc
    have hd' : s.data.drop s.offset =
        ind ++ (key ++ 58 :: 32 :: (f.text ++ 10 :: (pairLines rest ++ tail))) := by
      rw [hd]; simp [pairLines]
    have hd0 : s.data.drop s.offset =
        ind ++ c :: (cs ++ 58 :: 32 :: (f.text ++ 10 :: (pairLines rest ++ tail))) := by
      rw [hd', hcs]; simp
    have hlt : s.offset + 1 < s.len := by
      have h1 := congrArg List.length hd0
      simp at h1
      omega
    obtain ⟨ln, hskip⟩ := skip_gap ind (Gap_blanks ind hind) s c _ hl hd0 (by simp) h35 h47
      hc.2 hc.1.1.1
    have hd1 : s.data.drop (s.offset + ind.length) =
        key ++ 58 :: 32 :: (f.text ++ 10 :: (pairLines rest ++ tail)) :=
      drop_add_of_drop _ _ hd'
    have hd1' : s.data.drop (s.offset + ind.length) =
        c :: (cs ++ 58 :: 32 :: (f.text ++ 10 :: (pairLines rest ++ tail))) := by
      rw [hd1, hcs]; rfl
    have hd2 : s.data.drop (s.offset + ind.length + key.length + 2 + f.text.length) =
        10 :: (pairLines rest ++ tail) := by
      have h1 := drop_add_of_drop _ _ hd1
      have h2 := drop_succ_of_drop (drop_succ_of_drop h1)
      have h3 := drop_add_of_drop _ _ h2
      rw [show s.offset + ind.length + key.length + 2 + f.text.length =
        s.offset + ind.length + key.length + 1 + 1 + f.text.length by omega]
      exact h3
    have hpair := scanPair_line L key f ⟨hkb, c, cs, hcs, h35, h47, h45⟩ hf m
      { s with offset := s.offset + ind.length, line := ln } (pairLines rest ++ tail) s.root
      hl hd1 (by omega)
    have hstore : storeAll s.root (((ind, key, f) :: rest).map Prod.snd) =
        storeAll (s.root.set key f.value) (rest.map Prod.snd) := rfl
    rw [scan]
    simp only [hlt, if_true, hskip, Res.bind_ok, scanner.byteAt, getElem?_of_drop hd1', hc91,
      if_false,
      isComment_eq_false { s with offset := s.offset + ind.length, line := ln } hd1' h35 h47,
      Bool.false_eq_true, hpair, Option.getD_some]
    have hrl := skipRestOfLine_lf
      { s with offset := s.offset + ind.length + key.length + 2 + f.text.length
               line := ln
               root := s.root.set key f.value } hl hd2
    rw [hrl]
    simp only [Res.bind_ok]
    rw [hstore]
    by_cases ht : pairLines rest ++ tail = []
    · have hrest : rest = [] := by
        cases rest with
        | nil => rfl
        | cons l2 r2 =>
          obtain ⟨i2, k2, f2⟩ := l2
          simp [pairLines] at ht
      subst hrest
      obtain ⟨m2, rfl⟩ : ∃ m2, m = m2 + 1 := ⟨m - 1, by omega⟩
      have hlast : ¬ (s.offset + ind.length + key.length + 2 + f.text.length + 1 < s.len) := by
        have := length_of_drop_nil (drop_succ_of_drop hd2 |>.trans ht)
        rw [hl]; omega
      refine ⟨ind.length + key.length + 2 + f.text.length, ln, ?_⟩
      simp only [ht, if_true]
      rw [scan]
      simp only [hlast, if_false]
      simp [storeAll, Nat.add_assoc]
    · simp only [ht, if_false]
      obtain ⟨k, ln2, hk⟩ := ih m
        { s with offset := s.offset + ind.length + key.length + 2 + f.text.length + 1,
                 line := ln + 1, root := s.root.set key f.value } tail hl
        (fun x hx => hlines x (List.mem_cons_of_mem _ hx)) htail (drop_succ_of_drop hd2)
        (by omega)
      refine ⟨ind.length + key.length + 2 + f.text.length + 1 + k, ln2, ?_⟩
      rw [hk]
      simp [Nat.add_assoc]

/-- Claim C36, amended. A round of the top-level loop starts only while the offset is
before the last byte of the buffer: when the offset is on or past the last byte, `scan`
returns at once and leaves the scanner as it is, so `Parse` of a buffer of one byte returns
an empty tree and no error, whatever the byte is. For every buffer made of pair lines, each
ended by a line feed (a key that does not start with `[`, `#`, `/` or `-`, a colon, a space
and a value that is a string without escapes, an integer or a non-empty array of them;
the line may be indented), and every byte `c`, `Parse` of the buffer followed by `c` returns,
given enough steps, the same tree and the same error as `Parse` of the buffer: the tree of
the pairs and no error. -/
theorem scan_stops_on_last_byte (L : Lib) (n : Nat) (s : scanner)
    (lines : List (Bytes × (Bytes × Field))) (N : Nat) (c : Nat)
    (h : s.len ≤ s.offset + 1)
    (hlines : ∀ l ∈ lines, pairLine l ∧ l.2.1.head? ≠ some 91)
    (hN : linesFuel lines ≤ N) :
    scan L (n + 1) s = Res.ok s ∧
    (∀ c, Parse L (n + 1) [c] = some (some [], none)) ∧
    Parse L N (pairLines lines ++ [c]) = Parse L N (pairLines lines) ∧
    Parse L N (pairLines lines) =
      some (some (storeAll NewNode (lines.map Prod.snd)), none) := by
  have hp : ∀ tail : Bytes, tail.length ≤ 1 →
      Parse L N (pairLines lines ++ tail) =
        some (some (storeAll NewNode (lines.map Prod.snd)), none) := by
    intro tail htail
    obtain ⟨k, ln, hk⟩ := scan_pairLines L lines N (newScanner (pairLines lines ++ tail)) tail
      (by simp [newScanner]) hlines htail (by simp [newScanner]) hN
    simp only [Parse, hk]
    simp [newScanner]
  refine ⟨?_, ?_, ?_, ?_⟩
  · rw [scan]
    have : ¬ s.offset + 1 < s.len := by omega
    simp [this]
  · intro c
    simp [Parse, scan, newScanner, NewNode]
  · have h1 := hp [c] (by simp)
    have h0 := hp [] (by simp)
    simp only [List.append_nil] at h0
    rw [h1, h0]
  · have h0 := hp [] (by simp)
    simpa using h0

theorem scan_stops_on_last_byte_witness :
    scan plainLib (0 + 1) { newScanner (str "a: 1\n") with offset := 4 } =
      Res.ok { newScanner (str "a: 1\n") with offset := 4 } ∧
    (∀ c, Parse plainLib (0 + 1) [c] = some (some [], none)) ∧
    Parse plainLib 4 (str "a: 1\nx") = Parse plainLib 4 (str "a: 1\n") ∧
    Parse plainLib 4 (str "a: 1\n") = some (some [(str "a", .int 1)], none) := by
  have h := scan_stops_on_last_byte plainLib 0 { newScanner (str "a: 1\n") with offset := 4 }
    [([], (str "a", Field.int 1))] 4 120
    (by simp [newScanner, str])
    (by
      intro l hl
      simp only [List.mem_singleton] at hl
      subst hl
      exact ⟨⟨by simp [blanks], ⟨by simp [str, nameByte, isSpace, isLineEnd], 97, [],
        by simp [str], by decide, by decide, by decide⟩, by simp [Field.ok, isInt64]⟩,
        by simp [str]⟩)
    (by simp [linesFuel, Field.cost])
  simpa [pairLines, Field.text, AppendInt, natDigits, str, storeAll, Field.value, Node.set,
    NewNode] using h

/-- Claim C36, counterexample: the buffer of one line feed ends with a line terminator and
`Parse` returns an empty tree and no error on it; followed by the byte `x`, the skip of the
first round stops on the last byte, `scanPair` is run on it, and `Parse` returns the error
`invalid name`. Likewise an unterminated string that ends with a line feed is an error, and
followed by a quote it is a value. -/
theorem Parse_last_byte_counterexample :
    Parse plainLib 2 (str "\n") = some (some [], none) ∧
    Parse plainLib 2 (str "\nx") = some (some [], some (str "invalid name")) ∧
    Parse plainLib 3 (str "a: \"x\n") =
      some (some [], some (str "invalid string value, name: a")) ∧
    Parse plainLib 3 (str "a: \"x\n\"") = some (some [(str "a", .str (str "x\n"))], none) := by
  refine ⟨?_, ?_, ?_, ?_⟩ <;>
  simp [str, Parse, scan, newScanner, scanner.skip, skipLoop, scanner.isComment,
    scanner.byteAt, scanPair, scanner.scanName, scanNameLoop, isSpace, isLineEnd, slice,
    scanner.skipSpace, skipSpaceLoop, scanValue, Node.set,
    scanner.skipRestOfLine, scanner.skipUntil, skipUntilLoop, scanner.skipLineEnd, NewNode,
    scanner.scanQuotedString, scanQuotedLoop, RuneSelf, strResult,
    scanner.addErrorMsg, addMsg, invalidStringValue, invalidName]

end RJ

